import Mathlib

/-!
# Quiz game: phase machine and effect resolution of `quiz-game.ts`

A shallow embedding of `GameState` and `Session` from `src/quiz-game.ts`, of the idle
reaper of `QuizGame.setupSession`, of the phase machine of the older `src/app.js`
(namespace `App`) and of the client class `SyncSocket` from
`src/static/common/sync-socket.js`.

Modelling conventions.

* A JavaScript object used as a string-keyed map (`this.players`, `appliedTo`) is a
  `Record`: the list of its own properties in enumeration order (array-index keys in
  ascending numeric order first, then the other keys in creation order).  An object has
  no two properties of the same name, so theorems about a map of players assume
  `players.keys.Nodup` where they need it.  Outside namespace `Proto` the lookups
  `k in obj`, `obj[k]` and `delete obj[k]` are read on the own properties.  Namespace
  `Proto` adds the prototype chain: `applyEffects` with the names that the object
  `appliedTo` inherits from `Object.prototype`, and `updatePlayer`, `advanceStage` and
  `handle` with the prototype link of `this.players`, which an update under the name
  `__proto__` replaces.
* JavaScript numbers that hold integers are `Int` (scores, confidences, deltas) or `Nat`
  (the round counter); floating point range is not modelled.
* `Math.random()` is an oracle: an infinite stream of samples `Rng`.  The expression
  `Math.floor(Math.random() * n)` is the sample reduced modulo `n` (any index below `n`
  can come out), `Math.random() <= 0.5` is the parity of the sample.
* A `TypeError` (property access on `undefined`) is `Except.error s`, where `s` is the
  state as mutated up to the throw; `Except.ok s` is normal completion.
* The two `while` loops of `applyEffects` shorten their open list by one entry per
  iteration; they are structural recursions on a fuel that is set to the length of the
  open list (`stealLoop_fuel`, `swapLoop_fuel`: more fuel changes nothing).
-/

namespace QuizGame

/-! ## String-keyed objects -/

/-- Own properties of a JavaScript object, in enumeration order. -/
abbrev Record (α : Type) := List (String × α)

/-- Value of a canonical array-index key (`"0"`, `"17"`, ... below `2^32 - 1`). -/
def arrayIndex? (k : String) : Option Nat :=
  let cs := k.data
  if cs ≠ [] ∧ cs.all Char.isDigit ∧ (cs.head? ≠ some '0' ∨ cs.length = 1) then
    let n := cs.foldl (fun acc c => 10 * acc + (c.toNat - 48)) 0
    if n < 2 ^ 32 - 1 then some n else none
  else none

namespace Record

variable {α : Type}

/-- Property read `obj[k]` (`none` is `undefined`). -/
def get? : Record α → String → Option α
  | [], _ => none
  | (k', v) :: rest, k => if k' = k then some v else get? rest k

/-- The test `k in obj`. -/
def has (m : Record α) (k : String) : Bool := (m.get? k).isSome

/-- The list `Object.keys(obj)`. -/
def keys (m : Record α) : List String := m.map Prod.fst

/-- The statement `delete obj[k]`. -/
def erase : Record α → String → Record α
  | [], _ => []
  | (k', v) :: rest, k => if k' = k then erase rest k else (k', v) :: erase rest k

/-- Overwrite the value of a key that is present, keeping its position. -/
def replace : Record α → String → α → Record α
  | [], _, _ => []
  | (k', v') :: rest, k, v => if k' = k then (k', v) :: rest else (k', v') :: replace rest k v

/-- Create a property that is not present yet, at its place in the enumeration order. -/
def insertNew : Record α → String → α → Record α
  | [], k, v => [(k, v)]
  | (k', v') :: rest, k, v =>
    match arrayIndex? k, arrayIndex? k' with
    | some n, some n' =>
      if n < n' then (k, v) :: (k', v') :: rest else (k', v') :: insertNew rest k v
    | some _, none => (k, v) :: (k', v') :: rest
    | none, _ => (k', v') :: insertNew rest k v

/-- The assignment `obj[k] = v`. -/
def set (m : Record α) (k : String) (v : α) : Record α :=
  if m.has k then m.replace k v else m.insertNew k v

end Record

/-! ## Data model -/

/-- Interface `Question`. -/
structure Question where
  text : String
  options : List String
  correct : Int
  category : String
deriving DecidableEq

/-- Interface `GameEffects<T>`: every effect kind is optional. -/
structure GameEffects (T : Type) where
  expose : Option T := none
  double : Option T := none
  protect : Option T := none
  fail : Option T := none
  swap : Option T := none
  zero : Option T := none
  min : Option T := none
  max : Option T := none
  steal : Option T := none
deriving DecidableEq

/-- The property names of `GameEffects`. -/
inductive EffectKind where
  | expose | double | protect | fail | swap | zero | min | max | steal
deriving DecidableEq

namespace GameEffects

variable {T : Type}

/-- Dynamic property read `effects[kind]`. -/
def get (e : GameEffects T) : EffectKind → Option T
  | .expose => e.expose
  | .double => e.double
  | .protect => e.protect
  | .fail => e.fail
  | .swap => e.swap
  | .zero => e.zero
  | .min => e.min
  | .max => e.max
  | .steal => e.steal

/-- Dynamic property write `effects[kind] = v`. -/
def put (e : GameEffects T) (kind : EffectKind) (v : Option T) : GameEffects T :=
  match kind with
  | .expose => { e with expose := v }
  | .double => { e with double := v }
  | .protect => { e with protect := v }
  | .fail => { e with fail := v }
  | .swap => { e with swap := v }
  | .zero => { e with zero := v }
  | .min => { e with min := v }
  | .max => { e with max := v }
  | .steal => { e with steal := v }

end GameEffects

/-- Interface `PlayerState`. -/
structure PlayerState where
  ready : Bool
  confidence : Int
  payout : Int
  choice : Int
  correct : Bool
  delta : Int
  score : Int
  effects : GameEffects String
  applied : GameEffects String
deriving DecidableEq

/-- Enum `GamePhase`. -/
inductive GamePhase where
  | start | category | answer | resolved | done
deriving DecidableEq

/-- The fields of class `GameState`. -/
structure GameState where
  players : Record PlayerState
  phase : GamePhase
  question : Option Question
  round : Nat
  remaining : List Question
  total : Nat
deriving DecidableEq

/-- The local `appliedTo` of `applyEffects`: victim name to attackers per effect. -/
abbrev AppliedTo := Record (GameEffects (List String))

/-! ## Randomness -/

/-- Stream of the samples returned by successive calls of `Math.random()`. -/
abbrev Rng := Nat → Nat

/-- The stream after one call of `Math.random()`. -/
def Rng.next (rng : Rng) : Rng := fun i => rng (i + 1)

/-- `Math.floor(Math.random() * n)` on the current sample. -/
def Rng.index (rng : Rng) (n : Nat) : Nat := rng 0 % n

/-- `Math.random() <= 0.5` on the current sample. -/
def Rng.coin (rng : Rng) : Bool := rng 0 % 2 == 0

/-! ## `GameState` -/

/-- Constructor of `GameState`. -/
def GameState.new (questions : List Question) : GameState :=
  { phase := .start, question := none, players := [], round := 0,
    remaining := questions, total := questions.length }

/-- Method `resetPlayerReady`. -/
def resetPlayerReady (players : Record PlayerState) : Record PlayerState :=
  players.map (fun e => (e.1, { e.2 with ready := false }))

/-- Method `resetPlayersForPhase`. -/
def resetPlayersForPhase (players : Record PlayerState) : Record PlayerState :=
  players.map (fun e => (e.1, { e.2 with
    ready := false, confidence := 1, choice := -1, correct := false,
    effects := {}, applied := {} }))

/-- The targeted effect kinds, in the order of the inner loop of `applyEffects`. -/
def targetedKinds : List EffectKind := [.fail, .swap, .zero, .min, .max, .steal]

/-- Body of the inner collection loop of `applyEffects` for one effect kind of `name`.
The test `victim in appliedTo` is `appliedTo.has victim`: on a map that lists own
properties only it is the own-property reading, on a map started from `Proto.empty` it
also finds the inherited names. -/
def collectEffect (name : String) (player : PlayerState) (appliedTo : AppliedTo)
    (effect : EffectKind) : AppliedTo :=
  match player.effects.get effect with
  | none => appliedTo
  | some victim =>
    let appliedTo1 := if appliedTo.has victim then appliedTo else appliedTo.set victim {}
    match appliedTo1.get? victim with
    | none => appliedTo1
    | some applied =>
      let applied1 := if (applied.get effect).isSome then applied else applied.put effect (some [])
      appliedTo1.set victim
        (applied1.put effect (some ((applied1.get effect).getD [] ++ [name])))

/-- First loop of `applyEffects`: who applied each effect to whom (own-property reading:
the map starts without any property; `Proto.collectApplied` starts it with the
inherited ones). -/
def collectApplied (players : Record PlayerState) : AppliedTo :=
  players.foldl (fun appliedTo e => targetedKinds.foldl (collectEffect e.1 e.2) appliedTo) []

/-- The min/max decision of the second loop: drop the kind with fewer attackers, on a
tie draw a sample. -/
def chooseMinMax (applied : GameEffects (List String)) (rng : Rng) :
    GameEffects (List String) × Rng :=
  match applied.min, applied.max with
  | some mn, some mx =>
    if mn.length > mx.length then ({ applied with max := none }, rng)
    else if mn.length = mx.length then
      (if rng.coin then { applied with max := none } else { applied with min := none }, rng.next)
    else ({ applied with min := none }, rng)
  | _, _ => (applied, rng)

/-- Top of the body of the second loop of `applyEffects`: the reset of the player and
the expose mark. -/
def resetForResolution (player : PlayerState) : PlayerState :=
  let player := { player with applied := {}, payout := player.confidence, delta := 0,
                              ready := false }
  if player.effects.expose.isSome then
    { player with applied := { player.applied with expose := some "True" } }
  else player

/-- Rest of the body of the second loop of `applyEffects`, for a player whose inbox
`applied = appliedTo[name]` exists: fail, clearing of swaps, zero, min/max.  Returns the
player, the inbox as mutated, and the random stream. -/
def resolveInbox (player : PlayerState) (applied : GameEffects (List String)) (rng : Rng) :
    PlayerState × GameEffects (List String) × Rng :=
  let player := match applied.fail with
    | some fails => { player with
        applied := { player.applied with fail := some (", ".intercalate fails) },
        correct := false }
    | none => player
  let applied := if !player.correct then { applied with swap := none } else applied
  match applied.zero with
  | some zeros =>
    ({ player with applied := { player.applied with zero := some (", ".intercalate zeros) },
                   payout := 0 },
      applied, rng)
  | none =>
    if applied.min.isNone && applied.max.isNone then
      (player, applied, rng)
    else
      let chosen := chooseMinMax applied rng
      let applied := chosen.1
      let player := match applied.min with
        | some mins => { player with
            applied := { player.applied with min := some (", ".intercalate mins) } }
        | none => player
      let player := match applied.max with
        | some maxs => { player with
            applied := { player.applied with max := some (", ".intercalate maxs) } }
        | none => player
      ({ player with payout := if player.applied.max.isSome then 3 else -1 },
        applied, chosen.2)

/-- Body of the second loop of `applyEffects` for the player `name` (own-property
reading: `delete appliedTo[name]` removes the entry of `name`; `Proto.resolvePlayer`
keeps an inherited one). -/
def resolvePlayer (name : String) (player : PlayerState) (appliedTo : AppliedTo) (rng : Rng) :
    PlayerState × AppliedTo × Rng :=
  let player := resetForResolution player
  if player.effects.protect.isSome then
    ({ player with applied := { player.applied with protect := some "True" } },
      appliedTo.erase name, rng)
  else
    match appliedTo.get? name with
    | none => (player, appliedTo, rng)
    | some applied =>
      let r := resolveInbox player applied rng
      (r.1, appliedTo.set name r.2.1, r.2.2)

/-- Second loop of `applyEffects`, over the players in enumeration order. -/
def resolvePlayers : Record PlayerState → AppliedTo → Rng →
    Record PlayerState × AppliedTo × Rng
  | [], appliedTo, rng => ([], appliedTo, rng)
  | (name, player) :: rest, appliedTo, rng =>
    let r := resolvePlayer name player appliedTo rng
    let rs := resolvePlayers rest r.2.1 r.2.2
    ((name, r.1) :: rs.1, rs.2.1, rs.2.2)

/-- Body of the third loop of `applyEffects`: the delta of one player. -/
def computeDelta (player : PlayerState) : PlayerState :=
  if player.effects.double.isSome then
    { player with applied := { player.applied with double := some "True" },
                  delta := if player.correct then player.score else -player.score }
  else
    { player with delta := if player.correct then player.payout else -player.payout }

/-- Third loop of `applyEffects`. -/
def computeDeltas (players : Record PlayerState) : Record PlayerState :=
  players.map (fun e => (e.1, computeDelta e.2))

/-- The loop `score = Math.max(0, score + delta)` over all players. -/
def commitScores (players : Record PlayerState) : Record PlayerState :=
  players.map (fun e => (e.1, { e.2 with score := max 0 (e.2.score + e.2.delta) }))

/-- Read of `this.players[name]` that is followed by a property access: a `TypeError`
when the name is not in the map. -/
def getPlayer (players : Record PlayerState) (name : String) :
    Except (Record PlayerState) PlayerState :=
  match players.get? name with
  | some p => .ok p
  | none => .error players

/-- In-place update `this.players[name].field = ...`. -/
def modifyPlayer (players : Record PlayerState) (name : String)
    (f : PlayerState → PlayerState) : Except (Record PlayerState) (Record PlayerState) :=
  match players.get? name with
  | some p => .ok (players.set name (f p))
  | none => .error players

/-- The statement `if (other in appliedTo) delete appliedTo[other].steal`. -/
def clearSteal (appliedTo : AppliedTo) (other : String) : AppliedTo :=
  match appliedTo.get? other with
  | some inbox => appliedTo.set other { inbox with steal := none }
  | none => appliedTo

/-- The statement `if (other in appliedTo) delete appliedTo[other].swap`. -/
def clearSwap (appliedTo : AppliedTo) (other : String) : AppliedTo :=
  match appliedTo.get? other with
  | some inbox => appliedTo.set other { inbox with swap := none }
  | none => appliedTo

/-- The mutable locals of a resolution loop of `applyEffects`: the random stream, the
open list (`stealFrom` or `swapWith`), `appliedTo` and `this.players`. -/
structure LoopState where
  rng : Rng
  pending : List String
  appliedTo : AppliedTo
  players : Record PlayerState

/-- The test `(other in appliedTo) && appliedTo[other].steal != null &&
appliedTo[other].steal.includes(name)`. -/
def mutualSteal (appliedTo : AppliedTo) (other name : String) : Bool :=
  match appliedTo.get? other with
  | some inbox =>
    match inbox.steal with
    | some attackers => attackers.contains name
    | none => false
  | none => false

/-- The test `(other in appliedTo) && appliedTo[other].swap != null &&
appliedTo[other].swap.includes(name)`. -/
def mutualSwap (appliedTo : AppliedTo) (other name : String) : Bool :=
  match appliedTo.get? other with
  | some inbox =>
    match inbox.swap with
    | some attackers => attackers.contains name
    | none => false
  | none => false

/-- The else branch of the steal loop:
`players[thief].delta += players[name].delta; players[name].delta = 0`. -/
def stealPoints (players : Record PlayerState) (name thief : String) :
    Except (Record PlayerState) (Record PlayerState) :=
  match getPlayer players thief with
  | .error e => .error e
  | .ok pt =>
    match getPlayer players name with
    | .error e => .error e
    | .ok pn =>
      modifyPlayer (players.set thief { pt with delta := pt.delta + pn.delta }) name
        (fun p => { p with delta := 0 })

/-- The else branch of the swap loop: exchange the two scores and adjust both deltas. -/
def swapPoints (players : Record PlayerState) (name other : String) :
    Except (Record PlayerState) (Record PlayerState) :=
  match getPlayer players name with
  | .error e => .error e
  | .ok pn =>
    match getPlayer players other with
    | .error e => .error e
    | .ok po =>
      let namePoints := pn.score
      let otherPoints := po.score
      match modifyPlayer players name (fun p => { p with score := otherPoints }) with
      | .error e => .error e
      | .ok players1 =>
        match modifyPlayer players1 name
            (fun p => { p with delta := p.delta + (otherPoints - namePoints) }) with
        | .error e => .error e
        | .ok players2 =>
          match modifyPlayer players2 other (fun p => { p with score := namePoints }) with
          | .error e => .error e
          | .ok players3 =>
            modifyPlayer players3 other
              (fun p => { p with delta := p.delta + (namePoints - otherPoints) })

/-- One iteration of the steal loop of `applyEffects` (the open list is not empty). -/
def stealStep (st : LoopState) : Except (Record PlayerState) LoopState :=
  let index := st.rng.index st.pending.length
  let rng := st.rng.next
  match st.pending[index]? with
  | none => .error st.players
  | some name =>
    let stealFrom := st.pending.eraseIdx index
    match st.appliedTo.get? name with
    | none => .error st.players
    | some inbox =>
      match inbox.steal with
      | none => .ok { rng := rng, pending := stealFrom, appliedTo := st.appliedTo,
                      players := st.players }
      | some thieves =>
        let appliedTo := st.appliedTo.set name { inbox with steal := none }
        match thieves[rng.index thieves.length]? with
        | none => .error st.players
        | some thief =>
          let rng := rng.next
          match modifyPlayer st.players name
              (fun p => { p with applied := { p.applied with steal := some thief } }) with
          | .error e => .error e
          | .ok players =>
            match (if mutualSteal appliedTo thief name then
                modifyPlayer players thief
                  (fun p => { p with applied := { p.applied with steal := some name } })
              else stealPoints players name thief) with
            | .error e => .error e
            | .ok players =>
              .ok { rng := rng, pending := stealFrom, appliedTo := clearSteal appliedTo thief,
                    players := players }

/-- One iteration of the swap loop of `applyEffects` (the open list is not empty). -/
def swapStep (st : LoopState) : Except (Record PlayerState) LoopState :=
  let index := st.rng.index st.pending.length
  let rng := st.rng.next
  match st.pending[index]? with
  | none => .error st.players
  | some name =>
    let swapWith := st.pending.eraseIdx index
    match st.appliedTo.get? name with
    | none => .error st.players
    | some inbox =>
      match inbox.swap with
      | none => .ok { rng := rng, pending := swapWith, appliedTo := st.appliedTo,
                      players := st.players }
      | some swaps =>
        let appliedTo := st.appliedTo.set name { inbox with swap := none }
        match swaps[rng.index swaps.length]? with
        | none => .error st.players
        | some other =>
          let rng := rng.next
          match modifyPlayer st.players name
              (fun p => { p with applied := { p.applied with swap := some other } }) with
          | .error e => .error e
          | .ok players =>
            match (if mutualSwap appliedTo other name then
                modifyPlayer players other
                  (fun p => { p with applied := { p.applied with swap := some name } })
              else swapPoints players name other) with
            | .error e => .error e
            | .ok players =>
              .ok { rng := rng, pending := swapWith, appliedTo := clearSwap appliedTo other,
                    players := players }

/-- The loop `while (stealFrom.length > 0)`; every iteration shortens the open list by
one, so `fuel = stealFrom.length` iterations exhaust it. -/
def stealLoop : Nat → LoopState → Except (Record PlayerState) LoopState
  | 0, st => .ok st
  | fuel + 1, st =>
    if st.pending.length > 0 then
      match stealStep st with
      | .error e => .error e
      | .ok st1 => stealLoop fuel st1
    else .ok st

/-- The loop `while (swapWith.length > 0)`, as `stealLoop`. -/
def swapLoop : Nat → LoopState → Except (Record PlayerState) LoopState
  | 0, st => .ok st
  | fuel + 1, st =>
    if st.pending.length > 0 then
      match swapStep st with
      | .error e => .error e
      | .ok st1 => swapLoop fuel st1
    else .ok st

/-- State of `applyEffects` when the third loop is done: deltas computed, no steal
resolved yet. -/
def beforeSteal (rng : Rng) (players : Record PlayerState) : LoopState :=
  let r := resolvePlayers players (collectApplied players) rng
  { rng := r.2.2, pending := r.2.1.keys, appliedTo := r.2.1, players := computeDeltas r.1 }

/-- State of `applyEffects` when the steal loop is done (before the score commit). -/
def afterSteal (rng : Rng) (players : Record PlayerState) :
    Except (Record PlayerState) LoopState :=
  let st := beforeSteal rng players
  stealLoop st.pending.length st

/-- Method `applyEffects`, on `this.players`. -/
def applyEffects (rng : Rng) (players : Record PlayerState) :
    Except (Record PlayerState) (Record PlayerState) :=
  match afterSteal rng players with
  | .error e => .error e
  | .ok st =>
    let swapWith := st.appliedTo.keys
    match swapLoop swapWith.length
        { rng := st.rng, pending := swapWith, appliedTo := st.appliedTo,
          players := commitScores st.players } with
    | .error e => .error e
    | .ok st1 => .ok st1.players

/-- Method `advanceStage`. -/
def advanceStage (rng : Rng) (s : GameState) : Except GameState GameState :=
  if s.players.any (fun e => !e.2.ready) then .ok s
  else if s.players.keys.length < 2 then .ok s
  else if s.phase = .start ∨ s.phase = .resolved then
    if s.remaining.length = 0 then
      .ok { s with phase := .done, question := none,
                   players := resetPlayersForPhase s.players }
    else
      let index := rng.index s.remaining.length
      .ok { s with round := if s.phase = .start then 0 else s.round + 1,
                   question := s.remaining[index]?,
                   remaining := s.remaining.eraseIdx index,
                   phase := .category,
                   players := resetPlayersForPhase s.players }
  else if s.phase = .category then
    .ok { s with phase := .answer, players := resetPlayerReady s.players }
  else
    match applyEffects rng s.players with
    | .error players => .error { s with players := players }
    | .ok players => .ok { s with players := players, phase := .resolved }

/-- Method `updatePlayer`; `state = none` is the `null` that removes the player.  The
assignment creates or overwrites an own property, which is what the code does for
every name but `__proto__` (`Proto.updatePlayer`). -/
def updatePlayer (rng : Rng) (s : GameState) (name : String) (state : Option PlayerState) :
    Except GameState GameState :=
  advanceStage rng { s with players :=
    match state with
    | none => s.players.erase name
    | some st => s.players.set name st }

/-! ## Sessions of `updatePlayer` calls -/

/-- The state a call leaves behind, whether it completed or threw: what the next call
on the same object starts from. -/
def stateAfter (r : Except GameState GameState) : GameState :=
  match r with
  | .ok s => s
  | .error s => s

/-- One call `updatePlayer(name, state)` together with the random stream it draws from. -/
structure Update where
  name : String
  state : Option PlayerState
  rng : Rng

/-- The state after a sequence of `updatePlayer` calls on one `GameState`. -/
def runUpdates (s : GameState) : List Update → GameState
  | [] => s
  | u :: us => runUpdates (stateAfter (updatePlayer u.rng s u.name u.state)) us

/-- The question presented by a call that took the state from `s` to `s1`: the question
set on entering phase `category`. -/
def presentedBy (s s1 : GameState) : List Question :=
  if s.phase ≠ .category ∧ s1.phase = .category then s1.question.toList else []

/-- The questions presented so far, in order, by a sequence of `updatePlayer` calls. -/
def presented (s : GameState) : List Update → List Question
  | [] => []
  | u :: us =>
    presentedBy s (stateAfter (updatePlayer u.rng s u.name u.state)) ++
      presented (stateAfter (updatePlayer u.rng s u.name u.state)) us

/-! ## Predicates on the inverse map -/

/-- The inbox `inbox1` is `inbox` with some effect kinds deleted. -/
def GameEffects.Sub {T : Type} (inbox1 inbox : GameEffects T) : Prop :=
  ∀ kind, inbox1.get kind = none ∨ inbox1.get kind = inbox.get kind

/-- The map `a1` is `a` with inboxes deleted and effect kinds deleted from inboxes. -/
def Shrinks (a a1 : AppliedTo) : Prop :=
  ∀ k inbox1, a1.get? k = some inbox1 → ∃ inbox, a.get? k = some inbox ∧ inbox1.Sub inbox

/-- The player `name` has no inbox in `appliedTo` and is in no list of attackers. -/
def NotInvolved (name : String) (appliedTo : AppliedTo) : Prop :=
  appliedTo.get? name = none ∧
    ∀ k inbox, appliedTo.get? k = some inbox → ∀ kind l, inbox.get kind = some l → name ∉ l

/-- The player `attacker` is listed under `kind` in the inbox of `victim`. -/
def Attacks (a : AppliedTo) (victim : String) (kind : EffectKind) (attacker : String) : Prop :=
  ∃ inbox l, a.get? victim = some inbox ∧ inbox.get kind = some l ∧ attacker ∈ l

/-- The inbox after `name` was pushed to its list for `effect` (created when absent). -/
def pushAttacker (inbox : GameEffects (List String)) (effect : EffectKind) (name : String) :
    GameEffects (List String) :=
  inbox.put effect (some ((inbox.get effect).getD [] ++ [name]))

/-! ## Mutual steal -/

/-- The field `delta` of the player `name`. -/
def deltaOf (players : Record PlayerState) (name : String) : Option Int :=
  (players.get? name).map (fun p => p.delta)

/-- The field `applied.steal` of the player `name`. -/
def stolenBy (players : Record PlayerState) (name : String) : Option String :=
  (players.get? name).bind (fun p => p.applied.steal)

/-- No points moved between `A` and `B` in the steal loop, and each is marked as stolen
from by the other: both deltas in `after` are the ones of `before`, `A.applied.steal` is
`B` and `B.applied.steal` is `A`. -/
def MutualStealOutcome (before after : Record PlayerState) (A B : String) : Prop :=
  deltaOf after A = deltaOf before A ∧ deltaOf after B = deltaOf before B ∧
    stolenBy after A = some B ∧ stolenBy after B = some A

instance (before after : Record PlayerState) (A B : String) :
    Decidable (MutualStealOutcome before after A B) := by
  unfold MutualStealOutcome
  infer_instance

/-- The steal entries of `a` that involve `A` or `B` are entries of `B` against `A` or of
`A` against `B`. -/
def OnlyEachOther (a : AppliedTo) (A B : String) : Prop :=
  ∀ k x, Attacks a k .steal x → ((k = A ↔ x = B) ∧ (k = B ↔ x = A))

/-- Loop invariant of the steal loop for a mutually stealing pair: the deltas of both are
still the computed ones, and either both steal entries are open (and `A` is still in the
open list) or both are closed and each is marked as stolen from by the other. -/
def MutualInv (dA dB : Option Int) (A B : String) (st : LoopState) : Prop :=
  OnlyEachOther st.appliedTo A B ∧ deltaOf st.players A = dA ∧ deltaOf st.players B = dB ∧
    ((Attacks st.appliedTo A .steal B ∧ Attacks st.appliedTo B .steal A ∧ A ∈ st.pending) ∨
     ((∀ x, ¬ Attacks st.appliedTo A .steal x) ∧ (∀ x, ¬ Attacks st.appliedTo B .steal x) ∧
        stolenBy st.players A = some B ∧ stolenBy st.players B = some A))

/-! ## Content of the inverse map -/

/-- The names of the players who declared `kind` against `victim`, in enumeration
order. -/
def declarers (players : Record PlayerState) (kind : EffectKind) (victim : String) :
    List String :=
  players.filterMap (fun e => if e.2.effects.get kind = some victim then some e.1 else none)

/-- The list `appliedTo[victim][kind]` (`none` when the inbox or the list is absent). -/
def entryOf (a : AppliedTo) (victim : String) (kind : EffectKind) : Option (List String) :=
  (a.get? victim).bind (fun inbox => inbox.get kind)

/-- The list of an inbox after the names `l` were pushed to it one by one (it is created
by the first push). -/
def appendEntry (o : Option (List String)) (l : List String) : Option (List String) :=
  if l = [] then o else some (o.getD [] ++ l)

/-- The inbox `appliedTo[victim]` after the collection loop, the empty object when no
player targets `victim`. -/
def inboxOf (players : Record PlayerState) (victim : String) : GameEffects (List String) :=
  ((collectApplied players).get? victim).getD {}

/-- The player record with the fields blanked that steal resolution, the score commit
and swap resolution write (`delta`, `score`, `applied.steal`, `applied.swap`). -/
def settled (p : PlayerState) : PlayerState :=
  { p with delta := 0, score := 0, applied := { p.applied with steal := none, swap := none } }

/-! ## Sample inputs -/

/-- A player record as the client submits it. -/
def samplePlayer (ready : Bool) (confidence : Int) (correct : Bool) (score : Int)
    (effects : GameEffects String) : PlayerState :=
  { ready := ready, confidence := confidence, payout := 0, choice := 0, correct := correct,
    delta := 0, score := score, effects := effects, applied := {} }

/-- A question. -/
def sampleQuestion (n : Nat) : Question :=
  { text := toString n, options := ["a", "b", "c", "d"], correct := 0, category := "misc" }

/-- A state in any phase with two ready players and the given pool. -/
def sampleState (phase : GamePhase) (pool : List Question) : GameState :=
  { players := [("A", samplePlayer true 2 true 5 {}), ("B", samplePlayer true 3 false 1 {})],
    phase := phase, question := none, round := 3, remaining := pool, total := 4 }

/-- The stream that always yields the sample 0. -/
def zeroRng : Rng := fun _ => 0

/-- Three players in phase answer: `B` steals from `C`, `A` declares nothing and is
nobody's target. -/
def plainRound : Record PlayerState :=
  [("A", samplePlayer true 2 true 5 {}),
   ("B", samplePlayer true 3 false 1 { steal := some "C" }),
   ("C", samplePlayer true 1 true 4 {})]

/-- The players of `plainRound` after `applyEffects`. -/
def plainRoundResult : Record PlayerState :=
  [("A", { samplePlayer false 2 true 7 {} with payout := 2, delta := 2 }),
   ("B", { samplePlayer false 3 false 0 { steal := some "C" } with payout := 3, delta := -2 }),
   ("C", { samplePlayer false 1 true 4 {} with
             payout := 1, delta := 0, applied := { steal := some "B" } })]

/-- Three players: `A` and `B` steal from each other and `C` steals from `B` as well. -/
def thirdThiefRound : Record PlayerState :=
  [("A", samplePlayer true 2 true 5 { steal := some "B" }),
   ("B", samplePlayer true 3 true 7 { steal := some "A" }),
   ("C", samplePlayer true 1 true 0 { steal := some "B" })]

/-- The stream of samples 0, 1, 0, 0, ...: the steal loop picks the first open victim
(`B`) and then the second of its thieves (`C`). -/
def pickRng : Rng := fun i => [0, 1].getD i 0

/-- The player `P` is neither the victim nor an attacker in any entry of `kind`. -/
def Uninvolved (kind : EffectKind) (P : String) (a : AppliedTo) : Prop :=
  ∀ k x, Attacks a k kind x → k ≠ P ∧ x ≠ P

/-- Loop invariant of the steal loop when the steal of `A` against `B` is the only steal
entry: either the entry is open, `B` is still in the open list and both deltas are the
computed ones `da` and `db`; or no steal entry is left, `A` has delta `da + db`, `B` has
delta 0 and `B` is marked as stolen from by `A`. -/
def LoneStealInv (da db : Int) (A B : String) (st : LoopState) : Prop :=
  (∀ k x, Attacks st.appliedTo k .steal x → k = B ∧ x = A) ∧
    ((Attacks st.appliedTo B .steal A ∧ B ∈ st.pending ∧
        deltaOf st.players A = some da ∧ deltaOf st.players B = some db) ∨
     ((∀ k x, ¬ Attacks st.appliedTo k .steal x) ∧
        deltaOf st.players A = some (da + db) ∧ deltaOf st.players B = some 0 ∧
        stolenBy st.players B = some A))

/-- The score that the commit loop writes for the record `p`: `max(0, score + delta)`. -/
def committed (p : PlayerState) : Int := max 0 (p.score + p.delta)

/-- Loop invariant of the swap loop when the swap of `A` against `B` is the only swap
entry, `rA` and `rB` being the records of `A` and `B` after the score commit: either the
entry is open, `B` is still in the open list and both records are untouched; or no swap
entry is left, the two scores are exchanged, both deltas are adjusted by the change and
`B` is marked as swapped with `A`. -/
def LoneSwapInv (rA rB : PlayerState) (A B : String) (st : LoopState) : Prop :=
  (∀ k x, Attacks st.appliedTo k .swap x → k = B ∧ x = A) ∧
    ((Attacks st.appliedTo B .swap A ∧ B ∈ st.pending ∧
        st.players.get? A = some rA ∧ st.players.get? B = some rB) ∨
     ((∀ k x, ¬ Attacks st.appliedTo k .swap x) ∧
        st.players.get? A = some { rA with
          score := rB.score, delta := rA.delta + (rB.score - rA.score) } ∧
        st.players.get? B = some { rB with
          score := rA.score, delta := rB.delta + (rA.score - rB.score),
          applied := { rB.applied with swap := some A } }))

/-! ## Mutual swap -/

/-- The swap entries of `a` that involve `A` or `B` are entries of `B` against `A` or of
`A` against `B`. -/
def OnlySwapEachOther (a : AppliedTo) (A B : String) : Prop :=
  ∀ k x, Attacks a k .swap x → ((k = A ↔ x = B) ∧ (k = B ↔ x = A))

/-- Loop invariant of the swap loop for a mutually swapping pair, `rA` and `rB` being the
records of `A` and `B` after the score commit: either both swap entries are open, `A` is
still in the open list and both records are untouched; or both are closed and the records
differ from `rA` and `rB` only in that each is marked as swapped with the other. -/
def MutualSwapInv (rA rB : PlayerState) (A B : String) (st : LoopState) : Prop :=
  OnlySwapEachOther st.appliedTo A B ∧
    ((Attacks st.appliedTo A .swap B ∧ Attacks st.appliedTo B .swap A ∧ A ∈ st.pending ∧
        st.players.get? A = some rA ∧ st.players.get? B = some rB) ∨
     ((∀ x, ¬ Attacks st.appliedTo A .swap x) ∧ (∀ x, ¬ Attacks st.appliedTo B .swap x) ∧
        st.players.get? A = some { rA with applied := { rA.applied with swap := some B } } ∧
        st.players.get? B = some { rB with applied := { rB.applied with swap := some A } }))

/-- Two players who declared swap against each other: `A` answered wrongly, `B`
correctly. -/
def wrongAnswerSwapRound : Record PlayerState :=
  [("A", samplePlayer true 2 false 5 { swap := some "B" }),
   ("B", samplePlayer true 3 true 7 { swap := some "A" })]

/-- Three players: `V` and `W` declared swap against each other and `F` declared fail
against `V`; all answered correctly. -/
def failedSwapRound : Record PlayerState :=
  [("V", samplePlayer true 1 true 2 { swap := some "W" }),
   ("W", samplePlayer true 2 true 9 { swap := some "V" }),
   ("F", samplePlayer true 3 true 4 { fail := some "V" })]

/-- Four players: `X` and `Y` declared min and `Z` declared max against `V`. -/
def minMaxRound : Record PlayerState :=
  [("V", samplePlayer true 2 true 5 {}),
   ("X", samplePlayer true 1 true 4 { min := some "V" }),
   ("Y", samplePlayer true 3 false 6 { min := some "V" }),
   ("Z", samplePlayer true 1 true 0 { max := some "V" })]

/-- Three players: `X` declared zero and `Y` declared max against `V`. -/
def zeroRound : Record PlayerState :=
  [("V", samplePlayer true 3 true 5 {}),
   ("X", samplePlayer true 1 true 4 { zero := some "V" }),
   ("Y", samplePlayer true 2 false 6 { max := some "V" })]

/-- Three players: `X` and `Y` declared fail against `V`, who answered correctly. -/
def failRound : Record PlayerState :=
  [("V", samplePlayer true 3 true 5 {}),
   ("X", samplePlayer true 1 true 4 { fail := some "V" }),
   ("Y", samplePlayer true 2 false 6 { fail := some "V" })]

/-- Two players: `P` declared double and answered correctly. -/
def doubleRound : Record PlayerState :=
  [("P", samplePlayer true 3 true 4 { double := some "P" }),
   ("Q", samplePlayer true 2 false 6 {})]

/-- Two players without effects: `B` answered wrongly with confidence 3 and score 1. -/
def clampRound : Record PlayerState :=
  [("A", samplePlayer true 2 true 5 {}), ("B", samplePlayer true 3 false 1 {})]

/-- The players of `minMaxRound` after `applyEffects`. -/
def minMaxRoundResult : Record PlayerState :=
  [("V", { samplePlayer false 2 true 4 {} with
             payout := -1, delta := -1, applied := { min := some "X, Y" } }),
   ("X", { samplePlayer false 1 true 5 { min := some "V" } with payout := 1, delta := 1 }),
   ("Y", { samplePlayer false 3 false 3 { min := some "V" } with payout := 3, delta := -3 }),
   ("Z", { samplePlayer false 1 true 1 { max := some "V" } with payout := 1, delta := 1 })]

/-- The players of `zeroRound` after `applyEffects`. -/
def zeroRoundResult : Record PlayerState :=
  [("V", { samplePlayer false 3 true 5 {} with
             payout := 0, delta := 0, applied := { zero := some "X" } }),
   ("X", { samplePlayer false 1 true 5 { zero := some "V" } with payout := 1, delta := 1 }),
   ("Y", { samplePlayer false 2 false 4 { max := some "V" } with payout := 2, delta := -2 })]

/-- The players of `failRound` after `applyEffects`. -/
def failRoundResult : Record PlayerState :=
  [("V", { samplePlayer false 3 false 2 {} with
             payout := 3, delta := -3, applied := { fail := some "X, Y" } }),
   ("X", { samplePlayer false 1 true 5 { fail := some "V" } with payout := 1, delta := 1 }),
   ("Y", { samplePlayer false 2 false 4 { fail := some "V" } with payout := 2, delta := -2 })]

/-- The players of `doubleRound` after `applyEffects`. -/
def doubleRoundResult : Record PlayerState :=
  [("P", { samplePlayer false 3 true 8 { double := some "P" } with
             payout := 3, delta := 4, applied := { double := some "True" } }),
   ("Q", { samplePlayer false 2 false 4 {} with payout := 2, delta := -2 })]

/-! ## Transfers of the steal loop -/

/-- The victim and the thief of the iteration of the steal loop that `stealStep` runs on
`st`, when that iteration takes the `else` branch that moves the delta of the victim to
the thief; `none` when the picked entry has no steal list or the pair is mutual. -/
def stealTransfer (st : LoopState) : Option (String × String) :=
  let index := st.rng.index st.pending.length
  let rng := st.rng.next
  match st.pending[index]? with
  | none => none
  | some name =>
    match st.appliedTo.get? name with
    | none => none
    | some inbox =>
      match inbox.steal with
      | none => none
      | some thieves =>
        let appliedTo := st.appliedTo.set name { inbox with steal := none }
        match thieves[rng.index thieves.length]? with
        | none => none
        | some thief => if mutualSteal appliedTo thief name then none else some (name, thief)

/-- The pairs (victim, thief) of the transfers that the steal loop makes from `st`, in
the order of the iterations. -/
def stealTransfers : Nat → LoopState → List (String × String)
  | 0, _ => []
  | fuel + 1, st =>
    if st.pending.length > 0 then
      match stealStep st with
      | .error _ => (stealTransfer st).toList
      | .ok st1 => (stealTransfer st).toList ++ stealTransfers fuel st1
    else []

/-- The transfers of the steal loop of one pass of `applyEffects`. -/
def stealLog (rng : Rng) (players : Record PlayerState) : List (String × String) :=
  stealTransfers (beforeSteal rng players).pending.length (beforeSteal rng players)

/-- Three players: `T` declared steal against `V` and `V` declared steal against `W`. -/
def stealChainRound : Record PlayerState :=
  [("T", samplePlayer true 1 true 4 { steal := some "V" }),
   ("V", samplePlayer true 2 true 5 { steal := some "W" }),
   ("W", samplePlayer true 3 true 6 {})]

/-- Two players in phase answer: `A` declared steal against `Z`, who is not (or no
longer) in the map. -/
def absentStealRound : Record PlayerState :=
  [("A", samplePlayer true 2 true 5 { steal := some "Z" }),
   ("B", samplePlayer true 3 false 1 {})]

/-- Two players in phase answer: `A` declared swap against `Z`, who is not in the map. -/
def absentSwapRound : Record PlayerState :=
  [("A", samplePlayer true 2 true 5 { swap := some "Z" }),
   ("B", samplePlayer true 3 false 1 {})]

/-! ## `Session` -/

/-- A value read from a property of a parsed message, as far as `typeof` and a comparison
with a string literal can tell values apart. -/
inductive JsValue where
  | undefined
  | null
  | bool (b : Bool)
  | number (n : Int)
  | string (s : String)
  | object
deriving DecidableEq

/-- Test `typeof v == 'string'`. -/
def JsValue.isString : JsValue → Bool
  | .string _ => true
  | _ => false

/-- A parsed inbound payload other than `null`, seen through the three properties that
`handle` reads: `cmd`, `name` and `value` (`none` when the property is `null` or absent,
else the player record).  A payload that is a number, a string, a boolean or an array has
none of the three: its `cmd` and `name` read as `undefined`. -/
structure Message where
  cmd : JsValue
  name : JsValue
  value : Option PlayerState
deriving DecidableEq

/-- The object that `makeState` builds (its constant `cmd: 'state'` left out). -/
structure Snapshot where
  phase : GamePhase
  question : Option Question
  totalQuestions : Nat
  players : Record PlayerState
  round : Nat
deriving DecidableEq

/-- Method `makeState`. -/
def makeState (s : GameState) : Snapshot :=
  { phase := s.phase, question := s.question, totalQuestions := s.total,
    players := s.players, round := s.round }

/-- What `handle` returns when it is not `null`. -/
inductive Reply where
  | malformed
  | state (snapshot : Snapshot)
deriving DecidableEq

/-- The fields of class `Session`: `timeout` tells whether the interval timer is set, the
connections in `ws` are numbered and kept in the order of their insertion. -/
structure Session where
  timeout : Bool
  dead : Nat
  ws : List Nat
  state : GameState
deriving DecidableEq

/-- Constructor of `Session`. -/
def Session.new (questions : List Question) : Session :=
  { state := GameState.new questions, ws := [], dead := 0, timeout := false }

/-- Method `sync`: the session with the idle counter reset, and the messages sent, one
`(connection, snapshot)` per call of `ws.send`, in order. -/
def Session.sync (s : Session) : Session × List (Nat × Snapshot) :=
  ({ s with dead := 0 }, s.ws.map (fun ws => (ws, makeState s.state)))

/-- Method `handle`: the session afterwards, the returned value (`none` for `null`) and
the messages sent to the attached connections; `Except.error` when the method throws.
The argument is `none` for the parsed payload `null`: the read `msg.cmd` of the first
line throws a `TypeError` then.  The other throw is the one of `updatePlayer`.  The
caller catches both and closes the connection. -/
def Session.handle (rng : Rng) (s : Session) (msg : Option Message) :
    Except Session (Session × Option Reply × List (Nat × Snapshot)) :=
  match msg with
  | none => .error s
  | some msg =>
    match msg.cmd with
    | .string cmd =>
      if cmd = "" then .ok (s, some .malformed, [])
      else if cmd = "state" then .ok (s, some (.state (makeState s.state)), [])
      else if cmd = "update" then
        match msg.name with
        | .string name =>
          match updatePlayer rng s.state name msg.value with
          | .error state => .error { s with state := state }
          | .ok state =>
            let synced := Session.sync { s with state := state }
            .ok (synced.1, none, synced.2)
        | _ => .ok (s, some .malformed, [])
      else .ok (s, some .malformed, [])
    | _ => .ok (s, some .malformed, [])

/-- The inbound messages that the claim about `handle` calls malformed: `cmd` is not a
non-empty string, or a string other than `state` and `update`, or `update` comes with a
`name` that is not a string. -/
def Message.Malformed (msg : Message) : Prop :=
  (∀ cmd, msg.cmd = .string cmd → cmd = "") ∨
    (∃ cmd, msg.cmd = .string cmd ∧ cmd ≠ "state" ∧ cmd ≠ "update") ∨
    (msg.cmd = .string "update" ∧ msg.name.isString = false)

/-- The constant `sessionTimeoutMinutes`. -/
def sessionTimeoutMinutes : Nat := 20

/-- The map `sessions` of class `QuizGame`, keyed by session id. -/
abbrev Registry := Record Session

/-- What one run of the interval callback of `setupSession` does besides updating the
registry: the connections it closes, and whether it clears the interval timer. -/
structure Reaped where
  closed : List Nat
  cleared : Bool
deriving DecidableEq

/-- Method `setupSession`, for the id that `randomUUID` returned. -/
def setupSession (sessions : Registry) (id : String) (questions : List Question) : Registry :=
  sessions.set id { Session.new questions with timeout := true }

/-- One run of the interval callback that `setupSession` installs for the session `id`.
The callback runs once a minute until `clearInterval`; a session that is no longer in the
registry has had its timer cleared, so nothing runs for it. -/
def reaperTick (sessions : Registry) (id : String) : Registry × Reaped :=
  match sessions.get? id with
  | none => (sessions, { closed := [], cleared := false })
  | some session =>
    if session.dead < sessionTimeoutMinutes + 1 then
      (sessions.set id { session with dead := session.dead + 1 },
        { closed := [], cleared := false })
    else
      (sessions.erase id, { closed := session.ws, cleared := session.timeout })

/-- The registry after `n` consecutive runs of the interval callback of session `id`, with
no call of `handle` in between. -/
def idleTicks (sessions : Registry) (id : String) : Nat → Registry
  | 0 => sessions
  | n + 1 => (reaperTick (idleTicks sessions id n) id).1

/-- The first statement of `updatePlayer` on the own properties: delete the property
`name` when the state is `null`, else assign it, for a `name` other than `__proto__`. -/
def storePlayer (players : Record PlayerState) (name : String) (state : Option PlayerState) :
    Record PlayerState :=
  match state with
  | none => players.erase name
  | some st => players.set name st

/-- A session in phase category with two attached connections; `A` is ready, `B` is
not. -/
def sampleSession : Session :=
  { timeout := true, dead := 7, ws := [4, 9],
    state := { sampleState .category [sampleQuestion 1] with
      players := [("A", samplePlayer true 2 true 5 {}),
                  ("B", samplePlayer false 3 false 1 {})] } }

/-- The registry with one fresh session `s1`. -/
def sampleRegistry : Registry := setupSession [] "s1" [sampleQuestion 1]

/-! ## `SyncSocket` (`static/common/sync-socket.js`)

The class is modelled as a state machine.  Every `WebSocket` that `_establish` creates
gets the next number; the callbacks of a socket are bound from its creation until
`_kill` unbinds them, and `_establish` runs only after `_kill` (or before the first
socket), so the socket whose events reach the object is the current `_ws`
(`SyncSocket.run_inv`).  The constructor `WebSocket` is taken not to throw, and a callback
`onfailed`, `onupdate` or `onestablished` that is set is taken to return normally; a call
of one of them is recorded as an action, which stands for nothing when the callback is
`null`. -/

/-- The values of `_state`. -/
inductive ChannelState where
  | connecting | ready | failed
deriving DecidableEq

/-- What `_received` makes of the data of a message event: the `cmd` of the parsed
object, or `invalid` when `JSON.parse` or the read of `msg.cmd` throws. -/
inductive Incoming where
  | unknownSession
  | state (snapshot : Snapshot)
  | other (cmd : JsValue)
  | invalid
deriving DecidableEq

/-- The message `{cmd: 'state'}` that `_sendfetch` sends. -/
def fetchMessage : Message := { cmd := .string "state", name := .undefined, value := none }

/-- The message `{cmd: 'update', name, value}` that `sync` queues. -/
def updateMessage (name : String) (value : Option PlayerState) : Message :=
  { cmd := .string "update", name := .string name, value := value }

/-- What a method of `SyncSocket` does to the world outside the object. -/
inductive SocketAction where
  | connect (socket : Nat)
  | discard (socket : Nat)
  | send (socket : Nat) (msg : Message)
  | setTimeout (delay : Nat)
  | onfailed (msg : String)
  | onupdate (snapshot : Snapshot)
  | onestablished
deriving DecidableEq

/-- The fields of class `SyncSocket`, with two counters of the model: `created`, the
number of sockets created so far, and `timers`, the number of `setTimeout` callbacks
that have not run yet. -/
structure SyncSocket where
  ws : Option Nat
  queued : Option Message
  fetch : Bool
  delay : Nat
  wasConnected : Bool
  state : ChannelState
  created : Nat
  timers : Nat
deriving DecidableEq

namespace SyncSocket

/-- Method `_kill`: the socket is given up, its callbacks unbound; it is closed at once
when it is open and as soon as it opens otherwise. -/
def kill (s : SyncSocket) : SyncSocket × List SocketAction :=
  match s.ws with
  | none => (s, [])
  | some socket => ({ s with ws := none }, [.discard socket])

/-- Method `_establish`. -/
def establish (s : SyncSocket) : SyncSocket × List SocketAction :=
  ({ s with state := .connecting, ws := some s.created, created := s.created + 1 },
    [.connect s.created])

/-- Method `_fatal`. -/
def fatal (s : SyncSocket) (msg : String) : SyncSocket × List SocketAction :=
  let k := kill s
  ({ k.1 with state := .failed, wasConnected := false }, k.2 ++ [.onfailed msg])

/-- Method `_failed`. -/
def failed (s : SyncSocket) (fast : Bool) : SyncSocket × List SocketAction :=
  let k := kill s
  if fast then
    let e := establish k.1
    (e.1, k.2 ++ e.2)
  else if k.1.delay ≤ 1024 then
    ({ k.1 with state := .connecting, timers := k.1.timers + 1, delay := k.1.delay * 2 },
      k.2 ++ [.setTimeout k.1.delay])
  else
    let f := fatal k.1
      (if k.1.wasConnected then "Connection to server lost!"
       else "Unable to establish a connection to the server!")
    (f.1, k.2 ++ f.2)

/-- Method `_sendState`. -/
def sendState (s : SyncSocket) : SyncSocket × List SocketAction :=
  ({ s with queued := none },
    match s.ws, s.queued with
    | some socket, some msg => [.send socket msg]
    | _, _ => [])

/-- Method `_sendfetch`. -/
def sendfetch (s : SyncSocket) : SyncSocket × List SocketAction :=
  ({ s with fetch := false },
    match s.ws with
    | some socket => [.send socket fetchMessage]
    | none => [])

/-- Method `sync`. -/
def sync (s : SyncSocket) (name : String) (value : Option PlayerState) :
    SyncSocket × List SocketAction :=
  let s1 := { s with queued := some (updateMessage name value) }
  if s1.state = .ready then sendState s1 else (s1, [])

/-- Method `fetch`. -/
def fetchNow (s : SyncSocket) : SyncSocket × List SocketAction :=
  let s1 := { s with fetch := true }
  if s1.state = .ready then sendfetch s1 else (s1, [])

/-- Method `retry`. -/
def retry (s : SyncSocket) : SyncSocket × List SocketAction :=
  if s.state = .failed then establish s else (s, [])

/-- The callback `onopen` that `_establish` binds. -/
def onopen (s : SyncSocket) : SyncSocket × List SocketAction :=
  let s1 := { s with state := .ready, wasConnected := true, delay := 256 }
  let a := if s1.queued ≠ none then sendState s1 else (s1, [])
  let b := if a.1.fetch then sendfetch a.1 else (a.1, [])
  (b.1, a.2 ++ b.2 ++ [.onestablished])

/-- Method `_received`. -/
def received (s : SyncSocket) (m : Incoming) : SyncSocket × List SocketAction :=
  match m with
  | .unknownSession => fatal s "Unknown session!"
  | .state snapshot => (s, [.onupdate snapshot])
  | .other _ => fatal s "An unknown error occurred!"
  | .invalid => failed s true

/-- The constructor. -/
def new : SyncSocket :=
  (establish { ws := none, queued := none, fetch := false, delay := 256,
               wasConnected := false, state := .connecting, created := 0, timers := 0 }).1

end SyncSocket

/-- What can happen to a `SyncSocket`: a call of a public method, an event of a socket,
or the run of a `setTimeout` callback. -/
inductive SocketEvent where
  | sync (name : String) (value : Option PlayerState)
  | fetch
  | retry
  | open (socket : Nat)
  | close (socket : Nat)
  | error (socket : Nat)
  | message (socket : Nat) (m : Incoming)
  | timer
deriving DecidableEq

/-- The calls `sync` and `fetch`. -/
def SocketEvent.isCall : SocketEvent → Bool
  | .sync _ _ => true
  | .fetch => true
  | _ => false

namespace SyncSocket

/-- The reaction of the object to one event.  An event of a socket other than the current
one finds no callback bound, and a timer callback runs only when one is pending. -/
def step (s : SyncSocket) (e : SocketEvent) : SyncSocket × List SocketAction :=
  match e with
  | .sync name value => sync s name value
  | .fetch => fetchNow s
  | .retry => retry s
  | .open socket => if s.ws = some socket then onopen s else (s, [])
  | .close socket => if s.ws = some socket then failed s true else (s, [])
  | .error socket => if s.ws = some socket then failed s false else (s, [])
  | .message socket m => if s.ws = some socket then received s m else (s, [])
  | .timer => if s.timers = 0 then (s, []) else establish { s with timers := s.timers - 1 }

/-- The reaction to a sequence of events: the state at the end and all actions in
order. -/
def run (s : SyncSocket) : List SocketEvent → SyncSocket × List SocketAction
  | [] => (s, [])
  | e :: es =>
    let r := step s e
    let rs := run r.1 es
    (rs.1, r.2 ++ rs.2)

/-- What holds in every state that a `SyncSocket` reaches: a timer is pending only while
there is no socket (and then it is the only one, in state connecting), and a failed
object has no socket. -/
def Inv (s : SyncSocket) : Prop :=
  (s.timers = 0 ∨ (s.timers = 1 ∧ s.ws = none ∧ s.state = .connecting)) ∧
    (s.state = .failed → s.ws = none) ∧ (s.state = .ready → s.ws ≠ none)

/-- The message of the last `sync` call in a sequence of calls, `q` when there is
none. -/
def lastQueued (q : Option Message) : List SocketEvent → Option Message
  | [] => q
  | .sync name value :: es => lastQueued (some (updateMessage name value)) es
  | _ :: es => lastQueued q es

/-- The arguments `(name, state)` of the last `sync` call in a sequence of calls, `none`
when there is none. -/
def lastSync : List SocketEvent → Option (String × Option PlayerState)
  | [] => none
  | .sync name value :: es =>
    match lastSync es with
    | some args => some args
    | none => some (name, value)
  | _ :: es => lastSync es

end SyncSocket

/-! ## The phase machine of `app.js`

The older implementation `app.js` keeps the questions in the module-level table
`JsonQuestions` (a parameter here) and the indices of the questions not yet presented in
`remaining`.  Its method `applyEffects` is passed to `advanceStage` as the parameter
`resolve`: it is called in phase answer only. -/

namespace App

/-- The fields of class `GameState` of `app.js`; `round` is `null` until the first
question. -/
structure GameState where
  phase : GamePhase
  question : Option Question
  remaining : List Nat
  players : Record PlayerState
  round : Option Nat
deriving DecidableEq

/-- Constructor of `GameState`. -/
def GameState.new (jsonQuestions : List Question) : GameState :=
  { phase := .start, question := none, remaining := List.range jsonQuestions.length,
    players := [], round := none }

/-- The expression `this.players.length`: the object `this.players` is a map from names
to player records, so the property is `undefined` unless a player is called `length`. -/
def playersLength (players : Record PlayerState) : Option PlayerState := players.get? "length"

/-- The comparison `this.players.length < 2`: `undefined` converts to `NaN`, and so does
a player record (an object without `valueOf` of its own); `NaN < 2` is false. -/
def lengthBelowTwo (length : Option PlayerState) : Bool :=
  match length with
  | none => false
  | some _ => false

/-- Method `advanceStage` of `app.js`. -/
def advanceStage (jsonQuestions : List Question)
    (resolve : Rng → Record PlayerState → Except (Record PlayerState) (Record PlayerState))
    (rng : Rng) (s : GameState) : Except GameState GameState :=
  if s.players.any (fun e => !e.2.ready) then .ok s
  else if lengthBelowTwo (playersLength s.players) then .ok s
  else if s.phase = .start ∨ s.phase = .resolved then
    if s.remaining.length = 0 then
      .ok { s with phase := .done, question := none,
                   players := resetPlayersForPhase s.players }
    else
      let index := rng.index s.remaining.length
      .ok { s with round := if s.phase = .start then some 0 else some (s.round.getD 0 + 1),
                   question := (s.remaining[index]?).bind (fun i => jsonQuestions[i]?),
                   remaining := s.remaining.eraseIdx index,
                   phase := .category,
                   players := resetPlayersForPhase s.players }
  else if s.phase = .category then
    .ok { s with phase := .answer, players := resetPlayerReady s.players }
  else
    match resolve rng s.players with
    | .error players => .error { s with players := players }
    | .ok players => .ok { s with players := players, phase := .resolved }

/-- Method `updatePlayer` of `app.js`. -/
def updatePlayer (jsonQuestions : List Question)
    (resolve : Rng → Record PlayerState → Except (Record PlayerState) (Record PlayerState))
    (rng : Rng) (s : GameState) (name : String) (state : Option PlayerState) :
    Except GameState GameState :=
  advanceStage jsonQuestions resolve rng { s with players := storePlayer s.players name state }

end App

/-! ## The round counter -/

/-- What the round counter, the pool and the total satisfy in every state of a game over
`n` questions: before the first question the round is 0 and the pool is full; from the
first question on, the round, counted from 1, plus the size of the pool is `n`. -/
def RoundInv (n : Nat) (s : GameState) : Prop :=
  s.total = n ∧ (s.phase = .start → s.round = 0 ∧ s.remaining.length = n) ∧
    (s.phase ≠ .start → s.round + 1 + s.remaining.length = n)

/-- Two players join a fresh game, both ready: the second update draws the first
question. -/
def sampleJoin : List Update :=
  [{ name := "A", state := some (samplePlayer true 1 false 0 {}), rng := zeroRng },
   { name := "B", state := some (samplePlayer true 1 false 0 {}), rng := zeroRng }]

/-! ## The first loop of `applyEffects` of `app.js` -/

/-- The property name of an effect kind. -/
def EffectKind.name : EffectKind → String
  | .expose => "expose"
  | .double => "double"
  | .protect => "protect"
  | .fail => "fail"
  | .swap => "swap"
  | .zero => "zero"
  | .min => "min"
  | .max => "max"
  | .steal => "steal"

/-- The names that every array inherits from `Array.prototype` and `Object.prototype`
(ECMAScript 2023, with the legacy accessors of `Object.prototype`). -/
def arrayInherited : List String :=
  ["at", "concat", "constructor", "copyWithin", "entries", "every", "fill", "filter", "find",
   "findIndex", "findLast", "findLastIndex", "flat", "flatMap", "forEach", "includes",
   "indexOf", "join", "keys", "lastIndexOf", "map", "pop", "push", "reduce", "reduceRight",
   "reverse", "shift", "slice", "some", "sort", "splice", "toLocaleString", "toReversed",
   "toSorted", "toSpliced", "toString", "unshift", "values", "with", "hasOwnProperty",
   "isPrototypeOf", "propertyIsEnumerable", "valueOf", "__proto__", "__defineGetter__",
   "__defineSetter__", "__lookupGetter__", "__lookupSetter__"]

/-- The expression `key in elements` for an array literal `elements`: the operator `in`
asks for a property name of the array, which is an index below its length, `length`, or
an inherited name; the elements of the array play no part. -/
def inArray (key : String) (elements : List String) : Bool :=
  (match arrayIndex? key with
    | some i => decide (i < elements.length)
    | none => false) || key == "length" || arrayInherited.contains key

namespace App

/-- The literal `['espose', 'protect', 'double']` of the self-only filter. -/
def selfOnly : List String := ["espose", "protect", "double"]

/-- The property names of `player.effects` in the order in which the client creates
them: the order of the loop `for (const eff in player.effects)`. -/
def effectKeys : List EffectKind :=
  [.expose, .protect, .fail, .zero, .min, .max, .double, .steal, .swap]

/-- Body of the inner collection loop of `applyEffects` of `app.js` for the property
`eff` of the effects of `key`: skipped when no victim is selected or the filter holds;
the insertion into the inverse map is, statement by statement, the one of
`quiz-game.ts`. -/
def collectEffect (key : String) (player : PlayerState) (effects : AppliedTo)
    (eff : EffectKind) : AppliedTo :=
  match player.effects.get eff with
  | none => effects
  | some _ =>
    if inArray eff.name selfOnly then effects
    else QuizGame.collectEffect key player effects eff

/-- First loop of `applyEffects` of `app.js`. -/
def collectApplied (players : Record PlayerState) : AppliedTo :=
  players.foldl (fun effects e => effectKeys.foldl (collectEffect e.1 e.2) effects) []

/-- Two players of `app.js`: `A` declared protect, expose and double (the client stores
the own name as their value) and `B` declared steal against `A`. -/
def selfOnlyRound : Record PlayerState :=
  [("A", samplePlayer true 2 true 5
      { protect := some "A", expose := some "A", double := some "A" }),
   ("B", samplePlayer true 3 false 1 { steal := some "A" })]

end App

/-! ## The effect buttons of the client (`static/client/script.js`) -/

namespace Client

/-- The field `timeout` of the table `_game.effects`. -/
def timeout : EffectKind → Int
  | .expose => 2
  | .protect => 4
  | .fail => 5
  | .zero => 4
  | .min => 3
  | .max => 3
  | .double => 10
  | .steal => 5
  | .swap => 8

/-- The test `'select' in _game.effects[name]`. -/
def hasSelect : EffectKind → Bool
  | .fail | .zero | .min | .max | .steal | .swap => true
  | .expose | .protect | .double => false

/-- The part of `_game.self` that the effect buttons read: `ready`, the declarations
`effects` and the rounds `last` of the last activation (`-100` in `_game.empty`). -/
structure Self where
  ready : Bool
  effects : GameEffects String
  last : EffectKind → Int

/-- The copy of `_game.empty` that a new player starts with. -/
def Self.empty : Self :=
  { ready := false, effects := {}, last := fun _ => -100 }

/-- Function `_game.canEffect(name, full)`; `phase` and `round` are the fields of
`_game.state`, and reading `last` of a null `_game.self` throws. -/
def canEffect (self : Option Self) (phase : GamePhase) (round : Int) (name : EffectKind)
    (full : Bool) : Except String Bool :=
  if full && (self.isNone || self.any (fun me => me.ready) || phase != .category) then
    .ok false
  else
    match self with
    | none => .error "TypeError"
    | some me =>
      if round - me.last name ≤ timeout name then .ok false
      else if (me.effects.get name).isSome then .ok false
      else .ok true

/-- Function `_game.doEffect(name, value)`: the assignments to `_game.self`. -/
def doEffect (me : Self) (round : Int) (name : EffectKind) (value : String) : Self :=
  { me with
    last := fun k => if k = name then round else me.last k
    effects := me.effects.put name (some value) }

/-- The text that `_game._applyEffect` writes under an effect button. -/
inductive Label where
  | selected (value : String)
  | timedOut (rounds : Int)
  | availableIn (rounds : Int)
deriving DecidableEq

/-- Function `_game._applyEffect(name)`: whether the button gets the class `disabled`,
and its text. -/
def applyEffect (self : Option Self) (phase : GamePhase) (round : Int) (name : EffectKind) :
    Except String (Bool × Label) :=
  match canEffect self phase round name false, self with
  | .error e, _ => .error e
  | .ok _, none => .error "TypeError"
  | .ok can, some me =>
    match me.effects.get name, hasSelect name with
    | some value, true => .ok (!can, .selected value)
    | _, _ =>
      if can then .ok (!can, .timedOut (timeout name))
      else .ok (!can, .availableIn (me.last name + timeout name - round + 1))

end Client

/-! ## The scrambled answer buttons of the client (`static/client/script.js`) -/

namespace Client

/-- The fields `toScramble`, `fromScramble` and `lastScramble` of `_game`. -/
structure Scramble where
  toScramble : List Nat
  fromScramble : List Nat
  lastScramble : String
deriving DecidableEq

/-- The initial values of the three fields. -/
def Scramble.init : Scramble :=
  { toScramble := [], fromScramble := [], lastScramble := "" }

/-- The `while (indices.length > 0)` loop of `setupScramble`, at most `fuel` iterations.
`splice(index, 1)` is `eraseIdx`; the two assignments write inside the arrays, for
`next` and the entries of `indices` stay below their length. -/
def scrambleLoop : Nat → Rng → List Nat → List Nat → List Nat → Nat →
    List Nat × List Nat × Rng
  | 0, rng, _, toScramble, fromScramble, _ => (toScramble, fromScramble, rng)
  | fuel + 1, rng, indices, toScramble, fromScramble, next =>
    if indices.length > 0 then
      let index := rng.index indices.length
      scrambleLoop fuel rng.next (indices.eraseIdx index)
        (toScramble.set next (indices.getD index 0))
        (fromScramble.set (indices.getD index 0) next) (next + 1)
    else (toScramble, fromScramble, rng)

/-- Function `_game.setupScramble` for the question `_game.state.question`. Every
iteration of the loop removes one of the `options.length` indices, so that many
iterations are all of them. -/
def setupScramble (rng : Rng) (s : Scramble) (question : Question) : Scramble × Rng :=
  if s.lastScramble == question.text then (s, rng)
  else
    let n := question.options.length
    let r := scrambleLoop n rng (List.range n) (List.range n) (List.range n) 0
    ({ toScramble := r.1, fromScramble := r.2.1, lastScramble := question.text }, r.2.2)

/-- Array read `arr[c]` for the value `c` of `_game.self.choice` or `question.correct`
(`none` is `undefined`): a number that is not an index of the array reads
`undefined`. -/
def readAt (arr : List Nat) : Option Int → Option Nat
  | some (Int.ofNat k) => arr[k]?
  | _ => none

/-- Function `_game.choose(v)` for a non-null `_game.self`: the new values of `choice`
and `correct`, or `none` when the guard returns. -/
def choose (s : Scramble) (ready : Bool) (phase : GamePhase) (question : Question) (v : Nat) :
    Option (Option Int × Bool) :=
  if ready || phase != .answer then none
  else
    let choice := (s.fromScramble[v]?).map Int.ofNat
    some (choice, choice == some question.correct)

/-- The text that `applyQuestion` writes on button `i`:
`question.options[_game.fromScramble[i]]`. -/
def buttonText (s : Scramble) (question : Question) (i : Nat) : Option String :=
  (s.fromScramble[i]?).bind (fun o => question.options[o]?)

/-- The test `_game.toScramble[_game.self.choice] == i` of `applyQuestion` that gives
button `i` the class `selected`. -/
def buttonSelected (s : Scramble) (choice : Option Int) (i : Nat) : Bool :=
  readAt s.toScramble choice == some i

/-- The two arrays have length `n` and are inverse to each other on `0..n-1`. -/
def Scramble.Valid (n : Nat) (s : Scramble) : Prop :=
  s.toScramble.length = n ∧ s.fromScramble.length = n ∧
    (∀ k, k < n → ∃ o, o < n ∧ s.toScramble[k]? = some o ∧ s.fromScramble[o]? = some k) ∧
    (∀ o, o < n → ∃ k, k < n ∧ s.fromScramble[o]? = some k ∧ s.toScramble[k]? = some o)

/-- Invariant of the loop of `setupScramble` for `n` options. -/
def ScrambleInv (n : Nat) (indices toScramble fromScramble : List Nat) (next : Nat) : Prop :=
  toScramble.length = n ∧ fromScramble.length = n ∧ indices.Nodup ∧
    (∀ x ∈ indices, x < n) ∧ indices.length + next = n ∧
    (∀ k, k < next → ∃ o, o < n ∧ o ∉ indices ∧
      toScramble[k]? = some o ∧ fromScramble[o]? = some k) ∧
    (∀ o, o < n → o ∉ indices → ∃ k, k < next ∧
      fromScramble[o]? = some k ∧ toScramble[k]? = some o)

/-- A question with the text `T` and two options. -/
def twoOptions : Question :=
  { text := "T", options := ["a", "b"], correct := 0, category := "c" }

/-- Another question with the same text `T` and three options. -/
def threeOptions : Question :=
  { text := "T", options := ["x", "y", "z"], correct := 2, category := "c" }

end Client

/-! ## Completion of `applyEffects` -/

/-- Every value of a targeted effect of every player is the name of a player
(`value in this.players`). -/
def targetsPresent (players : Record PlayerState) : Bool :=
  players.all (fun e => targetedKinds.all (fun kind =>
    match e.2.effects.get kind with
    | some victim => players.has victim
    | none => true))

/-- State of `applyEffects` when the scores are committed and `swapWith` is set up,
from the state `st` at the end of the steal loop. -/
def beforeSwap (st : LoopState) : LoopState :=
  { rng := st.rng, pending := st.appliedTo.keys, appliedTo := st.appliedTo,
    players := commitScores st.players }

/-- The number of iterations that `stealLoop fuel st` enters (an iteration that throws
is counted). -/
def stealIterations : Nat → LoopState → Nat
  | 0, _ => 0
  | fuel + 1, st =>
    if st.pending.length > 0 then
      match stealStep st with
      | .error _ => 1
      | .ok st1 => 1 + stealIterations fuel st1
    else 0

/-- The number of iterations that `swapLoop fuel st` enters (an iteration that throws
is counted). -/
def swapIterations : Nat → LoopState → Nat
  | 0, _ => 0
  | fuel + 1, st =>
    if st.pending.length > 0 then
      match swapStep st with
      | .error _ => 1
      | .ok st1 => 1 + swapIterations fuel st1
    else 0

/-- A state of a resolution loop of the pass over `players0`: the inverse map is the
collected one with inboxes and lists deleted, every open name has an inbox, and the
players are those of the pass. -/
def LoopReady (players0 : Record PlayerState) (st : LoopState) : Prop :=
  Shrinks (collectApplied players0) st.appliedTo ∧
    (∀ k ∈ st.pending, k ∈ st.appliedTo.keys) ∧
    st.players.keys = players0.keys

/-- Three players with cyclic declarations: `A` steals from `B`, `B` from `C` and `C`
from `A`, and the swaps run the other way round. -/
def cyclicRound : Record PlayerState :=
  [("A", samplePlayer true 1 true 4 { steal := some "B", swap := some "C" }),
   ("B", samplePlayer true 2 true 5 { steal := some "C", swap := some "A" }),
   ("C", samplePlayer true 3 false 6 { steal := some "A", swap := some "B" })]

/-! ## Totals over the players -/

/-- The sum of `h` over the players of the map. -/
def sumOver (h : PlayerState → Int) (players : Record PlayerState) : Int :=
  (players.map (fun e => h e.2)).sum

/-- No player names themself as steal target. -/
def noSelfSteal (players : Record PlayerState) : Bool :=
  players.all (fun e => e.2.effects.steal != some e.1)

/-! ## The marks of the steal loop and the exchanges of the swap loop -/

/-- The writes `this.players[p].applied.steal = q` of the iteration of the steal loop
that `stealStep` runs on `st`, as pairs `(p, q)` in the order of the statements: the
picked victim is marked with the drawn thief, and in the mutual branch the thief is
marked with the victim. -/
def stealMark (st : LoopState) : List (String × String) :=
  let index := st.rng.index st.pending.length
  let rng := st.rng.next
  match st.pending[index]? with
  | none => []
  | some name =>
    match st.appliedTo.get? name with
    | none => []
    | some inbox =>
      match inbox.steal with
      | none => []
      | some thieves =>
        let appliedTo := st.appliedTo.set name { inbox with steal := none }
        match thieves[rng.index thieves.length]? with
        | none => []
        | some thief =>
          (name, thief) :: (if mutualSteal appliedTo thief name then [(thief, name)] else [])

/-- The marks that the steal loop makes from `st`, in the order of the iterations. -/
def stealMarks : Nat → LoopState → List (String × String)
  | 0, _ => []
  | fuel + 1, st =>
    if st.pending.length > 0 then
      match stealStep st with
      | .error _ => stealMark st
      | .ok st1 => stealMark st ++ stealMarks fuel st1
    else []

/-- The marks of the steal loop of one pass of `applyEffects`. -/
def stealMarkLog (rng : Rng) (players : Record PlayerState) : List (String × String) :=
  stealMarks (beforeSteal rng players).pending.length (beforeSteal rng players)

/-- The picked player and the drawn partner of the iteration of the swap loop that
`swapStep` runs on `st`, when that iteration takes the `else` branch that exchanges the
two scores; `none` when the picked entry has no swap list or the pair is mutual. -/
def swapExchange (st : LoopState) : Option (String × String) :=
  let index := st.rng.index st.pending.length
  let rng := st.rng.next
  match st.pending[index]? with
  | none => none
  | some name =>
    match st.appliedTo.get? name with
    | none => none
    | some inbox =>
      match inbox.swap with
      | none => none
      | some swaps =>
        let appliedTo := st.appliedTo.set name { inbox with swap := none }
        match swaps[rng.index swaps.length]? with
        | none => none
        | some other => if mutualSwap appliedTo other name then none else some (name, other)

/-- The pairs (picked player, partner) of the exchanges that the swap loop makes from
`st`, in the order of the iterations. -/
def swapExchanges : Nat → LoopState → List (String × String)
  | 0, _ => []
  | fuel + 1, st =>
    if st.pending.length > 0 then
      match swapStep st with
      | .error _ => (swapExchange st).toList
      | .ok st1 => (swapExchange st).toList ++ swapExchanges fuel st1
    else []

/-- The exchanges of the swap loop of one pass of `applyEffects` (none when the steal
loop throws). -/
def swapLog (rng : Rng) (players : Record PlayerState) : List (String × String) :=
  match afterSteal rng players with
  | .error _ => []
  | .ok st => swapExchanges (beforeSwap st).pending.length (beforeSwap st)

/-- The field `score` of the player `name`. -/
def scoreOf (players : Record PlayerState) (name : String) : Option Int :=
  (players.get? name).map (fun p => p.score)

/-- Three players who answered correctly: `Y` declared swap against `X` and `X` declared
swap against `W`. -/
def swapChainRound : Record PlayerState :=
  [("Y", samplePlayer true 1 true 10 { swap := some "X" }),
   ("X", samplePlayer true 1 true 20 { swap := some "W" }),
   ("W", samplePlayer true 1 true 30 {})]

/-! ## The events that a browser delivers to a `SyncSocket`

A `WebSocket` fires `open` at most once and before any other event, `message` only
between `open` and the end of the connection, and `close` last; a connection that ends
without having been opened, or that the browser has to fail, fires `error` before its
`close`.  So a `close` event is preceded by the `open` or by the `error` of the same
socket. -/

/-- The sockets that have fired `open`, `error` and `close` so far. -/
structure Wire where
  opened : List Nat
  errored : List Nat
  closed : List Nat
deriving DecidableEq

namespace Wire

/-- No socket has fired an event yet. -/
def new : Wire := { opened := [], errored := [], closed := [] }

/-- Whether a socket event can come next, `created` being the number of sockets created
so far; a call of a public method and a timer callback can always come. -/
def allows (w : Wire) (created : Nat) : SocketEvent → Bool
  | .open i =>
    decide (i < created) && !w.opened.contains i && !w.errored.contains i &&
      !w.closed.contains i
  | .message i _ => w.opened.contains i && !w.errored.contains i && !w.closed.contains i
  | .error i => decide (i < created) && !w.errored.contains i && !w.closed.contains i
  | .close i => (w.opened.contains i || w.errored.contains i) && !w.closed.contains i
  | _ => true

/-- The record after the event. -/
def record (w : Wire) : SocketEvent → Wire
  | .open i => { w with opened := i :: w.opened }
  | .error i => { w with errored := i :: w.errored }
  | .close i => { w with closed := i :: w.closed }
  | _ => w

end Wire

namespace SyncSocket

/-- Whether the browser can deliver the events in this order to the object in state `s`,
`w` being the record of the socket events so far. -/
def deliverable (s : SyncSocket) (w : Wire) : List SocketEvent → Bool
  | [] => true
  | e :: es => w.allows s.created e && deliverable (step s e).1 (w.record e) es

/-- The record of the socket events after the events `es`. -/
def wireAfter (w : Wire) (es : List SocketEvent) : Wire := es.foldl Wire.record w

/-- The event is a socket event that the object answers with a new connection attempt at
once (not a timer callback and not a call of `retry`). -/
def immediateReconnect (s : SyncSocket) (e : SocketEvent) : Bool :=
  match e with
  | .open _ | .close _ | .error _ | .message _ _ =>
    (step s e).2.any (fun a => match a with | .connect _ => true | _ => false)
  | _ => false

/-- What links the object to the record of the socket events: every socket in the record
has been created, and the current socket has fired neither `error` nor `close` and has
fired `open` exactly when the state is ready. -/
def Wired (s : SyncSocket) (w : Wire) : Prop :=
  (∀ i, i ∈ w.opened ∨ i ∈ w.errored ∨ i ∈ w.closed → i < s.created) ∧
    ∀ i, s.ws = some i →
      i < s.created ∧ i ∉ w.errored ∧ i ∉ w.closed ∧ (i ∈ w.opened ↔ s.state = .ready)

end SyncSocket

/-- Three players: `V` answered wrongly and declared swap against `W`, and `X` declared
swap against `V`; `W` and `X` answered correctly. -/
def ownSwapRound : Record PlayerState :=
  [("V", samplePlayer true 2 false 6 { swap := some "W" }),
   ("W", samplePlayer true 1 true 7 {}),
   ("X", samplePlayer true 3 true 9 { swap := some "V" })]

/-- The locals of `applyEffects` on `ownSwapRound` when the steal loop is done. -/
def ownSwapRoundAfterSteal : LoopState :=
  { rng := zeroRng, pending := [], appliedTo := [("W", { swap := some ["V"] }), ("V", {})],
    players :=
      [("V", { samplePlayer false 2 false 6 { swap := some "W" } with
                 payout := 2, delta := -2 }),
       ("W", { samplePlayer false 1 true 7 {} with payout := 1, delta := 1 }),
       ("X", { samplePlayer false 3 true 9 { swap := some "V" } with
                 payout := 3, delta := 3 })] }

/-- The players of `ownSwapRound` after `applyEffects`. -/
def ownSwapRoundResult : Record PlayerState :=
  [("V", { samplePlayer false 2 false 8 { swap := some "W" } with payout := 2, delta := 2 }),
   ("W", { samplePlayer false 1 true 4 {} with
             payout := 1, delta := -3, applied := { swap := some "V" } }),
   ("X", { samplePlayer false 3 true 12 { swap := some "V" } with payout := 3, delta := 3 })]

/-! ## The inverse map as a plain object

The local `appliedTo` of `applyEffects` is the object literal `{}`, whose prototype is
`Object.prototype`.  The test `name in appliedTo` and the read `appliedTo[name]` follow
the prototype chain, `delete appliedTo[name]` and `Object.keys(appliedTo)` see own
properties only.  Namespace `Proto` is `applyEffects` with these lookups, for a process
in which no earlier pass has left a list on a member of `Object.prototype`.  A read of
`appliedTo['__proto__']` yields `Object.prototype` itself, and a list stored on it is
inherited by every object of the process: rounds with a declaration against the name
`__proto__` are outside this model. -/

/-- The property names that a plain object inherits from `Object.prototype`. -/
def objectInherited : List String :=
  ["constructor", "__defineGetter__", "__defineSetter__", "hasOwnProperty",
   "__lookupGetter__", "__lookupSetter__", "isPrototypeOf", "propertyIsEnumerable",
   "toString", "valueOf", "__proto__", "toLocaleString"]

namespace Proto

/-- The object `appliedTo = {}` as `in` and a property read see it: no own property, and
under every inherited name the member of `Object.prototype` of that name (the function
`Object`, the function `toString`, ...), read as an inbox: none of `fail`, `swap`,
`zero`, `min`, `max`, `steal` is a property of it yet.  An assignment
`appliedTo[victim][effect] = []` with an inherited `victim` creates the list on that
member. -/
def empty : AppliedTo := objectInherited.map (fun k => (k, {}))

/-- The statement `delete appliedTo[name]`: only an own property is removed. -/
def deleteOwn (appliedTo : AppliedTo) (name : String) : AppliedTo :=
  if objectInherited.contains name then appliedTo else appliedTo.erase name

/-- The list `Object.keys(appliedTo)`: the own properties. -/
def ownKeys (appliedTo : AppliedTo) : List String :=
  appliedTo.keys.filter (fun k => !objectInherited.contains k)

/-- First loop of `applyEffects`, started from the object literal `{}`; the loop body
`collectEffect` tests `victim in appliedTo` before it creates an inbox. -/
def collectApplied (players : Record PlayerState) : AppliedTo :=
  players.foldl (fun appliedTo e => targetedKinds.foldl (collectEffect e.1 e.2) appliedTo)
    Proto.empty

/-- Body of the second loop of `applyEffects` for the player `name`. -/
def resolvePlayer (name : String) (player : PlayerState) (appliedTo : AppliedTo) (rng : Rng) :
    PlayerState × AppliedTo × Rng :=
  let player := resetForResolution player
  if player.effects.protect.isSome then
    ({ player with applied := { player.applied with protect := some "True" } },
      deleteOwn appliedTo name, rng)
  else
    match appliedTo.get? name with
    | none => (player, appliedTo, rng)
    | some applied =>
      let r := resolveInbox player applied rng
      (r.1, appliedTo.set name r.2.1, r.2.2)

/-- Second loop of `applyEffects`, over the players in enumeration order. -/
def resolvePlayers : Record PlayerState → AppliedTo → Rng →
    Record PlayerState × AppliedTo × Rng
  | [], appliedTo, rng => ([], appliedTo, rng)
  | (name, player) :: rest, appliedTo, rng =>
    let r := Proto.resolvePlayer name player appliedTo rng
    let rs := resolvePlayers rest r.2.1 r.2.2
    ((name, r.1) :: rs.1, rs.2.1, rs.2.2)

/-- State of `applyEffects` when the third loop is done; the open list of the steal loop
is `Object.keys(appliedTo)`. -/
def beforeSteal (rng : Rng) (players : Record PlayerState) : LoopState :=
  let r := Proto.resolvePlayers players (Proto.collectApplied players) rng
  { rng := r.2.2, pending := ownKeys r.2.1, appliedTo := r.2.1, players := computeDeltas r.1 }

/-- State of `applyEffects` when the steal loop is done (before the score commit). -/
def afterSteal (rng : Rng) (players : Record PlayerState) :
    Except (Record PlayerState) LoopState :=
  let st := Proto.beforeSteal rng players
  stealLoop st.pending.length st

/-- Method `applyEffects`, on `this.players`. -/
def applyEffects (rng : Rng) (players : Record PlayerState) :
    Except (Record PlayerState) (Record PlayerState) :=
  match Proto.afterSteal rng players with
  | .error e => .error e
  | .ok st =>
    let swapWith := ownKeys st.appliedTo
    match swapLoop swapWith.length
        { rng := st.rng, pending := swapWith, appliedTo := st.appliedTo,
          players := commitScores st.players } with
    | .error e => .error e
    | .ok st1 => .ok st1.players

end Proto

/-- Player `A` steals from the player named `constructor`; nothing else is declared. -/
def inheritedStealRound : Record PlayerState :=
  [("A", samplePlayer true 2 true 5 { steal := some "constructor" }),
   ("constructor", samplePlayer true 3 true 4 {})]

/-- Player `A` swaps with the player named `constructor`, who answered correctly;
nothing else is declared. -/
def inheritedSwapRound : Record PlayerState :=
  [("A", samplePlayer true 2 true 5 { swap := some "constructor" }),
   ("constructor", samplePlayer true 3 true 1 {})]

/-- The player named `constructor` declared protect and steals from `X`, and `X` steals
from `constructor`. -/
def inheritedProtectRound : Record PlayerState :=
  [("constructor",
      samplePlayer true 2 true 5 { protect := some "constructor", steal := some "X" }),
   ("X", samplePlayer true 3 true 4 { steal := some "constructor" })]

/-- The players named `constructor` and `toString` steal from each other. -/
def inheritedMutualStealRound : Record PlayerState :=
  [("constructor", samplePlayer true 2 true 5 { steal := some "toString" }),
   ("toString", samplePlayer true 3 true 4 { steal := some "constructor" })]

/-- The players named `constructor` and `toString`, both correct, swap with each other. -/
def inheritedMutualSwapRound : Record PlayerState :=
  [("constructor", samplePlayer true 2 true 5 { swap := some "toString" }),
   ("toString", samplePlayer true 3 true 1 { swap := some "constructor" })]

/-- The rounds that the plain-object reading covers: no player is named `__proto__` (the
assignment `this.players['__proto__'] = state` creates no own property) and no targeted
effect is declared against the name `__proto__`. -/
def Proto.covers (players : Record PlayerState) : Bool :=
  !players.keys.contains "__proto__" &&
    players.all (fun e => targetedKinds.all (fun k => e.2.effects.get k != some "__proto__"))

/-- Player `A` and the player named `constructor` steal from each other; the player named
`toString` steals from the absent name `valueOf`. -/
def halfInheritedStealRound : Record PlayerState :=
  [("A", samplePlayer true 2 true 5 { steal := some "constructor" }),
   ("constructor", samplePlayer true 3 true 4 { steal := some "A" }),
   ("toString", samplePlayer true 1 false 2 { steal := some "valueOf" })]

/-- Player `A` and the player named `constructor`, both correct, swap with each other; the
player named `toString` swaps with the absent name `valueOf`. -/
def halfInheritedSwapRound : Record PlayerState :=
  [("A", samplePlayer true 2 true 5 { swap := some "constructor" }),
   ("constructor", samplePlayer true 3 true 1 { swap := some "A" }),
   ("toString", samplePlayer true 1 false 2 { swap := some "valueOf" })]

/-- The locals of `applyEffects` on `halfInheritedStealRound` when the steal loop is
done. -/
def halfInheritedStealRoundAfterSteal : LoopState :=
  { rng := zeroRng, pending := [],
    appliedTo := Proto.empty.replace "valueOf" { steal := some ["toString"] } ++ [("A", {})],
    players :=
      [("A", { samplePlayer false 2 true 5 { steal := some "constructor" } with
                 payout := 2, delta := 2, applied := { steal := some "constructor" } }),
       ("constructor", { samplePlayer false 3 true 4 { steal := some "A" } with
                 payout := 3, delta := 3, applied := { steal := some "A" } }),
       ("toString", { samplePlayer false 1 false 2 { steal := some "valueOf" } with
                 payout := 1, delta := -1 })] }

/-- The locals of `applyEffects` on `halfInheritedSwapRound` when the steal loop is
done. -/
def halfInheritedSwapRoundAfterSteal : LoopState :=
  { rng := zeroRng, pending := [],
    appliedTo :=
      (Proto.empty.replace "constructor" { swap := some ["A"] }).replace "valueOf"
          { swap := some ["toString"] } ++ [("A", { swap := some ["constructor"] })],
    players :=
      [("A", { samplePlayer false 2 true 5 { swap := some "constructor" } with
                 payout := 2, delta := 2 }),
       ("constructor", { samplePlayer false 3 true 1 { swap := some "A" } with
                 payout := 3, delta := 3 }),
       ("toString", { samplePlayer false 1 false 2 { swap := some "valueOf" } with
                 payout := 1, delta := -1 })] }

/-- The players of `halfInheritedSwapRound` after `applyEffects`. -/
def halfInheritedSwapRoundResult : Record PlayerState :=
  [("A", { samplePlayer false 2 true 7 { swap := some "constructor" } with
             payout := 2, delta := 2, applied := { swap := some "constructor" } }),
   ("constructor", { samplePlayer false 3 true 4 { swap := some "A" } with
             payout := 3, delta := 3, applied := { swap := some "A" } }),
   ("toString", { samplePlayer false 1 false 1 { swap := some "valueOf" } with
             payout := 1, delta := -1 })]

/-! ## The players map as a plain object

The object `this.players` is created as the literal `{}` as well.  An assignment
`this.players[name] = state` creates or overwrites an own property for every name but
`__proto__`: for that name the setter inherited from `Object.prototype` runs, which
makes `state` the prototype of `this.players` and creates no own property.  From then
on `for (const name in this.players)` also visits the enumerable properties of `state`
that no own property shadows, and `JSON.stringify` still writes the own properties
only. -/

/-- The property names of a player record (interface `PlayerState`). -/
def playerFields : List String :=
  ["ready", "confidence", "payout", "choice", "correct", "delta", "score", "effects",
   "applied"]

namespace Proto

/-- Class `GameState` with the prototype link of `this.players`: `game.players` holds the
own properties, `proto` is `none` while the prototype is `Object.prototype` (no
enumerable property) and `some state` once `this.players['__proto__'] = state` has
run. -/
structure GameState where
  game : QuizGame.GameState
  proto : Option PlayerState
deriving DecidableEq

/-- Constructor of `GameState`. -/
def GameState.new (questions : List Question) : Proto.GameState :=
  { game := QuizGame.GameState.new questions, proto := none }

/-- The names that `for (const name in this.players)` visits: the own properties, then
the enumerable properties of the prototype that no own property shadows. -/
def forInKeys (s : Proto.GameState) : List String :=
  s.game.players.keys ++
    match s.proto with
    | none => []
    | some _ => playerFields.filter (fun f => !s.game.players.has f)

/-- The test `!this.players[name].ready` of `advanceStage` for a visited name.  An own
record gives its flag.  A name that is visited without an own record is a field name
of the prototype record, and `this.players[name]` is the value of that field: a
boolean, a number or an effects object, whose property `ready` is `undefined`. -/
def notReady (s : Proto.GameState) (name : String) : Bool :=
  match s.game.players.get? name with
  | some player => !player.ready
  | none => true

/-- Method `advanceStage`.  When the first loop returns for no visited name, every visited
name has an own record, so the later loops over `this.players` visit the own properties
only. -/
def advanceStage (rng : Rng) (s : Proto.GameState) : Except Proto.GameState Proto.GameState :=
  if (forInKeys s).any (notReady s) then .ok s
  else if s.game.players.keys.length < 2 then .ok s
  else if s.game.phase = .start ∨ s.game.phase = .resolved then
    if s.game.remaining.length = 0 then
      .ok { s with game := { s.game with phase := .done, question := none,
                                         players := resetPlayersForPhase s.game.players } }
    else
      let index := rng.index s.game.remaining.length
      .ok { s with game := { s.game with
                   round := if s.game.phase = .start then 0 else s.game.round + 1,
                   question := s.game.remaining[index]?,
                   remaining := s.game.remaining.eraseIdx index,
                   phase := .category,
                   players := resetPlayersForPhase s.game.players } }
  else if s.game.phase = .category then
    .ok { s with game := { s.game with phase := .answer,
                                       players := resetPlayerReady s.game.players } }
  else
    match Proto.applyEffects rng s.game.players with
    | .error players => .error { s with game := { s.game with players := players } }
    | .ok players => .ok { s with game := { s.game with players := players,
                                                        phase := .resolved } }

/-- Method `updatePlayer`; `state = none` is the `null` that removes the player. -/
def updatePlayer (rng : Rng) (s : Proto.GameState) (name : String)
    (state : Option PlayerState) : Except Proto.GameState Proto.GameState :=
  Proto.advanceStage rng
    (match state with
     | none => { s with game := { s.game with players := s.game.players.erase name } }
     | some st =>
       if name = "__proto__" then { s with proto := some st }
       else { s with game := { s.game with players := s.game.players.set name st } })

/-- Method `makeState`; `JSON.stringify` writes the own properties of `players`. -/
def makeState (s : Proto.GameState) : Snapshot :=
  { phase := s.game.phase, question := s.game.question, totalQuestions := s.game.total,
    players := s.game.players, round := s.game.round }

/-- The fields of class `Session`, as `QuizGame.Session`. -/
structure Session where
  timeout : Bool
  dead : Nat
  ws : List Nat
  state : Proto.GameState
deriving DecidableEq

/-- Method `sync`. -/
def Session.sync (s : Proto.Session) : Proto.Session × List (Nat × Snapshot) :=
  ({ s with dead := 0 }, s.ws.map (fun ws => (ws, Proto.makeState s.state)))

/-- Method `handle`, as `QuizGame.Session.handle`. -/
def Session.handle (rng : Rng) (s : Proto.Session) (msg : Option Message) :
    Except Proto.Session (Proto.Session × Option Reply × List (Nat × Snapshot)) :=
  match msg with
  | none => .error s
  | some msg =>
    match msg.cmd with
    | .string cmd =>
      if cmd = "" then .ok (s, some .malformed, [])
      else if cmd = "state" then .ok (s, some (.state (Proto.makeState s.state)), [])
      else if cmd = "update" then
        match msg.name with
        | .string name =>
          match Proto.updatePlayer rng s.state name msg.value with
          | .error state => .error { s with state := state }
          | .ok state =>
            let synced := Proto.Session.sync { s with state := state }
            .ok (synced.1, none, synced.2)
        | _ => .ok (s, some .malformed, [])
      else .ok (s, some .malformed, [])
    | _ => .ok (s, some .malformed, [])

/-- A session on two questions, in phase start with two attached connections, after the
one player `A` has joined and is ready. -/
def lobbySession : Proto.Session :=
  { timeout := true, dead := 7, ws := [4, 9],
    state := { game := { QuizGame.GameState.new [sampleQuestion 1, sampleQuestion 2] with
                 players := [("A", samplePlayer true 1 false 0 {})] },
               proto := none } }

/-- The update that submits a ready player record under the name `__proto__`. -/
def protoUpdate : Message :=
  { cmd := .string "update", name := .string "__proto__",
    value := some (samplePlayer true 1 false 0 {}) }

end Proto

end QuizGame

namespace QuizGame

/-! ## Lemmas on string-keyed objects -/

namespace Record

variable {α : Type}

theorem get?_replace (m : Record α) (k k' : String) (v : α) :
    (m.replace k v).get? k' = if k = k' then (m.get? k').map (fun _ => v) else m.get? k' := by
  induction m with
  | nil => simp [replace, get?]
  | cons e rest ih =>
    obtain ⟨k0, v0⟩ := e
    by_cases h0 : k0 = k
    · subst h0
      by_cases h1 : k0 = k' <;> simp [replace, get?, h1]
    · by_cases h1 : k0 = k'
      · subst h1
        simp [replace, get?, h0, Ne.symm h0]
      · simp [replace, get?, h0, h1, ih]

theorem get?_insertNew_ne (m : Record α) {k k' : String} (v : α) (h : k ≠ k') :
    (m.insertNew k v).get? k' = m.get? k' := by
  induction m with
  | nil => simp [insertNew, get?, h]
  | cons e rest ih =>
    obtain ⟨k0, v0⟩ := e
    simp only [insertNew]
    split
    · split <;> simp [get?, h, ih]
    · simp [get?, h]
    · simp [get?, ih]

theorem get?_insertNew_self (m : Record α) (k : String) (v : α) (h : m.get? k = none) :
    (m.insertNew k v).get? k = some v := by
  induction m with
  | nil => simp [insertNew, get?]
  | cons e rest ih =>
    obtain ⟨k0, v0⟩ := e
    have h0 : k0 ≠ k := by
      intro hk
      simp [get?, hk] at h
    have hr : get? rest k = none := by
      simpa [get?, h0] using h
    simp only [insertNew]
    split
    · split <;> simp [get?, h0, ih hr]
    · simp [get?]
    · simp [get?, h0, ih hr]

theorem get?_set (m : Record α) (k k' : String) (v : α) :
    (m.set k v).get? k' = if k = k' then some v else m.get? k' := by
  unfold set has
  cases hk : m.get? k with
  | none =>
    by_cases h : k = k'
    · subst h
      simp [get?_insertNew_self m k v hk]
    · simp [get?_insertNew_ne m v h, h]
  | some w =>
    by_cases h : k = k'
    · subst h
      simp [get?_replace, hk]
    · simp [get?_replace, h]

theorem get?_set_self (m : Record α) (k : String) (v : α) : (m.set k v).get? k = some v := by
  simp [get?_set]

theorem get?_set_ne (m : Record α) {k k' : String} (v : α) (h : k ≠ k') :
    (m.set k v).get? k' = m.get? k' := by
  simp [get?_set, h]

theorem get?_erase (m : Record α) (k k' : String) :
    (m.erase k).get? k' = if k = k' then none else m.get? k' := by
  induction m with
  | nil => simp [erase, get?]
  | cons e rest ih =>
    obtain ⟨k0, v0⟩ := e
    by_cases h0 : k0 = k
    · subst h0
      by_cases h1 : k0 = k'
      · subst h1
        simpa [erase, get?] using ih
      · simp [erase, get?, h1, ih]
    · by_cases h1 : k0 = k'
      · subst h1
        simp [erase, get?, h0, Ne.symm h0]
      · simp [erase, get?, h0, h1, ih]

theorem mem_of_get? {m : Record α} {k : String} {v : α} (h : m.get? k = some v) :
    (k, v) ∈ m := by
  induction m with
  | nil => simp [get?] at h
  | cons e rest ih =>
    obtain ⟨k0, v0⟩ := e
    by_cases h0 : k0 = k
    · subst h0
      simp [get?] at h
      simp [h]
    · simp [get?, h0] at h
      exact List.mem_cons_of_mem _ (ih h)

theorem get?_eq_none_iff (m : Record α) (k : String) : m.get? k = none ↔ k ∉ m.keys := by
  induction m with
  | nil => simp [get?, keys]
  | cons e rest ih =>
    obtain ⟨k0, v0⟩ := e
    by_cases h0 : k0 = k
    · subst h0
      simp [get?, keys]
    · have ih' : get? rest k = none ↔ k ∉ List.map Prod.fst rest := ih
      simp [get?, keys, h0, Ne.symm h0, ih']

theorem get?_of_mem {m : Record α} (hnd : m.keys.Nodup) {k : String} {v : α}
    (h : (k, v) ∈ m) : m.get? k = some v := by
  induction m with
  | nil => simp at h
  | cons e rest ih =>
    obtain ⟨k0, v0⟩ := e
    have hnd' : (k0 :: keys rest).Nodup := hnd
    rw [List.nodup_cons] at hnd'
    rcases List.mem_cons.mp h with heq | hmem
    · cases heq
      simp [get?]
    · have hk : k ∈ keys rest := List.mem_map.mpr ⟨(k, v), hmem, rfl⟩
      have h0 : k0 ≠ k := fun hc => hnd'.1 (hc ▸ hk)
      simp [get?, h0, ih hnd'.2 hmem]

theorem mem_replace {m : Record α} {k : String} {v : α} {e : String × α}
    (h : e ∈ m.replace k v) : e ∈ m ∨ e = (k, v) := by
  induction m with
  | nil => simp [replace] at h
  | cons e0 rest ih =>
    obtain ⟨k0, v0⟩ := e0
    by_cases h0 : k0 = k
    · subst h0
      simp only [replace, if_true, List.mem_cons] at h
      rcases h with h | h
      · exact Or.inr h
      · exact Or.inl (List.mem_cons_of_mem _ h)
    · simp only [replace, h0, if_false, List.mem_cons] at h
      rcases h with h | h
      · exact Or.inl (h ▸ List.mem_cons_self _ _)
      · rcases ih h with h' | h'
        · exact Or.inl (List.mem_cons_of_mem _ h')
        · exact Or.inr h'

theorem keys_replace (m : Record α) (k : String) (v : α) : (m.replace k v).keys = m.keys := by
  induction m with
  | nil => simp [replace]
  | cons e0 rest ih =>
    obtain ⟨k0, v0⟩ := e0
    have ih' : List.map Prod.fst (replace rest k v) = List.map Prod.fst rest := ih
    by_cases h0 : k0 = k <;> simp [replace, keys, h0, ih']

theorem set_of_get? {m : Record α} {k : String} {w : α} (h : m.get? k = some w) (v : α) :
    m.set k v = m.replace k v := by
  simp [set, has, h]

theorem get?_map (m : Record α) (f : α → α) (k : String) :
    get? (m.map (fun e => (e.1, f e.2))) k = (m.get? k).map f := by
  induction m with
  | nil => simp [get?]
  | cons e0 rest ih =>
    obtain ⟨k0, v0⟩ := e0
    by_cases h0 : k0 = k <;> simp [get?, h0, ih]

end Record

/-! ## The phase machine -/

theorem advanceStage_of_not_ready (rng : Rng) (s : GameState)
    (h : (∃ e ∈ s.players, e.2.ready = false) ∨ s.players.length < 2) :
    advanceStage rng s = .ok s := by
  unfold advanceStage
  rcases h with ⟨e, he, hr⟩ | h
  · have : s.players.any (fun e => !e.2.ready) = true :=
      List.any_eq_true.mpr ⟨e, he, by simp [hr]⟩
    simp [this]
  · have hk : s.players.keys.length < 2 := by simpa [Record.keys] using h
    simp [hk]

theorem guard_of_all_ready {s : GameState} (hready : ∀ e ∈ s.players, e.2.ready = true)
    (hcount : 2 ≤ s.players.length) :
    s.players.any (fun e => !e.2.ready) = false ∧ ¬ s.players.keys.length < 2 := by
  constructor
  · rw [Bool.eq_false_iff]
    intro h
    obtain ⟨e, he, hr⟩ := List.any_eq_true.mp h
    simp [hready e he] at hr
  · simpa [Record.keys] using hcount

theorem forall₂_map_self {α : Type} (R : α → α → Prop) (f : α → α) (l : List α)
    (h : ∀ a ∈ l, R a (f a)) : List.Forall₂ R l (l.map f) := by
  induction l with
  | nil => exact List.Forall₂.nil
  | cons a l ih =>
    exact List.Forall₂.cons (h a (List.mem_cons_self _ _))
      (ih (fun b hb => h b (List.mem_cons_of_mem _ hb)))

theorem advanceStage_draw (rng : Rng) (s : GameState)
    (hready : ∀ e ∈ s.players, e.2.ready = true) (hcount : 2 ≤ s.players.length)
    (hphase : s.phase = .start ∨ s.phase = .resolved) (hpool : s.remaining ≠ []) :
    advanceStage rng s = .ok { s with
      round := if s.phase = .start then 0 else s.round + 1,
      question := s.remaining[rng.index s.remaining.length]?,
      remaining := s.remaining.eraseIdx (rng.index s.remaining.length),
      phase := .category,
      players := resetPlayersForPhase s.players } := by
  obtain ⟨hg1, hg2⟩ := guard_of_all_ready hready hcount
  have hlen : ¬ s.remaining.length = 0 := by
    simpa [List.length_eq_zero] using hpool
  simp only [advanceStage, hg1, hg2, hphase, hlen]
  rfl

theorem advanceStage_finish (rng : Rng) (s : GameState)
    (hready : ∀ e ∈ s.players, e.2.ready = true) (hcount : 2 ≤ s.players.length)
    (hphase : s.phase = .start ∨ s.phase = .resolved) (hpool : s.remaining = []) :
    advanceStage rng s = .ok { s with
      phase := .done, question := none, players := resetPlayersForPhase s.players } := by
  obtain ⟨hg1, hg2⟩ := guard_of_all_ready hready hcount
  have hlen : s.remaining.length = 0 := by simp [hpool]
  simp only [advanceStage, hg1, hg2, hphase, hlen]
  rfl

theorem advanceStage_category (rng : Rng) (s : GameState)
    (hready : ∀ e ∈ s.players, e.2.ready = true) (hcount : 2 ≤ s.players.length)
    (hphase : s.phase = .category) :
    advanceStage rng s = .ok { s with
      phase := .answer, players := resetPlayerReady s.players } := by
  obtain ⟨hg1, hg2⟩ := guard_of_all_ready hready hcount
  simp only [advanceStage, hg1, hg2, hphase]
  rfl

theorem advanceStage_resolve (rng : Rng) (s : GameState)
    (hready : ∀ e ∈ s.players, e.2.ready = true) (hcount : 2 ≤ s.players.length)
    (hphase : s.phase = .answer ∨ s.phase = .done) :
    advanceStage rng s =
      match applyEffects rng s.players with
      | .error players => .error { s with players := players }
      | .ok players => .ok { s with players := players, phase := .resolved } := by
  obtain ⟨hg1, hg2⟩ := guard_of_all_ready hready hcount
  rcases hphase with h | h <;> simp only [advanceStage, hg1, hg2, h] <;> rfl

/-- C3: `advanceStage` leaves the whole state unchanged whenever some present player is
not ready or fewer than two players are present; whenever a call (completed or thrown)
leaves a different phase behind, every present player was ready and at least two were
present. -/
theorem advanceStage_unchanged_unless_all_ready (rng : Rng) (s : GameState) :
    ((∃ e ∈ s.players, e.2.ready = false) ∨ s.players.length < 2 →
        advanceStage rng s = .ok s) ∧
    ((stateAfter (advanceStage rng s)).phase ≠ s.phase →
        (∀ e ∈ s.players, e.2.ready = true) ∧ 2 ≤ s.players.length) := by
  refine ⟨advanceStage_of_not_ready rng s, ?_⟩
  intro hne
  by_contra hcon
  apply hne
  have hg : (∃ e ∈ s.players, e.2.ready = false) ∨ s.players.length < 2 := by
    by_cases hc : 2 ≤ s.players.length
    · left
      by_contra hex
      apply hcon
      refine ⟨fun e he => ?_, hc⟩
      by_contra hr
      exact hex ⟨e, he, by simpa using hr⟩
    · right
      omega
  rw [advanceStage_of_not_ready rng s hg]
  rfl

theorem advanceStage_unchanged_unless_all_ready_witness :
    advanceStage zeroRng
        { sampleState .category [] with
            players := [("A", samplePlayer true 2 true 5 {}),
                        ("B", samplePlayer false 3 false 1 {})] }
      = .ok { sampleState .category [] with
            players := [("A", samplePlayer true 2 true 5 {}),
                        ("B", samplePlayer false 3 false 1 {})] } :=
  (advanceStage_unchanged_unless_all_ready zeroRng _).1
    (Or.inl ⟨("B", samplePlayer false 3 false 1 {}), by decide, by decide⟩)

/-- C6: when `advanceStage` fires (all ready, at least two players) in phase start or
resolved with a non-empty pool, it completes in phase category, the round is 0 coming
from start and the old round plus one coming from resolved, and every player keeps name
and score and has ready false, confidence 1, choice -1, correct false and empty effects
and applied. -/
theorem advanceStage_next_question (rng : Rng) (s : GameState)
    (hready : ∀ e ∈ s.players, e.2.ready = true) (hcount : 2 ≤ s.players.length)
    (hphase : s.phase = .start ∨ s.phase = .resolved) (hpool : s.remaining ≠ []) :
    ∃ s1, advanceStage rng s = .ok s1 ∧ s1.phase = .category ∧
      (s.phase = .start → s1.round = 0) ∧ (s.phase = .resolved → s1.round = s.round + 1) ∧
      List.Forall₂ (fun e e1 => e1.1 = e.1 ∧ e1.2.score = e.2.score ∧ e1.2.ready = false ∧
          e1.2.confidence = 1 ∧ e1.2.choice = -1 ∧ e1.2.correct = false ∧
          e1.2.effects = {} ∧ e1.2.applied = {}) s.players s1.players := by
  refine ⟨_, advanceStage_draw rng s hready hcount hphase hpool, rfl, ?_, ?_, ?_⟩
  · intro h
    simp [h]
  · intro h
    simp [h]
  · exact forall₂_map_self _ _ _ (fun e _ => by simp)

theorem advanceStage_next_question_witness :
    ∃ s1, advanceStage zeroRng (sampleState .resolved [sampleQuestion 1, sampleQuestion 2])
        = .ok s1 ∧ s1.phase = .category ∧
      ((sampleState .resolved [sampleQuestion 1, sampleQuestion 2]).phase = .start →
        s1.round = 0) ∧
      ((sampleState .resolved [sampleQuestion 1, sampleQuestion 2]).phase = .resolved →
        s1.round = (sampleState .resolved [sampleQuestion 1, sampleQuestion 2]).round + 1) ∧
      List.Forall₂ (fun e e1 => e1.1 = e.1 ∧ e1.2.score = e.2.score ∧ e1.2.ready = false ∧
          e1.2.confidence = 1 ∧ e1.2.choice = -1 ∧ e1.2.correct = false ∧
          e1.2.effects = {} ∧ e1.2.applied = {})
        (sampleState .resolved [sampleQuestion 1, sampleQuestion 2]).players s1.players :=
  advanceStage_next_question zeroRng (sampleState .resolved [sampleQuestion 1, sampleQuestion 2])
    (by decide) (by decide) (by decide) (by decide)

/-- C7: when `advanceStage` fires (all ready, at least two players) in phase start or
resolved with an empty pool, it completes in phase done with no question, the round is
unchanged, and every player keeps name and score and has the per-question fields reset
(ready false, confidence 1, choice -1, correct false, effects and applied empty). -/
theorem advanceStage_pool_empty (rng : Rng) (s : GameState)
    (hready : ∀ e ∈ s.players, e.2.ready = true) (hcount : 2 ≤ s.players.length)
    (hphase : s.phase = .start ∨ s.phase = .resolved) (hpool : s.remaining = []) :
    ∃ s1, advanceStage rng s = .ok s1 ∧ s1.phase = .done ∧ s1.question = none ∧
      s1.round = s.round ∧
      List.Forall₂ (fun e e1 => e1.1 = e.1 ∧ e1.2.score = e.2.score ∧ e1.2.ready = false ∧
          e1.2.confidence = 1 ∧ e1.2.choice = -1 ∧ e1.2.correct = false ∧
          e1.2.effects = {} ∧ e1.2.applied = {}) s.players s1.players := by
  refine ⟨_, advanceStage_finish rng s hready hcount hphase hpool, rfl, rfl, rfl, ?_⟩
  exact forall₂_map_self _ _ _ (fun e _ => by simp)

theorem advanceStage_pool_empty_witness :
    ∃ s1, advanceStage zeroRng (sampleState .resolved []) = .ok s1 ∧ s1.phase = .done ∧
      s1.question = none ∧ s1.round = (sampleState .resolved []).round ∧
      List.Forall₂ (fun e e1 => e1.1 = e.1 ∧ e1.2.score = e.2.score ∧ e1.2.ready = false ∧
          e1.2.confidence = 1 ∧ e1.2.choice = -1 ∧ e1.2.correct = false ∧
          e1.2.effects = {} ∧ e1.2.applied = {})
        (sampleState .resolved []).players s1.players :=
  advanceStage_pool_empty zeroRng (sampleState .resolved [])
    (by decide) (by decide) (by decide) (by decide)

/-- C8: when `advanceStage` fires (all ready, at least two players) in phase category,
it completes in phase answer; every player has ready false and all its other fields
(confidence, payout, choice, correct, delta, score, effects, applied) unchanged, and
the question, the round, the remaining pool and the total are unchanged. -/
theorem advanceStage_category_to_answer (rng : Rng) (s : GameState)
    (hready : ∀ e ∈ s.players, e.2.ready = true) (hcount : 2 ≤ s.players.length)
    (hphase : s.phase = .category) :
    ∃ s1, advanceStage rng s = .ok s1 ∧ s1.phase = .answer ∧ s1.question = s.question ∧
      s1.round = s.round ∧ s1.remaining = s.remaining ∧ s1.total = s.total ∧
      List.Forall₂ (fun e e1 => e1.1 = e.1 ∧ e1.2.ready = false ∧
          e1.2.confidence = e.2.confidence ∧ e1.2.payout = e.2.payout ∧
          e1.2.choice = e.2.choice ∧ e1.2.correct = e.2.correct ∧ e1.2.delta = e.2.delta ∧
          e1.2.score = e.2.score ∧ e1.2.effects = e.2.effects ∧
          e1.2.applied = e.2.applied) s.players s1.players := by
  refine ⟨_, advanceStage_category rng s hready hcount hphase, rfl, rfl, rfl, rfl, rfl, ?_⟩
  exact forall₂_map_self _ _ _ (fun e _ => by simp)

theorem advanceStage_category_to_answer_witness :
    ∃ s1, advanceStage zeroRng (sampleState .category [sampleQuestion 1]) = .ok s1 ∧
      s1.phase = .answer ∧ s1.question = (sampleState .category [sampleQuestion 1]).question ∧
      s1.round = (sampleState .category [sampleQuestion 1]).round ∧
      s1.remaining = (sampleState .category [sampleQuestion 1]).remaining ∧
      s1.total = (sampleState .category [sampleQuestion 1]).total ∧
      List.Forall₂ (fun e e1 => e1.1 = e.1 ∧ e1.2.ready = false ∧
          e1.2.confidence = e.2.confidence ∧ e1.2.payout = e.2.payout ∧
          e1.2.choice = e.2.choice ∧ e1.2.correct = e.2.correct ∧ e1.2.delta = e.2.delta ∧
          e1.2.score = e.2.score ∧ e1.2.effects = e.2.effects ∧
          e1.2.applied = e.2.applied)
        (sampleState .category [sampleQuestion 1]).players s1.players :=
  advanceStage_category_to_answer zeroRng (sampleState .category [sampleQuestion 1])
    (by decide) (by decide) (by decide)

/-- C4: in phase done with an empty pool and two ready players, `advanceStage` falls
through to the resolution branch: it completes in phase resolved and the scores have
changed (5 and 1 became 7 and 0). -/
theorem advanceStage_done_not_terminal :
    (advanceStage zeroRng (sampleState .done [])).toOption.map
        (fun s => (s.phase, s.players.map (fun e => (e.1, e.2.score))))
      = some (GamePhase.resolved, [("A", 7), ("B", 0)]) := by
  decide

/-! ## Drawing questions without replacement -/

theorem getElem?_toList_append_eraseIdx_perm {α : Type} (l : List α) (i : Nat)
    (h : i < l.length) : (l[i]?.toList ++ l.eraseIdx i).Perm l := by
  induction l generalizing i with
  | nil => simp at h
  | cons a l ih =>
    cases i with
    | zero => simp
    | succ i =>
      have hi : i < l.length := by simpa using h
      have h1 := ih i hi
      simp only [List.getElem?_cons_succ, List.eraseIdx_cons_succ]
      exact (List.perm_middle).trans (List.Perm.cons a h1)

theorem advanceStage_cases (rng : Rng) (s : GameState) :
    advanceStage rng s = .ok s ∨
    (s.phase ≠ .category ∧ s.remaining ≠ [] ∧
      advanceStage rng s = .ok { s with
        round := if s.phase = .start then 0 else s.round + 1,
        question := s.remaining[rng.index s.remaining.length]?,
        remaining := s.remaining.eraseIdx (rng.index s.remaining.length),
        phase := .category,
        players := resetPlayersForPhase s.players }) ∨
    (∃ s1, stateAfter (advanceStage rng s) = s1 ∧ s1.remaining = s.remaining ∧
      s1.phase ≠ .category) := by
  by_cases hg : (∃ e ∈ s.players, e.2.ready = false) ∨ s.players.length < 2
  · exact Or.inl (advanceStage_of_not_ready rng s hg)
  · have hready : ∀ e ∈ s.players, e.2.ready = true := by
      intro e he
      by_contra hr
      exact hg (Or.inl ⟨e, he, by simpa using hr⟩)
    have hcount : 2 ≤ s.players.length := by
      by_contra hc
      exact hg (Or.inr (by omega))
    by_cases hphase : s.phase = .start ∨ s.phase = .resolved
    · by_cases hpool : s.remaining = []
      · right; right
        rw [advanceStage_finish rng s hready hcount hphase hpool]
        exact ⟨_, rfl, rfl, by simp [stateAfter]⟩
      · right; left
        refine ⟨?_, hpool, advanceStage_draw rng s hready hcount hphase hpool⟩
        rcases hphase with h | h <;> simp [h]
    · right; right
      by_cases hcat : s.phase = .category
      · rw [advanceStage_category rng s hready hcount hcat]
        exact ⟨_, rfl, rfl, by simp [stateAfter]⟩
      · have hres : s.phase = .answer ∨ s.phase = .done := by
          cases hp : s.phase <;> simp_all
        rw [advanceStage_resolve rng s hready hcount hres]
        cases applyEffects rng s.players with
        | error e => exact ⟨_, rfl, rfl, by simpa [stateAfter] using hcat⟩
        | ok e => exact ⟨_, rfl, rfl, by simp [stateAfter]⟩

theorem presentedBy_perm (rng : Rng) (s : GameState) :
    (presentedBy s (stateAfter (advanceStage rng s)) ++
      (stateAfter (advanceStage rng s)).remaining).Perm s.remaining := by
  rcases advanceStage_cases rng s with h | ⟨hcat, hpool, h⟩ | ⟨s1, h, hrem, hph⟩
  · rw [h]
    simp [stateAfter, presentedBy]
  · rw [h]
    have hi : rng.index s.remaining.length < s.remaining.length := by
      unfold Rng.index
      exact Nat.mod_lt _ (List.length_pos.mpr hpool)
    simpa [stateAfter, presentedBy, hcat] using
      getElem?_toList_append_eraseIdx_perm s.remaining _ hi
  · rw [h]
    simp [presentedBy, hph, hrem]

theorem presented_append_remaining_perm (s : GameState) (us : List Update) :
    (presented s us ++ (runUpdates s us).remaining).Perm s.remaining := by
  induction us generalizing s with
  | nil => simp [presented, runUpdates]
  | cons u us ih =>
    simp only [presented, runUpdates, List.append_assoc]
    have h1 := ih (stateAfter (updatePlayer u.rng s u.name u.state))
    have h2 := presentedBy_perm u.rng { s with players :=
      match u.state with
      | none => s.players.erase u.name
      | some st => s.players.set u.name st }
    have h3 : presentedBy s (stateAfter (updatePlayer u.rng s u.name u.state)) =
        presentedBy { s with players :=
          match u.state with
          | none => s.players.erase u.name
          | some st => s.players.set u.name st }
          (stateAfter (updatePlayer u.rng s u.name u.state)) := rfl
    rw [h3]
    exact (List.Perm.append_left _ h1).trans h2

/-- C5: for every sequence of `updatePlayer` calls on a fresh `GameState` over the
question list `Q` (whatever the random choices, and whether or not calls throw), the
questions presented so far followed by the remaining pool are a permutation of `Q`; so
no question is presented more often than it occurs in `Q`, and the number of presented
questions plus the pool size is the size of `Q`. -/
theorem presented_remaining_perm (Q : List Question) (us : List Update) :
    (presented (GameState.new Q) us ++ (runUpdates (GameState.new Q) us).remaining).Perm Q ∧
    (∀ q, (presented (GameState.new Q) us).count q ≤ Q.count q) ∧
    (presented (GameState.new Q) us).length +
      (runUpdates (GameState.new Q) us).remaining.length = Q.length := by
  have h := presented_append_remaining_perm (GameState.new Q) us
  refine ⟨h, ?_, ?_⟩
  · intro q
    have hc := h.count_eq q
    simp only [List.count_append] at hc
    have : (GameState.new Q).remaining = Q := rfl
    rw [this] at hc
    omega
  · have hl := h.length_eq
    simpa [GameState.new] using hl

/-! ## Inversion of the resolution steps -/

theorem getPlayer_ok {players : Record PlayerState} {name : String} {p : PlayerState}
    (h : getPlayer players name = .ok p) : players.get? name = some p := by
  unfold getPlayer at h
  split at h
  · cases h
    assumption
  · cases h

theorem modifyPlayer_ok {players players1 : Record PlayerState} {name : String}
    {f : PlayerState → PlayerState} (h : modifyPlayer players name f = .ok players1) :
    ∃ p, players.get? name = some p ∧ players1 = players.replace name (f p) := by
  unfold modifyPlayer at h
  split at h
  · rename_i p hp
    cases h
    exact ⟨p, hp, Record.set_of_get? hp _⟩
  · cases h

theorem stealPoints_ok {players players1 : Record PlayerState} {name thief : String}
    (h : stealPoints players name thief = .ok players1) :
    ∃ pt pn pn1, players.get? thief = some pt ∧ players.get? name = some pn ∧
      (players.replace thief { pt with delta := pt.delta + pn.delta }).get? name = some pn1 ∧
      players1 = (players.replace thief { pt with delta := pt.delta + pn.delta }).replace name
        { pn1 with delta := 0 } := by
  unfold stealPoints at h
  split at h
  · cases h
  · rename_i pt hpt
    split at h
    · cases h
    · rename_i pn hpn
      have ht := getPlayer_ok hpt
      rw [Record.set_of_get? ht] at h
      obtain ⟨pn1, h1, h2⟩ := modifyPlayer_ok h
      exact ⟨pt, pn, pn1, ht, getPlayer_ok hpn, h1, h2⟩

theorem swapPoints_ok {players players4 : Record PlayerState} {name other : String}
    (h : swapPoints players name other = .ok players4) :
    ∃ pn po players1 players2 players3,
      players.get? name = some pn ∧ players.get? other = some po ∧
      modifyPlayer players name (fun p => { p with score := po.score }) = .ok players1 ∧
      modifyPlayer players1 name
        (fun p => { p with delta := p.delta + (po.score - pn.score) }) = .ok players2 ∧
      modifyPlayer players2 other (fun p => { p with score := pn.score }) = .ok players3 ∧
      modifyPlayer players3 other
        (fun p => { p with delta := p.delta + (pn.score - po.score) }) = .ok players4 := by
  unfold swapPoints at h
  split at h
  · cases h
  · rename_i pn hpn
    split at h
    · cases h
    · rename_i po hpo
      simp only at h
      split at h
      · cases h
      · rename_i players1 h1
        split at h
        · cases h
        · rename_i players2 h2
          split at h
          · cases h
          · rename_i players3 h3
            exact ⟨pn, po, players1, players2, players3, getPlayer_ok hpn, getPlayer_ok hpo,
              h1, h2, h3, h⟩

/-- What a completed iteration of the steal loop did. -/
theorem stealStep_ok {st st1 : LoopState} (h : stealStep st = .ok st1) :
    ∃ name inbox, st.pending[st.rng.index st.pending.length]? = some name ∧
      st.appliedTo.get? name = some inbox ∧
      st1.pending = st.pending.eraseIdx (st.rng.index st.pending.length) ∧
      ((inbox.steal = none ∧ st1.appliedTo = st.appliedTo ∧ st1.players = st.players) ∨
       (∃ thieves thief players1, inbox.steal = some thieves ∧ thief ∈ thieves ∧
          modifyPlayer st.players name
            (fun p => { p with applied := { p.applied with steal := some thief } })
            = .ok players1 ∧
          (if mutualSteal (st.appliedTo.set name { inbox with steal := none }) thief name then
              modifyPlayer players1 thief
                (fun p => { p with applied := { p.applied with steal := some name } })
            else stealPoints players1 name thief) = .ok st1.players ∧
          st1.appliedTo =
            clearSteal (st.appliedTo.set name { inbox with steal := none }) thief)) := by
  unfold stealStep at h
  simp only at h
  split at h
  · cases h
  · rename_i name hname
    split at h
    · cases h
    · rename_i inbox hinbox
      refine ⟨name, inbox, hname, hinbox, ?_⟩
      split at h
      · rename_i hsteal
        cases h
        exact ⟨rfl, Or.inl ⟨hsteal, rfl, rfl⟩⟩
      · rename_i thieves hsteal
        split at h
        · cases h
        · rename_i thief hthief
          split at h
          · cases h
          · rename_i players1 h1
            split at h
            · cases h
            · rename_i players2 h2
              cases h
              exact ⟨rfl, Or.inr ⟨thieves, thief, players1, hsteal, List.getElem?_mem hthief,
                h1, h2, rfl⟩⟩

/-- What a completed iteration of the swap loop did. -/
theorem swapStep_ok {st st1 : LoopState} (h : swapStep st = .ok st1) :
    ∃ name inbox, st.pending[st.rng.index st.pending.length]? = some name ∧
      st.appliedTo.get? name = some inbox ∧
      st1.pending = st.pending.eraseIdx (st.rng.index st.pending.length) ∧
      ((inbox.swap = none ∧ st1.appliedTo = st.appliedTo ∧ st1.players = st.players) ∨
       (∃ swaps other players1, inbox.swap = some swaps ∧ other ∈ swaps ∧
          modifyPlayer st.players name
            (fun p => { p with applied := { p.applied with swap := some other } })
            = .ok players1 ∧
          (if mutualSwap (st.appliedTo.set name { inbox with swap := none }) other name then
              modifyPlayer players1 other
                (fun p => { p with applied := { p.applied with swap := some name } })
            else swapPoints players1 name other) = .ok st1.players ∧
          st1.appliedTo =
            clearSwap (st.appliedTo.set name { inbox with swap := none }) other)) := by
  unfold swapStep at h
  simp only at h
  split at h
  · cases h
  · rename_i name hname
    split at h
    · cases h
    · rename_i inbox hinbox
      refine ⟨name, inbox, hname, hinbox, ?_⟩
      split at h
      · rename_i hswap
        cases h
        exact ⟨rfl, Or.inl ⟨hswap, rfl, rfl⟩⟩
      · rename_i swaps hswap
        split at h
        · cases h
        · rename_i other hother
          split at h
          · cases h
          · rename_i players1 h1
            split at h
            · cases h
            · rename_i players2 h2
              cases h
              exact ⟨rfl, Or.inr ⟨swaps, other, players1, hswap, List.getElem?_mem hother,
                h1, h2, rfl⟩⟩

/-- A property of the loop state that every completed steal iteration preserves holds
when the steal loop completes. -/
theorem stealLoop_invariant (I : LoopState → Prop)
    (hstep : ∀ st st1, I st → stealStep st = .ok st1 → I st1) :
    ∀ (fuel : Nat) (st st1 : LoopState), I st → stealLoop fuel st = .ok st1 → I st1 := by
  intro fuel
  induction fuel with
  | zero =>
    intro st st1 hI h
    simp only [stealLoop] at h
    cases h
    exact hI
  | succ fuel ih =>
    intro st st1 hI h
    simp only [stealLoop] at h
    split at h
    · split at h
      · cases h
      · rename_i st2 h2
        exact ih st2 st1 (hstep st st2 hI h2) h
    · cases h
      exact hI

/-- A property of the loop state that every completed swap iteration preserves holds
when the swap loop completes. -/
theorem swapLoop_invariant (I : LoopState → Prop)
    (hstep : ∀ st st1, I st → swapStep st = .ok st1 → I st1) :
    ∀ (fuel : Nat) (st st1 : LoopState), I st → swapLoop fuel st = .ok st1 → I st1 := by
  intro fuel
  induction fuel with
  | zero =>
    intro st st1 hI h
    simp only [swapLoop] at h
    cases h
    exact hI
  | succ fuel ih =>
    intro st st1 hI h
    simp only [swapLoop] at h
    split at h
    · split at h
      · cases h
      · rename_i st2 h2
        exact ih st2 st1 (hstep st st2 hI h2) h
    · cases h
      exact hI

theorem applyEffects_ok {rng : Rng} {players players1 : Record PlayerState}
    (h : applyEffects rng players = .ok players1) :
    ∃ st st1, afterSteal rng players = .ok st ∧
      swapLoop st.appliedTo.keys.length
        { rng := st.rng, pending := st.appliedTo.keys, appliedTo := st.appliedTo,
          players := commitScores st.players } = .ok st1 ∧
      players1 = st1.players := by
  unfold applyEffects at h
  split at h
  · cases h
  · rename_i st hst
    simp only at h
    split at h
    · cases h
    · rename_i st1 hst1
      cases h
      exact ⟨st, st1, hst, hst1, rfl⟩

/-! ## Properties of all players that the resolution preserves -/

theorem forall_replace {P : PlayerState → Prop} {m : Record PlayerState} {k : String}
    {v : PlayerState} (hm : ∀ e ∈ m, P e.2) (hv : P v) : ∀ e ∈ m.replace k v, P e.2 := by
  intro e he
  rcases Record.mem_replace he with h | h
  · exact hm e h
  · subst h
    exact hv

theorem modifyPlayer_forall {P : PlayerState → Prop} {players players1 : Record PlayerState}
    {name : String} {f : PlayerState → PlayerState} (hf : ∀ p, P p → P (f p))
    (hm : ∀ e ∈ players, P e.2) (h : modifyPlayer players name f = .ok players1) :
    ∀ e ∈ players1, P e.2 := by
  obtain ⟨p, hp, rfl⟩ := modifyPlayer_ok h
  exact forall_replace hm (hf p (hm _ (Record.mem_of_get? hp)))

theorem modifyPlayer_keys {players players1 : Record PlayerState}
    {name : String} {f : PlayerState → PlayerState}
    (h : modifyPlayer players name f = .ok players1) : players1.keys = players.keys := by
  obtain ⟨p, _, rfl⟩ := modifyPlayer_ok h
  exact Record.keys_replace _ _ _

theorem stealPoints_forall {P : PlayerState → Prop}
    (hD : ∀ p d, P p → P { p with delta := d })
    {players players1 : Record PlayerState} {name thief : String}
    (hm : ∀ e ∈ players, P e.2) (h : stealPoints players name thief = .ok players1) :
    ∀ e ∈ players1, P e.2 := by
  obtain ⟨pt, pn, pn1, ht, _, hn1, rfl⟩ := stealPoints_ok h
  have h1 : ∀ e ∈ players.replace thief { pt with delta := pt.delta + pn.delta }, P e.2 :=
    forall_replace hm (hD pt _ (hm _ (Record.mem_of_get? ht)))
  exact forall_replace h1 (hD pn1 _ (h1 _ (Record.mem_of_get? hn1)))

theorem stealPoints_keys {players players1 : Record PlayerState} {name thief : String}
    (h : stealPoints players name thief = .ok players1) : players1.keys = players.keys := by
  obtain ⟨pt, pn, pn1, _, _, _, rfl⟩ := stealPoints_ok h
  rw [Record.keys_replace, Record.keys_replace]

theorem swapPoints_forall {P : PlayerState → Prop}
    (hD : ∀ p d, P p → P { p with delta := d })
    (hS : ∀ p q, P p → P q → P { p with score := q.score })
    {players players1 : Record PlayerState} {name other : String}
    (hm : ∀ e ∈ players, P e.2) (h : swapPoints players name other = .ok players1) :
    ∀ e ∈ players1, P e.2 := by
  obtain ⟨pn, po, p1, p2, p3, hn, ho, h1, h2, h3, h4⟩ := swapPoints_ok h
  have hpn := hm _ (Record.mem_of_get? hn)
  have hpo := hm _ (Record.mem_of_get? ho)
  have m1 := modifyPlayer_forall (P := P) (fun p hp => hS p po hp hpo) hm h1
  have m2 := modifyPlayer_forall (P := P) (fun p hp => hD p _ hp) m1 h2
  have m3 := modifyPlayer_forall (P := P) (fun p hp => hS p pn hp hpn) m2 h3
  exact modifyPlayer_forall (P := P) (fun p hp => hD p _ hp) m3 h4

theorem swapPoints_keys {players players1 : Record PlayerState} {name other : String}
    (h : swapPoints players name other = .ok players1) : players1.keys = players.keys := by
  obtain ⟨pn, po, p1, p2, p3, _, _, h1, h2, h3, h4⟩ := swapPoints_ok h
  rw [modifyPlayer_keys h4, modifyPlayer_keys h3, modifyPlayer_keys h2, modifyPlayer_keys h1]

theorem stealStep_forall {P : PlayerState → Prop}
    (hA : ∀ p a, P p → P { p with applied := a })
    (hD : ∀ p d, P p → P { p with delta := d })
    {st st1 : LoopState} (hm : ∀ e ∈ st.players, P e.2) (h : stealStep st = .ok st1) :
    ∀ e ∈ st1.players, P e.2 := by
  obtain ⟨name, inbox, _, _, _, hc⟩ := stealStep_ok h
  rcases hc with ⟨_, _, hp⟩ | ⟨thieves, thief, players1, _, _, h1, h2, _⟩
  · rw [hp]
    exact hm
  · have m1 := modifyPlayer_forall (P := P) (fun p hp => hA p _ hp) hm h1
    split at h2
    · exact modifyPlayer_forall (P := P) (fun p hp => hA p _ hp) m1 h2
    · exact stealPoints_forall hD m1 h2

theorem stealStep_keys {st st1 : LoopState} (h : stealStep st = .ok st1) :
    st1.players.keys = st.players.keys := by
  obtain ⟨name, inbox, _, _, _, hc⟩ := stealStep_ok h
  rcases hc with ⟨_, _, hp⟩ | ⟨thieves, thief, players1, _, _, h1, h2, _⟩
  · rw [hp]
  · split at h2
    · rw [modifyPlayer_keys h2, modifyPlayer_keys h1]
    · rw [stealPoints_keys h2, modifyPlayer_keys h1]

theorem swapStep_forall {P : PlayerState → Prop}
    (hA : ∀ p a, P p → P { p with applied := a })
    (hD : ∀ p d, P p → P { p with delta := d })
    (hS : ∀ p q, P p → P q → P { p with score := q.score })
    {st st1 : LoopState} (hm : ∀ e ∈ st.players, P e.2) (h : swapStep st = .ok st1) :
    ∀ e ∈ st1.players, P e.2 := by
  obtain ⟨name, inbox, _, _, _, hc⟩ := swapStep_ok h
  rcases hc with ⟨_, _, hp⟩ | ⟨swaps, other, players1, _, _, h1, h2, _⟩
  · rw [hp]
    exact hm
  · have m1 := modifyPlayer_forall (P := P) (fun p hp => hA p _ hp) hm h1
    split at h2
    · exact modifyPlayer_forall (P := P) (fun p hp => hA p _ hp) m1 h2
    · exact swapPoints_forall hD hS m1 h2

theorem swapStep_keys {st st1 : LoopState} (h : swapStep st = .ok st1) :
    st1.players.keys = st.players.keys := by
  obtain ⟨name, inbox, _, _, _, hc⟩ := swapStep_ok h
  rcases hc with ⟨_, _, hp⟩ | ⟨swaps, other, players1, _, _, h1, h2, _⟩
  · rw [hp]
  · split at h2
    · rw [modifyPlayer_keys h2, modifyPlayer_keys h1]
    · rw [swapPoints_keys h2, modifyPlayer_keys h1]

theorem stealLoop_forall {P : PlayerState → Prop}
    (hA : ∀ p a, P p → P { p with applied := a })
    (hD : ∀ p d, P p → P { p with delta := d })
    {fuel : Nat} {st st1 : LoopState} (hm : ∀ e ∈ st.players, P e.2)
    (h : stealLoop fuel st = .ok st1) : ∀ e ∈ st1.players, P e.2 :=
  stealLoop_invariant (fun s => ∀ e ∈ s.players, P e.2)
    (fun _ _ hI hs => stealStep_forall hA hD hI hs) fuel st st1 hm h

theorem stealLoop_keys {fuel : Nat} {st st1 : LoopState}
    (h : stealLoop fuel st = .ok st1) : st1.players.keys = st.players.keys :=
  stealLoop_invariant (fun s => s.players.keys = st.players.keys)
    (fun _ _ hI hs => (stealStep_keys hs).trans hI) fuel st st1 rfl h

theorem swapLoop_forall {P : PlayerState → Prop}
    (hA : ∀ p a, P p → P { p with applied := a })
    (hD : ∀ p d, P p → P { p with delta := d })
    (hS : ∀ p q, P p → P q → P { p with score := q.score })
    {fuel : Nat} {st st1 : LoopState} (hm : ∀ e ∈ st.players, P e.2)
    (h : swapLoop fuel st = .ok st1) : ∀ e ∈ st1.players, P e.2 :=
  swapLoop_invariant (fun s => ∀ e ∈ s.players, P e.2)
    (fun _ _ hI hs => swapStep_forall hA hD hS hI hs) fuel st st1 hm h

theorem swapLoop_keys {fuel : Nat} {st st1 : LoopState}
    (h : swapLoop fuel st = .ok st1) : st1.players.keys = st.players.keys :=
  swapLoop_invariant (fun s => s.players.keys = st.players.keys)
    (fun _ _ hI hs => (swapStep_keys hs).trans hI) fuel st st1 rfl h

theorem keys_map_snd (m : Record PlayerState) (f : PlayerState → PlayerState) :
    Record.keys (m.map (fun e => (e.1, f e.2))) = m.keys := by
  simp [Record.keys, List.map_map, Function.comp_def]

theorem resetForResolution_effects (player : PlayerState) :
    (resetForResolution player).effects = player.effects := by
  unfold resetForResolution
  dsimp only
  split <;> rfl

theorem resetForResolution_ready (player : PlayerState) :
    (resetForResolution player).ready = false := by
  unfold resetForResolution
  dsimp only
  split <;> rfl

theorem resolveInbox_ready (player : PlayerState) (applied : GameEffects (List String))
    (rng : Rng) : (resolveInbox player applied rng).1.ready = player.ready := by
  unfold resolveInbox
  dsimp only
  repeat' split
  all_goals rfl

theorem resolvePlayer_ready (name : String) (player : PlayerState) (appliedTo : AppliedTo)
    (rng : Rng) : (resolvePlayer name player appliedTo rng).1.ready = false := by
  unfold resolvePlayer
  dsimp only
  split
  · exact resetForResolution_ready player
  · split
    · exact resetForResolution_ready player
    · exact (resolveInbox_ready _ _ _).trans (resetForResolution_ready player)

theorem resolvePlayers_keys (players : Record PlayerState) (appliedTo : AppliedTo) (rng : Rng) :
    (resolvePlayers players appliedTo rng).1.keys = players.keys := by
  induction players generalizing appliedTo rng with
  | nil => rfl
  | cons e rest ih =>
    obtain ⟨name, player⟩ := e
    simp only [resolvePlayers, Record.keys, List.map_cons]
    exact congrArg _ (ih _ _)

theorem resolvePlayers_ready (players : Record PlayerState) (appliedTo : AppliedTo) (rng : Rng) :
    ∀ e ∈ (resolvePlayers players appliedTo rng).1, e.2.ready = false := by
  induction players generalizing appliedTo rng with
  | nil => simp [resolvePlayers]
  | cons e rest ih =>
    obtain ⟨name, player⟩ := e
    intro e he
    simp only [resolvePlayers, List.mem_cons] at he
    rcases he with he | he
    · subst he
      exact resolvePlayer_ready _ _ _ _
    · exact ih _ _ e he

theorem length_eq_of_keys_eq {m m1 : Record PlayerState} (h : m1.keys = m.keys) :
    m1.length = m.length := by
  have := congrArg List.length h
  simpa [Record.keys] using this

theorem afterSteal_keys {rng : Rng} {players : Record PlayerState} {st : LoopState}
    (h : afterSteal rng players = .ok st) : st.players.keys = players.keys := by
  unfold afterSteal at h
  rw [stealLoop_keys h]
  simp only [beforeSteal, computeDeltas]
  rw [keys_map_snd, resolvePlayers_keys]

theorem afterSteal_ready {rng : Rng} {players : Record PlayerState} {st : LoopState}
    (h : afterSteal rng players = .ok st) : ∀ e ∈ st.players, e.2.ready = false := by
  unfold afterSteal at h
  refine stealLoop_forall (P := fun p => p.ready = false) (fun _ _ hp => hp)
    (fun _ _ hp => hp) ?_ h
  intro e he
  simp only [beforeSteal, computeDeltas, List.mem_map] at he
  obtain ⟨e0, he0, rfl⟩ := he
  have h0 := resolvePlayers_ready _ _ _ e0 he0
  simp only [computeDelta]
  split <;> exact h0

theorem applyEffects_keys {rng : Rng} {players players1 : Record PlayerState}
    (h : applyEffects rng players = .ok players1) : players1.keys = players.keys := by
  obtain ⟨st, st1, h1, h2, rfl⟩ := applyEffects_ok h
  rw [swapLoop_keys h2]
  exact (keys_map_snd st.players
    (fun p => { p with score := max 0 (p.score + p.delta) })).trans (afterSteal_keys h1)

theorem applyEffects_ready {rng : Rng} {players players1 : Record PlayerState}
    (h : applyEffects rng players = .ok players1) : ∀ e ∈ players1, e.2.ready = false := by
  obtain ⟨st, st1, h1, h2, rfl⟩ := applyEffects_ok h
  refine swapLoop_forall (P := fun p => p.ready = false) (fun _ _ hp => hp)
    (fun _ _ hp => hp) (fun _ _ hp _ => hp) ?_ h2
  intro e he
  simp only [commitScores, List.mem_map] at he
  obtain ⟨e0, he0, rfl⟩ := he
  exact afterSteal_ready h1 e0 he0

theorem applyEffects_score_nonneg {rng : Rng} {players players1 : Record PlayerState}
    (h : applyEffects rng players = .ok players1) : ∀ e ∈ players1, 0 ≤ e.2.score := by
  obtain ⟨st, st1, _, h2, rfl⟩ := applyEffects_ok h
  refine swapLoop_forall (P := fun p => 0 ≤ p.score) (fun _ _ hp => hp)
    (fun _ _ hp => hp) (fun _ _ _ hq => hq) ?_ h2
  intro e he
  simp only [commitScores, List.mem_map] at he
  obtain ⟨e0, _, rfl⟩ := he
  exact le_max_left _ _

/-- C2: whenever `applyEffects` completes, on any players map, every player's score
is at least 0 afterwards (swap resolution included). -/
theorem applyEffects_scores_nonneg (rng : Rng) (players players1 : Record PlayerState)
    (h : applyEffects rng players = .ok players1) :
    ∀ name p, players1.get? name = some p → 0 ≤ p.score := by
  intro name p hp
  exact applyEffects_score_nonneg h _ (Record.mem_of_get? hp)

theorem applyEffects_scores_nonneg_witness :
    applyEffects zeroRng plainRound = .ok plainRoundResult ∧
      ∀ name p, plainRoundResult.get? name = some p → 0 ≤ p.score :=
  ⟨rfl, applyEffects_scores_nonneg zeroRng plainRound plainRoundResult rfl⟩

theorem resetPlayersForPhase_ready (m : Record PlayerState) :
    (∀ e ∈ resetPlayersForPhase m, e.2.ready = false) ∧
      (resetPlayersForPhase m).length = m.length := by
  refine ⟨?_, by simp [resetPlayersForPhase]⟩
  intro e he
  simp only [resetPlayersForPhase, List.mem_map] at he
  obtain ⟨e0, _, rfl⟩ := he
  rfl

theorem resetPlayerReady_ready (m : Record PlayerState) :
    (∀ e ∈ resetPlayerReady m, e.2.ready = false) ∧ (resetPlayerReady m).length = m.length := by
  refine ⟨?_, by simp [resetPlayerReady]⟩
  intro e he
  simp only [resetPlayerReady, List.mem_map] at he
  obtain ⟨e0, _, rfl⟩ := he
  rfl

theorem advanceStage_fired {rng : Rng} {s s1 : GameState}
    (hready : ∀ e ∈ s.players, e.2.ready = true) (hcount : 2 ≤ s.players.length)
    (h : advanceStage rng s = .ok s1) :
    (∀ e ∈ s1.players, e.2.ready = false) ∧ s1.players.length = s.players.length := by
  by_cases hphase : s.phase = .start ∨ s.phase = .resolved
  · by_cases hpool : s.remaining = []
    · rw [advanceStage_finish rng s hready hcount hphase hpool] at h
      cases h
      exact resetPlayersForPhase_ready s.players
    · rw [advanceStage_draw rng s hready hcount hphase hpool] at h
      cases h
      exact resetPlayersForPhase_ready s.players
  · by_cases hcat : s.phase = .category
    · rw [advanceStage_category rng s hready hcount hcat] at h
      cases h
      exact resetPlayerReady_ready s.players
    · have hres : s.phase = .answer ∨ s.phase = .done := by
        cases hp : s.phase <;> simp_all
      rw [advanceStage_resolve rng s hready hcount hres] at h
      split at h
      · cases h
      · rename_i players1 hp
        cases h
        exact ⟨applyEffects_ready hp, length_eq_of_keys_eq (applyEffects_keys hp)⟩

/-- C9: whenever `advanceStage` completes, a transition it performed (all ready, at
least two players) has left every player with ready false, and a second `advanceStage`
without an update in between, on any random stream, changes nothing. -/
theorem advanceStage_twice (r1 r2 : Rng) (s s1 : GameState)
    (h : advanceStage r1 s = .ok s1) :
    (((∀ e ∈ s.players, e.2.ready = true) ∧ 2 ≤ s.players.length) →
        ∀ e ∈ s1.players, e.2.ready = false) ∧
    advanceStage r2 s1 = .ok s1 := by
  by_cases hg : (∃ e ∈ s.players, e.2.ready = false) ∨ s.players.length < 2
  · rw [advanceStage_of_not_ready r1 s hg] at h
    cases h
    refine ⟨?_, advanceStage_of_not_ready r2 s hg⟩
    rintro ⟨hready, hcount⟩
    rcases hg with ⟨e, he, hr⟩ | hlt
    · rw [hready e he] at hr
      cases hr
    · omega
  · have hready : ∀ e ∈ s.players, e.2.ready = true := by
      intro e he
      by_contra hr
      exact hg (Or.inl ⟨e, he, by simpa using hr⟩)
    have hcount : 2 ≤ s.players.length := by
      by_contra hc
      exact hg (Or.inr (by omega))
    obtain ⟨hr1, hlen⟩ := advanceStage_fired hready hcount h
    refine ⟨fun _ => hr1, advanceStage_of_not_ready r2 s1 (Or.inl ?_)⟩
    cases hps : s1.players with
    | nil =>
      rw [hps] at hlen
      simp at hlen
      omega
    | cons e rest =>
      exact ⟨e, List.mem_cons_self _ _, hr1 e (by rw [hps]; exact List.mem_cons_self _ _)⟩


theorem advanceStage_twice_witness :
    (((∀ e ∈ (sampleState .category []).players, e.2.ready = true) ∧
        2 ≤ (sampleState .category []).players.length) →
      ∀ e ∈ resetPlayerReady (sampleState .category []).players, e.2.ready = false) ∧
    advanceStage zeroRng
        { sampleState .category [] with
            phase := .answer, players := resetPlayerReady (sampleState .category []).players }
      = .ok { sampleState .category [] with
            phase := .answer, players := resetPlayerReady (sampleState .category []).players } :=
  advanceStage_twice zeroRng zeroRng (sampleState .category [])
    { sampleState .category [] with
        phase := .answer, players := resetPlayerReady (sampleState .category []).players } rfl

/-! ## The inverse map only shrinks after the collection loop -/

theorem GameEffects.get_put {T : Type} (e : GameEffects T) (k k1 : EffectKind) (v : Option T) :
    (e.put k v).get k1 = if k = k1 then v else e.get k1 := by
  cases k <;> cases k1 <;> simp [GameEffects.put, GameEffects.get]

theorem GameEffects.sub_refl {T : Type} (e : GameEffects T) : e.Sub e :=
  fun _ => Or.inr rfl

theorem GameEffects.sub_trans {T : Type} {e1 e2 e3 : GameEffects T} (h12 : e1.Sub e2)
    (h23 : e2.Sub e3) : e1.Sub e3 := by
  intro kind
  rcases h12 kind with h | h
  · exact Or.inl h
  · rcases h23 kind with h1 | h1
    · exact Or.inl (h.trans h1)
    · exact Or.inr (h.trans h1)

theorem GameEffects.sub_put_none {T : Type} (e : GameEffects T) (k : EffectKind) :
    (e.put k none).Sub e := by
  intro kind
  rw [GameEffects.get_put]
  by_cases h : k = kind
  · simp [h]
  · simp [h]

theorem shrinks_refl (a : AppliedTo) : Shrinks a a :=
  fun _ inbox1 h => ⟨inbox1, h, GameEffects.sub_refl _⟩

theorem shrinks_trans {a1 a2 a3 : AppliedTo} (h12 : Shrinks a1 a2) (h23 : Shrinks a2 a3) :
    Shrinks a1 a3 := by
  intro k inbox3 h3
  obtain ⟨inbox2, h2, s32⟩ := h23 k inbox3 h3
  obtain ⟨inbox1, h1, s21⟩ := h12 k inbox2 h2
  exact ⟨inbox1, h1, GameEffects.sub_trans s32 s21⟩

theorem shrinks_erase (a : AppliedTo) (k : String) : Shrinks a (a.erase k) := by
  intro k1 inbox1 h
  rw [Record.get?_erase] at h
  split at h
  · cases h
  · exact ⟨inbox1, h, GameEffects.sub_refl _⟩

theorem shrinks_set {a : AppliedTo} {k : String} {inbox inbox1 : GameEffects (List String)}
    (hk : a.get? k = some inbox) (hs : inbox1.Sub inbox) : Shrinks a (a.set k inbox1) := by
  intro k1 inbox2 h
  rw [Record.get?_set] at h
  split at h
  · rename_i hkk
    cases h
    exact ⟨inbox, hkk ▸ hk, hs⟩
  · exact ⟨inbox2, h, GameEffects.sub_refl _⟩

theorem shrinks_get?_none {a a1 : AppliedTo} (h : Shrinks a a1) {k : String}
    (hk : a.get? k = none) : a1.get? k = none := by
  cases h1 : a1.get? k with
  | none => rfl
  | some inbox1 =>
    obtain ⟨inbox, hi, _⟩ := h k inbox1 h1
    rw [hk] at hi
    cases hi

theorem notInvolved_shrinks {name : String} {a a1 : AppliedTo} (hn : NotInvolved name a)
    (h : Shrinks a a1) : NotInvolved name a1 := by
  refine ⟨shrinks_get?_none h hn.1, ?_⟩
  intro k inbox1 hk kind l hl
  obtain ⟨inbox, hi, hs⟩ := h k inbox1 hk
  rcases hs kind with h0 | h0
  · rw [h0] at hl
    cases hl
  · exact hn.2 k inbox hi kind l (h0 ▸ hl)

theorem notInvolved_set {name : String} {a : AppliedTo} (hn : NotInvolved name a) {k : String}
    {inbox : GameEffects (List String)} (hk : k ≠ name)
    (hi : ∀ kind l, inbox.get kind = some l → name ∉ l) : NotInvolved name (a.set k inbox) := by
  refine ⟨by rw [Record.get?_set_ne a inbox hk]; exact hn.1, ?_⟩
  intro k1 inbox1 h1
  rw [Record.get?_set] at h1
  split at h1
  · cases h1
    exact hi
  · exact hn.2 k1 inbox1 h1

theorem collectEffect_notInvolved {P : String} {a : AppliedTo} (hn : NotInvolved P a)
    (name : String) (player : PlayerState) (effect : EffectKind)
    (htarget : player.effects.get effect ≠ some P)
    (hself : name = P → player.effects.get effect = none) :
    NotInvolved P (collectEffect name player a effect) := by
  unfold collectEffect
  split
  · exact hn
  · rename_i victim hv
    have hvP : victim ≠ P := fun hc => htarget (hc ▸ hv)
    have hname : name ≠ P := fun hc => by
      rw [hself hc] at hv
      cases hv
    have h1 : NotInvolved P (if a.has victim then a else a.set victim {}) := by
      split
      · exact hn
      · refine notInvolved_set hn hvP ?_
        intro kind l hl
        cases kind <;> cases hl
    dsimp only
    split
    · exact h1
    · rename_i applied happlied
      refine notInvolved_set h1 hvP ?_
      have happ : ∀ kind l, applied.get kind = some l → P ∉ l := h1.2 victim applied happlied
      have happ1 : ∀ kind l,
          (if (applied.get effect).isSome then applied
            else applied.put effect (some [])).get kind = some l → P ∉ l := by
        intro kind l hl
        split at hl
        · exact happ kind l hl
        · rw [GameEffects.get_put] at hl
          split at hl
          · cases hl
            simp
          · exact happ kind l hl
      intro kind l hl
      rw [GameEffects.get_put] at hl
      split at hl
      · cases hl
        intro hmem
        rcases List.mem_append.mp hmem with hm | hm
        · cases hg : (if (applied.get effect).isSome then applied
              else applied.put effect (some [])).get effect with
          | none =>
            rw [hg] at hm
            simp at hm
          | some l0 =>
            rw [hg] at hm
            exact happ1 effect l0 hg (by simpa using hm)
        · have hPn : P = name := by simpa using hm
          exact hname hPn.symm
      · exact happ1 kind l hl

theorem collectKinds_notInvolved {P : String} (name : String) (player : PlayerState)
    (kinds : List EffectKind)
    (htarget : ∀ kind ∈ kinds, player.effects.get kind ≠ some P)
    (hself : name = P → ∀ kind ∈ kinds, player.effects.get kind = none) :
    ∀ a : AppliedTo, NotInvolved P a →
      NotInvolved P (kinds.foldl (collectEffect name player) a) := by
  induction kinds with
  | nil => exact fun a hn => hn
  | cons kind kinds ih =>
    intro a hn
    simp only [List.foldl_cons]
    refine ih (fun k hk => htarget k (List.mem_cons_of_mem _ hk))
      (fun hc k hk => hself hc k (List.mem_cons_of_mem _ hk)) _ ?_
    exact collectEffect_notInvolved hn name player kind
      (htarget kind (List.mem_cons_self _ _)) (fun hc => hself hc kind (List.mem_cons_self _ _))

theorem collectApplied_notInvolved {P : String} (players : Record PlayerState)
    (htarget : ∀ e ∈ players, ∀ kind ∈ targetedKinds, e.2.effects.get kind ≠ some P)
    (hself : ∀ e ∈ players, e.1 = P → ∀ kind ∈ targetedKinds, e.2.effects.get kind = none) :
    NotInvolved P (collectApplied players) := by
  unfold collectApplied
  have key : ∀ (l : Record PlayerState), (∀ e ∈ l, e ∈ players) → ∀ a : AppliedTo,
      NotInvolved P a → NotInvolved P
        (l.foldl (fun appliedTo e => targetedKinds.foldl (collectEffect e.1 e.2) appliedTo) a) := by
    intro l
    induction l with
    | nil => exact fun _ a hn => hn
    | cons e l ih =>
      intro hl a hn
      simp only [List.foldl_cons]
      refine ih (fun x hx => hl x (List.mem_cons_of_mem _ hx)) _ ?_
      have he := hl e (List.mem_cons_self _ _)
      exact collectKinds_notInvolved e.1 e.2 targetedKinds (htarget e he) (hself e he) a hn
  refine key players (fun _ h => h) [] ⟨rfl, ?_⟩
  intro k inbox hk
  cases hk

theorem GameEffects.sub_swap_none {T : Type} (e : GameEffects T) :
    GameEffects.Sub { e with swap := none } e := e.sub_put_none .swap

theorem GameEffects.sub_steal_none {T : Type} (e : GameEffects T) :
    GameEffects.Sub { e with steal := none } e := e.sub_put_none .steal

theorem GameEffects.sub_min_none {T : Type} (e : GameEffects T) :
    GameEffects.Sub { e with min := none } e := e.sub_put_none .min

theorem GameEffects.sub_max_none {T : Type} (e : GameEffects T) :
    GameEffects.Sub { e with max := none } e := e.sub_put_none .max

theorem chooseMinMax_sub (applied : GameEffects (List String)) (rng : Rng) :
    (chooseMinMax applied rng).1.Sub applied := by
  unfold chooseMinMax
  repeat' split
  all_goals first
    | exact GameEffects.sub_refl _
    | exact GameEffects.sub_min_none _
    | exact GameEffects.sub_max_none _

theorem chooseMinMax_steal (applied : GameEffects (List String)) (rng : Rng) :
    (chooseMinMax applied rng).1.steal = applied.steal := by
  unfold chooseMinMax
  repeat' split
  all_goals rfl

theorem resolveInbox_sub (player : PlayerState) (applied : GameEffects (List String))
    (rng : Rng) : (resolveInbox player applied rng).2.1.Sub applied := by
  unfold resolveInbox
  dsimp only
  repeat' split
  all_goals first
    | exact GameEffects.sub_refl _
    | exact GameEffects.sub_swap_none _
    | exact chooseMinMax_sub _ _
    | exact GameEffects.sub_trans (chooseMinMax_sub _ _) (GameEffects.sub_swap_none _)

theorem resolveInbox_steal (player : PlayerState) (applied : GameEffects (List String))
    (rng : Rng) : (resolveInbox player applied rng).2.1.steal = applied.steal := by
  unfold resolveInbox
  dsimp only
  repeat' split
  all_goals first
    | rfl
    | exact chooseMinMax_steal _ _

/-- The inverse map after the second-loop body for `name`: the inbox of `name` is
deleted when `name` declared protect, and otherwise it loses at most some kinds, but not
its steal list. -/
theorem resolvePlayer_appliedTo (name : String) (player : PlayerState) (a : AppliedTo)
    (rng : Rng) :
    (player.effects.protect.isSome = true ∧
        (resolvePlayer name player a rng).2.1 = a.erase name) ∨
    (a.get? name = none ∧ (resolvePlayer name player a rng).2.1 = a) ∨
    (∃ applied inbox1, a.get? name = some applied ∧ inbox1.Sub applied ∧
        inbox1.steal = applied.steal ∧
        (resolvePlayer name player a rng).2.1 = a.set name inbox1) := by
  unfold resolvePlayer
  dsimp only
  split
  · rename_i h
    rw [resetForResolution_effects] at h
    exact Or.inl ⟨h, rfl⟩
  · split
    · rename_i h
      exact Or.inr (Or.inl ⟨h, rfl⟩)
    · rename_i applied h
      exact Or.inr (Or.inr ⟨applied, _, h, resolveInbox_sub _ _ _, resolveInbox_steal _ _ _, rfl⟩)

theorem resolvePlayer_shrinks (name : String) (player : PlayerState) (a : AppliedTo)
    (rng : Rng) : Shrinks a (resolvePlayer name player a rng).2.1 := by
  rcases resolvePlayer_appliedTo name player a rng with
    ⟨_, h⟩ | ⟨_, h⟩ | ⟨applied, inbox1, hget, hsub, _, h⟩
  · rw [h]
    exact shrinks_erase _ _
  · rw [h]
    exact shrinks_refl _
  · rw [h]
    exact shrinks_set hget hsub

theorem resolvePlayers_shrinks (players : Record PlayerState) (a : AppliedTo) (rng : Rng) :
    Shrinks a (resolvePlayers players a rng).2.1 := by
  induction players generalizing a rng with
  | nil => exact shrinks_refl _
  | cons e rest ih =>
    obtain ⟨name, player⟩ := e
    simp only [resolvePlayers]
    exact shrinks_trans (resolvePlayer_shrinks name player a rng) (ih _ _)

theorem resolvePlayer_untargeted {name : String} {player : PlayerState} {a : AppliedTo}
    (rng : Rng) (hexpose : player.effects.expose = none)
    (hprotect : player.effects.protect = none) (ha : a.get? name = none) :
    (resolvePlayer name player a rng).1 =
      { player with applied := {}, payout := player.confidence, delta := 0, ready := false } := by
  unfold resolvePlayer resetForResolution
  simp [hexpose, hprotect, ha]

theorem resolvePlayers_get?_untargeted {P : String} {p : PlayerState}
    (hexpose : p.effects.expose = none) (hprotect : p.effects.protect = none) :
    ∀ (players : Record PlayerState) (a : AppliedTo) (rng : Rng),
      players.get? P = some p → a.get? P = none →
      (resolvePlayers players a rng).1.get? P =
        some { p with applied := {}, payout := p.confidence, delta := 0, ready := false } := by
  intro players
  induction players with
  | nil =>
    intro a rng hP
    simp [Record.get?] at hP
  | cons e rest ih =>
    obtain ⟨name, player⟩ := e
    intro a rng hP ha
    by_cases hn : name = P
    · subst hn
      simp only [Record.get?, if_true, Option.some.injEq] at hP
      subst hP
      simp only [resolvePlayers, Record.get?, if_true]
      rw [resolvePlayer_untargeted rng hexpose hprotect ha]
    · simp only [Record.get?, hn, if_false] at hP
      simp only [resolvePlayers, Record.get?, hn, if_false]
      exact ih _ _ hP (shrinks_get?_none (resolvePlayer_shrinks name player a rng) ha)

/-! ## Players outside the inverse map are untouched by steal and swap resolution -/

theorem clearSteal_shrinks (a : AppliedTo) (other : String) : Shrinks a (clearSteal a other) := by
  unfold clearSteal
  split
  · rename_i inbox h
    exact shrinks_set h (GameEffects.sub_steal_none _)
  · exact shrinks_refl _

theorem clearSwap_shrinks (a : AppliedTo) (other : String) : Shrinks a (clearSwap a other) := by
  unfold clearSwap
  split
  · rename_i inbox h
    exact shrinks_set h (GameEffects.sub_swap_none _)
  · exact shrinks_refl _

theorem stealStep_shrinks {st st1 : LoopState} (h : stealStep st = .ok st1) :
    Shrinks st.appliedTo st1.appliedTo := by
  obtain ⟨name, inbox, _, hget, _, hc⟩ := stealStep_ok h
  rcases hc with ⟨_, ha, _⟩ | ⟨thieves, thief, players1, _, _, _, _, ha⟩
  · rw [ha]
    exact shrinks_refl _
  · rw [ha]
    exact shrinks_trans (shrinks_set hget (GameEffects.sub_steal_none _)) (clearSteal_shrinks _ _)

theorem swapStep_shrinks {st st1 : LoopState} (h : swapStep st = .ok st1) :
    Shrinks st.appliedTo st1.appliedTo := by
  obtain ⟨name, inbox, _, hget, _, hc⟩ := swapStep_ok h
  rcases hc with ⟨_, ha, _⟩ | ⟨swaps, other, players1, _, _, _, _, ha⟩
  · rw [ha]
    exact shrinks_refl _
  · rw [ha]
    exact shrinks_trans (shrinks_set hget (GameEffects.sub_swap_none _)) (clearSwap_shrinks _ _)

theorem modifyPlayer_get?_ne {players players1 : Record PlayerState} {name k : String}
    {f : PlayerState → PlayerState} (h : modifyPlayer players name f = .ok players1)
    (hk : name ≠ k) : players1.get? k = players.get? k := by
  obtain ⟨p, _, rfl⟩ := modifyPlayer_ok h
  rw [Record.get?_replace]
  simp [hk]

theorem modifyPlayer_get?_self {players players1 : Record PlayerState} {name : String}
    {f : PlayerState → PlayerState} (h : modifyPlayer players name f = .ok players1) :
    players1.get? name = (players.get? name).map f := by
  obtain ⟨p, hp, rfl⟩ := modifyPlayer_ok h
  rw [Record.get?_replace]
  simp [hp]

theorem stealPoints_get?_ne {players players1 : Record PlayerState} {name thief k : String}
    (h : stealPoints players name thief = .ok players1) (hn : name ≠ k) (ht : thief ≠ k) :
    players1.get? k = players.get? k := by
  obtain ⟨pt, pn, pn1, _, _, _, rfl⟩ := stealPoints_ok h
  rw [Record.get?_replace, Record.get?_replace]
  simp [hn, ht]

theorem swapPoints_get?_ne {players players1 : Record PlayerState} {name other k : String}
    (h : swapPoints players name other = .ok players1) (hn : name ≠ k) (ho : other ≠ k) :
    players1.get? k = players.get? k := by
  obtain ⟨pn, po, p1, p2, p3, _, _, h1, h2, h3, h4⟩ := swapPoints_ok h
  rw [modifyPlayer_get?_ne h4 ho, modifyPlayer_get?_ne h3 ho, modifyPlayer_get?_ne h2 hn,
    modifyPlayer_get?_ne h1 hn]

theorem stealStep_get?_notInvolved {P : String} {st st1 : LoopState}
    (h : stealStep st = .ok st1) (hn : NotInvolved P st.appliedTo) (hp : P ∉ st.pending) :
    st1.players.get? P = st.players.get? P := by
  obtain ⟨name, inbox, hmem, hget, _, hc⟩ := stealStep_ok h
  rcases hc with ⟨_, _, hpl⟩ | ⟨thieves, thief, players1, hsteal, hthief, h1, h2, _⟩
  · rw [hpl]
  · have hname : name ≠ P := fun hc => hp (hc ▸ List.getElem?_mem hmem)
    have hth : thief ≠ P := fun hc => hn.2 name inbox hget .steal thieves hsteal (hc ▸ hthief)
    split at h2
    · rw [modifyPlayer_get?_ne h2 hth, modifyPlayer_get?_ne h1 hname]
    · rw [stealPoints_get?_ne h2 hname hth, modifyPlayer_get?_ne h1 hname]

theorem swapStep_get?_notInvolved {P : String} {st st1 : LoopState}
    (h : swapStep st = .ok st1) (hn : NotInvolved P st.appliedTo) (hp : P ∉ st.pending) :
    st1.players.get? P = st.players.get? P := by
  obtain ⟨name, inbox, hmem, hget, _, hc⟩ := swapStep_ok h
  rcases hc with ⟨_, _, hpl⟩ | ⟨swaps, other, players1, hswap, hother, h1, h2, _⟩
  · rw [hpl]
  · have hname : name ≠ P := fun hc => hp (hc ▸ List.getElem?_mem hmem)
    have hth : other ≠ P := fun hc => hn.2 name inbox hget .swap swaps hswap (hc ▸ hother)
    split at h2
    · rw [modifyPlayer_get?_ne h2 hth, modifyPlayer_get?_ne h1 hname]
    · rw [swapPoints_get?_ne h2 hname hth, modifyPlayer_get?_ne h1 hname]

theorem stealStep_pending {st st1 : LoopState} (h : stealStep st = .ok st1) :
    ∀ k ∈ st1.pending, k ∈ st.pending := by
  obtain ⟨name, inbox, _, _, hpend, _⟩ := stealStep_ok h
  intro k hk
  rw [hpend] at hk
  exact List.mem_of_mem_eraseIdx hk

theorem swapStep_pending {st st1 : LoopState} (h : swapStep st = .ok st1) :
    ∀ k ∈ st1.pending, k ∈ st.pending := by
  obtain ⟨name, inbox, _, _, hpend, _⟩ := swapStep_ok h
  intro k hk
  rw [hpend] at hk
  exact List.mem_of_mem_eraseIdx hk

theorem stealLoop_notInvolved {P : String} {fuel : Nat} {st st1 : LoopState}
    (h : stealLoop fuel st = .ok st1) (hn : NotInvolved P st.appliedTo) (hp : P ∉ st.pending) :
    NotInvolved P st1.appliedTo ∧ st1.players.get? P = st.players.get? P := by
  have key := stealLoop_invariant
    (fun s => NotInvolved P s.appliedTo ∧ P ∉ s.pending ∧ s.players.get? P = st.players.get? P)
    (fun s s1 hI hs => ⟨notInvolved_shrinks hI.1 (stealStep_shrinks hs),
      fun hc => hI.2.1 (stealStep_pending hs P hc),
      (stealStep_get?_notInvolved hs hI.1 hI.2.1).trans hI.2.2⟩)
    fuel st st1 ⟨hn, hp, rfl⟩ h
  exact ⟨key.1, key.2.2⟩

theorem swapLoop_notInvolved {P : String} {fuel : Nat} {st st1 : LoopState}
    (h : swapLoop fuel st = .ok st1) (hn : NotInvolved P st.appliedTo) (hp : P ∉ st.pending) :
    NotInvolved P st1.appliedTo ∧ st1.players.get? P = st.players.get? P := by
  have key := swapLoop_invariant
    (fun s => NotInvolved P s.appliedTo ∧ P ∉ s.pending ∧ s.players.get? P = st.players.get? P)
    (fun s s1 hI hs => ⟨notInvolved_shrinks hI.1 (swapStep_shrinks hs),
      fun hc => hI.2.1 (swapStep_pending hs P hc),
      (swapStep_get?_notInvolved hs hI.1 hI.2.1).trans hI.2.2⟩)
    fuel st st1 ⟨hn, hp, rfl⟩ h
  exact ⟨key.1, key.2.2⟩

theorem get?_commitScores (m : Record PlayerState) (k : String) :
    (commitScores m).get? k =
      (m.get? k).map (fun p => { p with score := max 0 (p.score + p.delta) }) :=
  Record.get?_map m (fun p => { p with score := max 0 (p.score + p.delta) }) k

theorem get?_computeDeltas (m : Record PlayerState) (k : String) :
    (computeDeltas m).get? k = (m.get? k).map computeDelta :=
  Record.get?_map m computeDelta k

/-- The record of a player without declared effects whom nobody targets, after a
completed `applyEffects`. -/
theorem applyEffects_get?_untargeted {rng : Rng} {players players1 : Record PlayerState}
    {P : String} {p : PlayerState} (hnd : players.keys.Nodup) (hP : players.get? P = some p)
    (hnone : p.effects = {})
    (htarget : ∀ e ∈ players, ∀ kind ∈ targetedKinds, e.2.effects.get kind ≠ some P)
    (h : applyEffects rng players = .ok players1) :
    players1.get? P = some { p with
      applied := {}, payout := p.confidence, ready := false,
      delta := if p.correct then p.confidence else -p.confidence,
      score := max 0 (p.score + (if p.correct then p.confidence else -p.confidence)) } := by
  obtain ⟨st, st1, h1, h2, rfl⟩ := applyEffects_ok h
  have hself : ∀ e ∈ players, e.1 = P → ∀ kind ∈ targetedKinds, e.2.effects.get kind = none := by
    intro e he hk kind _
    have : players.get? e.1 = some e.2 := Record.get?_of_mem hnd he
    rw [hk, hP] at this
    cases this
    rw [hnone]
    cases kind <;> rfl
  have hc := collectApplied_notInvolved players htarget hself
  have hr : NotInvolved P (resolvePlayers players (collectApplied players) rng).2.1 :=
    notInvolved_shrinks hc (resolvePlayers_shrinks _ _ _)
  have hexpose : p.effects.expose = none := by rw [hnone]
  have hprotect : p.effects.protect = none := by rw [hnone]
  have hdouble : p.effects.double = none := by rw [hnone]
  have hg := resolvePlayers_get?_untargeted hexpose hprotect players (collectApplied players)
    rng hP hc.1
  unfold afterSteal at h1
  have hs := stealLoop_notInvolved h1 hr ((Record.get?_eq_none_iff _ _).mp hr.1)
  have hsw := swapLoop_notInvolved h2 hs.1 ((Record.get?_eq_none_iff _ _).mp hs.1.1)
  have hb : (beforeSteal rng players).players.get? P =
      ((resolvePlayers players (collectApplied players) rng).1.get? P).map computeDelta :=
    get?_computeDeltas _ _
  rw [hsw.2, get?_commitScores, hs.2, hb, hg]
  simp [computeDelta, hdouble]

/-- C1: whenever `applyEffects` completes, a player `P` who declared no effect and whom
no player's targeted effect (fail, swap, zero, min, max, steal) names ends with score
`max(0, score + confidence)` if `P.correct` is true and `max(0, score - confidence)` if
it is false. -/
theorem applyEffects_plain_player_score (rng : Rng) (players players1 : Record PlayerState)
    (P : String) (p : PlayerState) (hnd : players.keys.Nodup)
    (hP : players.get? P = some p) (hnone : p.effects = {})
    (htarget : ∀ e ∈ players, ∀ kind ∈ targetedKinds, e.2.effects.get kind ≠ some P)
    (h : applyEffects rng players = .ok players1) :
    ∃ p1, players1.get? P = some p1 ∧
      (p.correct = true → p1.score = max 0 (p.score + p.confidence)) ∧
      (p.correct = false → p1.score = max 0 (p.score - p.confidence)) := by
  refine ⟨_, applyEffects_get?_untargeted hnd hP hnone htarget h, ?_, ?_⟩
  · intro hc
    simp [hc]
  · intro hc
    simp [hc, sub_eq_add_neg]

theorem applyEffects_plain_player_score_witness :
    ∃ p1, plainRoundResult.get? "A" = some p1 ∧
      ((samplePlayer true 2 true 5 {}).correct = true →
        p1.score = max 0 ((samplePlayer true 2 true 5 {}).score +
          (samplePlayer true 2 true 5 {}).confidence)) ∧
      ((samplePlayer true 2 true 5 {}).correct = false →
        p1.score = max 0 ((samplePlayer true 2 true 5 {}).score -
          (samplePlayer true 2 true 5 {}).confidence)) :=
  applyEffects_plain_player_score zeroRng plainRound plainRoundResult "A"
    (samplePlayer true 2 true 5 {}) (by decide) rfl rfl (by decide) rfl

/-! ## What the collection loop records -/

theorem Record.replace_replace {α : Type} (m : Record α) (k : String) (v w : α) :
    (m.replace k v).replace k w = m.replace k w := by
  induction m with
  | nil => rfl
  | cons e rest ih =>
    obtain ⟨k0, v0⟩ := e
    by_cases h0 : k0 = k <;> simp [Record.replace, h0, ih]

theorem Record.insertNew_replace {α : Type} (m : Record α) (k : String) (v w : α)
    (h : m.get? k = none) : (m.insertNew k v).replace k w = m.insertNew k w := by
  induction m with
  | nil => simp [Record.insertNew, Record.replace]
  | cons e rest ih =>
    obtain ⟨k0, v0⟩ := e
    have h0 : k0 ≠ k := by
      intro hk
      simp [Record.get?, hk] at h
    have hr : Record.get? rest k = none := by
      simpa [Record.get?, h0] using h
    simp only [Record.insertNew]
    split
    · split <;> simp [Record.replace, h0, ih hr]
    · simp [Record.replace]
    · simp [Record.replace, h0, ih hr]

theorem Record.set_set {α : Type} (m : Record α) (k : String) (v w : α) :
    (m.set k v).set k w = m.set k w := by
  have h1 : (m.set k v).has k = true := by
    simp [Record.has, Record.get?_set_self]
  rw [Record.set, h1, if_pos rfl]
  unfold Record.set Record.has
  cases hk : m.get? k with
  | none => simpa using Record.insertNew_replace m k v w hk
  | some u => simpa using Record.replace_replace m k v w

theorem GameEffects.put_put {T : Type} (e : GameEffects T) (k : EffectKind) (v w : Option T) :
    (e.put k v).put k w = e.put k w := by
  cases k <;> rfl

theorem GameEffects.put_get {T : Type} (e : GameEffects T) (k : EffectKind) :
    e.put k (e.get k) = e := by
  cases k <;> rfl

theorem collectEffect_eq (name : String) (player : PlayerState) (a : AppliedTo)
    (effect : EffectKind) :
    collectEffect name player a effect =
      match player.effects.get effect with
      | none => a
      | some victim => a.set victim (pushAttacker ((a.get? victim).getD {}) effect name) := by
  unfold collectEffect pushAttacker
  split
  · rfl
  · rename_i victim hv
    cases ha : a.get? victim with
    | none =>
      simp only [Record.has, ha, Option.isSome_none, Bool.false_eq_true, if_false,
        Record.get?_set_self, Option.getD_none]
      rw [Record.set_set]
      cases effect <;> rfl
    | some inbox =>
      simp only [Record.has, ha, Option.isSome_some, if_true, Option.getD_some]
      cases hg : inbox.get effect with
      | none =>
        simp only [Option.isSome_none, Bool.false_eq_true, if_false, GameEffects.get_put,
          if_true, Option.getD_some, Option.getD_none, GameEffects.put_put]
      | some l =>
        simp only [Option.isSome_some, if_true, hg]

theorem attacks_set (a : AppliedTo) (victim : String) (inbox : GameEffects (List String))
    (v : String) (k : EffectKind) (x : String) :
    Attacks (a.set victim inbox) v k x ↔
      if victim = v then (∃ l, inbox.get k = some l ∧ x ∈ l) else Attacks a v k x := by
  unfold Attacks
  simp only [Record.get?_set]
  split
  · constructor
    · rintro ⟨inbox1, l, h1, h2, h3⟩
      cases h1
      exact ⟨l, h2, h3⟩
    · rintro ⟨l, h2, h3⟩
      exact ⟨inbox, l, rfl, h2, h3⟩
  · rfl

theorem attacks_getD (a : AppliedTo) (v : String) (k : EffectKind) (x : String) :
    (∃ l, ((a.get? v).getD {}).get k = some l ∧ x ∈ l) ↔ Attacks a v k x := by
  unfold Attacks
  cases ha : a.get? v with
  | none =>
    simp only [Option.getD_none]
    constructor
    · rintro ⟨l, h, _⟩
      cases k <;> cases h
    · rintro ⟨inbox, l, h, _⟩
      cases h
  | some inbox =>
    simp only [Option.getD_some]
    constructor
    · rintro ⟨l, h1, h2⟩
      exact ⟨inbox, l, rfl, h1, h2⟩
    · rintro ⟨inbox1, l, h0, h1, h2⟩
      cases h0
      exact ⟨l, h1, h2⟩

theorem collectEffect_attacks (name : String) (player : PlayerState) (a : AppliedTo)
    (effect : EffectKind) (v : String) (k : EffectKind) (x : String) :
    Attacks (collectEffect name player a effect) v k x ↔
      Attacks a v k x ∨ (player.effects.get effect = some v ∧ k = effect ∧ x = name) := by
  rw [collectEffect_eq]
  cases hv : player.effects.get effect with
  | none => simp
  | some victim =>
    simp only [attacks_set, Option.some.injEq]
    by_cases hvv : victim = v
    · subst hvv
      simp only [if_true, true_and]
      by_cases hk : effect = k
      · subst hk
        simp only [pushAttacker, GameEffects.get_put, if_true, Option.some.injEq, true_and]
        rw [← attacks_getD a victim effect x]
        cases hg : ((a.get? victim).getD {}).get effect with
        | none => simp
        | some l => simp
      · have hk1 : ¬ k = effect := fun hc => hk hc.symm
        simp only [pushAttacker, GameEffects.get_put, hk, if_false, hk1, false_and, or_false]
        exact attacks_getD a victim k x
    · simp [hvv]

theorem collectKinds_attacks (name : String) (player : PlayerState) (kinds : List EffectKind)
    (v : String) (k : EffectKind) (x : String) :
    ∀ a : AppliedTo, Attacks (kinds.foldl (collectEffect name player) a) v k x ↔
      Attacks a v k x ∨ (k ∈ kinds ∧ player.effects.get k = some v ∧ x = name) := by
  induction kinds with
  | nil => simp
  | cons kind kinds ih =>
    intro a
    simp only [List.foldl_cons]
    rw [ih, collectEffect_attacks]
    constructor
    · rintro ((h | ⟨h1, h2, h3⟩) | ⟨h1, h2, h3⟩)
      · exact Or.inl h
      · exact Or.inr ⟨by simp [h2], h2 ▸ h1, h3⟩
      · exact Or.inr ⟨List.mem_cons_of_mem _ h1, h2, h3⟩
    · rintro (h | ⟨h1, h2, h3⟩)
      · exact Or.inl (Or.inl h)
      · rcases List.mem_cons.mp h1 with h1 | h1
        · exact Or.inl (Or.inr ⟨h1 ▸ h2, h1, h3⟩)
        · exact Or.inr ⟨h1, h2, h3⟩

theorem collectPlayers_attacks (v : String) (k : EffectKind) (x : String) :
    ∀ (players : Record PlayerState) (a : AppliedTo),
      Attacks (players.foldl
          (fun appliedTo e => targetedKinds.foldl (collectEffect e.1 e.2) appliedTo) a) v k x ↔
        Attacks a v k x ∨
          (k ∈ targetedKinds ∧ ∃ e ∈ players, e.1 = x ∧ e.2.effects.get k = some v) := by
  intro players
  induction players with
  | nil => simp
  | cons e rest ih =>
    intro a
    simp only [List.foldl_cons]
    rw [ih, collectKinds_attacks]
    constructor
    · rintro ((h | ⟨h1, h2, h3⟩) | ⟨h1, e1, he1, h2, h3⟩)
      · exact Or.inl h
      · exact Or.inr ⟨h1, e, List.mem_cons_self _ _, h3.symm, h2⟩
      · exact Or.inr ⟨h1, e1, List.mem_cons_of_mem _ he1, h2, h3⟩
    · rintro (h | ⟨h1, e1, he1, h2, h3⟩)
      · exact Or.inl (Or.inl h)
      · rcases List.mem_cons.mp he1 with he | he
        · subst he
          exact Or.inl (Or.inr ⟨h1, h3, h2.symm⟩)
        · exact Or.inr ⟨h1, e1, he, h2, h3⟩

/-- The inverse map lists `x` under `k` for `v` exactly when `k` is a targeted kind and a
player named `x` declared `k` against `v`. -/
theorem collectApplied_attacks (players : Record PlayerState) (v : String) (k : EffectKind)
    (x : String) :
    Attacks (collectApplied players) v k x ↔
      k ∈ targetedKinds ∧ ∃ e ∈ players, e.1 = x ∧ e.2.effects.get k = some v := by
  unfold collectApplied
  rw [collectPlayers_attacks]
  constructor
  · rintro (⟨inbox, l, h, _⟩ | h)
    · cases h
    · exact h
  · exact Or.inr

/-! ## Mutual steal -/

theorem attacks_of_shrinks {a a1 : AppliedTo} (h : Shrinks a a1) {k : String}
    {kind : EffectKind} {x : String} (hx : Attacks a1 k kind x) : Attacks a k kind x := by
  obtain ⟨inbox1, l, h1, h2, h3⟩ := hx
  obtain ⟨inbox, hi, hs⟩ := h k inbox1 h1
  rcases hs kind with h0 | h0
  · rw [h0] at h2
    cases h2
  · exact ⟨inbox, l, hi, h0 ▸ h2, h3⟩

theorem attacks_congr {a a1 : AppliedTo} {k : String} (h : a1.get? k = a.get? k)
    (kind : EffectKind) (x : String) : Attacks a1 k kind x ↔ Attacks a k kind x := by
  unfold Attacks
  rw [h]

theorem mutualSteal_iff (a : AppliedTo) (other name : String) :
    mutualSteal a other name = true ↔ Attacks a other .steal name := by
  unfold mutualSteal Attacks
  cases ha : a.get? other with
  | none => simp
  | some inbox =>
    cases hs : inbox.steal with
    | none => simp [GameEffects.get, hs]
    | some l => simp [GameEffects.get, hs]

theorem clearSteal_get?_ne (a : AppliedTo) {other k : String} (h : other ≠ k) :
    (clearSteal a other).get? k = a.get? k := by
  unfold clearSteal
  split
  · exact Record.get?_set_ne a _ h
  · rfl

theorem clearSteal_no_attack (a : AppliedTo) (other x : String) :
    ¬ Attacks (clearSteal a other) other .steal x := by
  unfold clearSteal
  rintro ⟨inbox1, l, h1, h2, _⟩
  split at h1
  · rw [Record.get?_set_self] at h1
    cases h1
    cases h2
  · rename_i hn
    rw [hn] at h1
    cases h1

theorem set_steal_none_no_attack (a : AppliedTo) (name x : String)
    (inbox : GameEffects (List String)) :
    ¬ Attacks (a.set name { inbox with steal := none }) name .steal x := by
  rintro ⟨inbox1, l, h1, h2, _⟩
  rw [Record.get?_set_self] at h1
  cases h1
  cases h2

theorem modifyPlayer_deltaOf {players players1 : Record PlayerState} {name : String}
    {f : PlayerState → PlayerState} (h : modifyPlayer players name f = .ok players1)
    (hf : ∀ p, (f p).delta = p.delta) (k : String) :
    deltaOf players1 k = deltaOf players k := by
  unfold deltaOf
  by_cases hk : name = k
  · subst hk
    rw [modifyPlayer_get?_self h]
    cases players.get? name with
    | none => rfl
    | some p => simp [hf]
  · rw [modifyPlayer_get?_ne h hk]

theorem modifyPlayer_stolenBy_ne {players players1 : Record PlayerState} {name k : String}
    {f : PlayerState → PlayerState} (h : modifyPlayer players name f = .ok players1)
    (hk : name ≠ k) : stolenBy players1 k = stolenBy players k := by
  unfold stolenBy
  rw [modifyPlayer_get?_ne h hk]

theorem modifyPlayer_stolenBy_self {players players1 : Record PlayerState} {name t : String}
    (h : modifyPlayer players name
      (fun p => { p with applied := { p.applied with steal := some t } }) = .ok players1) :
    stolenBy players1 name = some t := by
  unfold stolenBy
  obtain ⟨p, hp, _⟩ := modifyPlayer_ok h
  rw [modifyPlayer_get?_self h, hp]
  rfl

theorem mem_eraseIdx_of_ne {l : List String} {i : Nat} {name x : String}
    (hi : l[i]? = some name) (hx : x ∈ l) (hne : name ≠ x) : x ∈ l.eraseIdx i := by
  rw [List.mem_eraseIdx_iff_getElem?]
  obtain ⟨j, hj⟩ := List.getElem?_of_mem hx
  refine ⟨j, ?_, hj⟩
  intro hji
  rw [hji, hi] at hj
  cases hj
  exact hne rfl

/-- The iteration that picks one of a mutually stealing pair whose entries are both
still open: no delta moves and both get marked. -/
theorem stealStep_pair {A B : String} (hAB : A ≠ B) {st st1 : LoopState}
    {inbox : GameEffects (List String)} {players1 : Record PlayerState}
    (hBA : Attacks st.appliedTo B .steal A)
    (h1 : modifyPlayer st.players A
      (fun p => { p with applied := { p.applied with steal := some B } }) = .ok players1)
    (h2 : (if mutualSteal (st.appliedTo.set A { inbox with steal := none }) B A then
        modifyPlayer players1 B
          (fun p => { p with applied := { p.applied with steal := some A } })
      else stealPoints players1 A B) = .ok st1.players)
    (ha : st1.appliedTo = clearSteal (st.appliedTo.set A { inbox with steal := none }) B) :
    deltaOf st1.players A = deltaOf st.players A ∧
    deltaOf st1.players B = deltaOf st.players B ∧
    stolenBy st1.players A = some B ∧ stolenBy st1.players B = some A ∧
    (∀ x, ¬ Attacks st1.appliedTo A .steal x) ∧ (∀ x, ¬ Attacks st1.appliedTo B .steal x) := by
  have hm : mutualSteal (st.appliedTo.set A { inbox with steal := none }) B A = true := by
    rw [mutualSteal_iff, attacks_congr (Record.get?_set_ne _ _ hAB)]
    exact hBA
  rw [if_pos hm] at h2
  refine ⟨?_, ?_, ?_, modifyPlayer_stolenBy_self h2, ?_, ?_⟩
  · rw [modifyPlayer_deltaOf h2 (fun _ => rfl), modifyPlayer_deltaOf h1 (fun _ => rfl)]
  · rw [modifyPlayer_deltaOf h2 (fun _ => rfl), modifyPlayer_deltaOf h1 (fun _ => rfl)]
  · rw [modifyPlayer_stolenBy_ne h2 (Ne.symm hAB)]
    exact modifyPlayer_stolenBy_self h1
  · intro x hx
    rw [ha, attacks_congr (clearSteal_get?_ne _ (Ne.symm hAB))] at hx
    exact set_steal_none_no_attack _ _ _ _ hx
  · intro x hx
    rw [ha] at hx
    exact clearSteal_no_attack _ _ _ hx

theorem stealPoints_deltaOf_ne {players players1 : Record PlayerState} {name thief k : String}
    (h : stealPoints players name thief = .ok players1) (hn : name ≠ k) (ht : thief ≠ k) :
    deltaOf players1 k = deltaOf players k ∧ stolenBy players1 k = stolenBy players k := by
  unfold deltaOf stolenBy
  rw [stealPoints_get?_ne h hn ht]
  exact ⟨rfl, rfl⟩

/-- An iteration of the steal loop that picks neither of the pair leaves the records of
both and both inboxes alone. -/
theorem stealStep_other {A B : String} {st st1 : LoopState} (hex : OnlyEachOther st.appliedTo A B)
    {name : String} {inbox : GameEffects (List String)}
    (hget : st.appliedTo.get? name = some inbox) (hA : name ≠ A) (hB : name ≠ B)
    (hc : (inbox.steal = none ∧ st1.appliedTo = st.appliedTo ∧ st1.players = st.players) ∨
       (∃ thieves thief players1, inbox.steal = some thieves ∧ thief ∈ thieves ∧
          modifyPlayer st.players name
            (fun p => { p with applied := { p.applied with steal := some thief } })
            = .ok players1 ∧
          (if mutualSteal (st.appliedTo.set name { inbox with steal := none }) thief name then
              modifyPlayer players1 thief
                (fun p => { p with applied := { p.applied with steal := some name } })
            else stealPoints players1 name thief) = .ok st1.players ∧
          st1.appliedTo =
            clearSteal (st.appliedTo.set name { inbox with steal := none }) thief)) :
    (∀ k, k = A ∨ k = B →
      deltaOf st1.players k = deltaOf st.players k ∧
      stolenBy st1.players k = stolenBy st.players k ∧
      st1.appliedTo.get? k = st.appliedTo.get? k) := by
  intro k hk
  have hnk : name ≠ k := by
    rcases hk with rfl | rfl
    · exact hA
    · exact hB
  rcases hc with ⟨_, ha, hp⟩ | ⟨thieves, thief, players1, hsteal, hthief, h1, h2, ha⟩
  · rw [ha, hp]
    exact ⟨rfl, rfl, rfl⟩
  · have hatt : Attacks st.appliedTo name .steal thief := ⟨inbox, thieves, hget, hsteal, hthief⟩
    obtain ⟨e1, e2⟩ := hex name thief hatt
    have htk : thief ≠ k := by
      rcases hk with rfl | rfl
      · exact fun hc => hB (e2.mpr hc)
      · exact fun hc => hA (e1.mpr hc)
    refine ⟨?_, ?_, ?_⟩
    · split at h2
      · rw [modifyPlayer_deltaOf h2 (fun _ => rfl), modifyPlayer_deltaOf h1 (fun _ => rfl)]
      · rw [(stealPoints_deltaOf_ne h2 hnk htk).1, modifyPlayer_deltaOf h1 (fun _ => rfl)]
    · split at h2
      · rw [modifyPlayer_stolenBy_ne h2 htk, modifyPlayer_stolenBy_ne h1 hnk]
      · rw [(stealPoints_deltaOf_ne h2 hnk htk).2, modifyPlayer_stolenBy_ne h1 hnk]
    · rw [ha, clearSteal_get?_ne _ htk, Record.get?_set_ne _ _ hnk]

theorem onlyEachOther_shrinks {a a1 : AppliedTo} {A B : String} (h : OnlyEachOther a A B)
    (hs : Shrinks a a1) : OnlyEachOther a1 A B :=
  fun k x hx => h k x (attacks_of_shrinks hs hx)

theorem onlyEachOther_symm {a : AppliedTo} {A B : String} (h : OnlyEachOther a A B) :
    OnlyEachOther a B A :=
  fun k x hx => ⟨(h k x hx).2, (h k x hx).1⟩

/-- Every completed iteration of the steal loop preserves the invariant of a mutually
stealing pair. -/
theorem stealStep_mutualInv {A B : String} (hAB : A ≠ B) (dA dB : Option Int)
    {st st1 : LoopState} (hI : MutualInv dA dB A B st) (h : stealStep st = .ok st1) :
    MutualInv dA dB A B st1 := by
  obtain ⟨hex, hdA, hdB, hphase⟩ := hI
  have hex1 : OnlyEachOther st1.appliedTo A B := onlyEachOther_shrinks hex (stealStep_shrinks h)
  obtain ⟨name, inbox, hpick, hget, hpend, hc⟩ := stealStep_ok h
  by_cases hnA : name = A
  · subst hnA
    rcases hc with ⟨hnone, _, _⟩ | ⟨thieves, thief, players1, hsteal, hthief, h1, h2, ha⟩
    · rcases hphase with ⟨hAB1, _, _⟩ | ⟨hno, hnoB, hsA, hsB⟩
      · obtain ⟨inbox1, l, hg, hl, _⟩ := hAB1
        rw [hget] at hg
        cases hg
        rw [show inbox.get .steal = inbox.steal from rfl, hnone] at hl
        cases hl
      · rename_i ha hp
        refine ⟨hex1, by rw [hp]; exact hdA, by rw [hp]; exact hdB, Or.inr ?_⟩
        rw [ha, hp]
        exact ⟨hno, hnoB, hsA, hsB⟩
    · have hatt : Attacks st.appliedTo name .steal thief :=
        ⟨inbox, thieves, hget, hsteal, hthief⟩
      have htB : thief = B := (hex name thief hatt).1.mp rfl
      subst htB
      rcases hphase with ⟨_, hBA, _⟩ | ⟨hno, _, _, _⟩
      · obtain ⟨e1, e2, e3, e4, e5, e6⟩ := stealStep_pair hAB hBA h1 h2 ha
        exact ⟨hex1, e1.trans hdA, e2.trans hdB, Or.inr ⟨e5, e6, e3, e4⟩⟩
      · exact absurd hatt (hno thief)
  · by_cases hnB : name = B
    · subst hnB
      rcases hc with ⟨hnone, _, _⟩ | ⟨thieves, thief, players1, hsteal, hthief, h1, h2, ha⟩
      · rcases hphase with ⟨_, hBA1, _⟩ | ⟨hno, hnoB, hsA, hsB⟩
        · obtain ⟨inbox1, l, hg, hl, _⟩ := hBA1
          rw [hget] at hg
          cases hg
          rw [show inbox.get .steal = inbox.steal from rfl, hnone] at hl
          cases hl
        · rename_i ha hp
          refine ⟨hex1, by rw [hp]; exact hdA, by rw [hp]; exact hdB, Or.inr ?_⟩
          rw [ha, hp]
          exact ⟨hno, hnoB, hsA, hsB⟩
      · have hatt : Attacks st.appliedTo name .steal thief :=
          ⟨inbox, thieves, hget, hsteal, hthief⟩
        have htA : thief = A := (hex name thief hatt).2.mp rfl
        subst htA
        rcases hphase with ⟨hAB1, _, _⟩ | ⟨_, hnoB, _, _⟩
        · obtain ⟨e1, e2, e3, e4, e5, e6⟩ := stealStep_pair (Ne.symm hAB) hAB1 h1 h2 ha
          exact ⟨hex1, e2.trans hdA, e1.trans hdB, Or.inr ⟨e6, e5, e4, e3⟩⟩
        · exact absurd hatt (hnoB thief)
    · have hfr := stealStep_other hex hget hnA hnB hc
      obtain ⟨fA1, fA2, fA3⟩ := hfr A (Or.inl rfl)
      obtain ⟨fB1, fB2, fB3⟩ := hfr B (Or.inr rfl)
      refine ⟨hex1, fA1.trans hdA, fB1.trans hdB, ?_⟩
      rcases hphase with ⟨hAB1, hBA1, hmem⟩ | ⟨hno, hnoB, hsA, hsB⟩
      · refine Or.inl ⟨(attacks_congr fA3 _ _).mpr hAB1, (attacks_congr fB3 _ _).mpr hBA1, ?_⟩
        rw [hpend]
        exact mem_eraseIdx_of_ne hpick hmem hnA
      · refine Or.inr ⟨fun x hx => hno x ((attacks_congr fA3 _ _).mp hx),
          fun x hx => hnoB x ((attacks_congr fB3 _ _).mp hx), fA2.trans hsA, fB2.trans hsB⟩

theorem stealStep_pending_length {st st1 : LoopState} (h : stealStep st = .ok st1) :
    st1.pending.length + 1 = st.pending.length := by
  obtain ⟨name, inbox, hpick, _, hpend, _⟩ := stealStep_ok h
  have hlt : st.rng.index st.pending.length < st.pending.length := by
    by_contra hc
    rw [List.getElem?_eq_none (by omega)] at hpick
    cases hpick
  rw [hpend, List.length_eraseIdx_of_lt hlt]
  omega

/-- With fuel for every entry of the open list, the steal loop ends with the open list
empty. -/
theorem stealLoop_pending_nil :
    ∀ (fuel : Nat) (st st1 : LoopState), st.pending.length ≤ fuel →
      stealLoop fuel st = .ok st1 → st1.pending = [] := by
  intro fuel
  induction fuel with
  | zero =>
    intro st st1 hlen h
    simp only [stealLoop] at h
    cases h
    exact List.length_eq_zero.mp (by omega)
  | succ fuel ih =>
    intro st st1 hlen h
    simp only [stealLoop] at h
    split at h
    · split at h
      · cases h
      · rename_i st2 h2
        have := stealStep_pending_length h2
        exact ih st2 st1 (by omega) h
    · cases h
      exact List.length_eq_zero.mp (by omega)

theorem swapStep_pending_length {st st1 : LoopState} (h : swapStep st = .ok st1) :
    st1.pending.length + 1 = st.pending.length := by
  obtain ⟨name, inbox, hpick, _, hpend, _⟩ := swapStep_ok h
  have hlt : st.rng.index st.pending.length < st.pending.length := by
    by_contra hc
    rw [List.getElem?_eq_none (by omega)] at hpick
    cases hpick
  rw [hpend, List.length_eraseIdx_of_lt hlt]
  omega

/-- The fuel of the steal loop is no limit: any fuel of at least the length of the open
list gives the result of running the `while` loop to its end. -/
theorem stealLoop_fuel :
    ∀ (fuel : Nat) (st : LoopState), st.pending.length ≤ fuel →
      stealLoop fuel st = stealLoop st.pending.length st := by
  intro fuel
  induction fuel with
  | zero =>
    intro st hlen
    have : st.pending.length = 0 := by omega
    rw [this]
  | succ fuel ih =>
    intro st hlen
    cases hn : st.pending.length with
    | zero => simp [stealLoop, hn]
    | succ n =>
      simp only [stealLoop, hn, Nat.succ_pos, if_true]
      cases hs : stealStep st with
      | error e => rfl
      | ok st1 =>
        have hl := stealStep_pending_length hs
        have h1 : st1.pending.length = n := by omega
        simp only
        rw [ih st1 (by omega), h1]

/-- The fuel of the swap loop is no limit, as for the steal loop. -/
theorem swapLoop_fuel :
    ∀ (fuel : Nat) (st : LoopState), st.pending.length ≤ fuel →
      swapLoop fuel st = swapLoop st.pending.length st := by
  intro fuel
  induction fuel with
  | zero =>
    intro st hlen
    have : st.pending.length = 0 := by omega
    rw [this]
  | succ fuel ih =>
    intro st hlen
    cases hn : st.pending.length with
    | zero => simp [swapLoop, hn]
    | succ n =>
      simp only [swapLoop, hn, Nat.succ_pos, if_true]
      cases hs : swapStep st with
      | error e => rfl
      | ok st1 =>
        have hl := swapStep_pending_length hs
        have h1 : st1.pending.length = n := by omega
        simp only
        rw [ih st1 (by omega), h1]

/-- With fuel for every entry of the open list, the swap loop ends with the open list
empty. -/
theorem swapLoop_pending_nil :
    ∀ (fuel : Nat) (st st1 : LoopState), st.pending.length ≤ fuel →
      swapLoop fuel st = .ok st1 → st1.pending = [] := by
  intro fuel
  induction fuel with
  | zero =>
    intro st st1 hlen h
    simp only [swapLoop] at h
    cases h
    exact List.length_eq_zero.mp (by omega)
  | succ fuel ih =>
    intro st st1 hlen h
    simp only [swapLoop] at h
    split at h
    · split at h
      · cases h
      · rename_i st2 h2
        have := swapStep_pending_length h2
        exact ih st2 st1 (by omega) h
    · cases h
      exact List.length_eq_zero.mp (by omega)

theorem resolvePlayer_get?_ne (name : String) (player : PlayerState) (a : AppliedTo)
    (rng : Rng) {k : String} (hk : name ≠ k) :
    (resolvePlayer name player a rng).2.1.get? k = a.get? k := by
  rcases resolvePlayer_appliedTo name player a rng with
    ⟨_, h⟩ | ⟨_, h⟩ | ⟨applied, inbox1, _, _, _, h⟩
  · rw [h, Record.get?_erase]
    simp [hk]
  · rw [h]
  · rw [h, Record.get?_set_ne _ _ hk]

theorem resolvePlayers_steal {k : String} :
    ∀ (players : Record PlayerState) (a : AppliedTo) (rng : Rng)
      (inbox : GameEffects (List String)),
      (∀ e ∈ players, e.1 = k → e.2.effects.protect = none) → a.get? k = some inbox →
      ∃ inbox1, (resolvePlayers players a rng).2.1.get? k = some inbox1 ∧
        inbox1.steal = inbox.steal := by
  intro players
  induction players with
  | nil =>
    intro a rng inbox _ ha
    exact ⟨inbox, ha, rfl⟩
  | cons e rest ih =>
    obtain ⟨name, player⟩ := e
    intro a rng inbox hprot ha
    simp only [resolvePlayers]
    have hrest : ∀ e ∈ rest, e.1 = k → e.2.effects.protect = none :=
      fun e he => hprot e (List.mem_cons_of_mem _ he)
    by_cases hn : name = k
    · subst hn
      have hp : player.effects.protect = none := hprot (name, player) (List.mem_cons_self _ _) rfl
      rcases resolvePlayer_appliedTo name player a rng with
        ⟨hc, _⟩ | ⟨hc, _⟩ | ⟨applied, inbox1, hget, _, hst, h⟩
      · rw [hp] at hc
        cases hc
      · rw [ha] at hc
        cases hc
      · rw [ha] at hget
        cases hget
        obtain ⟨inbox2, h2, hs2⟩ := ih (resolvePlayer name player a rng).2.1
          (resolvePlayer name player a rng).2.2 inbox1 hrest
          (by rw [h, Record.get?_set_self])
        exact ⟨inbox2, h2, hs2.trans hst⟩
    · exact ih _ _ inbox hrest (by rw [resolvePlayer_get?_ne name player a rng hn]; exact ha)

theorem resolvePlayers_attacks_steal {k x : String} (players : Record PlayerState)
    (a : AppliedTo) (rng : Rng)
    (hprot : ∀ e ∈ players, e.1 = k → e.2.effects.protect = none)
    (h : Attacks a k .steal x) : Attacks (resolvePlayers players a rng).2.1 k .steal x := by
  obtain ⟨inbox, l, hget, hl, hx⟩ := h
  obtain ⟨inbox1, h1, hs⟩ := resolvePlayers_steal players a rng inbox hprot hget
  exact ⟨inbox1, l, h1, by rw [show inbox1.get .steal = inbox1.steal from rfl, hs]; exact hl, hx⟩

/-- State of the steal loop for a pair that declared steal against each other, did not
declare protect, and is not stolen from by anybody else. -/
theorem beforeSteal_mutualInv (rng : Rng) {players : Record PlayerState} {A B : String}
    {pA pB : PlayerState} (hAB : A ≠ B) (hnd : players.keys.Nodup)
    (hA : players.get? A = some pA) (hB : players.get? B = some pB)
    (hsA : pA.effects.steal = some B) (hsB : pB.effects.steal = some A)
    (hpA : pA.effects.protect = none) (hpB : pB.effects.protect = none)
    (hothers : ∀ e ∈ players, e.1 ≠ A → e.1 ≠ B →
      e.2.effects.steal ≠ some A ∧ e.2.effects.steal ≠ some B) :
    MutualInv (deltaOf (beforeSteal rng players).players A)
      (deltaOf (beforeSteal rng players).players B) A B (beforeSteal rng players) := by
  have hsteal : EffectKind.steal ∈ targetedKinds := by decide
  have hval : ∀ e ∈ players, (e.1 = A → e.2 = pA) ∧ (e.1 = B → e.2 = pB) := by
    intro e he
    have hg : players.get? e.1 = some e.2 := Record.get?_of_mem hnd he
    constructor
    · intro h
      rw [h, hA] at hg
      cases hg
      rfl
    · intro h
      rw [h, hB] at hg
      cases hg
      rfl
  have hex : OnlyEachOther (collectApplied players) A B := by
    intro k x hx
    obtain ⟨_, e, he, hname, hdecl⟩ := (collectApplied_attacks players k .steal x).mp hx
    have hdecl1 : e.2.effects.steal = some k := hdecl
    subst hname
    by_cases h1 : e.1 = A
    · have := (hval e he).1 h1
      rw [this, hsA] at hdecl1
      cases hdecl1
      exact ⟨⟨fun hc => absurd hc (Ne.symm hAB), fun hc => absurd (h1.symm.trans hc) hAB⟩,
        ⟨fun _ => h1, fun _ => rfl⟩⟩
    · by_cases h2 : e.1 = B
      · have := (hval e he).2 h2
        rw [this, hsB] at hdecl1
        cases hdecl1
        exact ⟨⟨fun _ => h2, fun _ => rfl⟩,
          ⟨fun hc => absurd hc hAB, fun hc => absurd (h2.symm.trans hc) (Ne.symm hAB)⟩⟩
      · obtain ⟨n1, n2⟩ := hothers e he h1 h2
        refine ⟨⟨fun hc => ?_, fun hc => absurd hc h2⟩, ⟨fun hc => ?_, fun hc => absurd hc h1⟩⟩
        · rw [hc] at hdecl1
          exact absurd hdecl1 n1
        · rw [hc] at hdecl1
          exact absurd hdecl1 n2
  have hAB0 : Attacks (collectApplied players) A .steal B :=
    (collectApplied_attacks players A .steal B).mpr
      ⟨hsteal, (B, pB), Record.mem_of_get? hB, rfl, hsB⟩
  have hBA0 : Attacks (collectApplied players) B .steal A :=
    (collectApplied_attacks players B .steal A).mpr
      ⟨hsteal, (A, pA), Record.mem_of_get? hA, rfl, hsA⟩
  have hprotA : ∀ e ∈ players, e.1 = A → e.2.effects.protect = none := by
    intro e he h
    rw [(hval e he).1 h]
    exact hpA
  have hprotB : ∀ e ∈ players, e.1 = B → e.2.effects.protect = none := by
    intro e he h
    rw [(hval e he).2 h]
    exact hpB
  have hAB1 := resolvePlayers_attacks_steal players (collectApplied players) rng hprotA hAB0
  have hBA1 := resolvePlayers_attacks_steal players (collectApplied players) rng hprotB hBA0
  refine ⟨onlyEachOther_shrinks hex (resolvePlayers_shrinks _ _ _), rfl, rfl,
    Or.inl ⟨hAB1, hBA1, ?_⟩⟩
  obtain ⟨inbox, _, hget, _, _⟩ := hAB1
  have hmem : ¬ A ∉ (resolvePlayers players (collectApplied players) rng).2.1.keys := by
    rw [← Record.get?_eq_none_iff, hget]
    simp
  exact not_not.mp hmem

/-- The mutual pair is not recognised either when one of the two declared protect: the
inbox of `A` is deleted in the second loop, so when `B` is picked its thief `A` is not
found in the inverse map and takes the delta of `B`. -/
theorem mutual_steal_protected :
    (afterSteal zeroRng
        [("A", samplePlayer true 2 true 5 { steal := some "B", protect := some "A" }),
         ("B", samplePlayer true 3 true 7 { steal := some "A" })]).toOption.map
        (fun st => st.players.map (fun e => (e.1, e.2.delta, e.2.applied.steal)))
      = some [("A", 5, none), ("B", 0, some "A")] := by
  decide

/-! ## The exact lists of the inverse map -/

theorem appendEntry_nil (o : Option (List String)) : appendEntry o [] = o := by
  simp [appendEntry]

theorem appendEntry_append (o : Option (List String)) (l1 l2 : List String) :
    appendEntry (appendEntry o l1) l2 = appendEntry o (l1 ++ l2) := by
  unfold appendEntry
  by_cases h1 : l1 = []
  · subst h1
    simp
  · by_cases h2 : l2 = []
    · subst h2
      simp [h1]
    · simp [h1, h2]

theorem entryOf_set (a : AppliedTo) (victim : String) (inbox : GameEffects (List String))
    (v : String) (k : EffectKind) :
    entryOf (a.set victim inbox) v k = if victim = v then inbox.get k else entryOf a v k := by
  unfold entryOf
  rw [Record.get?_set]
  split <;> rfl

theorem entryOf_getD (a : AppliedTo) (v : String) (k : EffectKind) :
    ((a.get? v).getD {}).get k = entryOf a v k := by
  unfold entryOf
  cases a.get? v with
  | none => cases k <;> rfl
  | some inbox => rfl

theorem collectEffect_entry (name : String) (player : PlayerState) (a : AppliedTo)
    (effect : EffectKind) (v : String) (k : EffectKind) :
    entryOf (collectEffect name player a effect) v k =
      appendEntry (entryOf a v k)
        (if player.effects.get effect = some v ∧ effect = k then [name] else []) := by
  rw [collectEffect_eq]
  cases hv : player.effects.get effect with
  | none => simp [appendEntry]
  | some victim =>
    simp only [entryOf_set, Option.some.injEq]
    by_cases hvv : victim = v
    · subst hvv
      by_cases hk : effect = k
      · subst hk
        simp [pushAttacker, GameEffects.get_put, appendEntry, entryOf_getD]
      · simp [pushAttacker, GameEffects.get_put, appendEntry, entryOf_getD, hk]
    · simp [hvv, appendEntry]

theorem collectKinds_entry (name : String) (player : PlayerState) (kinds : List EffectKind)
    (v : String) (k : EffectKind) :
    ∀ a : AppliedTo, entryOf (kinds.foldl (collectEffect name player) a) v k =
      appendEntry (entryOf a v k)
        (kinds.filterMap (fun e =>
          if player.effects.get e = some v ∧ e = k then some name else none)) := by
  induction kinds with
  | nil =>
    intro a
    simp [appendEntry]
  | cons kind kinds ih =>
    intro a
    simp only [List.foldl_cons]
    rw [ih, collectEffect_entry, appendEntry_append]
    congr 1
    by_cases h : player.effects.get kind = some v ∧ kind = k
    · obtain ⟨h1, rfl⟩ := h
      simp [List.filterMap_cons, h1]
    · simp [List.filterMap_cons, h]

theorem targetedKinds_filterMap (name : String) (player : PlayerState) (v : String)
    (k : EffectKind) (hk : k ∈ targetedKinds) :
    targetedKinds.filterMap (fun e =>
        if player.effects.get e = some v ∧ e = k then some name else none) =
      if player.effects.get k = some v then [name] else [] := by
  by_cases h : player.effects.get k = some v
  · cases k <;> simp [targetedKinds] at hk <;> simp [targetedKinds, List.filterMap_cons, h]
  · cases k <;> simp [targetedKinds] at hk <;> simp [targetedKinds, List.filterMap_cons, h]

theorem collectPlayers_entry (v : String) (k : EffectKind) (hk : k ∈ targetedKinds) :
    ∀ (players : Record PlayerState) (a : AppliedTo),
      entryOf (players.foldl
          (fun appliedTo e => targetedKinds.foldl (collectEffect e.1 e.2) appliedTo) a) v k =
        appendEntry (entryOf a v k) (declarers players k v) := by
  intro players
  induction players with
  | nil =>
    intro a
    simp [appendEntry, declarers]
  | cons e rest ih =>
    intro a
    simp only [List.foldl_cons]
    rw [ih, collectKinds_entry, targetedKinds_filterMap _ _ _ _ hk, appendEntry_append]
    congr 1
    by_cases h : e.2.effects.get k = some v
    · simp [declarers, List.filterMap_cons, h]
    · simp [declarers, List.filterMap_cons, h]

/-- The inverse map holds for `v` under a targeted kind `k` exactly the list of the
players who declared `k` against `v`, in enumeration order, and no list when nobody
did. -/
theorem collectApplied_entry (players : Record PlayerState) (v : String) (k : EffectKind)
    (hk : k ∈ targetedKinds) :
    entryOf (collectApplied players) v k =
      if declarers players k v = [] then none else some (declarers players k v) := by
  unfold collectApplied
  rw [collectPlayers_entry v k hk]
  simp [appendEntry, entryOf, Record.get?]

/-! ## Fields that steal and swap resolution do not write -/

theorem modifyPlayer_get? {players players1 : Record PlayerState} {name : String}
    {f : PlayerState → PlayerState} (h : modifyPlayer players name f = .ok players1)
    (k : String) :
    players1.get? k = if name = k then (players.get? k).map f else players.get? k := by
  by_cases hk : name = k
  · subst hk
    rw [modifyPlayer_get?_self h, if_pos rfl]
  · rw [modifyPlayer_get?_ne h hk, if_neg hk]

theorem modifyPlayer_map {β : Type} {players players1 : Record PlayerState} {name : String}
    {f : PlayerState → PlayerState} (h : modifyPlayer players name f = .ok players1)
    (g : PlayerState → β) (hf : ∀ p, g (f p) = g p) (k : String) :
    (players1.get? k).map g = (players.get? k).map g := by
  rw [modifyPlayer_get? h k]
  split
  · cases players.get? k with
    | none => rfl
    | some p => simp [hf]
  · rfl

theorem replace_map {β : Type} {players : Record PlayerState} {name : String}
    {p q : PlayerState} (hp : players.get? name = some p) (g : PlayerState → β)
    (hq : g q = g p) (k : String) :
    ((players.replace name q).get? k).map g = (players.get? k).map g := by
  rw [Record.get?_replace]
  split
  · rename_i hk
    subst hk
    simp [hp, hq]
  · rfl

theorem stealPoints_map {β : Type} {players players1 : Record PlayerState}
    {name thief : String} (h : stealPoints players name thief = .ok players1)
    (g : PlayerState → β) (hD : ∀ p d, g { p with delta := d } = g p) (k : String) :
    (players1.get? k).map g = (players.get? k).map g := by
  obtain ⟨pt, pn, pn1, ht, _, hn1, rfl⟩ := stealPoints_ok h
  rw [replace_map hn1 g (hD pn1 0) k, replace_map ht g (hD pt _) k]

theorem swapPoints_map {β : Type} {players players1 : Record PlayerState}
    {name other : String} (h : swapPoints players name other = .ok players1)
    (g : PlayerState → β) (hD : ∀ p d, g { p with delta := d } = g p)
    (hS : ∀ p s, g { p with score := s } = g p) (k : String) :
    (players1.get? k).map g = (players.get? k).map g := by
  obtain ⟨pn, po, p1, p2, p3, _, _, h1, h2, h3, h4⟩ := swapPoints_ok h
  rw [modifyPlayer_map h4 g (fun p => hD p _) k, modifyPlayer_map h3 g (fun p => hS p _) k,
    modifyPlayer_map h2 g (fun p => hD p _) k, modifyPlayer_map h1 g (fun p => hS p _) k]

theorem stealStep_map {β : Type} {st st1 : LoopState} (h : stealStep st = .ok st1)
    (g : PlayerState → β)
    (hA : ∀ p t, g { p with applied := { p.applied with steal := t } } = g p)
    (hD : ∀ p d, g { p with delta := d } = g p) (k : String) :
    (st1.players.get? k).map g = (st.players.get? k).map g := by
  obtain ⟨name, inbox, _, _, _, hc⟩ := stealStep_ok h
  rcases hc with ⟨_, _, hp⟩ | ⟨thieves, thief, players1, _, _, h1, h2, _⟩
  · rw [hp]
  · split at h2
    · rw [modifyPlayer_map h2 g (fun p => hA p _) k, modifyPlayer_map h1 g (fun p => hA p _) k]
    · rw [stealPoints_map h2 g hD k, modifyPlayer_map h1 g (fun p => hA p _) k]

theorem swapStep_map {β : Type} {st st1 : LoopState} (h : swapStep st = .ok st1)
    (g : PlayerState → β)
    (hA : ∀ p t, g { p with applied := { p.applied with swap := t } } = g p)
    (hD : ∀ p d, g { p with delta := d } = g p)
    (hS : ∀ p s, g { p with score := s } = g p) (k : String) :
    (st1.players.get? k).map g = (st.players.get? k).map g := by
  obtain ⟨name, inbox, _, _, _, hc⟩ := swapStep_ok h
  rcases hc with ⟨_, _, hp⟩ | ⟨swaps, other, players1, _, _, h1, h2, _⟩
  · rw [hp]
  · split at h2
    · rw [modifyPlayer_map h2 g (fun p => hA p _) k, modifyPlayer_map h1 g (fun p => hA p _) k]
    · rw [swapPoints_map h2 g hD hS k, modifyPlayer_map h1 g (fun p => hA p _) k]

theorem stealLoop_map {β : Type} {fuel : Nat} {st st1 : LoopState}
    (h : stealLoop fuel st = .ok st1) (g : PlayerState → β)
    (hA : ∀ p t, g { p with applied := { p.applied with steal := t } } = g p)
    (hD : ∀ p d, g { p with delta := d } = g p) (k : String) :
    (st1.players.get? k).map g = (st.players.get? k).map g :=
  stealLoop_invariant (fun s => (s.players.get? k).map g = (st.players.get? k).map g)
    (fun _ _ hI hs => (stealStep_map hs g hA hD k).trans hI) fuel st st1 rfl h

theorem swapLoop_map {β : Type} {fuel : Nat} {st st1 : LoopState}
    (h : swapLoop fuel st = .ok st1) (g : PlayerState → β)
    (hA : ∀ p t, g { p with applied := { p.applied with swap := t } } = g p)
    (hD : ∀ p d, g { p with delta := d } = g p)
    (hS : ∀ p s, g { p with score := s } = g p) (k : String) :
    (st1.players.get? k).map g = (st.players.get? k).map g :=
  swapLoop_invariant (fun s => (s.players.get? k).map g = (st.players.get? k).map g)
    (fun _ _ hI hs => (swapStep_map hs g hA hD hS k).trans hI) fuel st st1 rfl h

/-- A function of the player record that reads neither `delta`, `score`, `applied.steal`
nor `applied.swap` has, for every player, the same value after a completed
`applyEffects` as before the steal loop. -/
theorem applyEffects_map {β : Type} {rng : Rng} {players players1 : Record PlayerState}
    (h : applyEffects rng players = .ok players1) (g : PlayerState → β)
    (hSt : ∀ p t, g { p with applied := { p.applied with steal := t } } = g p)
    (hSw : ∀ p t, g { p with applied := { p.applied with swap := t } } = g p)
    (hD : ∀ p d, g { p with delta := d } = g p)
    (hS : ∀ p s, g { p with score := s } = g p) (k : String) :
    (players1.get? k).map g = ((beforeSteal rng players).players.get? k).map g := by
  obtain ⟨st, st1, h1, h2, rfl⟩ := applyEffects_ok h
  unfold afterSteal at h1
  rw [swapLoop_map h2 g hSw hD hS k, get?_commitScores, ← stealLoop_map h1 g hSt hD k]
  cases st.players.get? k with
  | none => rfl
  | some p => simp [hS]

/-! ## The record of one player after the second loop -/

theorem resolvePlayers_get? {V : String} {pV : PlayerState} :
    ∀ (players : Record PlayerState) (a : AppliedTo) (rng : Rng),
      players.get? V = some pV →
      ∃ a1 rng1, a1.get? V = a.get? V ∧
        (resolvePlayers players a rng).1.get? V = some (resolvePlayer V pV a1 rng1).1 := by
  intro players
  induction players with
  | nil =>
    intro a rng hV
    simp [Record.get?] at hV
  | cons e rest ih =>
    obtain ⟨name, player⟩ := e
    intro a rng hV
    by_cases hn : name = V
    · subst hn
      simp only [Record.get?, if_true, Option.some.injEq] at hV
      subst hV
      exact ⟨a, rng, rfl, by simp [resolvePlayers, Record.get?]⟩
    · simp only [Record.get?, hn, if_false] at hV
      obtain ⟨a1, rng1, h1, h2⟩ := ih (resolvePlayer name player a rng).2.1
        (resolvePlayer name player a rng).2.2 hV
      refine ⟨a1, rng1, h1.trans (resolvePlayer_get?_ne name player a rng hn), ?_⟩
      simpa [resolvePlayers, Record.get?, hn] using h2

theorem resolvePlayers_appliedTo_notin {V : String} :
    ∀ (players : Record PlayerState) (a : AppliedTo) (rng : Rng),
      V ∉ players.keys → (resolvePlayers players a rng).2.1.get? V = a.get? V := by
  intro players
  induction players with
  | nil => intro a rng _; rfl
  | cons e rest ih =>
    obtain ⟨name, player⟩ := e
    intro a rng hV
    have hn : name ≠ V := fun hc => hV (by simp [Record.keys, hc])
    have hr : V ∉ Record.keys rest := fun hc => hV (by
      simp only [Record.keys, List.map_cons, List.mem_cons]
      exact Or.inr hc)
    simp only [resolvePlayers]
    rw [ih _ _ hr, resolvePlayer_get?_ne name player a rng hn]

/-- The inbox of `V` after the second loop is the one that the loop body for `V` left. -/
theorem resolvePlayers_appliedTo_get? {V : String} {pV : PlayerState} :
    ∀ (players : Record PlayerState) (a : AppliedTo) (rng : Rng),
      players.keys.Nodup → players.get? V = some pV →
      ∃ a1 rng1, a1.get? V = a.get? V ∧
        (resolvePlayers players a rng).1.get? V = some (resolvePlayer V pV a1 rng1).1 ∧
        (resolvePlayers players a rng).2.1.get? V = (resolvePlayer V pV a1 rng1).2.1.get? V := by
  intro players
  induction players with
  | nil =>
    intro a rng _ hV
    simp [Record.get?] at hV
  | cons e rest ih =>
    obtain ⟨name, player⟩ := e
    intro a rng hnd hV
    have hnd1 : (name :: Record.keys rest).Nodup := hnd
    rw [List.nodup_cons] at hnd1
    by_cases hn : name = V
    · subst hn
      simp only [Record.get?, if_true, Option.some.injEq] at hV
      subst hV
      refine ⟨a, rng, rfl, by simp [resolvePlayers, Record.get?], ?_⟩
      simp only [resolvePlayers]
      exact resolvePlayers_appliedTo_notin rest _ _ hnd1.1
    · simp only [Record.get?, hn, if_false] at hV
      obtain ⟨a1, rng1, h1, h2, h3⟩ := ih (resolvePlayer name player a rng).2.1
        (resolvePlayer name player a rng).2.2 hnd1.2 hV
      refine ⟨a1, rng1, h1.trans (resolvePlayer_get?_ne name player a rng hn), ?_, ?_⟩
      · simpa [resolvePlayers, Record.get?, hn] using h2
      · simpa [resolvePlayers] using h3

/-! ## The second-loop body on an inbox -/

theorem resolveInbox_fail (player : PlayerState) {applied : GameEffects (List String)}
    (rng : Rng) {fails : List String} (hf : applied.fail = some fails) :
    (resolveInbox player applied rng).1.correct = false ∧
      (resolveInbox player applied rng).1.applied.fail = some (", ".intercalate fails) := by
  unfold resolveInbox
  simp only [hf]
  repeat' split
  all_goals exact ⟨rfl, rfl⟩

theorem resolveInbox_no_fail (player : PlayerState) {applied : GameEffects (List String)}
    (rng : Rng) (hf : applied.fail = none) :
    (resolveInbox player applied rng).1.correct = player.correct ∧
      (resolveInbox player applied rng).1.applied.fail = player.applied.fail := by
  unfold resolveInbox
  simp only [hf]
  repeat' split
  all_goals exact ⟨rfl, rfl⟩

theorem resolveInbox_frame (player : PlayerState) (applied : GameEffects (List String))
    (rng : Rng) :
    (resolveInbox player applied rng).1.score = player.score ∧
    (resolveInbox player applied rng).1.effects = player.effects ∧
    (resolveInbox player applied rng).1.confidence = player.confidence ∧
    (resolveInbox player applied rng).1.delta = player.delta ∧
    (resolveInbox player applied rng).1.applied.expose = player.applied.expose ∧
    (resolveInbox player applied rng).1.applied.protect = player.applied.protect ∧
    (resolveInbox player applied rng).1.applied.double = player.applied.double ∧
    (resolveInbox player applied rng).1.applied.steal = player.applied.steal ∧
    (resolveInbox player applied rng).1.applied.swap = player.applied.swap := by
  unfold resolveInbox
  dsimp only
  repeat' split
  all_goals exact ⟨rfl, rfl, rfl, rfl, rfl, rfl, rfl, rfl, rfl⟩

theorem resolveInbox_zero (player : PlayerState) {applied : GameEffects (List String)}
    (rng : Rng) {zeros : List String} (hz : applied.zero = some zeros) :
    (resolveInbox player applied rng).1.payout = 0 ∧
      (resolveInbox player applied rng).1.applied.zero = some (", ".intercalate zeros) ∧
      (resolveInbox player applied rng).1.applied.min = player.applied.min ∧
      (resolveInbox player applied rng).1.applied.max = player.applied.max := by
  unfold resolveInbox
  dsimp only
  have hz1 : (if (!(match applied.fail with
        | some fails => { player with
            applied := { player.applied with fail := some (", ".intercalate fails) },
            correct := false }
        | none => player).correct) = true then { applied with swap := none } else applied).zero
      = some zeros := by
    split <;> exact hz
  rw [hz1]
  dsimp only
  split <;> exact ⟨rfl, rfl, rfl, rfl⟩


theorem resolveInbox_more_min (player : PlayerState) {applied : GameEffects (List String)}
    (rng : Rng) {mins : List String} (hz : applied.zero = none) (hmin : applied.min = some mins)
    (hmax : ∀ maxs, applied.max = some maxs → maxs.length < mins.length)
    (hpmax : player.applied.max = none) :
    (resolveInbox player applied rng).1.payout = -1 ∧
      (resolveInbox player applied rng).1.applied.min = some (", ".intercalate mins) ∧
      (resolveInbox player applied rng).1.applied.max = none ∧
      (resolveInbox player applied rng).1.applied.zero = player.applied.zero := by
  cases hmx : applied.max with
  | none =>
    unfold resolveInbox chooseMinMax
    cases hf : applied.fail <;> cases hc : player.correct <;>
      simp [hz, hmin, hmx, hpmax, hc]
  | some maxs =>
    have hlt := hmax maxs hmx
    have hnot : ¬ mins.length = maxs.length := by omega
    unfold resolveInbox chooseMinMax
    cases hf : applied.fail <;> cases hc : player.correct <;>
      simp [hz, hmin, hmx, hpmax, hc, hlt, hnot]

theorem resolveInbox_more_max (player : PlayerState) {applied : GameEffects (List String)}
    (rng : Rng) {maxs : List String} (hz : applied.zero = none) (hmax : applied.max = some maxs)
    (hmin : ∀ mins, applied.min = some mins → mins.length < maxs.length)
    (hpmin : player.applied.min = none) (hpmax : player.applied.max = none) :
    (resolveInbox player applied rng).1.payout = 3 ∧
      (resolveInbox player applied rng).1.applied.max = some (", ".intercalate maxs) ∧
      (resolveInbox player applied rng).1.applied.min = none ∧
      (resolveInbox player applied rng).1.applied.zero = player.applied.zero := by
  cases hmn : applied.min with
  | none =>
    unfold resolveInbox chooseMinMax
    cases hf : applied.fail <;> cases hc : player.correct <;>
      simp [hz, hmax, hmn, hpmin, hpmax, hc]
  | some mins =>
    have hlt := hmin mins hmn
    have hnot : ¬ mins.length = maxs.length := by omega
    have hnot2 : ¬ maxs.length < mins.length := by omega
    unfold resolveInbox chooseMinMax
    cases hf : applied.fail <;> cases hc : player.correct <;>
      simp [hz, hmax, hmn, hpmin, hpmax, hc, hnot, hnot2]

theorem resolveInbox_plain (player : PlayerState) {applied : GameEffects (List String)}
    (rng : Rng) (hz : applied.zero = none) (hmin : applied.min = none)
    (hmax : applied.max = none) :
    (resolveInbox player applied rng).1.payout = player.payout ∧
      (resolveInbox player applied rng).1.applied.min = player.applied.min ∧
      (resolveInbox player applied rng).1.applied.max = player.applied.max ∧
      (resolveInbox player applied rng).1.applied.zero = player.applied.zero := by
  unfold resolveInbox
  cases hf : applied.fail <;> cases hc : player.correct <;>
    simp [hz, hmin, hmax, hc]

theorem chooseMinMax_swap (applied : GameEffects (List String)) (rng : Rng) :
    (chooseMinMax applied rng).1.swap = applied.swap := by
  unfold chooseMinMax
  repeat' split
  all_goals rfl

theorem resolveInbox_correct (player : PlayerState) (applied : GameEffects (List String))
    (rng : Rng) :
    (resolveInbox player applied rng).1.correct = (applied.fail.isNone && player.correct) := by
  cases hf : applied.fail with
  | none => simp [(resolveInbox_no_fail player rng hf).1]
  | some fails => simp [(resolveInbox_fail player rng hf).1]

theorem resolveInbox_swap (player : PlayerState) (applied : GameEffects (List String))
    (rng : Rng) :
    (resolveInbox player applied rng).2.1.swap =
      if (resolveInbox player applied rng).1.correct then applied.swap else none := by
  rw [resolveInbox_correct]
  cases hf : applied.fail <;> cases hc : player.correct <;>
    simp only [resolveInbox, hf, hc] <;> repeat' split
  all_goals first
    | rfl
    | exact chooseMinMax_swap _ _
    | exact (chooseMinMax_swap _ _).trans rfl
    | simp_all


/-! ## The record of a player before the steal loop and after the pass -/

theorem resetForResolution_eq (player : PlayerState) :
    resetForResolution player =
      { player with
        applied := { expose := if player.effects.expose.isSome then some "True" else none },
        payout := player.confidence, delta := 0, ready := false } := by
  unfold resetForResolution
  dsimp only
  split <;> rename_i h <;> simp [h]

theorem resolveInbox_empty (player : PlayerState) (rng : Rng) :
    (resolveInbox player {} rng).1 = player := by
  unfold resolveInbox
  cases hc : player.correct <;> simp [hc]

theorem resolvePlayer_fst_unprotected {name : String} {player : PlayerState} (a : AppliedTo)
    (rng : Rng) (hprot : player.effects.protect = none) :
    (resolvePlayer name player a rng).1 =
      (resolveInbox (resetForResolution player) ((a.get? name).getD {}) rng).1 := by
  unfold resolvePlayer
  dsimp only
  rw [resetForResolution_effects, hprot]
  cases ha : a.get? name with
  | none => simp [resolveInbox_empty]
  | some inbox => simp

theorem resolvePlayer_fst_protected {name : String} {player : PlayerState} (a : AppliedTo)
    (rng : Rng) (hprot : player.effects.protect.isSome = true) :
    (resolvePlayer name player a rng).1 =
      { resetForResolution player with
        applied := { (resetForResolution player).applied with protect := some "True" } } := by
  unfold resolvePlayer
  dsimp only
  rw [resetForResolution_effects, if_pos hprot]

theorem inboxOf_get (players : Record PlayerState) (V : String) (k : EffectKind)
    (hk : k ∈ targetedKinds) :
    (inboxOf players V).get k =
      if declarers players k V = [] then none else some (declarers players k V) := by
  unfold inboxOf
  rw [entryOf_getD, collectApplied_entry players V k hk]

/-- The record of an unprotected player before the steal loop: reset, resolved against
the inbox of the collection loop, delta computed. -/
theorem beforeSteal_get?_unprotected (rng : Rng) {players : Record PlayerState} {V : String}
    {pV : PlayerState} (hV : players.get? V = some pV) (hprot : pV.effects.protect = none) :
    ∃ rng1, (beforeSteal rng players).players.get? V =
      some (computeDelta (resolveInbox (resetForResolution pV) (inboxOf players V) rng1).1) := by
  obtain ⟨a1, rng1, h1, h2⟩ := resolvePlayers_get? players (collectApplied players) rng hV
  refine ⟨rng1, ?_⟩
  have hb : (beforeSteal rng players).players.get? V =
      ((resolvePlayers players (collectApplied players) rng).1.get? V).map computeDelta :=
    get?_computeDeltas _ _
  rw [hb, h2, resolvePlayer_fst_unprotected a1 rng1 hprot, h1]
  rfl

/-- The record of a protecting player before the steal loop. -/
theorem beforeSteal_get?_protected (rng : Rng) {players : Record PlayerState} {V : String}
    {pV : PlayerState} (hV : players.get? V = some pV)
    (hprot : pV.effects.protect.isSome = true) :
    (beforeSteal rng players).players.get? V =
      some (computeDelta { resetForResolution pV with
        applied := { (resetForResolution pV).applied with protect := some "True" } }) := by
  obtain ⟨a1, rng1, _, h2⟩ := resolvePlayers_get? players (collectApplied players) rng hV
  have hb : (beforeSteal rng players).players.get? V =
      ((resolvePlayers players (collectApplied players) rng).1.get? V).map computeDelta :=
    get?_computeDeltas _ _
  rw [hb, h2, resolvePlayer_fst_protected a1 rng1 hprot]
  rfl

/-- After a completed pass every player has the record it had before the steal loop, up
to `delta`, `score`, `applied.steal` and `applied.swap`. -/
theorem applyEffects_settled {rng : Rng} {players players1 : Record PlayerState}
    (h : applyEffects rng players = .ok players1) {k : String} {pD : PlayerState}
    (hk : (beforeSteal rng players).players.get? k = some pD) :
    ∃ p1, players1.get? k = some p1 ∧ settled p1 = settled pD := by
  have hm := applyEffects_map h settled (fun _ _ => rfl) (fun _ _ => rfl) (fun _ _ => rfl)
    (fun _ _ => rfl) k
  rw [hk] at hm
  cases h1 : players1.get? k with
  | none =>
    rw [h1] at hm
    cases hm
  | some p1 =>
    rw [h1] at hm
    exact ⟨p1, rfl, by simpa using hm⟩

theorem settled_fields {p q : PlayerState} (h : settled p = settled q) :
    p.ready = q.ready ∧ p.confidence = q.confidence ∧ p.payout = q.payout ∧
    p.choice = q.choice ∧ p.correct = q.correct ∧ p.effects = q.effects ∧
    p.applied.expose = q.applied.expose ∧ p.applied.double = q.applied.double ∧
    p.applied.protect = q.applied.protect ∧ p.applied.fail = q.applied.fail ∧
    p.applied.zero = q.applied.zero ∧ p.applied.min = q.applied.min ∧
    p.applied.max = q.applied.max := by
  have key : ∀ {β : Type} (f : PlayerState → β), f (settled p) = f (settled q) :=
    fun f => by rw [h]
  exact ⟨key (fun x => x.ready), key (fun x => x.confidence), key (fun x => x.payout),
    key (fun x => x.choice), key (fun x => x.correct), key (fun x => x.effects),
    key (fun x => x.applied.expose), key (fun x => x.applied.double),
    key (fun x => x.applied.protect), key (fun x => x.applied.fail),
    key (fun x => x.applied.zero), key (fun x => x.applied.min),
    key (fun x => x.applied.max)⟩

theorem computeDelta_fields (p : PlayerState) :
    (computeDelta p).payout = p.payout ∧ (computeDelta p).correct = p.correct ∧
    (computeDelta p).score = p.score ∧ (computeDelta p).effects = p.effects ∧
    (computeDelta p).applied.fail = p.applied.fail ∧
    (computeDelta p).applied.zero = p.applied.zero ∧
    (computeDelta p).applied.min = p.applied.min ∧
    (computeDelta p).applied.max = p.applied.max ∧
    (computeDelta p).applied.expose = p.applied.expose ∧
    (computeDelta p).applied.protect = p.applied.protect ∧
    (computeDelta p).applied.steal = p.applied.steal ∧
    (computeDelta p).applied.swap = p.applied.swap ∧
    (computeDelta p).confidence = p.confidence := by
  unfold computeDelta
  split <;> exact ⟨rfl, rfl, rfl, rfl, rfl, rfl, rfl, rfl, rfl, rfl, rfl, rfl, rfl⟩

theorem computeDelta_delta (p : PlayerState) :
    (computeDelta p).delta =
      if p.effects.double.isSome then (if p.correct then p.score else -p.score)
      else (if p.correct then p.payout else -p.payout) := by
  unfold computeDelta
  split <;> rfl

/-! ## Fail, zero, min and max -/

theorem targeted_mem : EffectKind.fail ∈ targetedKinds ∧ EffectKind.swap ∈ targetedKinds ∧
    EffectKind.zero ∈ targetedKinds ∧ EffectKind.min ∈ targetedKinds ∧
    EffectKind.max ∈ targetedKinds ∧ EffectKind.steal ∈ targetedKinds := by
  decide

theorem inboxOf_of_ne_nil {players : Record PlayerState} {V : String} {k : EffectKind}
    (hk : k ∈ targetedKinds) (h : declarers players k V ≠ []) :
    (inboxOf players V).get k = some (declarers players k V) := by
  rw [inboxOf_get players V k hk, if_neg h]

theorem inboxOf_of_eq_nil {players : Record PlayerState} {V : String} {k : EffectKind}
    (hk : k ∈ targetedKinds) (h : declarers players k V = []) :
    (inboxOf players V).get k = none := by
  rw [inboxOf_get players V k hk, if_pos h]

theorem resetForResolution_fields (player : PlayerState) :
    (resetForResolution player).payout = player.confidence ∧
    (resetForResolution player).correct = player.correct ∧
    (resetForResolution player).score = player.score ∧
    (resetForResolution player).delta = 0 ∧
    (resetForResolution player).applied.fail = none ∧
    (resetForResolution player).applied.zero = none ∧
    (resetForResolution player).applied.min = none ∧
    (resetForResolution player).applied.max = none ∧
    (resetForResolution player).applied.steal = none ∧
    (resetForResolution player).applied.swap = none ∧
    (resetForResolution player).applied.protect = none ∧
    (resetForResolution player).applied.double = none ∧
    (resetForResolution player).applied.expose =
      (if player.effects.expose.isSome then some "True" else none) := by
  rw [resetForResolution_eq]
  exact ⟨rfl, rfl, rfl, rfl, rfl, rfl, rfl, rfl, rfl, rfl, rfl, rfl, rfl⟩

/-- C17: an unprotected player `V` with at least one fail attacker has, after a
completed pass, `correct = false` whatever it answered and `applied.fail` equal to the
names of the attackers (in enumeration order) joined with ", "; its delta before the
steal loop is `-payout`, or `-score` if it declared double. -/
theorem failed_player_resolution (rng : Rng) (players players1 : Record PlayerState)
    (V : String) (pV : PlayerState) (hV : players.get? V = some pV)
    (hprot : pV.effects.protect = none) (hfail : declarers players .fail V ≠ [])
    (h : applyEffects rng players = .ok players1) :
    ∃ pD p1, (beforeSteal rng players).players.get? V = some pD ∧
      players1.get? V = some p1 ∧ p1.correct = false ∧
      p1.applied.fail = some (", ".intercalate (declarers players .fail V)) ∧
      p1.payout = pD.payout ∧ pD.score = pV.score ∧
      (pV.effects.double = none → pD.delta = -pD.payout) ∧
      (pV.effects.double ≠ none → pD.delta = -pV.score) := by
  obtain ⟨rng1, hb⟩ := beforeSteal_get?_unprotected rng hV hprot
  obtain ⟨p1, hp1, hs⟩ := applyEffects_settled h hb
  have hf := settled_fields hs
  have hin : (inboxOf players V).fail = some (declarers players .fail V) :=
    inboxOf_of_ne_nil targeted_mem.1 hfail
  have hr := resolveInbox_fail (resetForResolution pV) rng1 hin
  have hfr := resolveInbox_frame (resetForResolution pV) (inboxOf players V) rng1
  have hc := computeDelta_fields (resolveInbox (resetForResolution pV) (inboxOf players V) rng1).1
  have hd := computeDelta_delta (resolveInbox (resetForResolution pV) (inboxOf players V) rng1).1
  have hrs := resetForResolution_fields pV
  have heff : (resolveInbox (resetForResolution pV) (inboxOf players V) rng1).1.effects
      = pV.effects := hfr.2.1.trans (resetForResolution_effects pV)
  have hsc : (resolveInbox (resetForResolution pV) (inboxOf players V) rng1).1.score
      = pV.score := hfr.1.trans hrs.2.2.1
  refine ⟨_, p1, hb, hp1, ?_, ?_, hf.2.2.1, hc.2.2.1.trans hsc, ?_, ?_⟩
  · rw [hf.2.2.2.2.1, hc.2.1]
    exact hr.1
  · rw [hf.2.2.2.2.2.2.2.2.2.1, hc.2.2.2.2.1]
    exact hr.2
  · intro hdb
    rw [hd, heff, hdb, hr.1, hc.1]
    simp
  · intro hdb
    rw [hd, heff, hr.1, hsc]
    cases hdd : pV.effects.double with
    | none => exact absurd hdd hdb
    | some d => simp

/-- C16: an unprotected player `V` with at least one zero attacker has payout 0, so its
delta before the steal loop is 0 when it did not declare double, whatever its
confidence, its answer and the min/max declared against it; after a completed pass
`applied.zero` is the names of the attackers joined with ", " and `applied.min` and
`applied.max` are absent. -/
theorem zeroed_player_resolution (rng : Rng) (players players1 : Record PlayerState)
    (V : String) (pV : PlayerState) (hV : players.get? V = some pV)
    (hprot : pV.effects.protect = none) (hzero : declarers players .zero V ≠ [])
    (h : applyEffects rng players = .ok players1) :
    ∃ pD p1, (beforeSteal rng players).players.get? V = some pD ∧
      players1.get? V = some p1 ∧ pD.payout = 0 ∧ p1.payout = 0 ∧
      (pV.effects.double = none → pD.delta = 0) ∧
      p1.applied.zero = some (", ".intercalate (declarers players .zero V)) ∧
      p1.applied.min = none ∧ p1.applied.max = none := by
  obtain ⟨rng1, hb⟩ := beforeSteal_get?_unprotected rng hV hprot
  obtain ⟨p1, hp1, hs⟩ := applyEffects_settled h hb
  have hf := settled_fields hs
  have hin : (inboxOf players V).zero = some (declarers players .zero V) :=
    inboxOf_of_ne_nil targeted_mem.2.2.1 hzero
  have hr := resolveInbox_zero (resetForResolution pV) rng1 hin
  have hfr := resolveInbox_frame (resetForResolution pV) (inboxOf players V) rng1
  have hc := computeDelta_fields (resolveInbox (resetForResolution pV) (inboxOf players V) rng1).1
  have hd := computeDelta_delta (resolveInbox (resetForResolution pV) (inboxOf players V) rng1).1
  have hrs := resetForResolution_fields pV
  have heff : (resolveInbox (resetForResolution pV) (inboxOf players V) rng1).1.effects
      = pV.effects := hfr.2.1.trans (resetForResolution_effects pV)
  refine ⟨_, p1, hb, hp1, hc.1.trans hr.1, ?_, ?_, ?_, ?_, ?_⟩
  · rw [hf.2.2.1, hc.1]
    exact hr.1
  · intro hdb
    rw [hd, heff, hdb, hr.1]
    simp
  · rw [hf.2.2.2.2.2.2.2.2.2.2.1, hc.2.2.2.2.2.1]
    exact hr.2.1
  · rw [hf.2.2.2.2.2.2.2.2.2.2.2.1, hc.2.2.2.2.2.2.1, hr.2.2.1]
    exact hrs.2.2.2.2.2.2.1
  · rw [hf.2.2.2.2.2.2.2.2.2.2.2.2, hc.2.2.2.2.2.2.2.1, hr.2.2.2]
    exact hrs.2.2.2.2.2.2.2.1

/-- C15: for an unprotected player `V` with no zero attacker, after a completed pass:
with more min attackers than max attackers (max possibly none) `applied.min` is the
names of the min attackers joined with ", ", `applied.max` is absent and the payout is
-1; with more max attackers than min attackers `applied.max` is the names of the max
attackers joined with ", ", `applied.min` is absent and the payout is 3; both whatever
the declared confidence and the random choices. -/
theorem majority_min_max (rng : Rng) (players players1 : Record PlayerState)
    (V : String) (pV : PlayerState) (hV : players.get? V = some pV)
    (hprot : pV.effects.protect = none) (hzero : declarers players .zero V = [])
    (h : applyEffects rng players = .ok players1) :
    ∃ p1, players1.get? V = some p1 ∧
      ((declarers players .max V).length < (declarers players .min V).length →
        p1.payout = -1 ∧ p1.applied.max = none ∧
        p1.applied.min = some (", ".intercalate (declarers players .min V))) ∧
      ((declarers players .min V).length < (declarers players .max V).length →
        p1.payout = 3 ∧ p1.applied.min = none ∧
        p1.applied.max = some (", ".intercalate (declarers players .max V))) := by
  obtain ⟨rng1, hb⟩ := beforeSteal_get?_unprotected rng hV hprot
  obtain ⟨p1, hp1, hs⟩ := applyEffects_settled h hb
  have hf := settled_fields hs
  have hz : (inboxOf players V).zero = none := inboxOf_of_eq_nil targeted_mem.2.2.1 hzero
  have hc := computeDelta_fields (resolveInbox (resetForResolution pV) (inboxOf players V) rng1).1
  have hrs := resetForResolution_fields pV
  have hmin := inboxOf_get players V .min targeted_mem.2.2.2.1
  have hmax := inboxOf_get players V .max targeted_mem.2.2.2.2.1
  refine ⟨p1, hp1, ?_, ?_⟩
  · intro hlt
    have hne : declarers players .min V ≠ [] := by
      intro hc0
      rw [hc0] at hlt
      simp at hlt
    have hmn : (inboxOf players V).min = some (declarers players .min V) := by
      rw [show (inboxOf players V).min = (inboxOf players V).get .min from rfl, hmin, if_neg hne]
    have hmx : ∀ maxs, (inboxOf players V).max = some maxs →
        maxs.length < (declarers players .min V).length := by
      intro maxs hm
      rw [show (inboxOf players V).max = (inboxOf players V).get .max from rfl, hmax] at hm
      split at hm
      · cases hm
      · cases hm
        exact hlt
    have hr := resolveInbox_more_min (resetForResolution pV) rng1 hz hmn hmx
      hrs.2.2.2.2.2.2.2.1
    refine ⟨?_, ?_, ?_⟩
    · rw [hf.2.2.1, hc.1]
      exact hr.1
    · rw [hf.2.2.2.2.2.2.2.2.2.2.2.2, hc.2.2.2.2.2.2.2.1]
      exact hr.2.2.1
    · rw [hf.2.2.2.2.2.2.2.2.2.2.2.1, hc.2.2.2.2.2.2.1]
      exact hr.2.1
  · intro hlt
    have hne : declarers players .max V ≠ [] := by
      intro hc0
      rw [hc0] at hlt
      simp at hlt
    have hmx : (inboxOf players V).max = some (declarers players .max V) := by
      rw [show (inboxOf players V).max = (inboxOf players V).get .max from rfl, hmax, if_neg hne]
    have hmn : ∀ mins, (inboxOf players V).min = some mins →
        mins.length < (declarers players .max V).length := by
      intro mins hm
      rw [show (inboxOf players V).min = (inboxOf players V).get .min from rfl, hmin] at hm
      split at hm
      · cases hm
      · cases hm
        exact hlt
    have hr := resolveInbox_more_max (resetForResolution pV) rng1 hz hmx hmn
      hrs.2.2.2.2.2.2.1 hrs.2.2.2.2.2.2.2.1
    refine ⟨?_, ?_, ?_⟩
    · rw [hf.2.2.1, hc.1]
      exact hr.1
    · rw [hf.2.2.2.2.2.2.2.2.2.2.2.1, hc.2.2.2.2.2.2.1]
      exact hr.2.2.1
    · rw [hf.2.2.2.2.2.2.2.2.2.2.2.2, hc.2.2.2.2.2.2.2.1]
      exact hr.2.1

/-! ## Players without an entry in the inverse map -/

theorem resolvePlayer_protected_appliedTo {name : String} {player : PlayerState}
    (a : AppliedTo) (rng : Rng) (hprot : player.effects.protect.isSome = true) :
    (resolvePlayer name player a rng).2.1 = a.erase name := by
  unfold resolvePlayer
  dsimp only
  rw [resetForResolution_effects, if_pos hprot]

/-- A protecting player has no inbox after the second loop. -/
theorem resolvePlayers_erased {P : String} {pP : PlayerState}
    (hprot : pP.effects.protect.isSome = true) :
    ∀ (players : Record PlayerState) (a : AppliedTo) (rng : Rng),
      players.get? P = some pP → (resolvePlayers players a rng).2.1.get? P = none := by
  intro players
  induction players with
  | nil =>
    intro a rng hP
    simp [Record.get?] at hP
  | cons e rest ih =>
    obtain ⟨name, player⟩ := e
    intro a rng hP
    simp only [resolvePlayers]
    by_cases hn : name = P
    · subst hn
      simp only [Record.get?, if_true, Option.some.injEq] at hP
      subst hP
      refine shrinks_get?_none (resolvePlayers_shrinks rest _ _) ?_
      rw [resolvePlayer_protected_appliedTo a rng hprot, Record.get?_erase]
      simp
    · simp only [Record.get?, hn, if_false] at hP
      exact ih _ _ hP

theorem no_attack_of_get?_none {a : AppliedTo} {P : String} (h : a.get? P = none)
    (kind : EffectKind) (x : String) : ¬ Attacks a P kind x := by
  rintro ⟨inbox, l, hg, _, _⟩
  rw [h] at hg
  cases hg

theorem mutualSwap_iff (a : AppliedTo) (other name : String) :
    mutualSwap a other name = true ↔ Attacks a other .swap name := by
  unfold mutualSwap Attacks
  cases ha : a.get? other with
  | none => simp
  | some inbox =>
    cases hs : inbox.swap with
    | none => simp [GameEffects.get, hs]
    | some l => simp [GameEffects.get, hs]

/-- A steal iteration changes at most the delta of a player without open steal entry. -/
theorem stealStep_map_no_entry {β : Type} {P : String} {st st1 : LoopState}
    (hno : ∀ x, ¬ Attacks st.appliedTo P .steal x) (h : stealStep st = .ok st1)
    (g : PlayerState → β) (hD : ∀ p d, g { p with delta := d } = g p) :
    (st1.players.get? P).map g = (st.players.get? P).map g := by
  obtain ⟨name, inbox, _, hget, _, hc⟩ := stealStep_ok h
  rcases hc with ⟨_, _, hp⟩ | ⟨thieves, thief, players1, hsteal, hthief, h1, h2, _⟩
  · rw [hp]
  · have hname : name ≠ P := fun hc => hno thief (hc ▸ ⟨inbox, thieves, hget, hsteal, hthief⟩)
    split at h2
    · rename_i hm
      have hth : thief ≠ P := by
        intro hc
        rw [hc, mutualSteal_iff, attacks_congr (Record.get?_set_ne _ _ hname)] at hm
        exact hno name hm
      rw [modifyPlayer_get?_ne h2 hth, modifyPlayer_get?_ne h1 hname]
    · rw [stealPoints_map h2 g hD P, modifyPlayer_get?_ne h1 hname]

/-- A swap iteration changes at most score and delta of a player without open swap
entry. -/
theorem swapStep_map_no_entry {β : Type} {P : String} {st st1 : LoopState}
    (hno : ∀ x, ¬ Attacks st.appliedTo P .swap x) (h : swapStep st = .ok st1)
    (g : PlayerState → β) (hD : ∀ p d, g { p with delta := d } = g p)
    (hS : ∀ p s, g { p with score := s } = g p) :
    (st1.players.get? P).map g = (st.players.get? P).map g := by
  obtain ⟨name, inbox, _, hget, _, hc⟩ := swapStep_ok h
  rcases hc with ⟨_, _, hp⟩ | ⟨swaps, other, players1, hswap, hother, h1, h2, _⟩
  · rw [hp]
  · have hname : name ≠ P := fun hc => hno other (hc ▸ ⟨inbox, swaps, hget, hswap, hother⟩)
    split at h2
    · rename_i hm
      have hth : other ≠ P := by
        intro hc
        rw [hc, mutualSwap_iff, attacks_congr (Record.get?_set_ne _ _ hname)] at hm
        exact hno name hm
      rw [modifyPlayer_get?_ne h2 hth, modifyPlayer_get?_ne h1 hname]
    · rw [swapPoints_map h2 g hD hS P, modifyPlayer_get?_ne h1 hname]

theorem stealLoop_shrinks {fuel : Nat} {st st1 : LoopState} (h : stealLoop fuel st = .ok st1) :
    Shrinks st.appliedTo st1.appliedTo :=
  stealLoop_invariant (fun s => Shrinks st.appliedTo s.appliedTo)
    (fun _ _ hI hs => shrinks_trans hI (stealStep_shrinks hs)) fuel st st1 (shrinks_refl _) h

theorem swapLoop_shrinks {fuel : Nat} {st st1 : LoopState} (h : swapLoop fuel st = .ok st1) :
    Shrinks st.appliedTo st1.appliedTo :=
  swapLoop_invariant (fun s => Shrinks st.appliedTo s.appliedTo)
    (fun _ _ hI hs => shrinks_trans hI (swapStep_shrinks hs)) fuel st st1 (shrinks_refl _) h

theorem stealLoop_map_no_entry {β : Type} {P : String} {fuel : Nat} {st st1 : LoopState}
    (h : stealLoop fuel st = .ok st1) (hno : ∀ x, ¬ Attacks st.appliedTo P .steal x)
    (g : PlayerState → β) (hD : ∀ p d, g { p with delta := d } = g p) :
    (st1.players.get? P).map g = (st.players.get? P).map g := by
  have key := stealLoop_invariant
    (fun s => (∀ x, ¬ Attacks s.appliedTo P .steal x) ∧
      (s.players.get? P).map g = (st.players.get? P).map g)
    (fun s s1 hI hs => ⟨fun x hx => hI.1 x (attacks_of_shrinks (stealStep_shrinks hs) hx),
      (stealStep_map_no_entry hI.1 hs g hD).trans hI.2⟩)
    fuel st st1 ⟨hno, rfl⟩ h
  exact key.2

theorem swapLoop_map_no_entry {β : Type} {P : String} {fuel : Nat} {st st1 : LoopState}
    (h : swapLoop fuel st = .ok st1) (hno : ∀ x, ¬ Attacks st.appliedTo P .swap x)
    (g : PlayerState → β) (hD : ∀ p d, g { p with delta := d } = g p)
    (hS : ∀ p s, g { p with score := s } = g p) :
    (st1.players.get? P).map g = (st.players.get? P).map g := by
  have key := swapLoop_invariant
    (fun s => (∀ x, ¬ Attacks s.appliedTo P .swap x) ∧
      (s.players.get? P).map g = (st.players.get? P).map g)
    (fun s s1 hI hs => ⟨fun x hx => hI.1 x (attacks_of_shrinks (swapStep_shrinks hs) hx),
      (swapStep_map_no_entry hI.1 hs g hD hS).trans hI.2⟩)
    fuel st st1 ⟨hno, rfl⟩ h
  exact key.2

/-! ## Players who take part in no steal or no swap -/

theorem uninvolved_shrinks {kind : EffectKind} {P : String} {a a1 : AppliedTo}
    (h : Uninvolved kind P a) (hs : Shrinks a a1) : Uninvolved kind P a1 :=
  fun k x hx => h k x (attacks_of_shrinks hs hx)

theorem collectApplied_uninvolved {players : Record PlayerState} {P : String}
    {pP : PlayerState} (kind : EffectKind) (hnd : players.keys.Nodup)
    (hP : players.get? P = some pP) (hself : pP.effects.get kind = none)
    (hnobody : ∀ e ∈ players, e.2.effects.get kind ≠ some P) :
    Uninvolved kind P (collectApplied players) := by
  intro k x hx
  obtain ⟨_, e, he, hname, hdecl⟩ := (collectApplied_attacks players k kind x).mp hx
  constructor
  · intro hk
    exact hnobody e he (hk ▸ hdecl)
  · intro hxP
    have hg : players.get? e.1 = some e.2 := Record.get?_of_mem hnd he
    rw [hname, hxP, hP] at hg
    cases hg
    rw [hself] at hdecl
    cases hdecl

theorem stealStep_get?_uninvolved {P : String} {st st1 : LoopState}
    (hun : Uninvolved .steal P st.appliedTo) (h : stealStep st = .ok st1) :
    st1.players.get? P = st.players.get? P := by
  obtain ⟨name, inbox, _, hget, _, hc⟩ := stealStep_ok h
  rcases hc with ⟨_, _, hp⟩ | ⟨thieves, thief, players1, hsteal, hthief, h1, h2, _⟩
  · rw [hp]
  · obtain ⟨hname, hth⟩ := hun name thief ⟨inbox, thieves, hget, hsteal, hthief⟩
    split at h2
    · rw [modifyPlayer_get?_ne h2 hth, modifyPlayer_get?_ne h1 hname]
    · rw [stealPoints_get?_ne h2 hname hth, modifyPlayer_get?_ne h1 hname]

theorem swapStep_get?_uninvolved {P : String} {st st1 : LoopState}
    (hun : Uninvolved .swap P st.appliedTo) (h : swapStep st = .ok st1) :
    st1.players.get? P = st.players.get? P := by
  obtain ⟨name, inbox, _, hget, _, hc⟩ := swapStep_ok h
  rcases hc with ⟨_, _, hp⟩ | ⟨swaps, other, players1, hswap, hother, h1, h2, _⟩
  · rw [hp]
  · obtain ⟨hname, hth⟩ := hun name other ⟨inbox, swaps, hget, hswap, hother⟩
    split at h2
    · rw [modifyPlayer_get?_ne h2 hth, modifyPlayer_get?_ne h1 hname]
    · rw [swapPoints_get?_ne h2 hname hth, modifyPlayer_get?_ne h1 hname]

theorem stealLoop_get?_uninvolved {P : String} {fuel : Nat} {st st1 : LoopState}
    (h : stealLoop fuel st = .ok st1) (hun : Uninvolved .steal P st.appliedTo) :
    st1.players.get? P = st.players.get? P := by
  have key := stealLoop_invariant
    (fun s => Uninvolved .steal P s.appliedTo ∧ s.players.get? P = st.players.get? P)
    (fun s s1 hI hs => ⟨uninvolved_shrinks hI.1 (stealStep_shrinks hs),
      (stealStep_get?_uninvolved hI.1 hs).trans hI.2⟩)
    fuel st st1 ⟨hun, rfl⟩ h
  exact key.2

theorem swapLoop_get?_uninvolved {P : String} {fuel : Nat} {st st1 : LoopState}
    (h : swapLoop fuel st = .ok st1) (hun : Uninvolved .swap P st.appliedTo) :
    st1.players.get? P = st.players.get? P := by
  have key := swapLoop_invariant
    (fun s => Uninvolved .swap P s.appliedTo ∧ s.players.get? P = st.players.get? P)
    (fun s s1 hI hs => ⟨uninvolved_shrinks hI.1 (swapStep_shrinks hs),
      (swapStep_get?_uninvolved hI.1 hs).trans hI.2⟩)
    fuel st st1 ⟨hun, rfl⟩ h
  exact key.2

/-- A player who declared neither steal nor swap and against whom nobody declared steal
or swap ends a completed pass with the record it had before the steal loop and the
committed score. -/
theorem applyEffects_get?_no_steal_swap {rng : Rng} {players players1 : Record PlayerState}
    {P : String} {pP pD : PlayerState} (hnd : players.keys.Nodup)
    (hP : players.get? P = some pP)
    (hsteal : pP.effects.steal = none) (hswap : pP.effects.swap = none)
    (hnobody : ∀ e ∈ players, e.2.effects.steal ≠ some P ∧ e.2.effects.swap ≠ some P)
    (hD : (beforeSteal rng players).players.get? P = some pD)
    (h : applyEffects rng players = .ok players1) :
    players1.get? P = some { pD with score := max 0 (pD.score + pD.delta) } := by
  obtain ⟨st, st1, h1, h2, rfl⟩ := applyEffects_ok h
  have u1 : Uninvolved .steal P (beforeSteal rng players).appliedTo :=
    uninvolved_shrinks (collectApplied_uninvolved .steal hnd hP hsteal
      (fun e he => (hnobody e he).1)) (resolvePlayers_shrinks _ _ _)
  have u2 : Uninvolved .swap P (beforeSteal rng players).appliedTo :=
    uninvolved_shrinks (collectApplied_uninvolved .swap hnd hP hswap
      (fun e he => (hnobody e he).2)) (resolvePlayers_shrinks _ _ _)
  unfold afterSteal at h1
  have e1 := stealLoop_get?_uninvolved h1 u1
  have hsh : Shrinks (beforeSteal rng players).appliedTo st.appliedTo := stealLoop_shrinks h1
  have e2 := swapLoop_get?_uninvolved h2 (uninvolved_shrinks u2 hsh)
  rw [e2, get?_commitScores, e1, hD]
  rfl

/-- C19: a player `P` who declared double has, before the steal loop, the score it
entered the pass with and the delta `+score` if its correct flag after the fail step is
true and `-score` if it is false, whatever its confidence and whatever zero, min or max
is applied to it; the flag after the fail step is false exactly when `P` answered
wrongly or is unprotected with at least one fail attacker.  If moreover the score is at
least 0, `P` declared neither steal nor swap and nobody declared steal or swap against
`P`, a completed pass leaves `P` with twice the score if the flag is true and with 0 if
it is false. -/
theorem double_or_nothing (rng : Rng) (players players1 : Record PlayerState)
    (P : String) (pP : PlayerState) (hnd : players.keys.Nodup)
    (hP : players.get? P = some pP) (hdouble : pP.effects.double.isSome = true) :
    ∃ pD, (beforeSteal rng players).players.get? P = some pD ∧ pD.score = pP.score ∧
      pD.correct = (pP.correct &&
        (pP.effects.protect.isSome || (declarers players .fail P).isEmpty)) ∧
      (pD.correct = true → pD.delta = pP.score) ∧
      (pD.correct = false → pD.delta = -pP.score) ∧
      (0 ≤ pP.score → pP.effects.steal = none → pP.effects.swap = none →
        (∀ e ∈ players, e.2.effects.steal ≠ some P ∧ e.2.effects.swap ≠ some P) →
        applyEffects rng players = .ok players1 →
        ∃ p1, players1.get? P = some p1 ∧
          (pD.correct = true → p1.score = 2 * pP.score) ∧
          (pD.correct = false → p1.score = 0)) := by
  have main : ∃ r : PlayerState, (beforeSteal rng players).players.get? P
        = some (computeDelta r) ∧ r.score = pP.score ∧ r.effects = pP.effects ∧
      r.correct = (pP.correct &&
        (pP.effects.protect.isSome || (declarers players .fail P).isEmpty)) := by
    cases hprot : pP.effects.protect with
    | some v =>
      have hp : pP.effects.protect.isSome = true := by rw [hprot]; rfl
      refine ⟨_, beforeSteal_get?_protected rng hP hp, (resetForResolution_fields pP).2.2.1,
        resetForResolution_effects pP, ?_⟩
      have : ({ resetForResolution pP with
          applied := { (resetForResolution pP).applied with protect := some "True" } }
            : PlayerState).correct = pP.correct := (resetForResolution_fields pP).2.1
      rw [this]
      simp
    | none =>
      obtain ⟨rng1, hb⟩ := beforeSteal_get?_unprotected rng hP hprot
      have hfr := resolveInbox_frame (resetForResolution pP) (inboxOf players P) rng1
      refine ⟨_, hb, hfr.1.trans (resetForResolution_fields pP).2.2.1,
        hfr.2.1.trans (resetForResolution_effects pP), ?_⟩
      rw [resolveInbox_correct, (resetForResolution_fields pP).2.1,
        show (inboxOf players P).fail = (inboxOf players P).get .fail from rfl,
        inboxOf_get players P .fail targeted_mem.1]
      cases hd : declarers players .fail P with
      | nil => simp [Bool.and_comm]
      | cons x l => simp
  obtain ⟨r, hb, hsc, heff, hcor⟩ := main
  have hc := computeDelta_fields r
  have hd := computeDelta_delta r
  rw [heff, hdouble, if_pos rfl, hsc] at hd
  refine ⟨computeDelta r, hb, hc.2.2.1.trans hsc, hc.2.1.trans hcor, ?_, ?_, ?_⟩
  · intro ht
    rw [hc.2.1] at ht
    rw [hd, ht]
    rfl
  · intro hf
    rw [hc.2.1] at hf
    rw [hd, hf]
    rfl
  · intro hpos hsteal hswap hnobody h
    refine ⟨_, applyEffects_get?_no_steal_swap hnd hP hsteal hswap hnobody hb h, ?_, ?_⟩
    · intro ht
      rw [hc.2.1] at ht
      show max 0 ((computeDelta r).score + (computeDelta r).delta) = 2 * pP.score
      rw [hc.2.2.1, hsc, hd, ht]
      simp only [if_true]
      omega
    · intro hf
      rw [hc.2.1] at hf
      show max 0 ((computeDelta r).score + (computeDelta r).delta) = 0
      rw [hc.2.2.1, hsc, hd, hf]
      simp

/-! ## A single steal -/

theorem beforeSteal_get?_isSome (rng : Rng) {players : Record PlayerState} {k : String}
    {p : PlayerState} (hk : players.get? k = some p) :
    ∃ pD, (beforeSteal rng players).players.get? k = some pD := by
  obtain ⟨a1, rng1, _, h2⟩ := resolvePlayers_get? players (collectApplied players) rng hk
  have hb : (beforeSteal rng players).players.get? k =
      ((resolvePlayers players (collectApplied players) rng).1.get? k).map computeDelta :=
    get?_computeDeltas _ _
  rw [h2] at hb
  exact ⟨_, hb⟩

theorem deltaOf_eq_some {players : Record PlayerState} {k : String} {p : PlayerState}
    {d : Int} (hp : players.get? k = some p) (hd : deltaOf players k = some d) :
    p.delta = d := by
  unfold deltaOf at hd
  rw [hp] at hd
  simpa using hd

/-- Every completed iteration of the steal loop preserves the invariant of a single
steal entry. -/
theorem stealStep_loneStealInv {A B : String} (hAB : A ≠ B) (da db : Int)
    {st st1 : LoopState} (hI : LoneStealInv da db A B st) (h : stealStep st = .ok st1) :
    LoneStealInv da db A B st1 := by
  obtain ⟨hex, hphase⟩ := hI
  have hex1 : ∀ k x, Attacks st1.appliedTo k .steal x → k = B ∧ x = A :=
    fun k x hx => hex k x (attacks_of_shrinks (stealStep_shrinks h) hx)
  obtain ⟨name, inbox, hpick, hget, hpend, hc⟩ := stealStep_ok h
  rcases hc with ⟨hnone, ha, hp⟩ | ⟨thieves, thief, players1, hsteal, hthief, h1, h2, ha⟩
  · refine ⟨hex1, ?_⟩
    rcases hphase with ⟨hBA, hmem, hdA, hdB⟩ | hdone
    · left
      have hne : name ≠ B := by
        intro hc
        obtain ⟨inbox1, l, hg, hl, _⟩ := hBA
        rw [← hc, hget] at hg
        cases hg
        rw [show inbox.get .steal = inbox.steal from rfl, hnone] at hl
        cases hl
      refine ⟨by rw [ha]; exact hBA, ?_, by rw [hp]; exact hdA, by rw [hp]; exact hdB⟩
      rw [hpend]
      exact mem_eraseIdx_of_ne hpick hmem hne
    · right
      rw [ha, hp]
      exact hdone
  · have hatt : Attacks st.appliedTo name .steal thief := ⟨inbox, thieves, hget, hsteal, hthief⟩
    obtain ⟨hnB, htA⟩ := hex name thief hatt
    subst hnB
    subst htA
    rcases hphase with ⟨_, _, hdA, hdB⟩ | ⟨hno, _, _, _⟩
    · have hm : ¬ mutualSteal (st.appliedTo.set name { inbox with steal := none }) thief name
          = true := by
        rw [mutualSteal_iff, attacks_congr (Record.get?_set_ne _ _ (Ne.symm hAB))]
        intro hc
        exact hAB (hex thief name hc).1
      rw [if_neg hm] at h2
      obtain ⟨pt, pn, pn1, ht, hn, hn1, hres⟩ := stealPoints_ok h2
      have hdA1 : deltaOf players1 thief = some da :=
        (modifyPlayer_deltaOf h1 (fun _ => rfl) thief).trans hdA
      have hdB1 : deltaOf players1 name = some db :=
        (modifyPlayer_deltaOf h1 (fun _ => rfl) name).trans hdB
      have e1 : pt.delta = da := deltaOf_eq_some ht hdA1
      have e2 : pn.delta = db := deltaOf_eq_some hn hdB1
      have hn1' : pn1 = pn := by
        rw [Record.get?_replace, if_neg hAB, hn] at hn1
        cases hn1
        rfl
      have hsB : pn.applied.steal = some thief := by
        have := modifyPlayer_stolenBy_self h1
        unfold stolenBy at this
        rw [hn] at this
        simpa using this
      refine ⟨hex1, Or.inr ⟨?_, ?_, ?_, ?_⟩⟩
      · intro k x hx
        rw [ha] at hx
        have hx1 := attacks_of_shrinks (clearSteal_shrinks _ _) hx
        have hx2 := attacks_of_shrinks (shrinks_set hget (GameEffects.sub_steal_none inbox)) hx1
        obtain ⟨hk, _⟩ := hex k x hx2
        rw [hk] at hx1
        exact set_steal_none_no_attack _ _ _ _ hx1
      · unfold deltaOf
        rw [hres, Record.get?_replace, if_neg (Ne.symm hAB), Record.get?_replace, if_pos rfl, ht]
        simp [e1, e2]
      · unfold deltaOf
        rw [hres, Record.get?_replace, if_pos rfl, hn1]
        rfl
      · unfold stolenBy
        rw [hres, Record.get?_replace, if_pos rfl, hn1, hn1']
        simpa using hsB
    · exact absurd hatt (hno name thief)

/-! ## Which swap entries reach the swap loop -/

theorem resolvePlayer_snd_unprotected {name : String} {player : PlayerState} {a : AppliedTo}
    {inbox : GameEffects (List String)} (rng : Rng)
    (hprot : player.effects.protect = none) (hget : a.get? name = some inbox) :
    (resolvePlayer name player a rng).2.1 =
      a.set name (resolveInbox (resetForResolution player) inbox rng).2.1 := by
  unfold resolvePlayer
  dsimp only
  rw [resetForResolution_effects, hprot]
  simp [hget]

/-- The correct flag after the fail step: the answer was right, and no fail landed
(the player declared protect or nobody declared fail against it). -/
theorem beforeSteal_correct (rng : Rng) {players : Record PlayerState} {P : String}
    {pP : PlayerState} (hP : players.get? P = some pP) :
    ∃ pD, (beforeSteal rng players).players.get? P = some pD ∧
      pD.correct = (pP.correct &&
        (pP.effects.protect.isSome || (declarers players .fail P).isEmpty)) := by
  cases hprot : pP.effects.protect with
  | some v =>
    have hp : pP.effects.protect.isSome = true := by rw [hprot]; rfl
    refine ⟨_, beforeSteal_get?_protected rng hP hp, ?_⟩
    rw [(computeDelta_fields _).2.1]
    have : ({ resetForResolution pP with
        applied := { (resetForResolution pP).applied with protect := some "True" } }
          : PlayerState).correct = pP.correct := (resetForResolution_fields pP).2.1
    rw [this]
    simp
  | none =>
    obtain ⟨rng1, hb⟩ := beforeSteal_get?_unprotected rng hP hprot
    refine ⟨_, hb, ?_⟩
    rw [(computeDelta_fields _).2.1, resolveInbox_correct, (resetForResolution_fields pP).2.1,
      show (inboxOf players P).fail = (inboxOf players P).get .fail from rfl,
      inboxOf_get players P .fail targeted_mem.1]
    cases hd : declarers players .fail P with
    | nil => simp [Bool.and_comm]
    | cons x l => simp

/-- The swap entries against an unprotected player who answered correctly and against
whom nobody declared fail are still in the inverse map after the second loop. -/
theorem beforeSteal_swap_kept (rng : Rng) {players : Record PlayerState} {V : String}
    {pV : PlayerState} (hnd : players.keys.Nodup) (hV : players.get? V = some pV)
    (hprot : pV.effects.protect = none) (hcorrect : pV.correct = true)
    (hfail : declarers players .fail V = []) {x : String}
    (hx : Attacks (collectApplied players) V .swap x) :
    Attacks (beforeSteal rng players).appliedTo V .swap x := by
  obtain ⟨a1, rng1, h1, _, h3⟩ :=
    resolvePlayers_appliedTo_get? players (collectApplied players) rng hnd hV
  obtain ⟨inbox, l, hget, hl, hmem⟩ := hx
  have hget1 : a1.get? V = some inbox := h1.trans hget
  have hfl : inbox.fail = none := by
    have := collectApplied_entry players V .fail targeted_mem.1
    rw [if_pos hfail] at this
    unfold entryOf at this
    rw [hget] at this
    exact this
  have hcor : (resolveInbox (resetForResolution pV) inbox rng1).1.correct = true := by
    rw [resolveInbox_correct, hfl, (resetForResolution_fields pV).2.1, hcorrect]
    rfl
  have hsw := resolveInbox_swap (resetForResolution pV) inbox rng1
  rw [hcor, if_pos rfl] at hsw
  refine ⟨(resolveInbox (resetForResolution pV) inbox rng1).2.1, l, ?_, ?_, hmem⟩
  · show (resolvePlayers players (collectApplied players) rng).2.1.get? V = _
    rw [h3, resolvePlayer_snd_unprotected rng1 hprot hget1, Record.get?_set_self]
  · rw [show ∀ e : GameEffects (List String), e.get .swap = e.swap from fun _ => rfl, hsw]
    exact hl

theorem resolvePlayer_swap_of_incorrect (name : String) (player : PlayerState) (a : AppliedTo)
    (rng : Rng) (hc : (resolvePlayer name player a rng).1.correct = false)
    {inbox1 : GameEffects (List String)}
    (hget : (resolvePlayer name player a rng).2.1.get? name = some inbox1) :
    inbox1.swap = none := by
  cases hprot : player.effects.protect with
  | some v =>
    have hp : player.effects.protect.isSome = true := by rw [hprot]; rfl
    rw [resolvePlayer_protected_appliedTo a rng hp, Record.get?_erase, if_pos rfl] at hget
    cases hget
  | none =>
    cases ha : a.get? name with
    | none =>
      rcases resolvePlayer_appliedTo name player a rng with
        ⟨hc1, _⟩ | ⟨_, h2⟩ | ⟨applied, _, hg, _, _, _⟩
      · rw [hprot] at hc1
        cases hc1
      · rw [h2, ha] at hget
        cases hget
      · rw [ha] at hg
        cases hg
    | some inbox =>
      rw [resolvePlayer_snd_unprotected rng hprot ha, Record.get?_set_self] at hget
      cases hget
      rw [resolvePlayer_fst_unprotected a rng hprot, ha] at hc
      rw [resolveInbox_swap]
      simp only [Option.getD_some] at hc
      rw [hc]
      rfl

/-- No swap entry against a player whose correct flag is false after the fail step
reaches the steal loop (and so none reaches the swap loop). -/
theorem beforeSteal_swap_discarded (rng : Rng) {players : Record PlayerState} {V : String}
    {pD : PlayerState} (hnd : players.keys.Nodup)
    (hD : (beforeSteal rng players).players.get? V = some pD) (hc : pD.correct = false)
    (x : String) : ¬ Attacks (beforeSteal rng players).appliedTo V .swap x := by
  have hb : (beforeSteal rng players).players.get? V =
      ((resolvePlayers players (collectApplied players) rng).1.get? V).map computeDelta :=
    get?_computeDeltas _ _
  cases hV : players.get? V with
  | none =>
    have : V ∉ players.keys := (Record.get?_eq_none_iff _ _).mp hV
    have hk : (resolvePlayers players (collectApplied players) rng).1.get? V = none := by
      rw [Record.get?_eq_none_iff, resolvePlayers_keys]
      exact this
    rw [hb, hk] at hD
    cases hD
  | some pV =>
    obtain ⟨a1, rng1, _, h2, h3⟩ :=
      resolvePlayers_appliedTo_get? players (collectApplied players) rng hnd hV
    rw [hb, h2] at hD
    simp only [Option.map_some', Option.some.injEq] at hD
    have hc1 : (resolvePlayer V pV a1 rng1).1.correct = false := by
      rw [← (computeDelta_fields _).2.1, hD]
      exact hc
    rintro ⟨inbox1, l, hget, hl, _⟩
    have hget1 : (resolvePlayer V pV a1 rng1).2.1.get? V = some inbox1 := h3 ▸ hget
    have := resolvePlayer_swap_of_incorrect V pV a1 rng1 hc1 hget1
    rw [show inbox1.get .swap = inbox1.swap from rfl, this] at hl
    cases hl

theorem clearSteal_attacks_swap {a : AppliedTo} {other k x : String}
    (h : Attacks a k .swap x) : Attacks (clearSteal a other) k .swap x := by
  unfold clearSteal
  split
  · rename_i inbox hin
    obtain ⟨inbox0, l, hg, hl, hm⟩ := h
    by_cases hk : other = k
    · subst hk
      rw [hin] at hg
      cases hg
      exact ⟨_, l, Record.get?_set_self _ _ _, hl, hm⟩
    · exact ⟨inbox0, l, by rw [Record.get?_set_ne _ _ hk]; exact hg, hl, hm⟩
  · exact h

theorem set_steal_none_attacks_swap {a : AppliedTo} {name k x : String}
    {inbox : GameEffects (List String)} (hget : a.get? name = some inbox)
    (h : Attacks a k .swap x) :
    Attacks (a.set name { inbox with steal := none }) k .swap x := by
  obtain ⟨inbox0, l, hg, hl, hm⟩ := h
  by_cases hk : name = k
  · subst hk
    rw [hget] at hg
    cases hg
    exact ⟨_, l, Record.get?_set_self _ _ _, hl, hm⟩
  · exact ⟨inbox0, l, by rw [Record.get?_set_ne _ _ hk]; exact hg, hl, hm⟩

/-- The steal loop deletes no swap entry. -/
theorem stealStep_attacks_swap {st st1 : LoopState} (h : stealStep st = .ok st1)
    {k x : String} (hx : Attacks st.appliedTo k .swap x) : Attacks st1.appliedTo k .swap x := by
  obtain ⟨name, inbox, _, hget, _, hc⟩ := stealStep_ok h
  rcases hc with ⟨_, ha, _⟩ | ⟨thieves, thief, players1, _, _, _, _, ha⟩
  · rw [ha]
    exact hx
  · rw [ha]
    exact clearSteal_attacks_swap (set_steal_none_attacks_swap hget hx)

theorem stealLoop_attacks_swap {fuel : Nat} {st st1 : LoopState}
    (h : stealLoop fuel st = .ok st1) {k x : String} (hx : Attacks st.appliedTo k .swap x) :
    Attacks st1.appliedTo k .swap x :=
  stealLoop_invariant (fun s => Attacks s.appliedTo k .swap x)
    (fun _ _ hI hs => stealStep_attacks_swap hs hI) fuel st st1 hx h

/-! ## A lone swap -/

theorem resolvePlayer_score (name : String) (player : PlayerState) (a : AppliedTo) (rng : Rng) :
    (resolvePlayer name player a rng).1.score = player.score := by
  cases hprot : player.effects.protect with
  | some v =>
    have hp : player.effects.protect.isSome = true := by rw [hprot]; rfl
    rw [resolvePlayer_fst_protected a rng hp]
    exact (resetForResolution_fields player).2.2.1
  | none =>
    rw [resolvePlayer_fst_unprotected a rng hprot, (resolveInbox_frame _ _ _).1]
    exact (resetForResolution_fields player).2.2.1

/-- The steal loop and the loops before it leave every `score` as it was. -/
theorem afterSteal_score {rng : Rng} {players : Record PlayerState} {st : LoopState}
    (h : afterSteal rng players = .ok st) {k : String} {p : PlayerState}
    (hk : players.get? k = some p) :
    ∃ s, st.players.get? k = some s ∧ s.score = p.score := by
  obtain ⟨a1, rng1, _, h2⟩ := resolvePlayers_get? players (collectApplied players) rng hk
  have hb : (beforeSteal rng players).players.get? k =
      ((resolvePlayers players (collectApplied players) rng).1.get? k).map computeDelta :=
    get?_computeDeltas _ _
  rw [h2] at hb
  unfold afterSteal at h
  have hm := stealLoop_map h (fun q => q.score) (fun _ _ => rfl) (fun _ _ => rfl) k
  rw [hb] at hm
  cases hs : st.players.get? k with
  | none =>
    rw [hs] at hm
    cases hm
  | some s =>
    rw [hs] at hm
    refine ⟨s, rfl, ?_⟩
    simp only [Option.map_some', Option.some.injEq] at hm
    rw [hm, (computeDelta_fields _).2.2.1, resolvePlayer_score]

/-- Every completed iteration of the swap loop preserves the invariant of a lone swap. -/
theorem swapStep_loneSwapInv {A B : String} (hAB : A ≠ B) (rA rB : PlayerState)
    {st st1 : LoopState} (hI : LoneSwapInv rA rB A B st) (h : swapStep st = .ok st1) :
    LoneSwapInv rA rB A B st1 := by
  obtain ⟨hex, hphase⟩ := hI
  have hex1 : ∀ k x, Attacks st1.appliedTo k .swap x → k = B ∧ x = A :=
    fun k x hx => hex k x (attacks_of_shrinks (swapStep_shrinks h) hx)
  obtain ⟨name, inbox, hpick, hget, hpend, hc⟩ := swapStep_ok h
  rcases hc with ⟨hnone, ha, hp⟩ | ⟨swaps, other, players1, hswap, hother, h1, h2, ha⟩
  · refine ⟨hex1, ?_⟩
    rcases hphase with ⟨hBA, hmem, hrA, hrB⟩ | hdone
    · left
      have hne : name ≠ B := by
        intro hc
        obtain ⟨inbox1, l, hg, hl, _⟩ := hBA
        rw [← hc, hget] at hg
        cases hg
        rw [show inbox.get .swap = inbox.swap from rfl, hnone] at hl
        cases hl
      refine ⟨by rw [ha]; exact hBA, ?_, by rw [hp]; exact hrA, by rw [hp]; exact hrB⟩
      rw [hpend]
      exact mem_eraseIdx_of_ne hpick hmem hne
    · right
      rw [ha, hp]
      exact hdone
  · have hatt : Attacks st.appliedTo name .swap other := ⟨inbox, swaps, hget, hswap, hother⟩
    obtain ⟨hnB, hoA⟩ := hex name other hatt
    subst hnB
    subst hoA
    rcases hphase with ⟨_, _, hrA, hrB⟩ | ⟨hno, _, _⟩
    · have hm : ¬ mutualSwap (st.appliedTo.set name { inbox with swap := none }) other name
          = true := by
        rw [mutualSwap_iff, attacks_congr (Record.get?_set_ne _ _ (Ne.symm hAB))]
        intro hc
        exact hAB (hex other name hc).1
      rw [if_neg hm] at h2
      obtain ⟨pn, po, q1, q2, q3, hn, ho, m1, m2, m3, m4⟩ := swapPoints_ok h2
      have hn0 : players1.get? name =
          some { rB with applied := { rB.applied with swap := some other } } := by
        rw [modifyPlayer_get?_self h1, hrB]
        rfl
      have ho0 : players1.get? other = some rA := by
        rw [modifyPlayer_get?_ne h1 (Ne.symm hAB), hrA]
      rw [hn] at hn0
      rw [ho] at ho0
      cases hn0
      cases ho0
      refine ⟨hex1, Or.inr ⟨?_, ?_, ?_⟩⟩
      · intro k x hx
        rw [ha] at hx
        have hx1 := attacks_of_shrinks (clearSwap_shrinks _ _) hx
        have hx2 := attacks_of_shrinks (shrinks_set hget (GameEffects.sub_swap_none inbox)) hx1
        obtain ⟨hk, _⟩ := hex k x hx2
        rw [hk] at hx1
        obtain ⟨inbox1, l, g1, g2, _⟩ := hx1
        rw [Record.get?_set_self] at g1
        cases g1
        cases g2
      · rw [modifyPlayer_get?_self m4, modifyPlayer_get?_self m3,
          modifyPlayer_get?_ne m2 (Ne.symm hAB), modifyPlayer_get?_ne m1 (Ne.symm hAB), ho]
        rfl
      · rw [modifyPlayer_get?_ne m4 hAB, modifyPlayer_get?_ne m3 hAB,
          modifyPlayer_get?_self m2, modifyPlayer_get?_self m1, hn]
        rfl
    · exact absurd hatt (hno name other)

/-! ## Mutual swap -/

theorem clearSwap_get?_ne (a : AppliedTo) {other k : String} (h : other ≠ k) :
    (clearSwap a other).get? k = a.get? k := by
  unfold clearSwap
  split
  · exact Record.get?_set_ne a _ h
  · rfl

theorem clearSwap_no_attack (a : AppliedTo) (other x : String) :
    ¬ Attacks (clearSwap a other) other .swap x := by
  unfold clearSwap
  rintro ⟨inbox1, l, h1, h2, _⟩
  split at h1
  · rw [Record.get?_set_self] at h1
    cases h1
    cases h2
  · rename_i hn
    rw [hn] at h1
    cases h1

theorem set_swap_none_no_attack (a : AppliedTo) (name x : String)
    (inbox : GameEffects (List String)) :
    ¬ Attacks (a.set name { inbox with swap := none }) name .swap x := by
  rintro ⟨inbox1, l, h1, h2, _⟩
  rw [Record.get?_set_self] at h1
  cases h1
  cases h2

/-- The iteration that picks one of a mutually swapping pair whose entries are both still
open: no score moves and both get marked. -/
theorem swapStep_pair {A B : String} (hAB : A ≠ B) {st st1 : LoopState}
    {inbox : GameEffects (List String)} {players1 : Record PlayerState} {rA rB : PlayerState}
    (hBA : Attacks st.appliedTo B .swap A)
    (hrA : st.players.get? A = some rA) (hrB : st.players.get? B = some rB)
    (h1 : modifyPlayer st.players A
      (fun p => { p with applied := { p.applied with swap := some B } }) = .ok players1)
    (h2 : (if mutualSwap (st.appliedTo.set A { inbox with swap := none }) B A then
        modifyPlayer players1 B
          (fun p => { p with applied := { p.applied with swap := some A } })
      else swapPoints players1 A B) = .ok st1.players)
    (ha : st1.appliedTo = clearSwap (st.appliedTo.set A { inbox with swap := none }) B) :
    st1.players.get? A = some { rA with applied := { rA.applied with swap := some B } } ∧
    st1.players.get? B = some { rB with applied := { rB.applied with swap := some A } } ∧
    (∀ x, ¬ Attacks st1.appliedTo A .swap x) ∧ (∀ x, ¬ Attacks st1.appliedTo B .swap x) := by
  have hm : mutualSwap (st.appliedTo.set A { inbox with swap := none }) B A = true := by
    rw [mutualSwap_iff, attacks_congr (Record.get?_set_ne _ _ hAB)]
    exact hBA
  rw [if_pos hm] at h2
  refine ⟨?_, ?_, ?_, ?_⟩
  · rw [modifyPlayer_get?_ne h2 (Ne.symm hAB), modifyPlayer_get?_self h1, hrA]
    rfl
  · rw [modifyPlayer_get?_self h2, modifyPlayer_get?_ne h1 hAB, hrB]
    rfl
  · intro x hx
    rw [ha, attacks_congr (clearSwap_get?_ne _ (Ne.symm hAB))] at hx
    exact set_swap_none_no_attack _ _ _ _ hx
  · intro x hx
    rw [ha] at hx
    exact clearSwap_no_attack _ _ _ hx

/-- An iteration of the swap loop that picks neither of the pair leaves the records of
both and both inboxes alone. -/
theorem swapStep_other {A B : String} {st st1 : LoopState}
    (hex : OnlySwapEachOther st.appliedTo A B)
    {name : String} {inbox : GameEffects (List String)}
    (hget : st.appliedTo.get? name = some inbox) (hA : name ≠ A) (hB : name ≠ B)
    (hc : (inbox.swap = none ∧ st1.appliedTo = st.appliedTo ∧ st1.players = st.players) ∨
       (∃ swaps other players1, inbox.swap = some swaps ∧ other ∈ swaps ∧
          modifyPlayer st.players name
            (fun p => { p with applied := { p.applied with swap := some other } })
            = .ok players1 ∧
          (if mutualSwap (st.appliedTo.set name { inbox with swap := none }) other name then
              modifyPlayer players1 other
                (fun p => { p with applied := { p.applied with swap := some name } })
            else swapPoints players1 name other) = .ok st1.players ∧
          st1.appliedTo =
            clearSwap (st.appliedTo.set name { inbox with swap := none }) other)) :
    (∀ k, k = A ∨ k = B →
      st1.players.get? k = st.players.get? k ∧
      st1.appliedTo.get? k = st.appliedTo.get? k) := by
  intro k hk
  have hnk : name ≠ k := by
    rcases hk with rfl | rfl
    · exact hA
    · exact hB
  rcases hc with ⟨_, ha, hp⟩ | ⟨swaps, other, players1, hswap, hother, h1, h2, ha⟩
  · rw [ha, hp]
    exact ⟨rfl, rfl⟩
  · have hatt : Attacks st.appliedTo name .swap other := ⟨inbox, swaps, hget, hswap, hother⟩
    obtain ⟨e1, e2⟩ := hex name other hatt
    have hok : other ≠ k := by
      rcases hk with rfl | rfl
      · exact fun hc => hB (e2.mpr hc)
      · exact fun hc => hA (e1.mpr hc)
    refine ⟨?_, ?_⟩
    · split at h2
      · rw [modifyPlayer_get?_ne h2 hok, modifyPlayer_get?_ne h1 hnk]
      · rw [swapPoints_get?_ne h2 hnk hok, modifyPlayer_get?_ne h1 hnk]
    · rw [ha, clearSwap_get?_ne _ hok, Record.get?_set_ne _ _ hnk]

/-- Every completed iteration of the swap loop preserves the invariant of a mutually
swapping pair. -/
theorem swapStep_mutualSwapInv {A B : String} (hAB : A ≠ B) (rA rB : PlayerState)
    {st st1 : LoopState} (hI : MutualSwapInv rA rB A B st) (h : swapStep st = .ok st1) :
    MutualSwapInv rA rB A B st1 := by
  obtain ⟨hex, hphase⟩ := hI
  have hex1 : OnlySwapEachOther st1.appliedTo A B :=
    fun k x hx => hex k x (attacks_of_shrinks (swapStep_shrinks h) hx)
  obtain ⟨name, inbox, hpick, hget, hpend, hc⟩ := swapStep_ok h
  by_cases hnA : name = A
  · subst hnA
    rcases hc with ⟨hnone, ha, hp⟩ | ⟨swaps, other, players1, hswap, hother, h1, h2, ha⟩
    · rcases hphase with ⟨hAB1, _, _⟩ | hdone
      · obtain ⟨inbox1, l, hg, hl, _⟩ := hAB1
        rw [hget] at hg
        cases hg
        rw [show inbox.get .swap = inbox.swap from rfl, hnone] at hl
        cases hl
      · refine ⟨hex1, Or.inr ?_⟩
        rw [ha, hp]
        exact hdone
    · have hatt : Attacks st.appliedTo name .swap other := ⟨inbox, swaps, hget, hswap, hother⟩
      have hoB : other = B := (hex name other hatt).1.mp rfl
      subst hoB
      rcases hphase with ⟨_, hBA, _, hrA, hrB⟩ | ⟨hno, _, _, _⟩
      · obtain ⟨e1, e2, e3, e4⟩ := swapStep_pair hAB hBA hrA hrB h1 h2 ha
        exact ⟨hex1, Or.inr ⟨e3, e4, e1, e2⟩⟩
      · exact absurd hatt (hno other)
  · by_cases hnB : name = B
    · subst hnB
      rcases hc with ⟨hnone, ha, hp⟩ | ⟨swaps, other, players1, hswap, hother, h1, h2, ha⟩
      · rcases hphase with ⟨_, hBA1, _⟩ | hdone
        · obtain ⟨inbox1, l, hg, hl, _⟩ := hBA1
          rw [hget] at hg
          cases hg
          rw [show inbox.get .swap = inbox.swap from rfl, hnone] at hl
          cases hl
        · refine ⟨hex1, Or.inr ?_⟩
          rw [ha, hp]
          exact hdone
      · have hatt : Attacks st.appliedTo name .swap other :=
          ⟨inbox, swaps, hget, hswap, hother⟩
        have hoA : other = A := (hex name other hatt).2.mp rfl
        subst hoA
        rcases hphase with ⟨hAB1, _, _, hrA, hrB⟩ | ⟨_, hnoB, _, _⟩
        · obtain ⟨e1, e2, e3, e4⟩ := swapStep_pair (Ne.symm hAB) hAB1 hrB hrA h1 h2 ha
          exact ⟨hex1, Or.inr ⟨e4, e3, e2, e1⟩⟩
        · exact absurd hatt (hnoB other)
    · have hfr := swapStep_other hex hget hnA hnB hc
      obtain ⟨fA1, fA2⟩ := hfr A (Or.inl rfl)
      obtain ⟨fB1, fB2⟩ := hfr B (Or.inr rfl)
      refine ⟨hex1, ?_⟩
      rcases hphase with ⟨hAB1, hBA1, hmem, hrA, hrB⟩ | ⟨hno, hnoB, hrA, hrB⟩
      · refine Or.inl ⟨(attacks_congr fA2 _ _).mpr hAB1, (attacks_congr fB2 _ _).mpr hBA1, ?_,
          fA1.trans hrA, fB1.trans hrB⟩
        rw [hpend]
        exact mem_eraseIdx_of_ne hpick hmem hnA
      · exact Or.inr ⟨fun x hx => hno x ((attacks_congr fA2 _ _).mp hx),
          fun x hx => hnoB x ((attacks_congr fB2 _ _).mp hx), fA1.trans hrA, fB1.trans hrB⟩

/-! ## Players whose correct flag is false after the fail step -/

theorem resolvePlayer_applied_swap (name : String) (player : PlayerState) (a : AppliedTo)
    (rng : Rng) : (resolvePlayer name player a rng).1.applied.swap = none := by
  cases hprot : player.effects.protect with
  | some v =>
    have hp : player.effects.protect.isSome = true := by rw [hprot]; rfl
    rw [resolvePlayer_fst_protected a rng hp]
    exact (resetForResolution_fields player).2.2.2.2.2.2.2.2.2.1
  | none =>
    rw [resolvePlayer_fst_unprotected a rng hprot, (resolveInbox_frame _ _ _).2.2.2.2.2.2.2.2]
    exact (resetForResolution_fields player).2.2.2.2.2.2.2.2.2.1

/-- Every record before the steal loop is the result of the loop body of the second loop
for that player, with the delta computed. -/
theorem beforeSteal_get?_inv {rng : Rng} {players : Record PlayerState} {V : String}
    {pD : PlayerState} (hD : (beforeSteal rng players).players.get? V = some pD) :
    ∃ pV a1 rng1, players.get? V = some pV ∧
      pD = computeDelta (resolvePlayer V pV a1 rng1).1 := by
  have hb : (beforeSteal rng players).players.get? V =
      ((resolvePlayers players (collectApplied players) rng).1.get? V).map computeDelta :=
    get?_computeDeltas _ _
  cases hV : players.get? V with
  | none =>
    have : V ∉ players.keys := (Record.get?_eq_none_iff _ _).mp hV
    have hk : (resolvePlayers players (collectApplied players) rng).1.get? V = none := by
      rw [Record.get?_eq_none_iff, resolvePlayers_keys]
      exact this
    rw [hb, hk] at hD
    cases hD
  | some pV =>
    obtain ⟨a1, rng1, _, h2⟩ := resolvePlayers_get? players (collectApplied players) rng hV
    rw [hb, h2] at hD
    simp only [Option.map_some', Option.some.injEq] at hD
    exact ⟨pV, a1, rng1, rfl, hD.symm⟩

/-- No player is marked as swapped before the swap loop. -/
theorem afterSteal_applied_swap {rng : Rng} {players : Record PlayerState} {st : LoopState}
    (h : afterSteal rng players = .ok st) {k : String} {s : PlayerState}
    (hk : st.players.get? k = some s) : s.applied.swap = none := by
  unfold afterSteal at h
  have hm := stealLoop_map h (fun q => q.applied.swap) (fun _ _ => rfl) (fun _ _ => rfl) k
  rw [hk] at hm
  cases hD : (beforeSteal rng players).players.get? k with
  | none =>
    rw [hD] at hm
    cases hm
  | some pD =>
    rw [hD] at hm
    simp only [Option.map_some', Option.some.injEq] at hm
    obtain ⟨pV, a1, rng1, _, rfl⟩ := beforeSteal_get?_inv hD
    rw [hm, (computeDelta_fields _).2.2.2.2.2.2.2.2.2.2.2.1]
    exact resolvePlayer_applied_swap _ _ _ _

/-! ## The claims on concrete rounds -/

/-- C18 as stated fails on `failedSwapRound`, where `V` was failed by `F` and `V` and `W`
declared swap against each other: the entry of `W` against `V` is discarded, but the
entry of `V` against `W` is open, so when `W` is picked its partner is `V` and the
committed scores 1 of `V` and 11 of `W` are exchanged, although `W` declared swap
against `V` and the correct flag of `V` is false. -/
theorem failed_player_score_exchanged :
    failedSwapRound.map (fun e => (e.1, e.2.effects.swap, e.2.effects.fail))
      = [("V", some "W", none), ("W", some "V", none), ("F", none, some "V")] ∧
    (beforeSteal zeroRng failedSwapRound).players.map (fun e => (e.1, e.2.correct))
      = [("V", false), ("W", true), ("F", true)] ∧
    (afterSteal zeroRng failedSwapRound).toOption.map
        (fun st => st.players.map (fun e => (e.1, committed e.2)))
      = some [("V", 1), ("W", 11), ("F", 7)] ∧
    (applyEffects zeroRng failedSwapRound).toOption.map
        (fun ps => ps.map (fun e => (e.1, e.2.score, e.2.applied.swap)))
      = some [("V", 11, none), ("W", 1, some "V"), ("F", 7, none)] := by
  decide

theorem majority_min_max_witness :
    ∃ p1, minMaxRoundResult.get? "V" = some p1 ∧
      ((declarers minMaxRound .max "V").length < (declarers minMaxRound .min "V").length →
        p1.payout = -1 ∧ p1.applied.max = none ∧
        p1.applied.min = some (", ".intercalate (declarers minMaxRound .min "V"))) ∧
      ((declarers minMaxRound .min "V").length < (declarers minMaxRound .max "V").length →
        p1.payout = 3 ∧ p1.applied.min = none ∧
        p1.applied.max = some (", ".intercalate (declarers minMaxRound .max "V"))) :=
  majority_min_max zeroRng minMaxRound minMaxRoundResult "V" (samplePlayer true 2 true 5 {})
    rfl rfl rfl rfl

theorem zeroed_player_resolution_witness :
    ∃ pD p1, (beforeSteal zeroRng zeroRound).players.get? "V" = some pD ∧
      zeroRoundResult.get? "V" = some p1 ∧ pD.payout = 0 ∧ p1.payout = 0 ∧
      ((samplePlayer true 3 true 5 {}).effects.double = none → pD.delta = 0) ∧
      p1.applied.zero = some (", ".intercalate (declarers zeroRound .zero "V")) ∧
      p1.applied.min = none ∧ p1.applied.max = none :=
  zeroed_player_resolution zeroRng zeroRound zeroRoundResult "V" (samplePlayer true 3 true 5 {})
    rfl rfl (by decide) rfl

theorem failed_player_resolution_witness :
    ∃ pD p1, (beforeSteal zeroRng failRound).players.get? "V" = some pD ∧
      failRoundResult.get? "V" = some p1 ∧ p1.correct = false ∧
      p1.applied.fail = some (", ".intercalate (declarers failRound .fail "V")) ∧
      p1.payout = pD.payout ∧ pD.score = (samplePlayer true 3 true 5 {}).score ∧
      ((samplePlayer true 3 true 5 {}).effects.double = none → pD.delta = -pD.payout) ∧
      ((samplePlayer true 3 true 5 {}).effects.double ≠ none →
        pD.delta = -(samplePlayer true 3 true 5 {}).score) :=
  failed_player_resolution zeroRng failRound failRoundResult "V" (samplePlayer true 3 true 5 {})
    rfl rfl (by decide) rfl

theorem double_or_nothing_witness :
    ∃ pD, (beforeSteal zeroRng doubleRound).players.get? "P" = some pD ∧ pD.score = 4 ∧
      pD.correct = true ∧ pD.delta = 4 ∧
      ∃ p1, doubleRoundResult.get? "P" = some p1 ∧ p1.score = 2 * 4 := by
  obtain ⟨pD, h1, h2, h3, h4, _, h6⟩ := double_or_nothing zeroRng doubleRound doubleRoundResult
    "P" (samplePlayer true 3 true 4 { double := some "P" }) (by decide) rfl rfl
  have hc : pD.correct = true := h3.trans (by decide)
  obtain ⟨p1, h7, h8, _⟩ := h6 (by decide) rfl rfl (by decide) rfl
  exact ⟨pD, h1, h2, hc, h4 hc, p1, h7, h8 hc⟩

/-- C20 fails on `clampRound`: `B` has score 1 and answers wrongly with confidence 3, so
the pass computes delta -3 and commits the score `max(0, 1 - 3) = 0`; the score of `B`
changed by -1, while its `delta` field stays -3, so `score after = score before + delta`
does not hold. -/
theorem delta_not_applied_change :
    clampRound.map (fun e => (e.1, e.2.score)) = [("A", 5), ("B", 1)] ∧
    (applyEffects zeroRng clampRound).toOption.map
        (fun ps => ps.map (fun e => (e.1, e.2.score, e.2.delta)))
      = some [("A", 7, 2), ("B", 0, -3)] ∧
    ¬ (∀ (rng : Rng) (players players1 : Record PlayerState) (name : String)
        (p p1 : PlayerState), players.keys.Nodup → applyEffects rng players = .ok players1 →
        players.get? name = some p → players1.get? name = some p1 →
        p1.score = p.score + p1.delta) := by
  refine ⟨by decide, by decide, ?_⟩
  intro hall
  have := hall zeroRng clampRound
    [("A", { samplePlayer false 2 true 7 {} with payout := 2, delta := 2 }),
     ("B", { samplePlayer false 3 false 0 {} with payout := 3, delta := -3 })]
    "B" (samplePlayer true 3 false 1 {})
    { samplePlayer false 3 false 0 {} with payout := 3, delta := -3 }
    (by decide) rfl rfl rfl
  revert this
  decide

/-! ## Transfers of the steal loop -/

/-- The pair that `stealTransfer` reports is an open steal entry, and the iteration it
belongs to closes the entries of both: it deletes the steal list of the victim and, as
its last statement, the steal list of the thief. -/
theorem stealTransfer_some {st : LoopState} {v t : String}
    (h : stealTransfer st = some (v, t)) :
    Attacks st.appliedTo v .steal t ∧
      ∀ st1, stealStep st = .ok st1 → ∀ x, ¬ Attacks st1.appliedTo t .steal x := by
  unfold stealTransfer at h
  simp only at h
  split at h
  · cases h
  · rename_i name hname
    split at h
    · cases h
    · rename_i inbox hinbox
      split at h
      · cases h
      · rename_i thieves hth
        split at h
        · cases h
        · rename_i thief hthief
          split at h
          · cases h
          · cases h
            refine ⟨⟨inbox, thieves, hinbox, hth, List.getElem?_mem hthief⟩, ?_⟩
            intro st1 hs x hx
            unfold stealStep at hs
            simp only [hname, hinbox, hth, hthief] at hs
            split at hs
            · cases hs
            · split at hs
              · cases hs
              · cases hs
                exact clearSteal_no_attack _ _ _ hx

/-- An iteration for which `stealTransfer` reports nothing changes no delta. -/
theorem stealStep_no_transfer {st st1 : LoopState} (h : stealStep st = .ok st1)
    (hn : stealTransfer st = none) (k : String) :
    deltaOf st1.players k = deltaOf st.players k := by
  unfold stealTransfer at hn
  unfold stealStep at h
  simp only at h hn
  split at hn
  · rename_i hname
    simp only [hname] at h
    cases h
  · rename_i name hname
    simp only [hname] at h
    split at hn
    · rename_i hinbox
      simp only [hinbox] at h
      cases h
    · rename_i inbox hinbox
      simp only [hinbox] at h
      split at hn
      · rename_i hth
        simp only [hth] at h
        cases h
        rfl
      · rename_i thieves hth
        simp only [hth] at h
        split at hn
        · rename_i hthief
          simp only [hthief] at h
          cases h
        · rename_i thief hthief
          simp only [hthief] at h
          split at hn
          · rename_i hm
            split at h
            · cases h
            · rename_i players1 h1
              rw [if_pos hm] at h
              split at h
              · cases h
              · rename_i players2 h2
                cases h
                show deltaOf players2 k = _
                rw [modifyPlayer_deltaOf h2 (fun _ => rfl), modifyPlayer_deltaOf h1 (fun _ => rfl)]
          · cases hn

/-- An iteration for which `stealTransfer` reports the pair `(v, t)` marks `v` as stolen
from by `t` and then runs the `else` branch on them. -/
theorem stealStep_of_transfer {st st1 : LoopState} {v t : String}
    (h : stealStep st = .ok st1) (ht : stealTransfer st = some (v, t)) :
    ∃ players1, modifyPlayer st.players v
        (fun p => { p with applied := { p.applied with steal := some t } }) = .ok players1 ∧
      stealPoints players1 v t = .ok st1.players := by
  unfold stealTransfer at ht
  unfold stealStep at h
  simp only at h ht
  split at ht
  · cases ht
  · rename_i name hname
    simp only [hname] at h
    split at ht
    · cases ht
    · rename_i inbox hinbox
      simp only [hinbox] at h
      split at ht
      · cases ht
      · rename_i thieves hth
        simp only [hth] at h
        split at ht
        · cases ht
        · rename_i thief hthief
          simp only [hthief] at h
          split at ht
          · cases ht
          · rename_i hm
            cases ht
            split at h
            · cases h
            · rename_i players1 h1
              rw [if_neg hm] at h
              split at h
              · cases h
              · rename_i players2 h2
                cases h
                exact ⟨players1, h1, h2⟩

/-- Every victim in the log of the steal loop from `st` has an open steal entry in
`st`. -/
theorem stealTransfers_victim_open :
    ∀ (fuel : Nat) (st : LoopState) (e : String × String), e ∈ stealTransfers fuel st →
      ∃ x, Attacks st.appliedTo e.1 .steal x := by
  intro fuel
  induction fuel with
  | zero =>
    intro st e he
    simp [stealTransfers] at he
  | succ fuel ih =>
    intro st e he
    simp only [stealTransfers] at he
    split at he
    · have hhead : e ∈ (stealTransfer st).toList → ∃ x, Attacks st.appliedTo e.1 .steal x := by
        intro hm
        rw [Option.mem_toList] at hm
        obtain ⟨v, t⟩ := e
        exact ⟨t, (stealTransfer_some hm).1⟩
      split at he
      · exact hhead he
      · rename_i st1 hs
        rcases List.mem_append.mp he with hm | hm
        · exact hhead hm
        · obtain ⟨x, hx⟩ := ih st1 e hm
          exact ⟨x, attacks_of_shrinks (stealStep_shrinks hs) hx⟩
    · simp at he

/-- Once a player has taken a delta as thief, no later iteration of the steal loop takes
a delta from that player. -/
theorem stealTransfers_pairwise :
    ∀ (fuel : Nat) (st : LoopState),
      (stealTransfers fuel st).Pairwise (fun e1 e2 => e1.2 ≠ e2.1) := by
  intro fuel
  induction fuel with
  | zero =>
    intro st
    simp [stealTransfers]
  | succ fuel ih =>
    intro st
    simp only [stealTransfers]
    split
    · have hone : (stealTransfer st).toList.Pairwise (fun e1 e2 => e1.2 ≠ e2.1) := by
        cases stealTransfer st with
        | none => simp
        | some e => simp
      split
      · exact hone
      · rename_i st1 hs
        rw [List.pairwise_append]
        refine ⟨hone, ih st1, ?_⟩
        intro e1 h1 e2 h2 heq
        rw [Option.mem_toList] at h1
        obtain ⟨v, t⟩ := e1
        obtain ⟨x, hx⟩ := stealTransfers_victim_open fuel st1 e2 h2
        have heq1 : t = e2.1 := heq
        rw [← heq1] at hx
        exact (stealTransfer_some h1).2 st1 hs x hx
    · simp

/-- C21, as amended: in the log of the transfers of the steal loop of one pass, for every
set of declarations and every outcome of the random choices, no player who took the delta
of a victim as thief has its own delta taken by a later transfer (a mutually stealing
pair makes no transfer and is not in the log). -/
theorem thief_never_victim_later (rng : Rng) (players : Record PlayerState) :
    (stealLog rng players).Pairwise (fun e1 e2 => e1.2 ≠ e2.1) :=
  stealTransfers_pairwise _ _

/-- C21 as stated fails on `stealChainRound`, where `T` steals from `V` and `V` steals
from `W`: with the samples 0 the steal loop first picks the victim `V`, whose delta 2 goes
to `T`, and then the victim `W`, whose delta 3 goes to `V`; so `V` both has its delta
taken and takes the delta of another player, and the pair is not mutual. -/
theorem victim_steals_later :
    stealChainRound.map (fun e => (e.1, e.2.effects.steal))
      = [("T", some "V"), ("V", some "W"), ("W", none)] ∧
    (beforeSteal zeroRng stealChainRound).players.map (fun e => (e.1, e.2.delta))
      = [("T", 1), ("V", 2), ("W", 3)] ∧
    stealLog zeroRng stealChainRound = [("V", "T"), ("W", "V")] ∧
    (afterSteal zeroRng stealChainRound).toOption.map
        (fun st => st.players.map (fun e => (e.1, e.2.delta, e.2.applied.steal)))
      = some [("T", 3, none), ("V", 3, some "T"), ("W", 0, some "V")] ∧
    ¬ (∀ e1 ∈ stealLog zeroRng stealChainRound, ∀ e2 ∈ stealLog zeroRng stealChainRound,
        e1.1 ≠ e2.2) := by
  decide

/-! ## Targets that are not in the map -/

/-- C22 fails on `absentStealRound` and on `absentSwapRound`: the first loop creates an
inbox for the absent target `Z`, the steal loop (the swap loop) picks `Z` as victim and the
write `this.players[name].applied.steal = thief` (`applied.swap = other`) reads a property
of `undefined`; `applyEffects` throws after the deltas are computed (after the scores are
committed), and so do `advanceStage` and `updatePlayer`, which leave the phase at answer.
A fail, zero, min or max against the absent `Z` completes. -/
theorem applyEffects_absent_target_throws :
    applyEffects zeroRng absentStealRound
      = .error [("A", { samplePlayer false 2 true 5 { steal := some "Z" } with
                          payout := 2, delta := 2 }),
                ("B", { samplePlayer false 3 false 1 {} with payout := 3, delta := -3 })] ∧
    applyEffects zeroRng absentSwapRound
      = .error [("A", { samplePlayer false 2 true 7 { swap := some "Z" } with
                          payout := 2, delta := 2 }),
                ("B", { samplePlayer false 3 false 0 {} with payout := 3, delta := -3 })] ∧
    (updatePlayer zeroRng { sampleState .answer [] with players := absentStealRound } "B"
        (some (samplePlayer true 3 false 1 {}))).toOption = none ∧
    (stateAfter (updatePlayer zeroRng
        { sampleState .answer [] with players := absentStealRound } "B"
        (some (samplePlayer true 3 false 1 {})))).phase = .answer ∧
    (applyEffects zeroRng
        [("A", samplePlayer true 2 true 5 { fail := some "Z", zero := some "Z" }),
         ("B", samplePlayer true 3 false 1 { min := some "Z", max := some "Z" })]).toOption.map
        (fun ps => ps.map (fun e => (e.1, e.2.score, e.2.delta)))
      = some [("A", 7, 2), ("B", 0, -3)] := by
  refine ⟨rfl, rfl, by decide, by decide, by decide⟩

/-! ## `Session` -/

theorem handle_of_update (rng : Rng) (s : Session) (msg : Message) (name : String)
    (hcmd : msg.cmd = .string "update") (hname : msg.name = .string name) :
    Session.handle rng s (some msg) =
      match updatePlayer rng s.state name msg.value with
      | .error state => .error { s with state := state }
      | .ok state => .ok ({ s with state := state, dead := 0 }, none,
          s.ws.map (fun ws => (ws, makeState state))) := by
  unfold Session.handle
  simp only
  rw [hcmd, hname]
  simp only [Session.sync]
  rw [if_neg (by decide), if_neg (by decide), if_pos trivial]

/-- C23, as amended: for every parsed payload other than `null`, `handle` returns
`{cmd: 'malformed'}` exactly for the malformed messages, and then the session (game
state, idle counter, connections) is unchanged and nothing is sent; for `cmd` `state` it
returns the snapshot `{phase, question, totalQuestions, players, round}` of the current
state, again with the session unchanged and nothing sent; for the payload `null` it
throws, with the session unchanged and nothing sent. -/
theorem handle_malformed_iff (rng : Rng) (s : Session) (msg : Option Message) :
    (∀ s1 sent, Session.handle rng s msg = .ok (s1, some .malformed, sent) →
        ∃ m, msg = some m ∧ m.Malformed) ∧
      (∀ m, msg = some m → m.Malformed →
        Session.handle rng s msg = .ok (s, some .malformed, [])) ∧
      (∀ m, msg = some m → m.cmd = .string "state" →
        Session.handle rng s msg
          = .ok (s, some (.state { phase := s.state.phase, question := s.state.question,
                                   totalQuestions := s.state.total,
                                   players := s.state.players, round := s.state.round }),
                 [])) ∧
      (msg = none → Session.handle rng s msg = .error s) := by
  refine ⟨?_, ?_, ?_, ?_⟩
  · intro s1 sent h
    cases msg with
    | none => cases h
    | some msg =>
      refine ⟨msg, rfl, ?_⟩
      cases hc : msg.cmd with
      | string cmd =>
        by_cases h1 : cmd = ""
        · exact Or.inl (fun c hcc => by rw [hc] at hcc; cases hcc; exact h1)
        · by_cases h2 : cmd = "state"
          · subst h2
            unfold Session.handle at h
            simp only at h
            rw [hc] at h
            simp at h
          · by_cases h3 : cmd = "update"
            · subst h3
              cases hn : msg.name with
              | string name =>
                rw [handle_of_update rng s msg name hc hn] at h
                split at h
                · cases h
                · simp at h
              | _ => exact Or.inr (Or.inr ⟨hc, by rw [hn]; rfl⟩)
            · exact Or.inr (Or.inl ⟨cmd, hc, h2, h3⟩)
      | _ => exact Or.inl (fun c hcc => by rw [hc] at hcc; cases hcc)
  · intro msg hmsg hm
    subst hmsg
    unfold Session.handle
    simp only
    rcases hm with h | ⟨cmd, hc, h2, h3⟩ | ⟨hc, hn⟩
    · cases hc : msg.cmd with
      | string cmd =>
        have := h cmd hc
        subst this
        simp
      | _ => rfl
    · rw [hc]
      by_cases h1 : cmd = ""
      · simp [h1]
      · simp [h1, h2, h3]
    · rw [hc]
      cases hm : msg.name with
      | string name =>
        rw [hm] at hn
        cases hn
      | _ => simp
  · intro msg hmsg hc
    subst hmsg
    unfold Session.handle
    simp only
    rw [hc]
    simp [makeState]
  · intro hmsg
    subst hmsg
    rfl

/-- C23 as stated fails for the payload `null`, whose `cmd` is not a string: `handle`
throws at the read `msg.cmd` instead of returning `{cmd: 'malformed'}` (the caller
catches the `TypeError` and closes the connection); the session is unchanged. -/
theorem handle_null_payload_throws :
    Session.handle zeroRng sampleSession none = .error sampleSession ∧
      ∀ sent, Session.handle zeroRng sampleSession none
        ≠ .ok (sampleSession, some .malformed, sent) :=
  ⟨rfl, fun _ h => by cases h⟩

theorem updatePlayer_eq (rng : Rng) (s : GameState) (name : String)
    (state : Option PlayerState) :
    updatePlayer rng s name state =
      advanceStage rng { s with players := storePlayer s.players name state } := by
  unfold updatePlayer storePlayer
  rfl

/-- For `{cmd: 'update', name, value}` with a string `name` other than `__proto__`,
`handle` stores `value` as the record of `name` (deletes `name` when `value` is `null` or
absent) and leaves all other records in place, runs `advanceStage` once on the result
and, when that completes, sends the snapshot `{phase, question, totalQuestions, players,
round}` of the resulting state once to every attached connection, sets the idle counter
to 0 and returns `null`; when `advanceStage` throws, so does `handle`. -/
theorem handle_update (rng : Rng) (s : Session) (msg : Message) (name : String)
    (hcmd : msg.cmd = .string "update") (hname : msg.name = .string name)
    (_hproto : name ≠ "__proto__") :
    (storePlayer s.state.players name msg.value).get? name = msg.value ∧
      (∀ k, k ≠ name →
        (storePlayer s.state.players name msg.value).get? k = s.state.players.get? k) ∧
      Session.handle rng s (some msg) =
        match advanceStage rng
            { s.state with players := storePlayer s.state.players name msg.value } with
        | .error state => .error { s with state := state }
        | .ok state => .ok ({ s with state := state, dead := 0 }, none,
            s.ws.map (fun ws => (ws,
              { phase := state.phase, question := state.question,
                totalQuestions := state.total, players := state.players,
                round := state.round }))) := by
  refine ⟨?_, ?_, ?_⟩
  · unfold storePlayer
    cases msg.value with
    | none => simp [Record.get?_erase]
    | some st => simp [Record.get?_set_self]
  · intro k hk
    unfold storePlayer
    cases msg.value with
    | none => simp [Record.get?_erase, Ne.symm hk]
    | some st => simp [Record.get?_set_ne _ _ (Ne.symm hk)]
  · rw [handle_of_update rng s msg name hcmd hname, updatePlayer_eq]
    rfl

/-- Instance of `handle_update`: the update that makes `B` ready in `sampleSession`. -/
theorem handle_update_on_sample :
    Session.handle zeroRng sampleSession
        (some { cmd := .string "update", name := .string "B",
                value := some (samplePlayer true 3 false 1 {}) })
      = .ok ({ sampleSession with
                 dead := 0,
                 state := { sampleState .answer [sampleQuestion 1] with
                   players := [("A", samplePlayer false 2 true 5 {}),
                               ("B", samplePlayer false 3 false 1 {})] } },
             none,
             [(4, { phase := .answer, question := none, totalQuestions := 4, round := 3,
                    players := [("A", samplePlayer false 2 true 5 {}),
                                ("B", samplePlayer false 3 false 1 {})] }),
              (9, { phase := .answer, question := none, totalQuestions := 4, round := 3,
                    players := [("A", samplePlayer false 2 true 5 {}),
                                ("B", samplePlayer false 3 false 1 {})] })]) :=
  (handle_update zeroRng sampleSession
    { cmd := .string "update", name := .string "B",
      value := some (samplePlayer true 3 false 1 {}) } "B" rfl rfl (by decide)).2.2

/-- Instance of `handle_malformed_iff`: an update whose name is a number. -/
theorem handle_malformed_iff_witness :
    Session.handle zeroRng sampleSession
        (some { cmd := .string "update", name := .number 3, value := none })
      = .ok (sampleSession, some .malformed, []) :=
  (handle_malformed_iff zeroRng sampleSession
    (some { cmd := .string "update", name := .number 3, value := none })).2.1
    { cmd := .string "update", name := .number 3, value := none } rfl
    (Or.inr (Or.inr ⟨rfl, rfl⟩))

/-! ## The idle reaper -/

theorem idleTicks_alive {sessions : Registry} {id : String} {s : Session}
    (hs : sessions.get? id = some s) :
    ∀ n, s.dead + n ≤ sessionTimeoutMinutes + 1 →
      (idleTicks sessions id n).get? id = some { s with dead := s.dead + n } := by
  intro n
  induction n with
  | zero =>
    intro _
    exact hs
  | succ n ih =>
    intro hle
    have h1 := ih (by omega)
    simp only [idleTicks, reaperTick, h1]
    rw [if_pos (by show s.dead + n < sessionTimeoutMinutes + 1; omega)]
    rw [Record.get?_set_self]
    rfl

/-- Whenever `handle` returns `null` it has run `sync`, so the idle counter is 0. -/
theorem handle_null_reply {rng : Rng} {s s1 : Session} {msg : Option Message}
    {sent : List (Nat × Snapshot)} (h : Session.handle rng s msg = .ok (s1, none, sent)) :
    s1.dead = 0 := by
  cases msg with
  | none => cases h
  | some msg =>
  unfold Session.handle at h
  simp only at h
  split at h
  · rename_i cmd hc
    split at h
    · simp at h
    · split at h
      · simp at h
      · split at h
        · split at h
          · split at h
            · cases h
            · simp only [Session.sync, Except.ok.injEq, Prod.mk.injEq, true_and] at h
              rw [← h.1]
          · simp at h
        · simp at h
  · simp at h

/-- The idle reaper as coded: counting the runs of the one-minute interval callback since
the last update (the idle counter is 0), a session that receives no update is still in
the registry, with nothing closed, after each of the first 21 runs, and the 22nd run
removes it from the registry, closes every attached connection and clears the timer;
every update that `handle` completes sets the idle counter back to 0. -/
theorem session_reaped_at_tick_22 (sessions : Registry) (id : String) (s : Session)
    (hs : sessions.get? id = some s) (hd : s.dead = 0) :
    (∀ n, n ≤ 21 → (idleTicks sessions id n).get? id = some { s with dead := n }) ∧
      reaperTick (idleTicks sessions id 21) id =
        ((idleTicks sessions id 21).erase id, { closed := s.ws, cleared := s.timeout }) ∧
      (idleTicks sessions id 22).get? id = none ∧
      (∀ (rng : Rng) (s0 s1 : Session) (msg : Option Message)
          (sent : List (Nat × Snapshot)),
        Session.handle rng s0 msg = .ok (s1, none, sent) → s1.dead = 0) := by
  have alive : ∀ n, n ≤ 21 → (idleTicks sessions id n).get? id = some { s with dead := n } := by
    intro n hn
    have := idleTicks_alive hs n (by rw [hd]; show 0 + n ≤ 20 + 1; omega)
    rw [this, hd, Nat.zero_add]
  have h21 := alive 21 (le_refl _)
  have htick : reaperTick (idleTicks sessions id 21) id =
      ((idleTicks sessions id 21).erase id, { closed := s.ws, cleared := s.timeout }) := by
    simp only [reaperTick, h21]
    rw [if_neg (by show ¬ 21 < sessionTimeoutMinutes + 1; decide)]
  refine ⟨alive, htick, ?_, fun _ _ _ _ _ h => handle_null_reply h⟩
  show (reaperTick (idleTicks sessions id 21) id).1.get? id = none
  rw [htick, Record.get?_erase, if_pos rfl]

theorem session_reaped_at_tick_22_on_sample :
    (∀ n, n ≤ 21 → (idleTicks sampleRegistry "s1" n).get? "s1"
        = some { Session.new [sampleQuestion 1] with timeout := true, dead := n }) ∧
      reaperTick (idleTicks sampleRegistry "s1" 21) "s1" =
        ((idleTicks sampleRegistry "s1" 21).erase "s1", { closed := [], cleared := true }) ∧
      (idleTicks sampleRegistry "s1" 22).get? "s1" = none ∧
      (∀ (rng : Rng) (s0 s1 : Session) (msg : Option Message)
          (sent : List (Nat × Snapshot)),
        Session.handle rng s0 msg = .ok (s1, none, sent) → s1.dead = 0) :=
  session_reaped_at_tick_22 sampleRegistry "s1"
    { Session.new [sampleQuestion 1] with timeout := true } rfl rfl

/-- C25 fails on `sampleRegistry`, a registry with one fresh session: after the 21st
consecutive idle run of the interval callback the session is still in the registry (its
idle counter is 21) and nothing was closed; the callback tests
`dead++ < sessionTimeoutMinutes + 1` on the value before the increment, so the first run
that removes the session is the 22nd. -/
theorem session_alive_after_tick_21 :
    ((idleTicks sampleRegistry "s1" 20).get? "s1").map (fun s => s.dead) = some 20 ∧
    ((idleTicks sampleRegistry "s1" 21).get? "s1").map (fun s => s.dead) = some 21 ∧
    (reaperTick (idleTicks sampleRegistry "s1" 20) "s1").2 = { closed := [], cleared := false } ∧
    (idleTicks sampleRegistry "s1" 22).get? "s1" = none := by
  decide

/-! ## `SyncSocket` -/

namespace SyncSocket

theorem new_inv : Inv SyncSocket.new := by
  refine ⟨Or.inl rfl, ?_, ?_⟩ <;> decide

theorem kill_eq (s : SyncSocket) :
    (kill s).1 = { s with ws := none } ∧ (kill s).2 = s.ws.toList.map SocketAction.discard := by
  unfold kill
  cases h : s.ws with
  | none =>
    refine ⟨?_, rfl⟩
    cases s
    simp_all
  | some socket => exact ⟨rfl, rfl⟩

end SyncSocket

namespace SyncSocket

theorem establish_inv {s : SyncSocket} (h : s.timers = 0) : Inv (establish s).1 := by
  refine ⟨Or.inl h, ?_, ?_⟩ <;> simp [establish]

theorem fatal_inv {s : SyncSocket} (msg : String) (h : s.timers = 0) : Inv (fatal s msg).1 := by
  have hk := (kill_eq s).1
  refine ⟨Or.inl ?_, ?_, ?_⟩
  · simp only [fatal, hk]
    exact h
  · intro _
    simp only [fatal, hk]
  · intro hc
    simp [fatal] at hc

theorem failed_inv {s : SyncSocket} (fast : Bool) (h : s.timers = 0) : Inv (failed s fast).1 := by
  have hk := (kill_eq s).1
  unfold failed
  simp only
  split
  · exact establish_inv (by rw [hk]; exact h)
  · split
    · refine ⟨Or.inr ⟨?_, ?_, rfl⟩, ?_, ?_⟩
      · simp only [hk]
        omega
      · simp only [hk]
      · intro hc
        cases hc
      · intro hc
        cases hc
    · have hf : ∀ m, Inv (fatal (kill s).1 m).1 := fun m => fatal_inv m (by rw [hk]; exact h)
      exact hf ""

/-- Every event preserves the invariant. -/
theorem step_inv {s : SyncSocket} (e : SocketEvent) (h : Inv s) : Inv (step s e).1 := by
  have hlive : ∀ socket, s.ws = some socket → s.timers = 0 := by
    intro socket hs
    rcases h.1 with h0 | ⟨_, hn, _⟩
    · exact h0
    · rw [hn] at hs
      cases hs
  cases e with
  | sync name value =>
    simp only [step, sync]
    split
    · exact ⟨h.1, h.2.1, h.2.2⟩
    · exact ⟨h.1, h.2.1, h.2.2⟩
  | fetch =>
    simp only [step, fetchNow]
    split
    · exact ⟨h.1, h.2.1, h.2.2⟩
    · exact ⟨h.1, h.2.1, h.2.2⟩
  | retry =>
    simp only [step, retry]
    split
    · rename_i hf
      refine establish_inv ?_
      rcases h.1 with h0 | ⟨_, _, hc⟩
      · exact h0
      · rw [hf] at hc
        cases hc
    · exact h
  | «open» socket =>
    simp only [step]
    split
    · rename_i hs
      have ht := hlive socket hs
      simp only [onopen]
      refine ⟨Or.inl ?_, ?_, ?_⟩
      · split <;> split <;> exact ht
      · intro hc
        split at hc <;> split at hc <;> cases hc
      · intro _
        split <;> split <;> simp [sendfetch, sendState, hs]
    · exact h
  | close socket =>
    simp only [step]
    split
    · rename_i hs
      exact failed_inv true (hlive socket hs)
    · exact h
  | error socket =>
    simp only [step]
    split
    · rename_i hs
      exact failed_inv false (hlive socket hs)
    · exact h
  | message socket m =>
    simp only [step]
    split
    · rename_i hs
      have ht := hlive socket hs
      cases m with
      | unknownSession => exact fatal_inv _ ht
      | state snapshot => exact h
      | other cmd => exact fatal_inv _ ht
      | invalid => exact failed_inv true ht
    · exact h
  | timer =>
    simp only [step]
    split
    · exact h
    · rename_i hne
      refine establish_inv ?_
      rcases h.1 with h0 | ⟨h1, _, _⟩
      · exact absurd h0 hne
      · show s.timers - 1 = 0
        omega

/-- The invariant holds in every state that the object reaches from its construction. -/
theorem run_inv : ∀ (events : List SocketEvent) (s : SyncSocket), Inv s → Inv (run s events).1 := by
  intro events
  induction events with
  | nil =>
    intro s h
    exact h
  | cons e es ih =>
    intro s h
    exact ih _ (step_inv e h)

end SyncSocket

namespace SyncSocket

/-- C26: when the connection attempts each end in an error event, starting with the
delay 256: the first three errors schedule a new attempt after 256, 512 and 1024 ms, the
fourth error sets the state to failed, calls `onfailed` once and schedules nothing, no
socket and no timer is left; and an open event sets the delay back to 256. -/
theorem backoff_schedule (s : SyncSocket) (socket : Nat) (hws : s.ws = some socket)
    (hd : s.delay = 256) (ht : s.timers = 0) :
    (run s [.error socket, .timer, .error s.created, .timer, .error (s.created + 1), .timer,
        .error (s.created + 2)]).2
      = [.discard socket, .setTimeout 256, .connect s.created,
         .discard s.created, .setTimeout 512, .connect (s.created + 1),
         .discard (s.created + 1), .setTimeout 1024, .connect (s.created + 2),
         .discard (s.created + 2),
         .onfailed (if s.wasConnected then "Connection to server lost!"
                    else "Unable to establish a connection to the server!")] ∧
    (run s [.error socket, .timer, .error s.created, .timer, .error (s.created + 1), .timer,
        .error (s.created + 2)]).1
      = { s with ws := none, state := .failed, wasConnected := false, delay := 2048,
                 created := s.created + 3 } ∧
    (∀ (s0 : SyncSocket) (socket0 : Nat), s0.ws = some socket0 →
      (step s0 (.open socket0)).1.delay = 256 ∧ (step s0 (.open socket0)).1.state = .ready) := by
  obtain ⟨ws, queued, fetch, delay, wasConnected, state, created, timers⟩ := s
  simp only at hws hd ht
  subst hws hd ht
  refine ⟨?_, ?_, ?_⟩
  · simp [run, step, failed, kill, establish, fatal]
  · simp [run, step, failed, kill, establish, fatal]
  · intro s0 socket0 h0
    simp only [step, h0, if_true, onopen]
    constructor
    · split <;> split <;> rfl
    · split <;> split <;> rfl

theorem backoff_schedule_witness :
    (run SyncSocket.new [.error 0, .timer, .error 1, .timer, .error 2, .timer, .error 3]).2
      = [.discard 0, .setTimeout 256, .connect 1, .discard 1, .setTimeout 512, .connect 2,
         .discard 2, .setTimeout 1024, .connect 3, .discard 3,
         .onfailed "Unable to establish a connection to the server!"] :=
  (backoff_schedule SyncSocket.new 0 rfl rfl rfl).1

end SyncSocket

namespace SyncSocket

/-- While the socket is not ready, `sync` and `fetch` calls send nothing: they leave the
last `sync` message queued and the fetch flag set when `fetch` was called. -/
theorem run_calls : ∀ (calls : List SocketEvent) (s : SyncSocket), s.state ≠ .ready →
    (∀ e ∈ calls, e.isCall = true) →
    run s calls = ({ s with queued := lastQueued s.queued calls,
                            fetch := s.fetch || calls.any (fun e => e = .fetch) }, []) := by
  intro calls
  induction calls with
  | nil =>
    intro s _ _
    simp [run, lastQueued]
  | cons e es ih =>
    intro s hs hc
    have hes : ∀ e ∈ es, e.isCall = true := fun e he => hc e (List.mem_cons_of_mem _ he)
    have he := hc e (List.mem_cons_self _ _)
    cases e with
    | sync name value =>
      simp only [run, step, sync, if_neg hs]
      rw [ih { s with queued := some (updateMessage name value) } hs hes]
      simp [lastQueued]
    | fetch =>
      simp only [run, step, fetchNow, if_neg hs]
      rw [ih { s with fetch := true } hs hes]
      simp [lastQueued]
    | _ => cases he

theorem lastQueued_eq (calls : List SocketEvent) :
    ∀ q : Option Message, lastQueued q calls =
      match lastSync calls with
      | some args => some { cmd := .string "update", name := .string args.1, value := args.2 }
      | none => q := by
  induction calls with
  | nil => exact fun q => rfl
  | cons e es ih =>
    intro q
    cases e with
    | sync name value =>
      simp only [lastQueued, lastSync]
      rw [ih]
      cases lastSync es <;> rfl
    | _ =>
      simp only [lastQueued, lastSync]
      rw [ih]

/-- C28: for every sequence of `sync` and `fetch` calls made while the socket is not
ready, nothing is sent during the calls, and the next open event sends first one message
`{cmd: 'update', name, value}` with the arguments `name` and `value` of the last `sync`
call (earlier ones are dropped; without a `sync` call, the message that was queued
before), then one `{cmd: 'state'}` when `fetch` was called, and nothing else; afterwards
`_queued` is null and `_fetch` is false. -/
theorem open_flushes_pending (s : SyncSocket) (socket : Nat) (calls : List SocketEvent)
    (hws : s.ws = some socket) (hs : s.state ≠ .ready)
    (hc : ∀ e ∈ calls, e.isCall = true) :
    (run s calls).2 = [] ∧
    (step (run s calls).1 (.open socket)).2
      = (match lastSync calls with
          | some args =>
            [.send socket { cmd := .string "update", name := .string args.1, value := args.2 }]
          | none => s.queued.toList.map (SocketAction.send socket)) ++
        (if s.fetch || calls.any (fun e => e = .fetch) then
          [.send socket { cmd := .string "state", name := .undefined, value := none }]
         else []) ++ [.onestablished] ∧
    (step (run s calls).1 (.open socket)).1.queued = none ∧
    (step (run s calls).1 (.open socket)).1.fetch = false ∧
    (step (run s calls).1 (.open socket)).1.state = .ready := by
  rw [run_calls calls s hs hc, lastQueued_eq]
  refine ⟨rfl, ?_, ?_, ?_, ?_⟩
  all_goals
    simp only [step, hws, if_true, onopen, sendState, sendfetch]
    cases lastSync calls <;> cases s.queued <;>
      cases (s.fetch || calls.any (fun e => e = .fetch)) <;> simp [fetchMessage]

/-- Instance of `open_flushes_pending`: of two `sync` calls and a `fetch` on a new object,
the open event sends the arguments of the second `sync` call and then the fetch. -/
theorem open_flushes_pending_witness :
    SyncSocket.new.ws = some 0 ∧ SyncSocket.new.state ≠ .ready ∧
    (step (run SyncSocket.new
        [.sync "A" (some (samplePlayer false 1 false 0 {})), .fetch,
         .sync "B" (some (samplePlayer true 2 true 5 {}))]).1 (.open 0)).2
      = [.send 0 { cmd := .string "update", name := .string "B",
                   value := some (samplePlayer true 2 true 5 {}) },
         .send 0 { cmd := .string "state", name := .undefined, value := none },
         .onestablished] :=
  ⟨rfl, by decide,
   (open_flushes_pending SyncSocket.new 0
    [.sync "A" (some (samplePlayer false 1 false 0 {})), .fetch,
     .sync "B" (some (samplePlayer true 2 true 5 {}))] rfl (by decide) (by decide)).2.1⟩

/-- A failed object without socket and timer reacts to no event but `retry`. -/
theorem run_failed : ∀ (events : List SocketEvent) (s : SyncSocket),
    s.state = .failed → s.ws = none → s.timers = 0 → (∀ e ∈ events, e ≠ .retry) →
    (run s events).2 = [] ∧ (run s events).1.state = .failed ∧
      (run s events).1.ws = none ∧ (run s events).1.timers = 0 := by
  intro events
  induction events with
  | nil =>
    intro s h1 h2 h3 _
    exact ⟨rfl, h1, h2, h3⟩
  | cons e es ih =>
    intro s h1 h2 h3 hne
    have hes : ∀ e ∈ es, e ≠ .retry := fun e he => hne e (List.mem_cons_of_mem _ he)
    have he := hne e (List.mem_cons_self _ _)
    have hnr : s.state ≠ .ready := by rw [h1]; decide
    have key : (step s e).2 = [] ∧ (step s e).1.state = .failed ∧ (step s e).1.ws = none ∧
        (step s e).1.timers = 0 := by
      cases e with
      | sync name value =>
        simp only [step, sync, if_neg hnr]
        exact ⟨trivial, h1, h2, h3⟩
      | fetch =>
        simp only [step, fetchNow, if_neg hnr]
        exact ⟨trivial, h1, h2, h3⟩
      | retry => exact absurd rfl he
      | «open» socket => simp [step, h1, h2, h3]
      | close socket => simp [step, h1, h2, h3]
      | error socket => simp [step, h1, h2, h3]
      | message socket m => simp [step, h1, h2, h3]
      | timer => simp [step, h1, h2, h3]
    obtain ⟨k1, k2, k3, k4⟩ := key
    obtain ⟨r1, r2, r3, r4⟩ := ih (step s e).1 k2 k3 k4 hes
    refine ⟨?_, r2, r3, r4⟩
    simp only [run, k1, r1, List.append_nil]

/-- C29: in every state that the object reaches, a message `{cmd: 'unknown-session'}` from
the current socket gives up the socket, sets the state to failed and calls `onfailed`
once; it creates no socket and sets no timer, and whatever events follow, the state stays
failed and nothing is done until `retry` is called, which connects again. -/
theorem unknown_session_is_fatal (before : List SocketEvent) (s : SyncSocket) (socket : Nat)
    (hs : (run SyncSocket.new before).1 = s) (hws : s.ws = some socket) :
    step s (.message socket .unknownSession)
      = ({ s with ws := none, state := .failed, wasConnected := false },
         [.discard socket, .onfailed "Unknown session!"]) ∧
    (∀ events : List SocketEvent, (∀ e ∈ events, e ≠ .retry) →
      (run (step s (.message socket .unknownSession)).1 events).2 = [] ∧
      (run (step s (.message socket .unknownSession)).1 events).1.state = .failed) ∧
    (step (step s (.message socket .unknownSession)).1 .retry).2 = [.connect s.created] := by
  have hinv : Inv s := hs ▸ run_inv before _ new_inv
  have ht : s.timers = 0 := by
    rcases hinv.1 with h0 | ⟨_, hn, _⟩
    · exact h0
    · rw [hn] at hws
      cases hws
  have hstep : step s (.message socket .unknownSession)
      = ({ s with ws := none, state := .failed, wasConnected := false },
         [.discard socket, .onfailed "Unknown session!"]) := by
    simp [step, hws, received, fatal, kill]
  refine ⟨hstep, ?_, ?_⟩
  · intro events hne
    rw [hstep]
    have := run_failed events { s with ws := none, state := .failed, wasConnected := false }
      rfl rfl ht hne
    exact ⟨this.1, this.2.1⟩
  · rw [hstep]
    simp [step, retry, establish]

theorem unknown_session_is_fatal_witness :
    step (run SyncSocket.new [.open 0]).1 (.message 0 .unknownSession)
      = ({ (run SyncSocket.new [.open 0]).1 with
             ws := none, state := .failed, wasConnected := false },
         [.discard 0, .onfailed "Unknown session!"]) :=
  (unknown_session_is_fatal [.open 0] (run SyncSocket.new [.open 0]).1 0 rfl rfl).1

end SyncSocket

/-! ## The player-count floor of `app.js` -/

namespace App

/-- The guard `this.players.length < 2` of `app.js` never fires: with all players ready,
a state in phase start with questions left goes to phase category whatever the number of
players. -/
theorem advanceStage_start (jsonQuestions : List Question)
    (resolve : Rng → Record PlayerState → Except (Record PlayerState) (Record PlayerState))
    (rng : Rng) (s : GameState) (hready : s.players.any (fun e => !e.2.ready) = false)
    (hphase : s.phase = .start) (hrem : s.remaining.length ≠ 0) :
    ∃ s1, advanceStage jsonQuestions resolve rng s = .ok s1 ∧ s1.phase = .category ∧
      s1.round = some 0 := by
  unfold advanceStage
  rw [hready]
  simp only [Bool.false_eq_true, if_false, lengthBelowTwo]
  have hb : (match playersLength s.players with
      | none => false
      | some _ => false) = false := by
    split <;> rfl
  rw [hb]
  simp only [Bool.false_eq_true, if_false, hphase, true_or, if_true, if_neg hrem]
  exact ⟨_, rfl, rfl, rfl⟩

/-- C30 fails on a fresh game of `app.js` with two questions: the first player joins
ready, `this.players.length` is `undefined`, the guard `undefined < 2` is false, and
`advanceStage` draws a question and enters phase category with one player; when the last
player leaves, the same happens with no player at all.  The method `advanceStage` of
`quiz-game.ts`, which tests `Object.keys(this.players).length < 2`, leaves both states
alone. -/
theorem app_floor_not_enforced
    (resolve : Rng → Record PlayerState → Except (Record PlayerState) (Record PlayerState)) :
    updatePlayer [sampleQuestion 1, sampleQuestion 2] resolve zeroRng
        (GameState.new [sampleQuestion 1, sampleQuestion 2]) "A"
        (some (samplePlayer true 1 false 0 {}))
      = .ok { phase := .category, question := some (sampleQuestion 1), remaining := [1],
              players := [("A", { samplePlayer false 1 false 0 {} with choice := -1 })],
              round := some 0 } ∧
    updatePlayer [sampleQuestion 1, sampleQuestion 2] resolve zeroRng
        (GameState.new [sampleQuestion 1, sampleQuestion 2]) "A" none
      = .ok { phase := .category, question := some (sampleQuestion 1), remaining := [1],
              players := [], round := some 0 } ∧
    QuizGame.updatePlayer zeroRng (QuizGame.GameState.new [sampleQuestion 1, sampleQuestion 2])
        "A" (some (samplePlayer true 1 false 0 {}))
      = .ok { QuizGame.GameState.new [sampleQuestion 1, sampleQuestion 2] with
              players := [("A", samplePlayer true 1 false 0 {})] } :=
  ⟨rfl, rfl, rfl⟩

end App

/-! ## The round counter -/

theorem advanceStage_roundInv (rng : Rng) {n : Nat} {s : GameState} (hn : n ≠ 0)
    (h : RoundInv n s) : RoundInv n (stateAfter (advanceStage rng s)) := by
  obtain ⟨ht, hstart, hother⟩ := h
  unfold RoundInv advanceStage
  split
  · exact ⟨ht, hstart, hother⟩
  · split
    · exact ⟨ht, hstart, hother⟩
    · split
      · rename_i hphase
        split
        · rename_i hlen
          refine ⟨ht, ?_, ?_⟩
          · intro hc
            cases hc
          · intro _
            show s.round + 1 + s.remaining.length = n
            rcases hphase with hp | hp
            · have := (hstart hp).2
              omega
            · exact hother (by rw [hp]; decide)
        · rename_i hlen
          have hlt : rng.index s.remaining.length < s.remaining.length :=
            Nat.mod_lt _ (Nat.pos_of_ne_zero hlen)
          refine ⟨ht, ?_, ?_⟩
          · intro hc
            cases hc
          · intro _
            show (if s.phase = .start then 0 else s.round + 1) + 1 +
              (s.remaining.eraseIdx (rng.index s.remaining.length)).length = n
            rw [List.length_eraseIdx_of_lt hlt]
            rcases hphase with hp | hp
            · rw [if_pos hp]
              have := (hstart hp).2
              omega
            · have hne : s.phase ≠ .start := by rw [hp]; decide
              rw [if_neg hne]
              have := hother hne
              omega
      · rename_i hphase
        have hne : s.phase ≠ .start := fun hc => hphase (Or.inl hc)
        split
        · refine ⟨ht, ?_, fun _ => hother hne⟩
          intro hc
          cases hc
        · split
          · exact ⟨ht, fun hc => absurd hc hne, fun _ => hother hne⟩
          · refine ⟨ht, ?_, fun _ => hother hne⟩
            intro hc
            cases hc

theorem runUpdates_roundInv {n : Nat} (hn : n ≠ 0) :
    ∀ (us : List Update) (s : GameState), RoundInv n s → RoundInv n (runUpdates s us) := by
  intro us
  induction us with
  | nil =>
    intro s h
    exact h
  | cons u us ih =>
    intro s h
    simp only [runUpdates]
    apply ih
    unfold updatePlayer
    exact advanceStage_roundInv u.rng hn ⟨h.1, h.2.1, h.2.2⟩

/-- C38: in a game over a non-empty list of questions, every state that a sequence of
`updatePlayer` calls (completed or thrown) reaches from the fresh state reports the
number of questions as `totalQuestions`, and when its phase is category, answer or
resolved it satisfies `round + 1 + remaining.length = totalQuestions`, so the round is
below `totalQuestions`. -/
theorem round_counts_presented (Q : List Question) (us : List Update) (hQ : Q ≠ []) :
    (makeState (runUpdates (GameState.new Q) us)).totalQuestions = Q.length ∧
      ((runUpdates (GameState.new Q) us).phase = .category ∨
        (runUpdates (GameState.new Q) us).phase = .answer ∨
        (runUpdates (GameState.new Q) us).phase = .resolved →
        (runUpdates (GameState.new Q) us).round + 1 +
            (runUpdates (GameState.new Q) us).remaining.length
          = (makeState (runUpdates (GameState.new Q) us)).totalQuestions ∧
        (runUpdates (GameState.new Q) us).round
          < (makeState (runUpdates (GameState.new Q) us)).totalQuestions) := by
  have hn : Q.length ≠ 0 := by simpa [List.length_eq_zero] using hQ
  have h0 : RoundInv Q.length (GameState.new Q) :=
    ⟨rfl, fun _ => ⟨rfl, rfl⟩, fun hc => absurd rfl hc⟩
  obtain ⟨ht, _, hother⟩ := runUpdates_roundInv hn us _ h0
  refine ⟨ht, ?_⟩
  intro hphase
  have hne : (runUpdates (GameState.new Q) us).phase ≠ .start := by
    rcases hphase with h | h | h <;> rw [h] <;> decide
  have := hother hne
  have ht' : (makeState (runUpdates (GameState.new Q) us)).totalQuestions = Q.length := ht
  rw [ht']
  omega

theorem round_counts_presented_witness :
    (runUpdates (GameState.new [sampleQuestion 1, sampleQuestion 2]) sampleJoin).phase
        = .category ∧
      (runUpdates (GameState.new [sampleQuestion 1, sampleQuestion 2]) sampleJoin).round + 1 +
          (runUpdates (GameState.new [sampleQuestion 1, sampleQuestion 2])
            sampleJoin).remaining.length
        = (makeState (runUpdates (GameState.new [sampleQuestion 1, sampleQuestion 2])
            sampleJoin)).totalQuestions :=
  ⟨by decide,
    ((round_counts_presented [sampleQuestion 1, sampleQuestion 2] sampleJoin (by decide)).2
      (Or.inl (by decide))).1⟩

/-! ## The self-only filter of `app.js` -/

namespace App

theorem collectEffect_eq_ts (key : String) (player : PlayerState) :
    collectEffect key player = QuizGame.collectEffect key player := by
  funext effects eff
  unfold collectEffect
  cases hv : player.effects.get eff with
  | none =>
    unfold QuizGame.collectEffect
    rw [hv]
  | some victim =>
    have hf : inArray eff.name selfOnly = false := by cases eff <;> decide
    simp [hf]

theorem collectKeys_attacks (kinds : List EffectKind) (v : String) (k : EffectKind)
    (x : String) :
    ∀ (players : Record PlayerState) (a : AppliedTo),
      Attacks (players.foldl
          (fun effects e => kinds.foldl (collectEffect e.1 e.2) effects) a) v k x ↔
        Attacks a v k x ∨
          (k ∈ kinds ∧ ∃ e ∈ players, e.1 = x ∧ e.2.effects.get k = some v) := by
  intro players
  induction players with
  | nil => simp
  | cons e rest ih =>
    intro a
    simp only [List.foldl_cons]
    rw [ih, collectEffect_eq_ts, collectKinds_attacks]
    constructor
    · rintro ((h | ⟨h1, h2, h3⟩) | ⟨h1, e1, he1, h2, h3⟩)
      · exact Or.inl h
      · exact Or.inr ⟨h1, e, List.mem_cons_self _ _, h3.symm, h2⟩
      · exact Or.inr ⟨h1, e1, List.mem_cons_of_mem _ he1, h2, h3⟩
    · rintro (h | ⟨h1, e1, he1, h2, h3⟩)
      · exact Or.inl (Or.inl h)
      · rcases List.mem_cons.mp he1 with he | he
        · subst he
          exact Or.inl (Or.inr ⟨h1, h3, h2.symm⟩)
        · exact Or.inr ⟨h1, e1, he, h2, h3⟩

/-- C34: the filter `eff in ['espose', 'protect', 'double']` of `app.js` is false for each
of the nine effect kinds, so every declared effect is inverted, the self-only ones
included: a player `x` who declared any kind `k` with the value `v` is listed under `k`
in the inbox of `v`, and nothing else is in the inverse map. -/
theorem self_only_filter_never_skips (players : Record PlayerState) (v : String)
    (k : EffectKind) (x : String) :
    (∀ eff : EffectKind, inArray eff.name selfOnly = false) ∧
      (Attacks (collectApplied players) v k x ↔
        ∃ e ∈ players, e.1 = x ∧ e.2.effects.get k = some v) := by
  refine ⟨fun eff => by cases eff <;> decide, ?_⟩
  unfold collectApplied
  rw [collectKeys_attacks]
  constructor
  · rintro (⟨inbox, l, h, _⟩ | ⟨_, h⟩)
    · cases h
    · exact h
  · intro h
    exact Or.inr ⟨by cases k <;> decide, h⟩

/-- The inverse map of `selfOnlyRound`: the protect, expose and double of `A` are in the
inbox of `A` next to the steal of `B`; the first loop of `quiz-game.ts` puts only the
steal there. -/
theorem self_only_round_inverted :
    collectApplied selfOnlyRound
      = [("A", { expose := some ["A"], protect := some ["A"], double := some ["A"],
                 steal := some ["B"] })] ∧
    QuizGame.collectApplied selfOnlyRound = [("A", { steal := some ["B"] })] := by
  decide

end App

/-! ## The cooldown of an effect in the client -/

namespace Client

theorem canEffect_plain (me : Self) (phase : GamePhase) (round : Int) (name : EffectKind) :
    canEffect (some me) phase round name false
      = .ok (decide (timeout name < round - me.last name) && (me.effects.get name).isNone) := by
  unfold canEffect
  simp only [Bool.false_and, Bool.false_eq_true, if_false]
  by_cases h : round - me.last name ≤ timeout name
  · rw [if_pos h]
    have : ¬ timeout name < round - me.last name := by omega
    simp [this]
  · rw [if_neg h]
    have : timeout name < round - me.last name := by omega
    cases hv : me.effects.get name <;> simp [this]

theorem canEffect_full (me : Self) (phase : GamePhase) (round : Int) (name : EffectKind) :
    canEffect (some me) phase round name true
      = .ok (!me.ready && decide (phase = .category) &&
          (decide (timeout name < round - me.last name) && (me.effects.get name).isNone)) := by
  by_cases hg : me.ready = true ∨ phase ≠ .category
  · have : canEffect (some me) phase round name true = .ok false := by
      unfold canEffect
      rcases hg with hg | hg <;> simp [hg]
    rw [this]
    rcases hg with hg | hg <;> simp [hg]
  · have h1 : me.ready = false := by
      cases h : me.ready
      · rfl
      · exact absurd (Or.inl h) hg
    have h2 : phase = .category := by
      by_contra h
      exact hg (Or.inr h)
    have : canEffect (some me) phase round name true
        = canEffect (some me) phase round name false := by
      unfold canEffect
      simp [h1, h2]
    rw [this, canEffect_plain]
    simp [h1, h2]

/-- C35: `canEffect(name, false)` is true exactly when `round - last[name]` exceeds the
timeout `t` of the effect and `effects[name]` is null. For a player `me1` whose
`last[name]` is the round `r` in which `doEffect` activated the effect: in every round
`r1` with `r <= r1 <= r + t` the effect cannot be activated (for both values of `full`,
whatever `effects[name]` holds), from round `r + t + 1` on it can once the declaration is
cleared (with `full` when the player is not ready and the phase is category), and a
label `Available in k Rounds` shows `k = last[name] + t + 1 - round`, which during the
cooldown is positive and the distance to round `r + t + 1`. -/
theorem effect_cooldown (me me1 : Self) (phase : GamePhase) (name : EffectKind)
    (value : String) (r r1 : Int)
    (hlast : me1.last name = (doEffect me r name value).last name) :
    (∀ round, canEffect (some me) phase round name false = .ok true ↔
        (round - me.last name > timeout name ∧ me.effects.get name = none)) ∧
      (r ≤ r1 → r1 ≤ r + timeout name →
        ∀ full, canEffect (some me1) phase r1 name full = .ok false) ∧
      (r + timeout name + 1 ≤ r1 → me1.effects.get name = none →
        canEffect (some me1) phase r1 name false = .ok true ∧
          (me1.ready = false → canEffect (some me1) .category r1 name true = .ok true)) ∧
      (∀ d k, applyEffect (some me1) phase r1 name = .ok (d, .availableIn k) →
        d = true ∧ k = me1.last name + timeout name + 1 - r1) ∧
      (r ≤ r1 → r1 ≤ r + timeout name →
        (me1.effects.get name = none ∨ hasSelect name = false) →
        applyEffect (some me1) phase r1 name
            = .ok (true, .availableIn (r + timeout name + 1 - r1)) ∧
          0 < r + timeout name + 1 - r1 ∧
          r1 + (r + timeout name + 1 - r1) = r + timeout name + 1) := by
  have hr : me1.last name = r := by
    rw [hlast]
    simp [doEffect]
  have hcool : r ≤ r1 → r1 ≤ r + timeout name →
      canEffect (some me1) phase r1 name false = .ok false := by
    intro h1 h2
    rw [canEffect_plain, hr]
    have : ¬ timeout name < r1 - r := by omega
    simp [this]
  refine ⟨?_, ?_, ?_, ?_, ?_⟩
  · intro round
    rw [canEffect_plain]
    cases hv : me.effects.get name <;> simp
  · intro h1 h2 full
    cases full
    · exact hcool h1 h2
    · rw [canEffect_full, hr]
      have : ¬ timeout name < r1 - r := by omega
      simp [this]
  · intro h1 h2
    have : timeout name < r1 - r := by omega
    refine ⟨?_, fun h3 => ?_⟩
    · rw [canEffect_plain, hr, h2]
      simp [this]
    · rw [canEffect_full, hr, h2, h3]
      simp [this]
  · intro d k h
    unfold applyEffect at h
    rw [canEffect_plain] at h
    simp only at h
    split at h
    · cases h
    · split at h
      · cases h
      · rename_i hcan
        cases h
        rw [Bool.not_eq_true] at hcan
        refine ⟨by rw [hcan]; rfl, by omega⟩
  · intro h1 h2 h3
    refine ⟨?_, by omega, by omega⟩
    unfold applyEffect
    rw [hcool h1 h2]
    simp only
    split
    · rename_i hv hs
      rcases h3 with h3 | h3
      · rw [h3] at hv
        cases hv
      · rw [h3] at hs
        cases hs
    · rw [hr]
      simp only [Bool.false_eq_true, if_false, Bool.not_false]
      congr 3
      omega

/-- Instance of `effect_cooldown`: expose (timeout 2) activated in round 3 by a new
player cannot be activated in round 4, where the label reads `Available in 2 Rounds`. -/
theorem effect_cooldown_witness :
    (doEffect Self.empty 3 .expose "A").last .expose
        = (doEffect Self.empty 3 .expose "A").last .expose ∧
      canEffect (some (doEffect Self.empty 3 .expose "A")) .category 4 .expose true
        = .ok false ∧
      applyEffect (some (doEffect Self.empty 3 .expose "A")) .category 4 .expose
        = .ok (true, .availableIn (3 + timeout .expose + 1 - 4)) :=
  ⟨rfl,
   (effect_cooldown Self.empty (doEffect Self.empty 3 .expose "A") .category .expose "A" 3 4
      rfl).2.1 (by decide) (by decide) true,
   ((effect_cooldown Self.empty (doEffect Self.empty 3 .expose "A") .category .expose "A" 3 4
      rfl).2.2.2.2 (by decide) (by decide) (Or.inr rfl)).1⟩

end Client

/-! ## The scramble of the answer buttons -/

namespace Client

theorem scrambleInv_step {n : Nat} {indices toS fromS : List Nat} {next : Nat}
    (h : ScrambleInv n indices toS fromS next) (i : Nat) (hi : i < indices.length) :
    ScrambleInv n (indices.eraseIdx i) (toS.set next (indices.getD i 0))
      (fromS.set (indices.getD i 0) next) (next + 1) := by
  obtain ⟨hto, hfrom, hnd, hlt, hlen, hdone, hrest⟩ := h
  have hv : indices.getD i 0 = indices[i] := by
    rw [List.getD_eq_getElem?_getD, List.getElem?_eq_getElem hi]
    rfl
  rw [hv]
  have hmem : indices[i] ∈ indices := List.getElem_mem hi
  have hvn : indices[i] < n := hlt _ hmem
  have her : indices.eraseIdx i = indices.erase indices[i] := (hnd.erase_getElem i hi).symm
  have hnext : next < n := by omega
  rw [her]
  refine ⟨by rw [List.length_set, hto], by rw [List.length_set, hfrom], hnd.erase _,
    fun x hx => hlt x (List.mem_of_mem_erase hx), ?_, ?_, ?_⟩
  · rw [List.length_erase_of_mem hmem]
    omega
  · intro k hk
    by_cases hkn : k = next
    · subst hkn
      refine ⟨indices[i], hvn, ?_, ?_, ?_⟩
      · rw [hnd.mem_erase_iff]
        exact fun hc => hc.1 rfl
      · rw [List.getElem?_set_self (by omega)]
      · rw [List.getElem?_set_self (by omega)]
    · obtain ⟨o, ho, hoi, h1, h2⟩ := hdone k (by omega)
      have hov : indices[i] ≠ o := fun hc => hoi (hc ▸ hmem)
      refine ⟨o, ho, fun hc => hoi (List.mem_of_mem_erase hc), ?_, ?_⟩
      · rw [List.getElem?_set_ne (fun hc => hkn hc.symm)]
        exact h1
      · rw [List.getElem?_set_ne hov]
        exact h2
  · intro o ho hoi
    by_cases hov : o = indices[i]
    · refine ⟨next, by omega, ?_, ?_⟩
      · rw [hov, List.getElem?_set_self (by omega)]
      · rw [hov, List.getElem?_set_self (by omega)]
    · have hoi1 : o ∉ indices := by
        intro hc
        exact hoi ((hnd.mem_erase_iff).mpr ⟨hov, hc⟩)
      obtain ⟨k, hk, h1, h2⟩ := hrest o ho hoi1
      refine ⟨k, by omega, ?_, ?_⟩
      · rw [List.getElem?_set_ne (fun hc => hov hc.symm)]
        exact h1
      · rw [List.getElem?_set_ne (by omega)]
        exact h2

theorem scrambleLoop_valid {n : Nat} (lastS : String) :
    ∀ (fuel : Nat) (rng : Rng) (indices toS fromS : List Nat) (next : Nat),
      ScrambleInv n indices toS fromS next → indices.length ≤ fuel →
      Scramble.Valid n
        { toScramble := (scrambleLoop fuel rng indices toS fromS next).1,
          fromScramble := (scrambleLoop fuel rng indices toS fromS next).2.1,
          lastScramble := lastS } := by
  have hend : ∀ (indices toS fromS : List Nat) (next : Nat),
      ScrambleInv n indices toS fromS next → indices.length = 0 →
      Scramble.Valid n { toScramble := toS, fromScramble := fromS, lastScramble := lastS } := by
    intro indices toS fromS next h h0
    obtain ⟨hto, hfrom, -, -, hlen, hdone, hrest⟩ := h
    have hnil : indices = [] := List.length_eq_zero.mp h0
    subst hnil
    have hn : next = n := by simpa using hlen
    subst hn
    refine ⟨hto, hfrom, ?_, ?_⟩
    · intro k hk
      obtain ⟨o, ho, -, h1, h2⟩ := hdone k hk
      exact ⟨o, ho, h1, h2⟩
    · intro o ho
      exact hrest o ho (List.not_mem_nil o)
  intro fuel
  induction fuel with
  | zero =>
    intro rng indices toS fromS next h hf
    exact hend indices toS fromS next h (by omega)
  | succ fuel ih =>
    intro rng indices toS fromS next h hf
    unfold scrambleLoop
    by_cases hpos : indices.length > 0
    · rw [if_pos hpos]
      have hi : rng.index indices.length < indices.length := Nat.mod_lt _ hpos
      refine ih _ _ _ _ _ (scrambleInv_step h _ hi) ?_
      rw [List.length_eraseIdx, if_pos hi]
      omega
    · rw [if_neg hpos]
      exact hend indices toS fromS next h (by omega)

theorem scrambleInv_init (n : Nat) :
    ScrambleInv n (List.range n) (List.range n) (List.range n) 0 := by
  refine ⟨List.length_range n, List.length_range n, List.nodup_range n,
    fun x hx => List.mem_range.mp hx, by simp, fun k hk => by omega, ?_⟩
  intro o ho hoi
  exact absurd (List.mem_range.mpr ho) hoi

theorem setupScramble_valid (rng : Rng) (s : Scramble) (question : Question)
    (h : s.lastScramble ≠ question.text ∨ s.Valid question.options.length) :
    (setupScramble rng s question).1.Valid question.options.length := by
  unfold setupScramble
  by_cases heq : s.lastScramble = question.text
  · rcases h with h | h
    · exact absurd heq h
    · simpa [heq] using h
  · have hne : (s.lastScramble == question.text) = false := by simpa using heq
    rw [hne]
    exact scrambleLoop_valid question.text _ rng _ _ _ 0 (scrambleInv_init _) (by simp)

theorem Scramble.valid_swap {n : Nat} {s : Scramble} (h : s.Valid n) :
    Scramble.Valid n
      { toScramble := s.fromScramble, fromScramble := s.toScramble,
        lastScramble := s.lastScramble } :=
  ⟨h.2.1, h.1, h.2.2.2, h.2.2.1⟩

theorem Scramble.valid_perm {n : Nat} {s : Scramble} (h : s.Valid n) :
    s.toScramble.Perm (List.range n) := by
  obtain ⟨hto, hfrom, h1, h2⟩ := h
  have hnd : s.toScramble.Nodup := by
    rw [List.nodup_iff_getElem?_ne_getElem?]
    intro i j hij hj hc
    obtain ⟨o, -, ho1, ho2⟩ := h1 i (by omega)
    obtain ⟨o1, -, ho3, ho4⟩ := h1 j (by omega)
    rw [ho1, ho3] at hc
    cases hc
    rw [ho2] at ho4
    cases ho4
    omega
  have hsub : s.toScramble ⊆ List.range n := by
    intro x hx
    obtain ⟨k, hk, hkx⟩ := List.getElem_of_mem hx
    obtain ⟨o, ho, ho1, -⟩ := h1 k (by omega)
    rw [List.getElem?_eq_getElem hk, hkx] at ho1
    cases ho1
    exact List.mem_range.mpr ho
  exact (List.subperm_of_subset hnd hsub).perm_of_length_le (by simp [hto])

theorem Scramble.valid_buttons {n : Nat} {s : Scramble} (h : s.Valid n) (question : Question)
    (i : Nat) (hi : i < n) :
    ∃ c, c < n ∧ s.fromScramble[i]? = some c ∧
      choose s false .answer question i
        = some (some (c : Int), decide ((c : Int) = question.correct)) ∧
      buttonText s question i = question.options[c]? ∧
      ∀ k, k < n → ((buttonSelected s (some (c : Int)) k = true ↔ k = i) ∧
        (buttonSelected s (some (c : Int)) k = true ↔ s.fromScramble[k]? = some c)) := by
  obtain ⟨hto, hfrom, h1, h2⟩ := h
  obtain ⟨c, hc, hc1, hc2⟩ := h2 i hi
  refine ⟨c, hc, hc1, ?_, ?_, ?_⟩
  · unfold choose
    rw [hc1]
    by_cases hq : (c : Int) = question.correct
    · simp [hq]
    · simp [hq]
  · unfold buttonText
    rw [hc1]
    rfl
  · intro k hk
    have hsel : buttonSelected s (some (c : Int)) k = true ↔ k = i := by
      unfold buttonSelected
      have : readAt s.toScramble (some (c : Int)) = s.toScramble[c]? := rfl
      rw [this, hc2]
      simp only [beq_iff_eq, Option.some.injEq]
      exact eq_comm
    refine ⟨hsel, hsel.trans ?_⟩
    constructor
    · intro hki
      rw [hki, hc1]
    · intro hkc
      obtain ⟨j, -, hj1, hj2⟩ := h2 k hk
      obtain ⟨j1, -, hj3, hj4⟩ := h2 i hi
      rw [hj1] at hkc
      rw [hj3] at hc1
      cases hkc
      cases hc1
      obtain ⟨o, -, ho1, ho2⟩ := h1 c hc
      rw [hj2] at hj4
      cases hj4
      rfl

/-- C39 as stated fails when the text of the question is `lastScramble`: the call of
`setupScramble` returns at once and the arrays can be those of another question. After
`twoOptions`, the call for `threeOptions` (same text, three options) leaves arrays of
length 2, button 2 gets no text and `choose(2)` records `undefined`. -/
theorem setupScramble_same_text_stale :
    (setupScramble zeroRng (setupScramble zeroRng Scramble.init twoOptions).1
        threeOptions).1.toScramble = [0, 1] ∧
      buttonText (setupScramble zeroRng (setupScramble zeroRng Scramble.init twoOptions).1
        threeOptions).1 threeOptions 2 = none ∧
      choose (setupScramble zeroRng (setupScramble zeroRng Scramble.init twoOptions).1
        threeOptions).1 false .answer threeOptions 2 = some (none, false) ∧
      ¬ (setupScramble zeroRng (setupScramble zeroRng Scramble.init twoOptions).1
        threeOptions).1.toScramble.Perm (List.range threeOptions.options.length) := by
  refine ⟨by decide, by decide, by decide, ?_⟩
  intro h
  have := h.length_eq
  revert this
  decide

/-- C39, as amended: after `setupScramble` for a question with `n` options whose text
differs from `lastScramble` (or whose arrays already are inverse permutations of
`0..n-1`), `toScramble` and `fromScramble` are permutations of `0..n-1` and inverse to
each other; for every button `i < n`, `choose(i)` records the index `c` of the option
whose text button `i` shows, sets `correct` iff `c` is the correct option of the
question, and a button `k` is selected iff `k = i`, that is iff it shows the option
`c`. -/
theorem setupScramble_inverse (rng : Rng) (s : Scramble) (question : Question)
    (h : s.lastScramble ≠ question.text ∨ s.Valid question.options.length) :
    (setupScramble rng s question).1.toScramble.Perm (List.range question.options.length) ∧
      (setupScramble rng s question).1.fromScramble.Perm
        (List.range question.options.length) ∧
      (∀ k, k < question.options.length →
        ((setupScramble rng s question).1.toScramble[k]?).bind
            (fun o => (setupScramble rng s question).1.fromScramble[o]?) = some k ∧
          ((setupScramble rng s question).1.fromScramble[k]?).bind
            (fun o => (setupScramble rng s question).1.toScramble[o]?) = some k) ∧
      (∀ i, i < question.options.length →
        ∃ c, c < question.options.length ∧
          (setupScramble rng s question).1.fromScramble[i]? = some c ∧
          choose (setupScramble rng s question).1 false .answer question i
            = some (some (c : Int), decide ((c : Int) = question.correct)) ∧
          buttonText (setupScramble rng s question).1 question i = question.options[c]? ∧
          ∀ k, k < question.options.length →
            ((buttonSelected (setupScramble rng s question).1 (some (c : Int)) k = true ↔
                k = i) ∧
              (buttonSelected (setupScramble rng s question).1 (some (c : Int)) k = true ↔
                (setupScramble rng s question).1.fromScramble[k]? = some c))) := by
  have hv := setupScramble_valid rng s question h
  refine ⟨Scramble.valid_perm hv, Scramble.valid_perm (Scramble.valid_swap hv), ?_,
    fun i hi => Scramble.valid_buttons hv question i hi⟩
  intro k hk
  obtain ⟨o, -, ho1, ho2⟩ := hv.2.2.1 k hk
  obtain ⟨j, -, hj1, hj2⟩ := hv.2.2.2 k hk
  rw [ho1, hj1]
  exact ⟨ho2, hj2⟩

/-- Instance of `setupScramble_inverse`: the first question of a new client. -/
theorem setupScramble_inverse_witness :
    (Scramble.init.lastScramble ≠ twoOptions.text ∨
        Scramble.init.Valid twoOptions.options.length) ∧
      (setupScramble (fun _ => 1) Scramble.init twoOptions).1.toScramble.Perm
        (List.range twoOptions.options.length) ∧
      (setupScramble (fun _ => 1) Scramble.init twoOptions).1.fromScramble.Perm
        (List.range twoOptions.options.length) :=
  ⟨Or.inl (by decide),
   (setupScramble_inverse (fun _ => 1) Scramble.init twoOptions (Or.inl (by decide))).1,
   (setupScramble_inverse (fun _ => 1) Scramble.init twoOptions (Or.inl (by decide))).2.1⟩

end Client

/-! ## The keys of the inverse map -/

theorem Record.keys_insertNew_perm {α : Type} (m : Record α) (k : String) (v : α) :
    (m.insertNew k v).keys.Perm (k :: m.keys) := by
  induction m with
  | nil => exact List.Perm.refl _
  | cons e rest ih =>
    obtain ⟨k0, v0⟩ := e
    have ih1 : (k0 :: Record.keys (Record.insertNew rest k v)).Perm (k :: k0 :: Record.keys rest) :=
      (List.Perm.cons k0 ih).trans (List.Perm.swap k k0 _)
    unfold Record.insertNew
    split
    · split
      · exact List.Perm.refl _
      · exact ih1
    · exact List.Perm.refl _
    · exact ih1

theorem Record.keys_set_of_get? {α : Type} {m : Record α} {k : String} {w : α}
    (h : m.get? k = some w) (v : α) : (m.set k v).keys = m.keys := by
  rw [Record.set_of_get? h, Record.keys_replace]

theorem Record.mem_keys_iff {α : Type} (m : Record α) (k : String) :
    k ∈ m.keys ↔ ∃ v, m.get? k = some v := by
  have h := Record.get?_eq_none_iff m k
  constructor
  · intro hk
    cases hv : m.get? k with
    | none => exact absurd hk (h.mp hv)
    | some v => exact ⟨v, rfl⟩
  · rintro ⟨v, hv⟩
    by_contra hk
    rw [h.mpr hk] at hv
    cases hv

theorem Record.nodup_set {α : Type} {m : Record α} (hnd : m.keys.Nodup) (k : String) (v : α) :
    (m.set k v).keys.Nodup := by
  cases hk : m.get? k with
  | some w =>
    rw [Record.keys_set_of_get? hk]
    exact hnd
  | none =>
    have hs : m.set k v = m.insertNew k v := by
      unfold Record.set Record.has
      rw [hk]
      rfl
    rw [hs, (Record.keys_insertNew_perm m k v).nodup_iff]
    exact List.nodup_cons.mpr ⟨(Record.get?_eq_none_iff m k).mp hk, hnd⟩

theorem Record.keys_erase_sublist {α : Type} (m : Record α) (k : String) :
    (m.erase k).keys.Sublist m.keys := by
  induction m with
  | nil => exact List.Sublist.refl _
  | cons e rest ih =>
    obtain ⟨k0, v0⟩ := e
    unfold Record.erase
    split
    · exact List.Sublist.cons _ ih
    · exact List.Sublist.cons₂ _ ih

theorem collectEffect_nodup (name : String) (player : PlayerState) {a : AppliedTo}
    (effect : EffectKind) (hnd : a.keys.Nodup) :
    (collectEffect name player a effect).keys.Nodup := by
  unfold collectEffect
  split
  · exact hnd
  · rename_i victim _
    have h1 : (if a.has victim then a else a.set victim {}).keys.Nodup := by
      split
      · exact hnd
      · exact Record.nodup_set hnd _ _
    simp only
    split
    · exact h1
    · exact Record.nodup_set h1 _ _

theorem collectEffect_get?_some {name : String} {player : PlayerState} {a : AppliedTo}
    {effect : EffectKind} {k : String}
    (h : (collectEffect name player a effect).get? k ≠ none) :
    a.get? k ≠ none ∨ player.effects.get effect = some k := by
  unfold collectEffect at h
  split at h
  · exact Or.inl h
  · rename_i victim hv
    by_cases hk : victim = k
    · exact Or.inr (hk ▸ hv)
    · left
      simp only at h
      split at h
      · split at h
        · exact h
        · rwa [Record.get?_set_ne _ _ hk] at h
      · rw [Record.get?_set_ne _ _ hk] at h
        split at h
        · exact h
        · rwa [Record.get?_set_ne _ _ hk] at h

theorem collectApplied_keys (players : Record PlayerState) :
    (collectApplied players).keys.Nodup ∧
      ∀ k, (collectApplied players).get? k ≠ none →
        ∃ e ∈ players, ∃ kind ∈ targetedKinds, e.2.effects.get kind = some k := by
  have hkinds : ∀ (name : String) (player : PlayerState) (kinds : List EffectKind)
      (a : AppliedTo), a.keys.Nodup →
      (kinds.foldl (collectEffect name player) a).keys.Nodup ∧
        ∀ k, (kinds.foldl (collectEffect name player) a).get? k ≠ none →
          a.get? k ≠ none ∨ ∃ kind ∈ kinds, player.effects.get kind = some k := by
    intro name player kinds
    induction kinds with
    | nil => exact fun a hnd => ⟨hnd, fun k hk => Or.inl hk⟩
    | cons kind rest ih =>
      intro a hnd
      obtain ⟨h1, h2⟩ := ih _ (collectEffect_nodup name player kind hnd)
      refine ⟨h1, fun k hk => ?_⟩
      rcases h2 k hk with h | ⟨kd, hkd, h⟩
      · rcases collectEffect_get?_some h with h | h
        · exact Or.inl h
        · exact Or.inr ⟨kind, List.mem_cons_self _ _, h⟩
      · exact Or.inr ⟨kd, List.mem_cons_of_mem _ hkd, h⟩
  have hplayers : ∀ (ps : Record PlayerState) (a : AppliedTo), a.keys.Nodup →
      (ps.foldl (fun appliedTo e => targetedKinds.foldl (collectEffect e.1 e.2) appliedTo)
          a).keys.Nodup ∧
        ∀ k, (ps.foldl (fun appliedTo e => targetedKinds.foldl (collectEffect e.1 e.2)
            appliedTo) a).get? k ≠ none →
          a.get? k ≠ none ∨ ∃ e ∈ ps, ∃ kind ∈ targetedKinds,
            e.2.effects.get kind = some k := by
    intro ps
    induction ps with
    | nil => exact fun a hnd => ⟨hnd, fun k hk => Or.inl hk⟩
    | cons e rest ih =>
      intro a hnd
      obtain ⟨g1, g2⟩ := hkinds e.1 e.2 targetedKinds a hnd
      obtain ⟨h1, h2⟩ := ih _ g1
      refine ⟨h1, fun k hk => ?_⟩
      rcases h2 k hk with h | ⟨e1, he1, h⟩
      · rcases g2 k h with h | h
        · exact Or.inl h
        · exact Or.inr ⟨e, List.mem_cons_self _ _, h⟩
      · exact Or.inr ⟨e1, List.mem_cons_of_mem _ he1, h⟩
  obtain ⟨h1, h2⟩ := hplayers players [] List.nodup_nil
  refine ⟨h1, fun k hk => ?_⟩
  rcases h2 k hk with h | h
  · exact absurd rfl h
  · exact h

theorem resolvePlayers_keys_sublist :
    ∀ (players : Record PlayerState) (a : AppliedTo) (rng : Rng),
      (resolvePlayers players a rng).2.1.keys.Sublist a.keys := by
  intro players
  induction players with
  | nil => exact fun a rng => List.Sublist.refl _
  | cons e rest ih =>
    intro a rng
    obtain ⟨name, player⟩ := e
    have hstep : (resolvePlayer name player a rng).2.1.keys.Sublist a.keys := by
      unfold resolvePlayer
      simp only
      split
      · exact Record.keys_erase_sublist _ _
      · split
        · exact List.Sublist.refl _
        · rename_i applied happ
          rw [Record.keys_set_of_get? happ]
    exact (ih _ _).trans hstep

/-! ## Completion of the resolution loops -/

theorem shrinks_entry_ne_nil {players0 : Record PlayerState} {a : AppliedTo}
    (hsh : Shrinks (collectApplied players0) a) {k : String}
    {inbox : GameEffects (List String)} {kind : EffectKind} {l : List String}
    (hk : kind ∈ targetedKinds) (hin : a.get? k = some inbox) (hl : inbox.get kind = some l) :
    l ≠ [] := by
  obtain ⟨inbox0, h0, hsub⟩ := hsh k inbox hin
  have h1 : inbox0.get kind = some l := by
    rcases hsub kind with h | h
    · rw [hl] at h
      cases h
    · rw [← h, hl]
  have h2 := collectApplied_entry players0 k kind hk
  unfold entryOf at h2
  rw [h0] at h2
  change inbox0.get kind = _ at h2
  rw [h1] at h2
  split at h2
  · cases h2
  · rename_i hne
    cases h2
    exact hne

theorem targetsPresent_mem {players0 : Record PlayerState} (ht : targetsPresent players0 = true)
    {e : String × PlayerState} (he : e ∈ players0) {kind : EffectKind}
    (hk : kind ∈ targetedKinds) {v : String} (hv : e.2.effects.get kind = some v) :
    v ∈ players0.keys := by
  unfold targetsPresent at ht
  have h1 := List.all_eq_true.mp (List.all_eq_true.mp ht e he) kind hk
  rw [hv] at h1
  simp only [Record.has, Option.isSome_iff_exists] at h1
  exact (Record.mem_keys_iff _ _).mpr h1

theorem shrinks_attack_players {players0 : Record PlayerState}
    (ht : targetsPresent players0 = true) {a : AppliedTo}
    (hsh : Shrinks (collectApplied players0) a) {k : String} {kind : EffectKind} {x : String}
    (h : Attacks a k kind x) : k ∈ players0.keys ∧ x ∈ players0.keys := by
  obtain ⟨hk, e, he, hx, hv⟩ := (collectApplied_attacks players0 k kind x).mp
    (attacks_of_shrinks hsh h)
  refine ⟨targetsPresent_mem ht he hk hv, ?_⟩
  rw [← hx]
  exact List.mem_map_of_mem Prod.fst he

theorem modifyPlayer_of_mem {players : Record PlayerState} {name : String}
    (h : name ∈ players.keys) (f : PlayerState → PlayerState) :
    ∃ players1, modifyPlayer players name f = .ok players1 := by
  obtain ⟨p, hp⟩ := (Record.mem_keys_iff _ _).mp h
  unfold modifyPlayer
  rw [hp]
  exact ⟨_, rfl⟩

theorem stealPoints_of_mem {players : Record PlayerState} {name thief : String}
    (hn : name ∈ players.keys) (ht : thief ∈ players.keys) :
    ∃ players1, stealPoints players name thief = .ok players1 := by
  obtain ⟨pn, hpn⟩ := (Record.mem_keys_iff _ _).mp hn
  obtain ⟨pt, hpt⟩ := (Record.mem_keys_iff _ _).mp ht
  unfold stealPoints getPlayer
  rw [hpt, hpn]
  refine modifyPlayer_of_mem ?_ _
  rw [Record.keys_set_of_get? hpt]
  exact hn

theorem swapPoints_of_mem {players : Record PlayerState} {name other : String}
    (hn : name ∈ players.keys) (ho : other ∈ players.keys) :
    ∃ players1, swapPoints players name other = .ok players1 := by
  obtain ⟨pn, hpn⟩ := (Record.mem_keys_iff _ _).mp hn
  obtain ⟨po, hpo⟩ := (Record.mem_keys_iff _ _).mp ho
  unfold swapPoints getPlayer
  rw [hpn, hpo]
  simp only
  obtain ⟨p1, h1⟩ := modifyPlayer_of_mem hn (fun p => { p with score := po.score })
  rw [h1]
  simp only
  have k1 := modifyPlayer_keys h1
  obtain ⟨p2, h2⟩ := modifyPlayer_of_mem (k1 ▸ hn : name ∈ p1.keys)
    (fun p => { p with delta := p.delta + (po.score - pn.score) })
  rw [h2]
  simp only
  have k2 := modifyPlayer_keys h2
  obtain ⟨p3, h3⟩ := modifyPlayer_of_mem (k2 ▸ k1 ▸ ho : other ∈ p2.keys)
    (fun p => { p with score := pn.score })
  rw [h3]
  simp only
  have k3 := modifyPlayer_keys h3
  exact modifyPlayer_of_mem (k3 ▸ k2 ▸ k1 ▸ ho : other ∈ p3.keys) _

theorem clearSteal_keys (a : AppliedTo) (other : String) : (clearSteal a other).keys = a.keys := by
  unfold clearSteal
  split
  · rename_i inbox h
    exact Record.keys_set_of_get? h _
  · rfl

theorem clearSwap_keys (a : AppliedTo) (other : String) : (clearSwap a other).keys = a.keys := by
  unfold clearSwap
  split
  · rename_i inbox h
    exact Record.keys_set_of_get? h _
  · rfl

theorem stealStep_appliedTo_keys {st st1 : LoopState} (h : stealStep st = .ok st1) :
    st1.appliedTo.keys = st.appliedTo.keys := by
  obtain ⟨name, inbox, -, hin, -, h1 | ⟨_, _, _, -, -, -, -, h1⟩⟩ := stealStep_ok h
  · rw [h1.2.1]
  · rw [h1, clearSteal_keys, Record.keys_set_of_get? hin]

theorem swapStep_appliedTo_keys {st st1 : LoopState} (h : swapStep st = .ok st1) :
    st1.appliedTo.keys = st.appliedTo.keys := by
  obtain ⟨name, inbox, -, hin, -, h1 | ⟨_, _, _, -, -, -, -, h1⟩⟩ := swapStep_ok h
  · rw [h1.2.1]
  · rw [h1, clearSwap_keys, Record.keys_set_of_get? hin]

theorem stealStep_ready {players0 : Record PlayerState} {st st1 : LoopState}
    (hr : LoopReady players0 st) (h : stealStep st = .ok st1) : LoopReady players0 st1 := by
  obtain ⟨hsh, hpend, hkeys⟩ := hr
  refine ⟨shrinks_trans hsh (stealStep_shrinks h), ?_, (stealStep_keys h).trans hkeys⟩
  obtain ⟨name, inbox, -, -, hp, -⟩ := stealStep_ok h
  intro k hk
  rw [stealStep_appliedTo_keys h]
  rw [hp] at hk
  exact hpend k ((List.eraseIdx_sublist _ _).subset hk)

theorem swapStep_ready {players0 : Record PlayerState} {st st1 : LoopState}
    (hr : LoopReady players0 st) (h : swapStep st = .ok st1) : LoopReady players0 st1 := by
  obtain ⟨hsh, hpend, hkeys⟩ := hr
  refine ⟨shrinks_trans hsh (swapStep_shrinks h), ?_, (swapStep_keys h).trans hkeys⟩
  obtain ⟨name, inbox, -, -, hp, -⟩ := swapStep_ok h
  intro k hk
  rw [swapStep_appliedTo_keys h]
  rw [hp] at hk
  exact hpend k ((List.eraseIdx_sublist _ _).subset hk)

theorem stealStep_progress {players0 : Record PlayerState}
    (ht : targetsPresent players0 = true) {st : LoopState} (hr : LoopReady players0 st)
    (hp : st.pending ≠ []) : ∃ st1, stealStep st = .ok st1 := by
  obtain ⟨hsh, hpend, hkeys⟩ := hr
  have hidx : st.rng.index st.pending.length < st.pending.length :=
    Nat.mod_lt _ (List.length_pos.mpr hp)
  obtain ⟨name, hname⟩ : ∃ name, st.pending[st.rng.index st.pending.length]? = some name :=
    ⟨_, List.getElem?_eq_getElem hidx⟩
  obtain ⟨inbox, hin⟩ := (Record.mem_keys_iff _ _).mp (hpend name (List.getElem?_mem hname))
  unfold stealStep
  simp only [hname, hin]
  cases hs : inbox.steal with
  | none => exact ⟨_, rfl⟩
  | some thieves =>
    simp only
    have hne : thieves ≠ [] :=
      shrinks_entry_ne_nil hsh (by decide : EffectKind.steal ∈ targetedKinds) hin hs
    have hti : st.rng.next.index thieves.length < thieves.length :=
      Nat.mod_lt _ (List.length_pos.mpr hne)
    obtain ⟨thief, hthief⟩ : ∃ thief, thieves[st.rng.next.index thieves.length]? = some thief :=
      ⟨_, List.getElem?_eq_getElem hti⟩
    simp only [hthief]
    obtain ⟨hn, hth⟩ := shrinks_attack_players ht hsh
      (⟨inbox, thieves, hin, hs, List.getElem?_mem hthief⟩ :
        Attacks st.appliedTo name .steal thief)
    rw [← hkeys] at hn hth
    obtain ⟨p1, h1⟩ := modifyPlayer_of_mem hn
      (fun p => { p with applied := { p.applied with steal := some thief } })
    simp only [h1]
    have k1 := modifyPlayer_keys h1
    obtain ⟨p2, h2⟩ : ∃ p2, (if mutualSteal
          (st.appliedTo.set name { inbox with steal := none }) thief name then
        modifyPlayer p1 thief
          (fun p => { p with applied := { p.applied with steal := some name } })
        else stealPoints p1 name thief) = .ok p2 := by
      split
      · exact modifyPlayer_of_mem (k1 ▸ hth) _
      · exact stealPoints_of_mem (k1 ▸ hn) (k1 ▸ hth)
    simp only [h2]
    exact ⟨_, rfl⟩

theorem swapStep_progress {players0 : Record PlayerState}
    (ht : targetsPresent players0 = true) {st : LoopState} (hr : LoopReady players0 st)
    (hp : st.pending ≠ []) : ∃ st1, swapStep st = .ok st1 := by
  obtain ⟨hsh, hpend, hkeys⟩ := hr
  have hidx : st.rng.index st.pending.length < st.pending.length :=
    Nat.mod_lt _ (List.length_pos.mpr hp)
  obtain ⟨name, hname⟩ : ∃ name, st.pending[st.rng.index st.pending.length]? = some name :=
    ⟨_, List.getElem?_eq_getElem hidx⟩
  obtain ⟨inbox, hin⟩ := (Record.mem_keys_iff _ _).mp (hpend name (List.getElem?_mem hname))
  unfold swapStep
  simp only [hname, hin]
  cases hs : inbox.swap with
  | none => exact ⟨_, rfl⟩
  | some swaps =>
    simp only
    have hne : swaps ≠ [] :=
      shrinks_entry_ne_nil hsh (by decide : EffectKind.swap ∈ targetedKinds) hin hs
    have hti : st.rng.next.index swaps.length < swaps.length :=
      Nat.mod_lt _ (List.length_pos.mpr hne)
    obtain ⟨other, hother⟩ : ∃ other, swaps[st.rng.next.index swaps.length]? = some other :=
      ⟨_, List.getElem?_eq_getElem hti⟩
    simp only [hother]
    obtain ⟨hn, hth⟩ := shrinks_attack_players ht hsh
      (⟨inbox, swaps, hin, hs, List.getElem?_mem hother⟩ :
        Attacks st.appliedTo name .swap other)
    rw [← hkeys] at hn hth
    obtain ⟨p1, h1⟩ := modifyPlayer_of_mem hn
      (fun p => { p with applied := { p.applied with swap := some other } })
    simp only [h1]
    have k1 := modifyPlayer_keys h1
    obtain ⟨p2, h2⟩ : ∃ p2, (if mutualSwap
          (st.appliedTo.set name { inbox with swap := none }) other name then
        modifyPlayer p1 other
          (fun p => { p with applied := { p.applied with swap := some name } })
        else swapPoints p1 name other) = .ok p2 := by
      split
      · exact modifyPlayer_of_mem (k1 ▸ hth) _
      · exact swapPoints_of_mem (k1 ▸ hn) (k1 ▸ hth)
    simp only [h2]
    exact ⟨_, rfl⟩

theorem stealLoop_completes {players0 : Record PlayerState}
    (ht : targetsPresent players0 = true) :
    ∀ (fuel : Nat) (st : LoopState), LoopReady players0 st →
      ∃ st1, stealLoop fuel st = .ok st1 ∧ LoopReady players0 st1 ∧
        st1.appliedTo.keys = st.appliedTo.keys := by
  intro fuel
  induction fuel with
  | zero => exact fun st hr => ⟨st, rfl, hr, rfl⟩
  | succ fuel ih =>
    intro st hr
    unfold stealLoop
    by_cases hpos : st.pending.length > 0
    · rw [if_pos hpos]
      obtain ⟨st1, h1⟩ := stealStep_progress ht hr (List.length_pos.mp hpos)
      obtain ⟨st2, h2, hr2, hk2⟩ := ih st1 (stealStep_ready hr h1)
      rw [h1]
      exact ⟨st2, h2, hr2, hk2.trans (stealStep_appliedTo_keys h1)⟩
    · rw [if_neg hpos]
      exact ⟨st, rfl, hr, rfl⟩

theorem swapLoop_completes {players0 : Record PlayerState}
    (ht : targetsPresent players0 = true) :
    ∀ (fuel : Nat) (st : LoopState), LoopReady players0 st →
      ∃ st1, swapLoop fuel st = .ok st1 ∧ LoopReady players0 st1 := by
  intro fuel
  induction fuel with
  | zero => exact fun st hr => ⟨st, rfl, hr⟩
  | succ fuel ih =>
    intro st hr
    unfold swapLoop
    by_cases hpos : st.pending.length > 0
    · rw [if_pos hpos]
      obtain ⟨st1, h1⟩ := swapStep_progress ht hr (List.length_pos.mp hpos)
      obtain ⟨st2, h2, hr2⟩ := ih st1 (swapStep_ready hr h1)
      rw [h1]
      exact ⟨st2, h2, hr2⟩
    · rw [if_neg hpos]
      exact ⟨st, rfl, hr⟩

theorem stealIterations_le :
    ∀ (fuel : Nat) (st : LoopState), stealIterations fuel st ≤ st.pending.length := by
  intro fuel
  induction fuel with
  | zero => exact fun st => Nat.zero_le _
  | succ fuel ih =>
    intro st
    unfold stealIterations
    split
    · rename_i hpos
      split
      · omega
      · rename_i st1 h1
        obtain ⟨name, inbox, hname, -, hp, -⟩ := stealStep_ok h1
        have hlt := (List.getElem?_eq_some_iff.mp hname).1
        have := ih st1
        rw [hp, List.length_eraseIdx, if_pos hlt] at this
        omega
    · exact Nat.zero_le _

theorem swapIterations_le :
    ∀ (fuel : Nat) (st : LoopState), swapIterations fuel st ≤ st.pending.length := by
  intro fuel
  induction fuel with
  | zero => exact fun st => Nat.zero_le _
  | succ fuel ih =>
    intro st
    unfold swapIterations
    split
    · rename_i hpos
      split
      · omega
      · rename_i st1 h1
        obtain ⟨name, inbox, hname, -, hp, -⟩ := swapStep_ok h1
        have hlt := (List.getElem?_eq_some_iff.mp hname).1
        have := ih st1
        rw [hp, List.length_eraseIdx, if_pos hlt] at this
        omega
    · exact Nat.zero_le _

theorem beforeSteal_ready (rng : Rng) (players : Record PlayerState) :
    LoopReady players (beforeSteal rng players) := by
  refine ⟨resolvePlayers_shrinks _ _ _, fun k hk => hk, ?_⟩
  unfold beforeSteal computeDeltas
  simp only
  rw [keys_map_snd, resolvePlayers_keys]

theorem beforeSteal_pending_le (rng : Rng) {players : Record PlayerState}
    (ht : targetsPresent players = true) :
    (beforeSteal rng players).pending.length ≤ players.length := by
  have hsub : (beforeSteal rng players).pending.Sublist (collectApplied players).keys :=
    resolvePlayers_keys_sublist _ _ _
  obtain ⟨hnd, htar⟩ := collectApplied_keys players
  have hin : (beforeSteal rng players).pending ⊆ players.keys := by
    intro k hk
    obtain ⟨v, hv⟩ := (Record.mem_keys_iff _ _).mp (hsub.subset hk)
    obtain ⟨e, he, kind, hkind, hval⟩ := htar k (by rw [hv]; exact Option.some_ne_none v)
    exact targetsPresent_mem ht he hkind hval
  have hle := (List.subperm_of_subset (hnd.sublist hsub) hin).length_le
  rwa [Record.keys, List.length_map] at hle

/-- C31: when every target of a targeted effect is a player, `applyEffects` completes
without a `TypeError`, cyclic steal and swap declarations included: the steal loop ends
with an empty open list in a state `st` and the swap loop in a state `st1`, whatever the
number of iterations allowed beyond the number of players, the result is the players of
`st1`, and each of the two loops enters at most as many iterations as there are
players. -/
theorem applyEffects_terminates (rng : Rng) (players : Record PlayerState)
    (ht : targetsPresent players = true) :
    ∃ st st1,
      (∀ fuel, players.length ≤ fuel → stealLoop fuel (beforeSteal rng players) = .ok st) ∧
        st.pending = [] ∧
        (∀ fuel, stealIterations fuel (beforeSteal rng players) ≤ players.length) ∧
        (∀ fuel, players.length ≤ fuel → swapLoop fuel (beforeSwap st) = .ok st1) ∧
        st1.pending = [] ∧
        (∀ fuel, swapIterations fuel (beforeSwap st) ≤ players.length) ∧
        applyEffects rng players = .ok st1.players := by
  have hle := beforeSteal_pending_le rng ht
  obtain ⟨st, hst, hr, hk⟩ := stealLoop_completes ht (beforeSteal rng players).pending.length
    (beforeSteal rng players) (beforeSteal_ready rng players)
  have hr1 : LoopReady players (beforeSwap st) := by
    refine ⟨hr.1, fun k hk => hk, ?_⟩
    exact (keys_map_snd st.players
      (fun p => { p with score := max 0 (p.score + p.delta) })).trans hr.2.2
  have hle1 : (beforeSwap st).pending.length ≤ players.length := by
    have h1 : (beforeSwap st).pending = (beforeSteal rng players).pending := hk
    rw [h1]
    exact hle
  obtain ⟨st1, hst1, -⟩ := swapLoop_completes ht (beforeSwap st).pending.length
    (beforeSwap st) hr1
  refine ⟨st, st1, ?_, stealLoop_pending_nil _ _ _ (le_refl _) hst,
    fun fuel => (stealIterations_le fuel _).trans hle, ?_,
    swapLoop_pending_nil (beforeSwap st).pending.length (beforeSwap st) st1 (le_refl _) hst1,
    fun fuel => (swapIterations_le fuel _).trans hle1, ?_⟩
  · intro fuel hf
    rw [stealLoop_fuel fuel _ (hle.trans hf)]
    exact hst
  · intro fuel hf
    rw [swapLoop_fuel fuel _ (hle1.trans hf)]
    exact hst1
  · have hafter : afterSteal rng players = .ok st := hst
    unfold applyEffects
    rw [hafter]
    have hswap : swapLoop st.appliedTo.keys.length
        { rng := st.rng, pending := st.appliedTo.keys, appliedTo := st.appliedTo,
          players := commitScores st.players } = .ok st1 := hst1
    simp only [hswap]

/-- Instance of `applyEffects_terminates`: the cyclic declarations of `cyclicRound`. -/
theorem applyEffects_terminates_witness :
    targetsPresent cyclicRound = true ∧
      ∃ st st1,
        (∀ fuel, cyclicRound.length ≤ fuel →
          stealLoop fuel (beforeSteal zeroRng cyclicRound) = .ok st) ∧
        st.pending = [] ∧
        (∀ fuel, stealIterations fuel (beforeSteal zeroRng cyclicRound) ≤ cyclicRound.length) ∧
        (∀ fuel, cyclicRound.length ≤ fuel → swapLoop fuel (beforeSwap st) = .ok st1) ∧
        st1.pending = [] ∧
        (∀ fuel, swapIterations fuel (beforeSwap st) ≤ cyclicRound.length) ∧
        applyEffects zeroRng cyclicRound = .ok st1.players :=
  ⟨by decide, applyEffects_terminates zeroRng cyclicRound (by decide)⟩

/-! ## Totals over the players -/

theorem sumOver_replace (h : PlayerState → Int) {m : Record PlayerState} {k : String}
    {p : PlayerState} (hp : m.get? k = some p) (q : PlayerState) :
    sumOver h (m.replace k q) + h p = sumOver h m + h q := by
  induction m with
  | nil => cases hp
  | cons e rest ih =>
    obtain ⟨k0, v0⟩ := e
    unfold Record.get? at hp
    unfold Record.replace
    by_cases h0 : k0 = k
    · rw [if_pos h0] at hp
      cases hp
      rw [if_pos h0]
      simp only [sumOver, List.map_cons, List.sum_cons]
      omega
    · rw [if_neg h0] at hp
      rw [if_neg h0]
      have := ih hp
      simp only [sumOver, List.map_cons, List.sum_cons] at this ⊢
      omega

theorem modifyPlayer_sumOver (h : PlayerState → Int) {players players1 : Record PlayerState}
    {name : String} {f : PlayerState → PlayerState}
    (hm : modifyPlayer players name f = .ok players1) :
    ∃ p, players.get? name = some p ∧
      sumOver h players1 + h p = sumOver h players + h (f p) := by
  obtain ⟨p, hp, rfl⟩ := modifyPlayer_ok hm
  exact ⟨p, hp, sumOver_replace h hp _⟩

theorem modifyPlayer_sumOver_same (h : PlayerState → Int)
    {players players1 : Record PlayerState} {name : String} {f : PlayerState → PlayerState}
    (hm : modifyPlayer players name f = .ok players1) (hf : ∀ p, h (f p) = h p) :
    sumOver h players1 = sumOver h players := by
  obtain ⟨p, -, hs⟩ := modifyPlayer_sumOver h hm
  rw [hf p] at hs
  omega

theorem stealPoints_sumOver {players players1 : Record PlayerState} {name thief : String}
    (hne : thief ≠ name) (hs : stealPoints players name thief = .ok players1) :
    sumOver (fun p => p.delta) players1 = sumOver (fun p => p.delta) players := by
  obtain ⟨pt, pn, pn1, ht, hn, hn1, rfl⟩ := stealPoints_ok hs
  have h1 := sumOver_replace (fun p => p.delta) ht { pt with delta := pt.delta + pn.delta }
  have h2 := sumOver_replace (fun p => p.delta) hn1 { pn1 with delta := 0 }
  rw [Record.get?_replace, if_neg hne, hn] at hn1
  cases hn1
  simp only at h1 h2
  omega

theorem swapPoints_sumOver {players players4 : Record PlayerState} {name other : String}
    (hs : swapPoints players name other = .ok players4) (g : Int → Int) :
    sumOver (fun p => g p.score) players4 = sumOver (fun p => g p.score) players ∧
      sumOver (fun p => p.delta) players4 = sumOver (fun p => p.delta) players := by
  obtain ⟨pn, po, p1, p2, p3, hn, ho, h1, h2, h3, h4⟩ := swapPoints_ok hs
  have hother : (p2.get? other).map (fun p => p.score) = some po.score := by
    rw [modifyPlayer_map h2 (fun p => p.score) (fun _ => rfl), modifyPlayer_get? h1]
    split
    · rename_i heq
      subst heq
      rw [hn]
      rfl
    · rw [ho]
      rfl
  constructor
  · obtain ⟨q1, hq1, e1⟩ := modifyPlayer_sumOver (fun p => g p.score) h1
    have e2 := modifyPlayer_sumOver_same (fun p => g p.score) h2 (fun _ => rfl)
    obtain ⟨q3, hq3, e3⟩ := modifyPlayer_sumOver (fun p => g p.score) h3
    have e4 := modifyPlayer_sumOver_same (fun p => g p.score) h4 (fun _ => rfl)
    rw [hn] at hq1
    cases hq1
    rw [hq3] at hother
    have hsc : q3.score = po.score := by simpa using hother
    simp only [hsc] at e1 e3
    omega
  · have e1 := modifyPlayer_sumOver_same (fun p => p.delta) h1 (fun _ => rfl)
    obtain ⟨q2, -, e2⟩ := modifyPlayer_sumOver (fun p => p.delta) h2
    have e3 := modifyPlayer_sumOver_same (fun p => p.delta) h3 (fun _ => rfl)
    obtain ⟨q4, -, e4⟩ := modifyPlayer_sumOver (fun p => p.delta) h4
    simp only at e2 e4
    omega

theorem count_map_eq_sumOver (f : PlayerState → Int) (a : Int) (players : Record PlayerState) :
    ((players.map (fun e => f e.2)).count a : Int)
      = sumOver (fun p => if f p = a then 1 else 0) players := by
  induction players with
  | nil => rfl
  | cons e rest ih =>
    simp only [List.map_cons, List.count_cons, sumOver, List.sum_cons] at ih ⊢
    rw [← ih]
    by_cases h : f e.2 = a
    · simp [h]
      omega
    · simp [h]

theorem perm_of_sumOver (f : PlayerState → Int) {players players1 : Record PlayerState}
    (h : ∀ g : Int → Int, sumOver (fun p => g (f p)) players1
      = sumOver (fun p => g (f p)) players) :
    (players1.map (fun e => f e.2)).Perm (players.map (fun e => f e.2)) := by
  rw [List.perm_iff_count]
  intro a
  have h1 := count_map_eq_sumOver f a players1
  have h2 := count_map_eq_sumOver f a players
  have h3 := h (fun x => if x = a then 1 else 0)
  simp only at h3
  omega

theorem noSelfSteal_attacks {players : Record PlayerState} (hs : noSelfSteal players = true)
    {a : AppliedTo} (hsh : Shrinks (collectApplied players) a) {k x : String}
    (h : Attacks a k .steal x) : x ≠ k := by
  obtain ⟨-, e, he, hx, hv⟩ := (collectApplied_attacks players k .steal x).mp
    (attacks_of_shrinks hsh h)
  have h1 := List.all_eq_true.mp hs e he
  intro hxk
  rw [← hxk, ← hx] at hv
  have hv1 : e.2.effects.steal = some e.1 := hv
  rw [hv1] at h1
  simp at h1

theorem stealStep_sumOver {st st1 : LoopState}
    (hself : ∀ k x, Attacks st.appliedTo k .steal x → x ≠ k)
    (h : stealStep st = .ok st1) :
    sumOver (fun p => p.delta) st1.players = sumOver (fun p => p.delta) st.players := by
  obtain ⟨name, inbox, -, hin, -, h1 | ⟨thieves, thief, p1, hth, hmem, hm, hbranch, -⟩⟩ :=
    stealStep_ok h
  · rw [h1.2.2]
  · have e1 := modifyPlayer_sumOver_same (fun p => p.delta) hm (fun _ => rfl)
    rw [← e1]
    split at hbranch
    · exact modifyPlayer_sumOver_same (fun p => p.delta) hbranch (fun _ => rfl)
    · exact stealPoints_sumOver (hself name thief ⟨inbox, thieves, hin, hth, hmem⟩) hbranch

theorem afterSteal_sumOver {rng : Rng} {players : Record PlayerState} {st : LoopState}
    (hs : noSelfSteal players = true) (h : afterSteal rng players = .ok st) :
    sumOver (fun p => p.delta) st.players
      = sumOver (fun p => p.delta) (beforeSteal rng players).players := by
  have hinv := stealLoop_invariant
    (fun s => Shrinks (collectApplied players) s.appliedTo ∧
      sumOver (fun p => p.delta) s.players
        = sumOver (fun p => p.delta) (beforeSteal rng players).players)
    (fun s s1 hI hstep => ⟨shrinks_trans hI.1 (stealStep_shrinks hstep),
      (stealStep_sumOver (fun k x hx => noSelfSteal_attacks hs hI.1 hx) hstep).trans hI.2⟩)
    _ _ st ⟨resolvePlayers_shrinks _ _ _, rfl⟩ h
  exact hinv.2

/-- C36: when every declared target is a player and no player names themself as steal
target, the steal loop completes and only redistributes points: the sum of the deltas of
all players after it is the sum of the deltas computed before it, for every outcome of
the random choices. -/
theorem steal_redistributes (rng : Rng) (players : Record PlayerState)
    (ht : targetsPresent players = true) (hs : noSelfSteal players = true) :
    ∃ st, afterSteal rng players = .ok st ∧
      sumOver (fun p => p.delta) st.players
        = sumOver (fun p => p.delta) (beforeSteal rng players).players := by
  obtain ⟨st, hst, -⟩ := stealLoop_completes ht (beforeSteal rng players).pending.length
    (beforeSteal rng players) (beforeSteal_ready rng players)
  exact ⟨st, hst, afterSteal_sumOver hs hst⟩

/-- Instance of `steal_redistributes`: the steal cycle of `cyclicRound`. -/
theorem steal_redistributes_witness :
    targetsPresent cyclicRound = true ∧ noSelfSteal cyclicRound = true ∧
      ∃ st, afterSteal zeroRng cyclicRound = .ok st ∧
        sumOver (fun p => p.delta) st.players
          = sumOver (fun p => p.delta) (beforeSteal zeroRng cyclicRound).players :=
  ⟨by decide, by decide, steal_redistributes zeroRng cyclicRound (by decide) (by decide)⟩

theorem swapStep_sumOver {st st1 : LoopState} (h : swapStep st = .ok st1) (g : Int → Int) :
    sumOver (fun p => g p.score) st1.players = sumOver (fun p => g p.score) st.players ∧
      sumOver (fun p => p.delta) st1.players = sumOver (fun p => p.delta) st.players := by
  obtain ⟨name, inbox, -, hin, -, h1 | ⟨swaps, other, p1, -, -, hm, hbranch, -⟩⟩ :=
    swapStep_ok h
  · rw [h1.2.2]
    exact ⟨rfl, rfl⟩
  · have e1 := modifyPlayer_sumOver_same (fun p => g p.score) hm (fun _ => rfl)
    have e2 := modifyPlayer_sumOver_same (fun p => p.delta) hm (fun _ => rfl)
    rw [← e1, ← e2]
    split at hbranch
    · exact ⟨modifyPlayer_sumOver_same (fun p => g p.score) hbranch (fun _ => rfl),
        modifyPlayer_sumOver_same (fun p => p.delta) hbranch (fun _ => rfl)⟩
    · exact swapPoints_sumOver hbranch g

theorem swapLoop_sumOver {fuel : Nat} {st st1 : LoopState} (h : swapLoop fuel st = .ok st1)
    (g : Int → Int) :
    sumOver (fun p => g p.score) st1.players = sumOver (fun p => g p.score) st.players ∧
      sumOver (fun p => p.delta) st1.players = sumOver (fun p => p.delta) st.players :=
  swapLoop_invariant
    (fun s => sumOver (fun p => g p.score) s.players = sumOver (fun p => g p.score) st.players ∧
      sumOver (fun p => p.delta) s.players = sumOver (fun p => p.delta) st.players)
    (fun _ _ hI hstep => ⟨((swapStep_sumOver hstep g).1).trans hI.1,
      ((swapStep_sumOver hstep g).2).trans hI.2⟩)
    fuel st st1 ⟨rfl, rfl⟩ h

theorem beforeSwap_ready {players0 : Record PlayerState} {st : LoopState}
    (hr : LoopReady players0 st) : LoopReady players0 (beforeSwap st) :=
  ⟨hr.1, fun _ hk => hk, (keys_map_snd st.players
    (fun p => { p with score := max 0 (p.score + p.delta) })).trans hr.2.2⟩

/-- C37: the swap loop only permutes scores. For every run of `applyEffects` that reaches
the end of the swap loop (`st` is the state after the steal loop and `st1` the state after
the swap loop), the multiset of the scores of all players is the multiset of the committed
scores `max(0, score + delta)`, and the deltas have the same sum before and after the swap
loop, so that the changes of the deltas add up to 0; when every declared target is a
player, every run reaches the end of the swap loop. -/
theorem swap_permutes_scores (rng : Rng) (players : Record PlayerState) :
    (∀ st st1, afterSteal rng players = .ok st →
        swapLoop (beforeSwap st).pending.length (beforeSwap st) = .ok st1 →
        applyEffects rng players = .ok st1.players ∧
          (st1.players.map (fun e => e.2.score)).Perm
            (st.players.map (fun e => committed e.2)) ∧
          sumOver (fun p => p.delta) st1.players = sumOver (fun p => p.delta) st.players) ∧
      (targetsPresent players = true →
        ∃ st st1, afterSteal rng players = .ok st ∧
          swapLoop (beforeSwap st).pending.length (beforeSwap st) = .ok st1) := by
  constructor
  · intro st st1 h1 h2
    refine ⟨?_, ?_, ?_⟩
    · unfold applyEffects
      rw [h1]
      have hswap : swapLoop st.appliedTo.keys.length
          { rng := st.rng, pending := st.appliedTo.keys, appliedTo := st.appliedTo,
            players := commitScores st.players } = .ok st1 := h2
      simp only [hswap]
    · have hp : (st1.players.map (fun e => e.2.score)).Perm
          ((beforeSwap st).players.map (fun e => e.2.score)) :=
        perm_of_sumOver (fun p => p.score) (fun g => (swapLoop_sumOver h2 g).1)
      have hc : (beforeSwap st).players.map (fun e => e.2.score)
          = st.players.map (fun e => committed e.2) := by
        simp [beforeSwap, commitScores, committed, List.map_map, Function.comp_def]
      rw [← hc]
      exact hp
    · rw [(swapLoop_sumOver h2 id).2]
      simp [beforeSwap, commitScores, sumOver, List.map_map, Function.comp_def]
  · intro ht
    obtain ⟨st, hst, hr, -⟩ := stealLoop_completes ht (beforeSteal rng players).pending.length
      (beforeSteal rng players) (beforeSteal_ready rng players)
    obtain ⟨st1, hst1, -⟩ := swapLoop_completes ht (beforeSwap st).pending.length
      (beforeSwap st) (beforeSwap_ready hr)
    exact ⟨st, st1, hst, hst1⟩

/-- Instance of `swap_permutes_scores`: the swap cycle of `cyclicRound`. -/
theorem swap_permutes_scores_witness :
    targetsPresent cyclicRound = true ∧
      ∃ st st1, afterSteal zeroRng cyclicRound = .ok st ∧
        swapLoop (beforeSwap st).pending.length (beforeSwap st) = .ok st1 ∧
        applyEffects zeroRng cyclicRound = .ok st1.players ∧
        (st1.players.map (fun e => e.2.score)).Perm
          (st.players.map (fun e => committed e.2)) ∧
        sumOver (fun p => p.delta) st1.players = sumOver (fun p => p.delta) st.players :=
  ⟨by decide,
   ((swap_permutes_scores zeroRng cyclicRound).2 (by decide)).elim fun st h =>
     h.elim fun st1 h12 =>
       ⟨st, st1, h12.1, h12.2,
        (swap_permutes_scores zeroRng cyclicRound).1 st st1 h12.1 h12.2⟩⟩

/-! ## No steal chains -/

theorem stealMark_mem {st : LoopState} {e : String × String} (h : e ∈ stealMark st) :
    ∃ name inbox thieves thief,
      st.pending[st.rng.index st.pending.length]? = some name ∧
      st.appliedTo.get? name = some inbox ∧ inbox.steal = some thieves ∧
      thieves[st.rng.next.index thieves.length]? = some thief ∧
      (e = (name, thief) ∨
        (mutualSteal (st.appliedTo.set name { inbox with steal := none }) thief name = true ∧
          e = (thief, name))) := by
  unfold stealMark at h
  simp only at h
  split at h
  · cases h
  · rename_i name hname
    split at h
    · cases h
    · rename_i inbox hinbox
      split at h
      · cases h
      · rename_i thieves hth
        split at h
        · cases h
        · rename_i thief hthief
          refine ⟨name, inbox, thieves, thief, hname, hinbox, hth, hthief, ?_⟩
          rcases List.mem_cons.mp h with h1 | h1
          · exact Or.inl h1
          · split at h1
            · rename_i hm
              exact Or.inr ⟨hm, List.mem_singleton.mp h1⟩
            · cases h1

theorem stealStep_of_pick {st st1 : LoopState} {name thief : String}
    {inbox : GameEffects (List String)} {thieves : List String}
    (hname : st.pending[st.rng.index st.pending.length]? = some name)
    (hinbox : st.appliedTo.get? name = some inbox) (hth : inbox.steal = some thieves)
    (hthief : thieves[st.rng.next.index thieves.length]? = some thief)
    (h : stealStep st = .ok st1) :
    st1.appliedTo = clearSteal (st.appliedTo.set name { inbox with steal := none }) thief := by
  unfold stealStep at h
  simp only [hname, hinbox, hth, hthief] at h
  split at h
  · cases h
  · split at h
    · cases h
    · cases h
      rfl

theorem stealMark_open {st : LoopState} {e : String × String} (h : e ∈ stealMark st) :
    ∃ x, Attacks st.appliedTo e.1 .steal x := by
  obtain ⟨name, inbox, thieves, thief, -, hinbox, hth, hthief, he | ⟨hm, he⟩⟩ := stealMark_mem h
  · subst he
    exact ⟨thief, inbox, thieves, hinbox, hth, List.getElem?_mem hthief⟩
  · subst he
    exact ⟨name, attacks_of_shrinks
      (shrinks_set hinbox (GameEffects.sub_steal_none _)) ((mutualSteal_iff _ _ _).mp hm)⟩

theorem stealMark_closed {st st1 : LoopState} {e : String × String} (h : e ∈ stealMark st)
    (hs : stealStep st = .ok st1) (x : String) : ¬ Attacks st1.appliedTo e.1 .steal x := by
  obtain ⟨name, inbox, thieves, thief, hname, hinbox, hth, hthief, he | ⟨hm, he⟩⟩ :=
    stealMark_mem h
  · subst he
    rw [stealStep_of_pick hname hinbox hth hthief hs]
    by_cases hk : thief = name
    · rw [hk]
      exact clearSteal_no_attack _ _ _
    · rw [attacks_congr (clearSteal_get?_ne _ hk)]
      exact set_steal_none_no_attack _ _ _ _
  · subst he
    rw [stealStep_of_pick hname hinbox hth hthief hs]
    exact clearSteal_no_attack _ _ _

theorem stealMark_nodup (st : LoopState) : ((stealMark st).map Prod.fst).Nodup := by
  unfold stealMark
  simp only
  split
  · exact List.nodup_nil
  · split
    · exact List.nodup_nil
    · split
      · exact List.nodup_nil
      · split
        · exact List.nodup_nil
        · rename_i name _ _ _ _ _ _ _ _ thief _
          split
          · rename_i hm
            have hne : name ≠ thief := by
              intro hc
              rw [← hc] at hm
              exact set_steal_none_no_attack _ _ _ _ ((mutualSteal_iff _ _ _).mp hm)
            simp [hne]
          · simp

theorem stealTransfer_sublist (st : LoopState) :
    (stealTransfer st).toList.Sublist (stealMark st) := by
  cases h : stealTransfer st with
  | none => exact List.nil_sublist _
  | some e =>
    refine List.singleton_sublist.mpr ?_
    unfold stealTransfer at h
    unfold stealMark
    simp only at h ⊢
    split at h
    · cases h
    · rename_i name hname
      try simp only [hname]
      split at h
      · cases h
      · rename_i inbox hinbox
        try simp only [hinbox]
        split at h
        · cases h
        · rename_i thieves hth
          try simp only [hth]
          split at h
          · cases h
          · rename_i thief hthief
            try simp only [hthief]
            split at h
            · cases h
            · cases h
              exact List.mem_cons_self _ _

theorem stealMarks_open :
    ∀ (fuel : Nat) (st : LoopState) (e : String × String), e ∈ stealMarks fuel st →
      ∃ x, Attacks st.appliedTo e.1 .steal x := by
  intro fuel
  induction fuel with
  | zero =>
    intro st e he
    simp [stealMarks] at he
  | succ fuel ih =>
    intro st e he
    simp only [stealMarks] at he
    split at he
    · split at he
      · exact stealMark_open he
      · rename_i st1 hs
        rcases List.mem_append.mp he with hm | hm
        · exact stealMark_open hm
        · obtain ⟨x, hx⟩ := ih st1 e hm
          exact ⟨x, attacks_of_shrinks (stealStep_shrinks hs) hx⟩
    · simp at he

theorem stealMarks_nodup :
    ∀ (fuel : Nat) (st : LoopState), ((stealMarks fuel st).map Prod.fst).Nodup := by
  intro fuel
  induction fuel with
  | zero =>
    intro st
    simp [stealMarks]
  | succ fuel ih =>
    intro st
    simp only [stealMarks]
    split
    · split
      · exact stealMark_nodup st
      · rename_i st1 hs
        rw [List.map_append, List.nodup_append]
        refine ⟨stealMark_nodup st, ih st1, ?_⟩
        intro a h1 h2
        obtain ⟨e1, he1, rfl⟩ := List.mem_map.mp h1
        obtain ⟨e2, he2, heq⟩ := List.mem_map.mp h2
        obtain ⟨x, hx⟩ := stealMarks_open fuel st1 e2 he2
        rw [heq] at hx
        exact stealMark_closed he1 hs x hx
    · simp

theorem stealTransfers_sublist :
    ∀ (fuel : Nat) (st : LoopState), (stealTransfers fuel st).Sublist (stealMarks fuel st) := by
  intro fuel
  induction fuel with
  | zero => exact fun st => List.Sublist.refl _
  | succ fuel ih =>
    intro st
    simp only [stealTransfers, stealMarks]
    split
    · cases hs : stealStep st with
      | error e => exact stealTransfer_sublist st
      | ok st1 => exact (stealTransfer_sublist st).append (ih _)
    · exact List.Sublist.refl _

theorem stealPoints_stolenBy {players players1 : Record PlayerState} {name thief : String}
    (h : stealPoints players name thief = .ok players1) (k : String) :
    stolenBy players1 k = stolenBy players k := by
  obtain ⟨pt, pn, pn1, ht, hn, hn1, rfl⟩ := stealPoints_ok h
  unfold stolenBy
  rw [Record.get?_replace]
  split
  · rename_i hk
    subst hk
    rw [hn1]
    rw [Record.get?_replace] at hn1
    split at hn1
    · rename_i hk
      subst hk
      rw [ht] at hn1 ⊢
      cases hn1
      rfl
    · rw [hn1]
      rfl
  · rw [Record.get?_replace]
    split
    · rename_i hk
      subst hk
      rw [ht]
      rfl
    · rfl

/-- An iteration of the steal loop writes the field `applied.steal` of no player that
`stealMark` does not list. -/
theorem stealStep_unmarked {st st1 : LoopState} (h : stealStep st = .ok st1) {k : String}
    (hk : k ∉ (stealMark st).map Prod.fst) : stolenBy st1.players k = stolenBy st.players k := by
  unfold stealMark at hk
  unfold stealStep at h
  simp only at h hk
  split at hk
  · rename_i hname
    simp only [hname] at h
    cases h
  · rename_i name hname
    simp only [hname] at h
    split at hk
    · rename_i hinbox
      simp only [hinbox] at h
      cases h
    · rename_i inbox hinbox
      simp only [hinbox] at h
      split at hk
      · rename_i hth
        simp only [hth] at h
        cases h
        rfl
      · rename_i thieves hth
        simp only [hth] at h
        split at hk
        · rename_i hthief
          simp only [hthief] at h
          cases h
        · rename_i thief hthief
          simp only [hthief] at h
          have hkn : name ≠ k := by
            intro hc
            exact hk (by simp [hc])
          split at h
          · cases h
          · rename_i players1 h1
            split at h
            · cases h
            · rename_i players2 h2
              cases h
              show stolenBy players2 k = _
              rw [← modifyPlayer_stolenBy_ne h1 hkn]
              split at h2
              · rename_i hm
                have hkt : thief ≠ k := by
                  intro hc
                  rw [if_pos hm] at hk
                  exact hk (by simp [hc])
                exact modifyPlayer_stolenBy_ne h2 hkt
              · exact stealPoints_stolenBy h2 k

/-- C32: no steal chains. In the steal loop of one pass, for every set of declarations and
every outcome of the random choices: no player who took the delta of a victim as thief
has its own delta taken by a later transfer; no victim has its delta taken twice; and
the field `applied.steal` of every player is written at most once, so that every victim
has at most one thief applied. -/
theorem no_steal_chains (rng : Rng) (players : Record PlayerState) :
    (stealLog rng players).Pairwise (fun e1 e2 => e1.2 ≠ e2.1) ∧
      ((stealLog rng players).map Prod.fst).Nodup ∧
      ((stealMarkLog rng players).map Prod.fst).Nodup ∧
      (stealLog rng players).Sublist (stealMarkLog rng players) :=
  ⟨stealTransfers_pairwise _ _,
   ((stealTransfers_sublist _ _).map Prod.fst).nodup (stealMarks_nodup _ _),
   stealMarks_nodup _ _, stealTransfers_sublist _ _⟩

/-! ## Swap chains -/

theorem swapExchange_some {st : LoopState} {v o : String}
    (h : swapExchange st = some (v, o)) :
    Attacks st.appliedTo v .swap o ∧
      ∀ st1, swapStep st = .ok st1 →
        (∀ x, ¬ Attacks st1.appliedTo v .swap x) ∧ (∀ x, ¬ Attacks st1.appliedTo o .swap x) ∧
        ∃ players1, modifyPlayer st.players v
            (fun p => { p with applied := { p.applied with swap := some o } }) = .ok players1 ∧
          swapPoints players1 v o = .ok st1.players := by
  unfold swapExchange at h
  simp only at h
  split at h
  · cases h
  · rename_i name hname
    split at h
    · cases h
    · rename_i inbox hinbox
      split at h
      · cases h
      · rename_i swaps hsw
        split at h
        · cases h
        · rename_i other hother
          split at h
          · cases h
          · rename_i hm
            cases h
            refine ⟨⟨inbox, swaps, hinbox, hsw, List.getElem?_mem hother⟩, ?_⟩
            intro st1 hs
            unfold swapStep at hs
            simp only [hname, hinbox, hsw, hother] at hs
            split at hs
            · cases hs
            · rename_i players1 h1
              rw [if_neg hm] at hs
              split at hs
              · cases hs
              · rename_i players2 h2
                cases hs
                refine ⟨?_, fun x => clearSwap_no_attack _ _ _, players1, h1, h2⟩
                intro x
                by_cases hk : o = v
                · rw [hk]
                  exact clearSwap_no_attack _ _ _
                · show ¬ Attacks (clearSwap _ o) v .swap x
                  rw [attacks_congr (clearSwap_get?_ne _ hk)]
                  exact set_swap_none_no_attack _ _ _ _

/-- An iteration for which `swapExchange` reports nothing changes no score. -/
theorem swapStep_no_exchange {st st1 : LoopState} (h : swapStep st = .ok st1)
    (hn : swapExchange st = none) (k : String) :
    scoreOf st1.players k = scoreOf st.players k := by
  unfold swapExchange at hn
  unfold swapStep at h
  simp only at h hn
  split at hn
  · rename_i hname
    simp only [hname] at h
    cases h
  · rename_i name hname
    simp only [hname] at h
    split at hn
    · rename_i hinbox
      simp only [hinbox] at h
      cases h
    · rename_i inbox hinbox
      simp only [hinbox] at h
      split at hn
      · rename_i hsw
        simp only [hsw] at h
        cases h
        rfl
      · rename_i swaps hsw
        simp only [hsw] at h
        split at hn
        · rename_i hother
          simp only [hother] at h
          cases h
        · rename_i other hother
          simp only [hother] at h
          split at hn
          · rename_i hm
            split at h
            · cases h
            · rename_i players1 h1
              rw [if_pos hm] at h
              split at h
              · cases h
              · rename_i players2 h2
                cases h
                show (Record.get? players2 k).map _ = _
                rw [modifyPlayer_map h2 (fun p => p.score) (fun _ => rfl),
                  modifyPlayer_map h1 (fun p => p.score) (fun _ => rfl)]
                rfl
          · cases hn

theorem swapExchanges_open :
    ∀ (fuel : Nat) (st : LoopState) (e : String × String), e ∈ swapExchanges fuel st →
      Attacks st.appliedTo e.1 .swap e.2 := by
  intro fuel
  induction fuel with
  | zero =>
    intro st e he
    simp [swapExchanges] at he
  | succ fuel ih =>
    intro st e he
    simp only [swapExchanges] at he
    split at he
    · have hhead : e ∈ (swapExchange st).toList → Attacks st.appliedTo e.1 .swap e.2 := by
        intro hm
        rw [Option.mem_toList] at hm
        obtain ⟨v, o⟩ := e
        exact (swapExchange_some hm).1
      split at he
      · exact hhead he
      · rename_i st1 hs
        rcases List.mem_append.mp he with hm | hm
        · exact hhead hm
        · exact attacks_of_shrinks (swapStep_shrinks hs) (ih st1 e hm)
    · simp at he

theorem swapExchanges_pairwise :
    ∀ (fuel : Nat) (st : LoopState),
      (swapExchanges fuel st).Pairwise (fun e1 e2 => e1.1 ≠ e2.1 ∧ e1.2 ≠ e2.1) := by
  intro fuel
  induction fuel with
  | zero =>
    intro st
    simp [swapExchanges]
  | succ fuel ih =>
    intro st
    simp only [swapExchanges]
    split
    · have hone : (swapExchange st).toList.Pairwise
          (fun e1 e2 => e1.1 ≠ e2.1 ∧ e1.2 ≠ e2.1) := by
        cases swapExchange st with
        | none => simp
        | some e => simp
      split
      · exact hone
      · rename_i st1 hs
        rw [List.pairwise_append]
        refine ⟨hone, ih st1, ?_⟩
        intro e1 h1 e2 h2
        rw [Option.mem_toList] at h1
        obtain ⟨v, o⟩ := e1
        have hopen := swapExchanges_open fuel st1 e2 h2
        obtain ⟨-, hclosed⟩ := swapExchange_some h1
        obtain ⟨hv, ho, -⟩ := hclosed st1 hs
        constructor
        · intro heq
          have heq1 : v = e2.1 := heq
          rw [← heq1] at hopen
          exact hv _ hopen
        · intro heq
          have heq1 : o = e2.1 := heq
          rw [← heq1] at hopen
          exact ho _ hopen
    · simp

theorem filter_fst_snd_le (l : List (String × String))
    (h : l.Pairwise (fun e1 e2 => e1.1 ≠ e2.1 ∧ e1.2 ≠ e2.2)) (p : String) :
    (l.filter (fun e => e.1 == p)).length ≤ 1 ∧ (l.filter (fun e => e.2 == p)).length ≤ 1 := by
  induction l with
  | nil => simp
  | cons e rest ih =>
    obtain ⟨hhead, hrest⟩ := List.pairwise_cons.mp h
    obtain ⟨ih1, ih2⟩ := ih hrest
    constructor
    · by_cases hp : e.1 = p
      · have hnil : rest.filter (fun e => e.1 == p) = [] := by
          rw [List.filter_eq_nil_iff]
          intro e2 he2
          simpa using fun hc => (hhead e2 he2).1 (hp.trans hc.symm)
        simp [List.filter_cons, hp, hnil]
      · simpa [List.filter_cons, hp] using ih1
    · by_cases hp : e.2 = p
      · have hnil : rest.filter (fun e => e.2 == p) = [] := by
          rw [List.filter_eq_nil_iff]
          intro e2 he2
          simpa using fun hc => (hhead e2 he2).2 (hp.trans hc.symm)
        simp [List.filter_cons, hp, hnil]
      · simpa [List.filter_cons, hp] using ih2

theorem filter_or_length_le {α : Type} (a b : α → Bool) (l : List α) :
    (l.filter (fun e => a e || b e)).length ≤ (l.filter a).length + (l.filter b).length := by
  induction l with
  | nil => simp
  | cons e rest ih =>
    simp only [List.filter_cons]
    cases ha : a e <;> cases hb : b e <;> simp <;> omega

theorem swapLog_pairwise (rng : Rng) {players : Record PlayerState}
    (hnd : players.keys.Nodup) :
    (swapLog rng players).Pairwise
      (fun e1 e2 => e1.1 ≠ e2.1 ∧ e1.2 ≠ e2.1 ∧ e1.2 ≠ e2.2) := by
  unfold swapLog
  cases hst : afterSteal rng players with
  | error e => exact List.Pairwise.nil
  | ok st =>
    simp only
    have hsh : Shrinks (collectApplied players) (beforeSwap st).appliedTo :=
      shrinks_trans (resolvePlayers_shrinks _ _ _) (stealLoop_shrinks hst)
    refine (swapExchanges_pairwise _ _).imp_of_mem ?_
    intro e1 e2 h1 h2 hR
    refine ⟨hR.1, hR.2, ?_⟩
    intro heq
    obtain ⟨-, d1, hd1, hk1, hv1⟩ := (collectApplied_attacks players e1.1 .swap e1.2).mp
      (attacks_of_shrinks hsh (swapExchanges_open _ _ e1 h1))
    obtain ⟨-, d2, hd2, hk2, hv2⟩ := (collectApplied_attacks players e2.1 .swap e2.2).mp
      (attacks_of_shrinks hsh (swapExchanges_open _ _ e2 h2))
    have g1 : players.get? e1.2 = some d1.2 := Record.get?_of_mem hnd (hk1 ▸ hd1)
    have g2 : players.get? e2.2 = some d2.2 := Record.get?_of_mem hnd (hk2 ▸ hd2)
    rw [heq, g2] at g1
    have hd : d2.2 = d1.2 := Option.some.inj g1
    rw [hd, hv1] at hv2
    exact hR.1 (Option.some.inj hv2)

/-- C33: a swap chain on `swapChainRound`, where `Y` swaps with `X` and `X` swaps with
`W` and all three answered correctly. With the samples 0 the swap loop first picks `X`
and exchanges its committed score 21 with the 11 of `Y`, then picks `W` and exchanges its
31 with the score of `X`, which is in the list of `W` as before: the score of `X` takes
part in two exchanges and the score of `Y` ends up with `W`. -/
theorem swap_chain_possible :
    swapChainRound.map (fun e => (e.1, e.2.effects.swap))
      = [("Y", some "X"), ("X", some "W"), ("W", none)] ∧
    (afterSteal zeroRng swapChainRound).toOption.map
        (fun st => st.players.map (fun e => (e.1, committed e.2)))
      = some [("Y", 11), ("X", 21), ("W", 31)] ∧
    swapLog zeroRng swapChainRound = [("X", "Y"), ("W", "X")] ∧
    (applyEffects zeroRng swapChainRound).toOption.map
        (fun ps => ps.map (fun e => (e.1, e.2.score, e.2.applied.swap)))
      = some [("Y", 21, none), ("X", 31, some "Y"), ("W", 11, some "X")] ∧
    ((swapLog zeroRng swapChainRound).filter
        (fun e => e.1 == "X" || e.2 == "X")).length = 2 := by
  decide

/-- What the deletions of the swap loop do ensure, for players with distinct names, every
set of declarations and every outcome of the random choices: in the log of the exchanges
of one pass no player who took part in an exchange is the picked player of a later
exchange, and no player is the drawn partner of two exchanges; so the score of each
player takes part in at most two exchanges (at most once as the picked player and at
most once as the partner). -/
theorem swap_chain_bounded (rng : Rng) (players : Record PlayerState)
    (hnd : players.keys.Nodup) :
    (swapLog rng players).Pairwise
        (fun e1 e2 => e1.1 ≠ e2.1 ∧ e1.2 ≠ e2.1 ∧ e1.2 ≠ e2.2) ∧
      ∀ p, ((swapLog rng players).filter (fun e => e.1 == p || e.2 == p)).length ≤ 2 := by
  have hp := swapLog_pairwise rng hnd
  refine ⟨hp, fun p => ?_⟩
  have h1 := filter_fst_snd_le _ (hp.imp (fun h => ⟨h.1, h.2.2⟩)) p
  have h2 := filter_or_length_le (fun e : String × String => e.1 == p)
    (fun e => e.2 == p) (swapLog rng players)
  omega

/-- Instance of `swap_chain_bounded`: the players of `swapChainRound`. -/
theorem swap_chain_bounded_witness :
    swapChainRound.keys.Nodup ∧
      (swapLog zeroRng swapChainRound).Pairwise
        (fun e1 e2 => e1.1 ≠ e2.1 ∧ e1.2 ≠ e2.1 ∧ e1.2 ≠ e2.2) ∧
      ∀ p, ((swapLog zeroRng swapChainRound).filter
        (fun e => e.1 == p || e.2 == p)).length ≤ 2 :=
  ⟨by decide, swap_chain_bounded zeroRng swapChainRound (by decide)⟩

/-! ## Immediate reconnects on deliverable event sequences -/

namespace SyncSocket

theorem wired_new : Wired SyncSocket.new Wire.new := by
  refine ⟨?_, ?_⟩
  · intro i h
    simp [Wire.new] at h
  · intro i h
    have hi : i = 0 := by
      have : SyncSocket.new.ws = some 0 := rfl
      rw [this] at h
      exact (Option.some.inj h).symm
    subst hi
    refine ⟨by decide, by simp [Wire.new], by simp [Wire.new], ?_⟩
    constructor
    · intro h1
      simp [Wire.new] at h1
    · intro h1
      exact absurd h1 (by decide)

end SyncSocket

namespace SyncSocket

theorem failed_fast_eq (s : SyncSocket) :
    (failed s true).1
        = { s with ws := some s.created, state := .connecting, created := s.created + 1 } ∧
      (failed s true).2 = s.ws.toList.map SocketAction.discard ++ [.connect s.created] := by
  unfold failed
  simp only [if_true, establish, (kill_eq s).1, (kill_eq s).2]
  exact ⟨trivial, trivial⟩

theorem failed_slow_fields (s : SyncSocket) :
    (failed s false).1.ws = none ∧ (failed s false).1.state ≠ .ready ∧
      (failed s false).1.created = s.created ∧
      ∀ c, SocketAction.connect c ∉ (failed s false).2 := by
  unfold failed
  simp only [Bool.false_eq_true, if_false, fatal, (kill_eq s).1, (kill_eq s).2]
  split
  · refine ⟨rfl, by simp, rfl, ?_⟩
    intro c
    simp
  · refine ⟨?_, by simp, ?_, ?_⟩
    · simp [kill]
    · simp [kill]
    · intro c
      simp [kill]

theorem fatal_fields (s : SyncSocket) (msg : String) :
    (fatal s msg).1.ws = none ∧ (fatal s msg).1.state = .failed ∧
      (fatal s msg).1.created = s.created ∧ ∀ c, SocketAction.connect c ∉ (fatal s msg).2 := by
  have hk := kill_eq s
  refine ⟨?_, ?_, ?_, ?_⟩
  · simp [fatal, hk.1]
  · simp [fatal, hk.1]
  · simp [fatal, hk.1]
  · intro c
    simp [fatal, hk.2]

theorem onopen_fields (s : SyncSocket) :
    (onopen s).1.ws = s.ws ∧ (onopen s).1.state = .ready ∧ (onopen s).1.created = s.created ∧
      ∀ c, SocketAction.connect c ∉ (onopen s).2 := by
  unfold onopen sendState sendfetch
  simp only
  refine ⟨?_, ?_, ?_, ?_⟩
  · split <;> split <;> rfl
  · split <;> split <;> rfl
  · split <;> split <;> rfl
  · intro c
    split <;> split <;> (try split) <;> (try split) <;> simp

end SyncSocket

namespace SyncSocket

/-- The five ways in which an event can change the socket of the object. -/
theorem step_shape (s : SyncSocket) (e : SocketEvent) (hI : Inv s) :
    ((step s e).1.ws = s.ws ∧ (step s e).1.state = s.state ∧
        (step s e).1.created = s.created ∧
        (∀ c, SocketAction.connect c ∉ (step s e).2) ∧
        ∀ i, s.ws = some i → e ≠ .open i ∧ e ≠ .error i ∧ e ≠ .close i) ∨
      (∃ i, e = .open i ∧ s.ws = some i ∧ (step s e).1.ws = s.ws ∧
        (step s e).1.state = .ready ∧ (step s e).1.created = s.created ∧
        ∀ c, SocketAction.connect c ∉ (step s e).2) ∨
      (∃ i, s.ws = some i ∧ (e = .error i ∨ ∃ m, e = .message i m) ∧
        (step s e).1.ws = none ∧ (step s e).1.state ≠ .ready ∧
        (step s e).1.created = s.created ∧ ∀ c, SocketAction.connect c ∉ (step s e).2) ∨
      (∃ i, s.ws = some i ∧ (e = .close i ∨ e = .message i .invalid) ∧
        step s e = ({ s with ws := some s.created, state := .connecting,
                             created := s.created + 1 },
                    [.discard i, .connect s.created])) ∨
      ((e = .timer ∨ e = .retry) ∧ s.ws = none ∧ (step s e).1.ws = some s.created ∧
        (step s e).1.state = .connecting ∧ (step s e).1.created = s.created + 1) := by
  have hfast : ∀ i, s.ws = some i →
      failed s true = ({ s with ws := some s.created, state := .connecting,
                                created := s.created + 1 },
                       [.discard i, .connect s.created]) := by
    intro i hi
    have h := failed_fast_eq s
    rw [hi] at h
    exact Prod.ext h.1 h.2
  cases e with
  | sync name value =>
    left
    simp only [step, sync, sendState]
    split
    · refine ⟨rfl, rfl, rfl, ?_, fun i _ => ⟨by simp, by simp, by simp⟩⟩
      intro c
      split <;> simp
    · exact ⟨rfl, rfl, rfl, by simp, fun i _ => ⟨by simp, by simp, by simp⟩⟩
  | fetch =>
    left
    simp only [step, fetchNow, sendfetch]
    split
    · refine ⟨rfl, rfl, rfl, ?_, fun i _ => ⟨by simp, by simp, by simp⟩⟩
      intro c
      split <;> simp
    · exact ⟨rfl, rfl, rfl, by simp, fun i _ => ⟨by simp, by simp, by simp⟩⟩
  | retry =>
    by_cases hf : s.state = .failed
    · right; right; right; right
      refine ⟨Or.inr rfl, hI.2.1 hf, ?_, ?_, ?_⟩ <;> simp [step, retry, hf, establish]
    · left
      simp only [step, retry, if_neg hf]
      exact ⟨trivial, trivial, trivial, by simp, fun i _ => ⟨by simp, by simp, by simp⟩⟩
  | timer =>
    by_cases ht : s.timers = 0
    · left
      simp only [step, if_pos ht]
      exact ⟨trivial, trivial, trivial, by simp, fun i _ => ⟨by simp, by simp, by simp⟩⟩
    · right; right; right; right
      have hws : s.ws = none := by
        rcases hI.1 with h0 | ⟨_, hn, _⟩
        · exact absurd h0 ht
        · exact hn
      refine ⟨Or.inl rfl, hws, ?_, ?_, ?_⟩ <;> simp [step, ht, establish]
  | «open» socket =>
    by_cases hc : s.ws = some socket
    · right; left
      have h := onopen_fields s
      simp only [step, if_pos hc]
      exact ⟨socket, rfl, hc, h.1, h.2.1, h.2.2.1, h.2.2.2⟩
    · left
      simp only [step, if_neg hc]
      refine ⟨trivial, trivial, trivial, by simp, fun i hi => ⟨?_, by simp, by simp⟩⟩
      intro heq
      cases heq
      exact hc hi
  | close socket =>
    by_cases hc : s.ws = some socket
    · right; right; right; left
      refine ⟨socket, hc, Or.inl rfl, ?_⟩
      simp only [step, if_pos hc]
      exact hfast socket hc
    · left
      simp only [step, if_neg hc]
      refine ⟨trivial, trivial, trivial, by simp, fun i hi => ⟨by simp, by simp, ?_⟩⟩
      intro heq
      cases heq
      exact hc hi
  | error socket =>
    by_cases hc : s.ws = some socket
    · right; right; left
      have h := failed_slow_fields s
      simp only [step, if_pos hc]
      exact ⟨socket, hc, Or.inl rfl, h.1, h.2.1, h.2.2.1, h.2.2.2⟩
    · left
      simp only [step, if_neg hc]
      refine ⟨trivial, trivial, trivial, by simp, fun i hi => ⟨by simp, ?_, by simp⟩⟩
      intro heq
      cases heq
      exact hc hi
  | message socket m =>
    by_cases hc : s.ws = some socket
    · cases m with
      | unknownSession =>
        right; right; left
        have h := fatal_fields s "Unknown session!"
        simp only [step, if_pos hc, received]
        exact ⟨socket, hc, Or.inr ⟨_, rfl⟩, h.1, by rw [h.2.1]; decide, h.2.2.1, h.2.2.2⟩
      | state snapshot =>
        left
        simp only [step, if_pos hc, received]
        exact ⟨trivial, trivial, trivial, by simp, fun i _ => ⟨by simp, by simp, by simp⟩⟩
      | other cmd =>
        right; right; left
        have h := fatal_fields s "An unknown error occurred!"
        simp only [step, if_pos hc, received]
        exact ⟨socket, hc, Or.inr ⟨_, rfl⟩, h.1, by rw [h.2.1]; decide, h.2.2.1, h.2.2.2⟩
      | invalid =>
        right; right; right; left
        refine ⟨socket, hc, Or.inr rfl, ?_⟩
        simp only [step, if_pos hc, received]
        exact hfast socket hc
    · left
      simp only [step, if_neg hc]
      exact ⟨trivial, trivial, trivial, by simp, fun i _ => ⟨by simp, by simp, by simp⟩⟩

end SyncSocket

namespace SyncSocket

theorem record_lt {s : SyncSocket} {w : Wire} {e : SocketEvent} (hW : Wired s w)
    (ha : w.allows s.created e = true) (i : Nat)
    (h : i ∈ (w.record e).opened ∨ i ∈ (w.record e).errored ∨ i ∈ (w.record e).closed) :
    i < s.created := by
  cases e with
  | «open» j =>
    simp only [Wire.allows, Bool.and_eq_true, decide_eq_true_eq] at ha
    simp only [Wire.record, List.mem_cons] at h
    rcases h with (h | h) | h | h
    · rw [h]
      exact ha.1.1.1
    · exact hW.1 i (Or.inl h)
    · exact hW.1 i (Or.inr (Or.inl h))
    · exact hW.1 i (Or.inr (Or.inr h))
  | error j =>
    simp only [Wire.allows, Bool.and_eq_true, decide_eq_true_eq] at ha
    simp only [Wire.record, List.mem_cons] at h
    rcases h with h | (h | h) | h
    · exact hW.1 i (Or.inl h)
    · rw [h]
      exact ha.1.1
    · exact hW.1 i (Or.inr (Or.inl h))
    · exact hW.1 i (Or.inr (Or.inr h))
  | close j =>
    simp only [Wire.allows, Bool.and_eq_true, Bool.or_eq_true] at ha
    simp only [Wire.record, List.mem_cons] at h
    rcases h with h | h | h | h
    · exact hW.1 i (Or.inl h)
    · exact hW.1 i (Or.inr (Or.inl h))
    · rw [h]
      rcases ha.1 with h1 | h1
      · exact hW.1 j (Or.inl (List.elem_iff.mp h1))
      · exact hW.1 j (Or.inr (Or.inl (List.elem_iff.mp h1)))
    · exact hW.1 i (Or.inr (Or.inr h))
  | _ => exact hW.1 i h

theorem record_other (w : Wire) {e : SocketEvent} {i : Nat}
    (h : e ≠ .open i ∧ e ≠ .error i ∧ e ≠ .close i) :
    (i ∈ (w.record e).opened ↔ i ∈ w.opened) ∧ (i ∈ (w.record e).errored ↔ i ∈ w.errored) ∧
      (i ∈ (w.record e).closed ↔ i ∈ w.closed) := by
  cases e with
  | «open» j =>
    have hne : i ≠ j := fun hc => h.1 (by rw [hc])
    simp [Wire.record, hne]
  | error j =>
    have hne : i ≠ j := fun hc => h.2.1 (by rw [hc])
    simp [Wire.record, hne]
  | close j =>
    have hne : i ≠ j := fun hc => h.2.2 (by rw [hc])
    simp [Wire.record, hne]
  | _ => simp [Wire.record]

theorem step_wired {s : SyncSocket} {w : Wire} (e : SocketEvent) (hI : Inv s)
    (hW : Wired s w) (ha : w.allows s.created e = true) :
    Wired (step s e).1 (w.record e) := by
  have hlt := record_lt hW ha
  have hfresh : ∀ s1 : SyncSocket, s1.ws = some s.created → s1.state = .connecting →
      s1.created = s.created + 1 → Wired s1 (w.record e) := by
    intro s1 h1 h2 h3
    refine ⟨fun i hi => by rw [h3]; exact Nat.lt_succ_of_lt (hlt i hi), ?_⟩
    intro i hi
    rw [h1] at hi
    have hi1 : i = s.created := (Option.some.inj hi).symm
    subst hi1
    refine ⟨by rw [h3]; exact Nat.lt_succ_self _, ?_, ?_, ?_⟩
    · intro hc
      exact Nat.lt_irrefl _ (hlt _ (Or.inr (Or.inl hc)))
    · intro hc
      exact Nat.lt_irrefl _ (hlt _ (Or.inr (Or.inr hc)))
    · constructor
      · intro hc
        exact absurd (hlt _ (Or.inl hc)) (Nat.lt_irrefl _)
      · intro hc
        rw [h2] at hc
        cases hc
  rcases step_shape s e hI with ⟨h1, h2, h3, -, h5⟩ | ⟨i, he, hi, h1, h2, h3, -⟩ |
      ⟨i, hi, -, h1, h2, h3, -⟩ | ⟨i, hi, -, hstep⟩ | ⟨-, -, h1, h2, h3⟩
  · refine ⟨fun i hi => by rw [h3]; exact hlt i hi, ?_⟩
    intro i hi
    rw [h1] at hi
    obtain ⟨g1, g2, g3, g4⟩ := hW.2 i hi
    obtain ⟨r1, r2, r3⟩ := record_other w (h5 i hi)
    rw [h3, h2, r1, r2, r3]
    exact ⟨g1, g2, g3, g4⟩
  · refine ⟨fun j hj => by rw [h3]; exact hlt j hj, ?_⟩
    intro j hj
    rw [h1, hi] at hj
    have hji : j = i := (Option.some.inj hj).symm
    subst hji
    obtain ⟨g1, g2, g3, -⟩ := hW.2 j hi
    subst he
    rw [h3, h2]
    refine ⟨g1, g2, g3, ?_⟩
    simp [Wire.record]
  · refine ⟨fun j hj => by rw [h3]; exact hlt j hj, ?_⟩
    intro j hj
    rw [h1] at hj
    cases hj
  · rw [hstep]
    exact hfresh _ rfl rfl rfl
  · exact hfresh _ h1 h2 h3

theorem run_wired : ∀ (es : List SocketEvent) (s : SyncSocket) (w : Wire), Inv s → Wired s w →
    deliverable s w es = true → Wired (run s es).1 (wireAfter w es) := by
  intro es
  induction es with
  | nil => exact fun s w _ hW _ => hW
  | cons e rest ih =>
    intro s w hI hW hd
    simp only [deliverable, Bool.and_eq_true] at hd
    exact ih _ _ (step_inv e hI) (step_wired e hI hW hd.1) hd.2

end SyncSocket

namespace SyncSocket

theorem run_append (a b : List SocketEvent) :
    ∀ s : SyncSocket, (run s (a ++ b)).1 = (run (run s a).1 b).1 := by
  induction a with
  | nil => exact fun s => rfl
  | cons e rest ih =>
    intro s
    simp only [List.cons_append, run]
    exact ih _

theorem deliverable_append (a b : List SocketEvent) :
    ∀ (s : SyncSocket) (w : Wire), deliverable s w (a ++ b) =
      (deliverable s w a && deliverable (run s a).1 (wireAfter w a) b) := by
  induction a with
  | nil =>
    intro s w
    simp [deliverable, run, wireAfter]
  | cons e rest ih =>
    intro s w
    have h := ih (step s e).1 (w.record e)
    show (w.allows s.created e && deliverable (step s e).1 (w.record e) (rest ++ b)) = _
    rw [h, ← Bool.and_assoc]
    rfl

theorem run_not_ready : ∀ (es : List SocketEvent) (s : SyncSocket), Inv s →
    s.state ≠ .ready → (∀ x ∈ es, ∀ j, x ≠ .open j) → (run s es).1.state ≠ .ready := by
  intro es
  induction es with
  | nil => exact fun s _ h _ => h
  | cons e rest ih =>
    intro s hI hs hno
    refine ih _ (step_inv e hI) ?_ (fun x hx => hno x (List.mem_cons_of_mem _ hx))
    rcases step_shape s e hI with ⟨-, h2, -⟩ | ⟨i, he, -⟩ | ⟨i, -, -, -, h2, -⟩ |
        ⟨i, -, -, hstep⟩ | ⟨-, -, -, h2, -⟩
    · rw [h2]
      exact hs
    · exact absurd he (hno e (List.mem_cons_self _ _) i)
    · exact h2
    · rw [hstep]
      simp
    · rw [h2]
      simp

theorem error_backs_off (s : SyncSocket) (socket : Nat) (hws : s.ws = some socket) :
    (∀ c, SocketAction.connect c ∉ (step s (.error socket)).2) ∧
      (s.delay ≤ 1024 →
        step s (.error socket)
          = ({ s with ws := none, state := .connecting, timers := s.timers + 1,
                      delay := s.delay * 2 },
             [.discard socket, .setTimeout s.delay])) := by
  obtain ⟨ws, queued, fetch, delay, wasConnected, state, created, timers⟩ := s
  simp only at hws
  subst hws
  refine ⟨?_, ?_⟩
  · intro c
    simp only [step, failed, kill, fatal, if_true, Bool.false_eq_true, if_false]
    split <;> simp
  · intro hle
    simp only at hle
    simp [step, failed, kill, hle]

theorem immediate_of_wired {s : SyncSocket} {w : Wire} {e : SocketEvent} (hI : Inv s)
    (hW : Wired s w) (ha : w.allows s.created e = true)
    (him : immediateReconnect s e = true) :
    ∃ i, s.ws = some i ∧ s.state = .ready ∧ (e = .close i ∨ e = .message i .invalid) ∧
      step s e = ({ s with ws := some s.created, state := .connecting,
                           created := s.created + 1 },
                  [.discard i, .connect s.created]) := by
  have hconn : ∃ c, SocketAction.connect c ∈ (step s e).2 := by
    unfold immediateReconnect at him
    have hany : (step s e).2.any
        (fun a => match a with | .connect _ => true | _ => false) = true := by
      cases e <;> first | exact him | cases him
    obtain ⟨a, ha1, ha2⟩ := List.any_eq_true.mp hany
    cases a with
    | connect c => exact ⟨c, ha1⟩
    | _ => cases ha2
  obtain ⟨c, hc⟩ := hconn
  rcases step_shape s e hI with ⟨-, -, -, h4, -⟩ | ⟨i, -, -, -, -, -, h4⟩ |
      ⟨i, -, -, -, -, -, h4⟩ | ⟨i, hi, he, hstep⟩ | ⟨he, -⟩
  · exact absurd hc (h4 c)
  · exact absurd hc (h4 c)
  · exact absurd hc (h4 c)
  · refine ⟨i, hi, ?_, he, hstep⟩
    obtain ⟨-, g2, -, g4⟩ := hW.2 i hi
    rcases he with he | he
    · subst he
      simp only [Wire.allows, Bool.and_eq_true, Bool.or_eq_true] at ha
      rcases ha.1 with h1 | h1
      · exact g4.mp (List.elem_iff.mp h1)
      · exact absurd (List.elem_iff.mp h1) g2
    · subst he
      simp only [Wire.allows, Bool.and_eq_true] at ha
      exact g4.mp (List.elem_iff.mp ha.1.1)
  · unfold immediateReconnect at him
    rcases he with he | he <;> subst he <;> cases him

end SyncSocket

namespace SyncSocket

theorem wired_of_deliverable {es : List SocketEvent} {e : SocketEvent}
    (hd : deliverable SyncSocket.new Wire.new (es ++ [e]) = true) :
    Inv (run SyncSocket.new es).1 ∧
      Wired (run SyncSocket.new es).1 (wireAfter Wire.new es) ∧
      (wireAfter Wire.new es).allows (run SyncSocket.new es).1.created e = true := by
  rw [deliverable_append, Bool.and_eq_true] at hd
  refine ⟨run_inv es _ new_inv, run_wired es _ _ new_inv wired_new hd.1, ?_⟩
  have h2 := hd.2
  simp only [deliverable, Bool.and_true] at h2
  exact h2

/-- C27 as stated fails on a ready channel that receives a message whose handling throws:
after the open event of the first socket, a message that `JSON.parse` rejects is
answered by an immediate reconnect (no timer, the delay stays 256), though no close
event came. -/
theorem invalid_message_reconnects_at_once :
    deliverable SyncSocket.new Wire.new [.open 0, .message 0 .invalid] = true ∧
    (run SyncSocket.new [.open 0, .message 0 .invalid]).2
      = [.onestablished, .discard 0, .connect 1] ∧
    (run SyncSocket.new [.open 0, .message 0 .invalid]).1.delay = 256 ∧
    (run SyncSocket.new [.open 0, .message 0 .invalid]).1.timers = 0 := by
  decide

/-- C27, as amended: on every sequence of events that a browser can deliver to a new
object, a socket event is answered by an immediate reconnect only when it is the close
event of the current socket, or a message of it whose handling throws, and the channel
is ready; the reconnect ends the ready period, so that no further immediate reconnect is
made before another open event. The close event of a socket that was never ready comes
after its error event and finds the socket given up; the error event of the current
socket is never answered by a reconnect at once: while the delay is at most 1024 it
schedules the next attempt after the delay and doubles the delay. -/
theorem immediate_reconnect_only_when_ready (es : List SocketEvent) (e : SocketEvent)
    (s : SyncSocket) (hs : (run SyncSocket.new es).1 = s)
    (hd : deliverable SyncSocket.new Wire.new (es ++ [e]) = true) :
    (immediateReconnect s e = true →
        ∃ i, s.ws = some i ∧ s.state = .ready ∧ (e = .close i ∨ e = .message i .invalid) ∧
          step s e = ({ s with ws := some s.created, state := .connecting,
                               created := s.created + 1 },
                      [.discard i, .connect s.created])) ∧
      (immediateReconnect s e = true →
        ∀ es2 e2, (∀ x ∈ es2, ∀ j, x ≠ .open j) →
          deliverable SyncSocket.new Wire.new (es ++ [e] ++ es2 ++ [e2]) = true →
          immediateReconnect (run SyncSocket.new (es ++ [e] ++ es2)).1 e2 = false) ∧
      (∀ i, s.ws = some i → s.state = .connecting → e ≠ .close i) ∧
      (∀ i, s.ws = some i → e = .error i →
        (∀ c, SocketAction.connect c ∉ (step s e).2) ∧
          (s.delay ≤ 1024 →
            step s e = ({ s with ws := none, state := .connecting, timers := s.timers + 1,
                                 delay := s.delay * 2 },
                        [.discard i, .setTimeout s.delay]))) := by
  subst hs
  obtain ⟨hI, hW, ha⟩ := wired_of_deliverable hd
  refine ⟨fun him => immediate_of_wired hI hW ha him, ?_, ?_, ?_⟩
  · intro him es2 e2 hno hd2
    obtain ⟨i, -, -, -, hstep⟩ := immediate_of_wired hI hW ha him
    have hrun : (run SyncSocket.new (es ++ [e] ++ es2)).1
        = (run (step (run SyncSocket.new es).1 e).1 es2).1 := by
      rw [run_append, run_append]
      rfl
    obtain ⟨hI2, hW2, ha2⟩ := wired_of_deliverable hd2
    have hnr : (run SyncSocket.new (es ++ [e] ++ es2)).1.state ≠ .ready := by
      rw [hrun]
      refine run_not_ready es2 _ (step_inv e hI) ?_ hno
      rw [hstep]
      simp
    cases him2 : immediateReconnect (run SyncSocket.new (es ++ [e] ++ es2)).1 e2 with
    | false => rfl
    | true =>
      obtain ⟨j, -, hready, -⟩ := immediate_of_wired hI2 hW2 ha2 him2
      exact absurd hready hnr
  · intro i hi hstate he
    subst he
    obtain ⟨-, g2, -, g4⟩ := hW.2 i hi
    simp only [Wire.allows, Bool.and_eq_true, Bool.or_eq_true] at ha
    rcases ha.1 with h1 | h1
    · have := g4.mp (List.elem_iff.mp h1)
      rw [hstate] at this
      cases this
    · exact g2 (List.elem_iff.mp h1)
  · intro i hi he
    subst he
    exact error_backs_off _ i hi

/-- Instance of `immediate_reconnect_only_when_ready`: the close event of the first
socket after its open event is answered by an immediate reconnect, and the error event
of the second socket, which never opened, by a timer of 256. -/
theorem immediate_reconnect_only_when_ready_witness :
    deliverable SyncSocket.new Wire.new ([.open 0] ++ [.close 0]) = true ∧
      deliverable SyncSocket.new Wire.new ([.open 0, .close 0] ++ [.error 1]) = true ∧
      (∃ i, (run SyncSocket.new [.open 0]).1.ws = some i ∧
        (run SyncSocket.new [.open 0]).1.state = .ready ∧
        (SocketEvent.close 0 = .close i ∨ SocketEvent.close 0 = .message i .invalid) ∧
        step (run SyncSocket.new [.open 0]).1 (.close 0)
          = ({ (run SyncSocket.new [.open 0]).1 with
                 ws := some (run SyncSocket.new [.open 0]).1.created,
                 state := .connecting,
                 created := (run SyncSocket.new [.open 0]).1.created + 1 },
             [.discard i, .connect (run SyncSocket.new [.open 0]).1.created])) ∧
      (∀ c, SocketAction.connect c ∉
        (step (run SyncSocket.new [.open 0, .close 0]).1 (.error 1)).2) :=
  ⟨by decide, by decide,
   (immediate_reconnect_only_when_ready [.open 0] (.close 0) _ rfl (by decide)).1
     (by decide),
   ((immediate_reconnect_only_when_ready [.open 0, .close 0] (.error 1) _ rfl
     (by decide)).2.2.2 1 (by decide) rfl).1⟩

end SyncSocket

/-! ## The exchanges of a player who is not correct -/

/-- An iteration of the swap loop whose exchange, if it makes one, is between two other
players leaves the score and the delta of `V` as they are. -/
theorem swapStep_not_exchanged {st st1 : LoopState} {V : String} (h : swapStep st = .ok st1)
    (hV : ∀ e ∈ (swapExchange st).toList, e.1 ≠ V ∧ e.2 ≠ V) :
    (st1.players.get? V).map (fun p => (p.score, p.delta))
      = (st.players.get? V).map (fun p => (p.score, p.delta)) := by
  cases hx : swapExchange st with
  | some e =>
    obtain ⟨v, o⟩ := e
    obtain ⟨hv, ho⟩ := hV (v, o) (by rw [hx]; simp)
    obtain ⟨-, hstep⟩ := swapExchange_some hx
    obtain ⟨-, -, players1, h1, h2⟩ := hstep st1 h
    rw [swapPoints_get?_ne h2 hv ho]
    exact modifyPlayer_map h1 (fun p => (p.score, p.delta)) (fun _ => rfl) V
  | none =>
    unfold swapExchange at hx
    unfold swapStep at h
    simp only at h hx
    split at hx
    · rename_i hname
      try simp only [hname] at h
      cases h
    · rename_i name hname
      try simp only [hname] at h
      split at hx
      · rename_i hinbox
        try simp only [hinbox] at h
        cases h
      · rename_i inbox hinbox
        try simp only [hinbox] at h
        split at hx
        · rename_i hsw
          try simp only [hsw] at h
          cases h
          rfl
        · rename_i swaps hsw
          try simp only [hsw] at h
          split at hx
          · rename_i hother
            try simp only [hother] at h
            cases h
          · rename_i other hother
            try simp only [hother] at h
            split at hx
            · rename_i hm
              split at h
              · cases h
              · rename_i players1 h1
                rw [if_pos hm] at h
                split at h
                · cases h
                · rename_i players2 h2
                  cases h
                  show (Record.get? players2 V).map _ = _
                  rw [modifyPlayer_map h2 (fun p => (p.score, p.delta)) (fun _ => rfl),
                    modifyPlayer_map h1 (fun p => (p.score, p.delta)) (fun _ => rfl)]
            · cases hx

theorem swapLoop_not_exchanged {V : String} :
    ∀ (fuel : Nat) (st st1 : LoopState), swapLoop fuel st = .ok st1 →
      (∀ e ∈ swapExchanges fuel st, e.1 ≠ V ∧ e.2 ≠ V) →
      (st1.players.get? V).map (fun p => (p.score, p.delta))
        = (st.players.get? V).map (fun p => (p.score, p.delta)) := by
  intro fuel
  induction fuel with
  | zero =>
    intro st st1 h _
    simp only [swapLoop] at h
    cases h
    rfl
  | succ fuel ih =>
    intro st st1 h hV
    simp only [swapLoop] at h
    simp only [swapExchanges] at hV
    split at h
    · rename_i hpos
      rw [if_pos hpos] at hV
      cases hs : swapStep st with
      | error e =>
        rw [hs] at h
        cases h
      | ok st2 =>
        rw [hs] at h hV
        simp only at h hV
        rw [ih st2 st1 h (fun e he => hV e (List.mem_append_right _ he))]
        exact swapStep_not_exchanged hs (fun e he => hV e (List.mem_append_left _ he))
    · cases h
      rfl

/-- The exchanges of the swap loop that involve a player `V` whose correct flag is false
after the fail step: `V` is never the picked player, and it is the partner only of a
player it declared swap against itself. -/
theorem swapLog_incorrect {rng : Rng} {players : Record PlayerState} {V : String}
    {pV pD : PlayerState} (hnd : players.keys.Nodup) (hV : players.get? V = some pV)
    (hD : (beforeSteal rng players).players.get? V = some pD) (hc : pD.correct = false) :
    ∀ e ∈ swapLog rng players, e.1 ≠ V ∧ (e.2 = V → pV.effects.swap = some e.1) := by
  intro e he
  unfold swapLog at he
  cases hst : afterSteal rng players with
  | error x =>
    rw [hst] at he
    simp at he
  | ok st =>
    rw [hst] at he
    have hopen : Attacks st.appliedTo e.1 .swap e.2 :=
      swapExchanges_open (beforeSwap st).pending.length (beforeSwap st) e he
    have hst2 := hst
    unfold afterSteal at hst2
    constructor
    · intro h1
      rw [h1] at hopen
      exact beforeSteal_swap_discarded rng hnd hD hc e.2
        (attacks_of_shrinks (stealLoop_shrinks hst2) hopen)
    · intro h2
      have hsh : Shrinks (collectApplied players) st.appliedTo :=
        shrinks_trans
          (show Shrinks (collectApplied players) (beforeSteal rng players).appliedTo from
            resolvePlayers_shrinks _ _ _)
          (stealLoop_shrinks hst2)
      obtain ⟨_, d, hd, hname, hdecl⟩ :=
        (collectApplied_attacks players e.1 .swap e.2).mp (attacks_of_shrinks hsh hopen)
      have hg : players.get? d.1 = some d.2 := Record.get?_of_mem hnd hd
      rw [hname, h2, hV] at hg
      cases hg
      exact hdecl

/-- C18, as amended: for a player `V` whose correct flag is false after the fail step, no
swap entry against `V` is left in the inverse map when swap resolution starts, so `V` is
never the picked player of an exchange, and after a completed pass `V.applied.swap` is
absent. The score of `V` is exchanged only with a player that `V` itself declared swap
against: every exchange of the swap loop that involves `V` has `V` as the partner of the
player named in `V.effects.swap`, so there is no exchange between `V` and any other
player `X`, whatever `X` declared; and when the swap loop makes no exchange with `V` as
the partner (in particular when `V` declared no swap), the score of `V` after the pass is
its committed score `max(0, old score + delta)` and its delta is the one the steal loop
left. -/
theorem incorrect_player_exchanged_only_by_own_swap (rng : Rng)
    (players players1 : Record PlayerState) (V : String) (pV pD : PlayerState)
    (st : LoopState) (hnd : players.keys.Nodup) (hV : players.get? V = some pV)
    (hD : (beforeSteal rng players).players.get? V = some pD) (hc : pD.correct = false)
    (hst : afterSteal rng players = .ok st)
    (h : applyEffects rng players = .ok players1) :
    (∀ x, ¬ Attacks st.appliedTo V .swap x) ∧
      (∀ e ∈ swapLog rng players, e.1 ≠ V ∧ (e.2 = V → pV.effects.swap = some e.1)) ∧
      (∀ X, pV.effects.swap ≠ some X →
        (X, V) ∉ swapLog rng players ∧ (V, X) ∉ swapLog rng players) ∧
      ∃ sV p1, st.players.get? V = some sV ∧ players1.get? V = some p1 ∧
        p1.applied.swap = none ∧
        ((∀ e ∈ swapLog rng players, e.2 ≠ V) →
          p1.score = committed sV ∧ p1.delta = sV.delta) ∧
        (pV.effects.swap = none → p1.score = committed sV ∧ p1.delta = sV.delta) := by
  have hlog := swapLog_incorrect hnd hV hD hc
  obtain ⟨sV, hsV, _⟩ := afterSteal_score hst hV
  obtain ⟨st0, st1, h0, hloop, rfl⟩ := applyEffects_ok h
  rw [hst] at h0
  cases h0
  have hst2 := hst
  unfold afterSteal at hst2
  have hno : ∀ x, ¬ Attacks st.appliedTo V .swap x := fun x hx =>
    beforeSteal_swap_discarded rng hnd hD hc x (attacks_of_shrinks (stealLoop_shrinks hst2) hx)
  have hcs : (commitScores st.players).get? V = some { sV with score := committed sV } := by
    rw [get?_commitScores, hsV]
    rfl
  have hm := swapLoop_map_no_entry hloop hno (fun q => q.applied.swap) (fun _ _ => rfl)
    (fun _ _ => rfl)
  rw [hcs] at hm
  refine ⟨hno, hlog, ?_, ?_⟩
  · intro X hX
    constructor
    · intro hmem
      exact hX ((hlog _ hmem).2 rfl)
    · intro hmem
      exact (hlog _ hmem).1 rfl
  cases h1 : st1.players.get? V with
  | none =>
    rw [h1] at hm
    cases hm
  | some p1 =>
    rw [h1] at hm
    simp only [Option.map_some', Option.some.injEq] at hm
    have hscore : (∀ e ∈ swapLog rng players, e.2 ≠ V) →
        p1.score = committed sV ∧ p1.delta = sV.delta := by
      intro hpart
      have hlog2 : ∀ e ∈ swapExchanges st.appliedTo.keys.length (beforeSwap st),
          e.1 ≠ V ∧ e.2 ≠ V := by
        intro e he
        have he2 : e ∈ swapLog rng players := by
          unfold swapLog
          rw [hst]
          exact he
        exact ⟨(hlog e he2).1, hpart e he2⟩
      have hfin := swapLoop_not_exchanged _ _ _ hloop hlog2
      rw [h1] at hfin
      have hcs2 : (beforeSwap st).players.get? V
          = some { sV with score := committed sV } := hcs
      change _ = ((beforeSwap st).players.get? V).map _ at hfin
      rw [hcs2] at hfin
      simp only [Option.map_some', Option.some.injEq, Prod.mk.injEq] at hfin
      exact hfin
    refine ⟨sV, p1, hsV, rfl, hm.trans (afterSteal_applied_swap hst hsV), hscore, ?_⟩
    intro hself
    apply hscore
    intro e he h2
    have := (hlog e he).2 h2
    rw [hself] at this
    cases this

theorem incorrect_player_exchanged_only_by_own_swap_witness :
    (∀ x, ¬ Attacks ownSwapRoundAfterSteal.appliedTo "V" .swap x) ∧
      (∀ e ∈ swapLog zeroRng ownSwapRound,
        e.1 ≠ "V" ∧
          (e.2 = "V" →
            (samplePlayer true 2 false 6 { swap := some "W" }).effects.swap = some e.1)) ∧
      (∀ X, (samplePlayer true 2 false 6 { swap := some "W" }).effects.swap ≠ some X →
        (X, "V") ∉ swapLog zeroRng ownSwapRound ∧ ("V", X) ∉ swapLog zeroRng ownSwapRound) ∧
      ∃ sV p1, ownSwapRoundAfterSteal.players.get? "V" = some sV ∧
        ownSwapRoundResult.get? "V" = some p1 ∧ p1.applied.swap = none ∧
        ((∀ e ∈ swapLog zeroRng ownSwapRound, e.2 ≠ "V") →
          p1.score = committed sV ∧ p1.delta = sV.delta) ∧
        ((samplePlayer true 2 false 6 { swap := some "W" }).effects.swap = none →
          p1.score = committed sV ∧ p1.delta = sV.delta) :=
  incorrect_player_exchanged_only_by_own_swap zeroRng ownSwapRound ownSwapRoundResult "V"
    (samplePlayer true 2 false 6 { swap := some "W" })
    { samplePlayer false 2 false 6 { swap := some "W" } with payout := 2, delta := -2 }
    ownSwapRoundAfterSteal (by decide) rfl rfl rfl rfl rfl

/-- On `ownSwapRound` the entry of `X` against `V` is discarded and the only exchange is
the one `V` declared itself: `W` is picked with partner `V`, the committed scores 4 of
`V` and 8 of `W` change places, and the score 12 of `X` stays. -/
theorem own_swap_round_exchange :
    swapLog zeroRng ownSwapRound = [("W", "V")] ∧
    (afterSteal zeroRng ownSwapRound).toOption.map
        (fun st => st.players.map (fun e => (e.1, committed e.2)))
      = some [("V", 4), ("W", 8), ("X", 12)] ∧
    (applyEffects zeroRng ownSwapRound).toOption.map
        (fun ps => ps.map (fun e => (e.1, e.2.score, e.2.applied.swap)))
      = some [("V", 8, none), ("W", 4, some "V"), ("X", 12, none)] := by
  decide


/-! ## The inverse map as a plain object: names inherited from `Object.prototype` -/

theorem get?_map_const {α : Type} (c : α) (k : String) (v : α) :
    ∀ l : List String, Record.get? (l.map (fun x => (x, c))) k = some v → v = c := by
  intro l
  induction l with
  | nil =>
    intro h
    cases h
  | cons x rest ih =>
    intro h
    simp only [List.map_cons, Record.get?] at h
    split at h
    · cases h
      rfl
    · exact ih h

theorem proto_empty_get? {k : String} {inbox : GameEffects (List String)}
    (h : Proto.empty.get? k = some inbox) : inbox = {} :=
  get?_map_const _ k inbox objectInherited h

theorem proto_empty_no_attack (v : String) (k : EffectKind) (x : String) :
    ¬ Attacks Proto.empty v k x := by
  rintro ⟨inbox, l, hg, hl, _⟩
  rw [proto_empty_get? hg] at hl
  cases k <;> cases hl

theorem proto_empty_entry (v : String) (k : EffectKind) : entryOf Proto.empty v k = none := by
  unfold entryOf
  cases hg : Proto.empty.get? v with
  | none => rfl
  | some inbox =>
    rw [proto_empty_get? hg]
    cases k <;> rfl

/-- The inverse map lists `x` under `k` for `v`, own or inherited, exactly when `k` is a
targeted kind and a player named `x` declared `k` against `v`. -/
theorem proto_collectApplied_attacks (players : Record PlayerState) (v : String)
    (k : EffectKind) (x : String) :
    Attacks (Proto.collectApplied players) v k x ↔
      k ∈ targetedKinds ∧ ∃ e ∈ players, e.1 = x ∧ e.2.effects.get k = some v := by
  unfold Proto.collectApplied
  rw [collectPlayers_attacks]
  constructor
  · rintro (h | h)
    · exact absurd h (proto_empty_no_attack v k x)
    · exact h
  · exact Or.inr

theorem proto_collectApplied_entry (players : Record PlayerState) (v : String)
    (k : EffectKind) (hk : k ∈ targetedKinds) :
    entryOf (Proto.collectApplied players) v k =
      if declarers players k v = [] then none else some (declarers players k v) := by
  unfold Proto.collectApplied
  rw [collectPlayers_entry v k hk, proto_empty_entry]
  simp [appendEntry]

theorem proto_deleteOwn_shrinks (a : AppliedTo) (k : String) :
    Shrinks a (Proto.deleteOwn a k) := by
  unfold Proto.deleteOwn
  split
  · exact shrinks_refl _
  · exact shrinks_erase _ _

theorem proto_deleteOwn_get?_ne (a : AppliedTo) {name k : String} (h : name ≠ k) :
    (Proto.deleteOwn a name).get? k = a.get? k := by
  unfold Proto.deleteOwn
  split
  · rfl
  · rw [Record.get?_erase]
    simp [h]

theorem proto_resolvePlayer_appliedTo (name : String) (player : PlayerState) (a : AppliedTo)
    (rng : Rng) :
    (player.effects.protect.isSome = true ∧
        (Proto.resolvePlayer name player a rng).2.1 = Proto.deleteOwn a name) ∨
    (a.get? name = none ∧ (Proto.resolvePlayer name player a rng).2.1 = a) ∨
    (∃ applied inbox1, a.get? name = some applied ∧ inbox1.Sub applied ∧
        inbox1.steal = applied.steal ∧
        (Proto.resolvePlayer name player a rng).2.1 = a.set name inbox1) := by
  unfold Proto.resolvePlayer
  dsimp only
  split
  · rename_i h
    rw [resetForResolution_effects] at h
    exact Or.inl ⟨h, rfl⟩
  · split
    · rename_i h
      exact Or.inr (Or.inl ⟨h, rfl⟩)
    · rename_i applied h
      exact Or.inr (Or.inr ⟨applied, _, h, resolveInbox_sub _ _ _, resolveInbox_steal _ _ _, rfl⟩)

/-- The loop body for a player without protect is the one of the own-property reading. -/
theorem proto_resolvePlayer_unprotected (name : String) {player : PlayerState}
    (a : AppliedTo) (rng : Rng) (h : player.effects.protect = none) :
    Proto.resolvePlayer name player a rng = resolvePlayer name player a rng := by
  unfold Proto.resolvePlayer resolvePlayer
  dsimp only
  rw [resetForResolution_effects, h]
  rfl

/-- The player record that the loop body leaves does not depend on the reading of
`delete`. -/
theorem proto_resolvePlayer_fst (name : String) (player : PlayerState) (a : AppliedTo)
    (rng : Rng) :
    (Proto.resolvePlayer name player a rng).1 = (resolvePlayer name player a rng).1 := by
  cases h : player.effects.protect with
  | none => rw [proto_resolvePlayer_unprotected name a rng h]
  | some v =>
    unfold Proto.resolvePlayer resolvePlayer
    dsimp only
    rw [resetForResolution_effects, h]
    rfl

theorem proto_resolvePlayer_shrinks (name : String) (player : PlayerState) (a : AppliedTo)
    (rng : Rng) : Shrinks a (Proto.resolvePlayer name player a rng).2.1 := by
  rcases proto_resolvePlayer_appliedTo name player a rng with
    ⟨_, h⟩ | ⟨_, h⟩ | ⟨applied, inbox1, hget, hsub, _, h⟩
  · rw [h]
    exact proto_deleteOwn_shrinks _ _
  · rw [h]
    exact shrinks_refl _
  · rw [h]
    exact shrinks_set hget hsub

theorem proto_resolvePlayers_shrinks (players : Record PlayerState) (a : AppliedTo)
    (rng : Rng) : Shrinks a (Proto.resolvePlayers players a rng).2.1 := by
  induction players generalizing a rng with
  | nil => exact shrinks_refl _
  | cons e rest ih =>
    obtain ⟨name, player⟩ := e
    simp only [Proto.resolvePlayers]
    exact shrinks_trans (proto_resolvePlayer_shrinks name player a rng) (ih _ _)

theorem proto_resolvePlayer_get?_ne (name : String) (player : PlayerState) (a : AppliedTo)
    (rng : Rng) {k : String} (hk : name ≠ k) :
    (Proto.resolvePlayer name player a rng).2.1.get? k = a.get? k := by
  rcases proto_resolvePlayer_appliedTo name player a rng with
    ⟨_, h⟩ | ⟨_, h⟩ | ⟨applied, inbox1, _, _, _, h⟩
  · rw [h, proto_deleteOwn_get?_ne a hk]
  · rw [h]
  · rw [h, Record.get?_set_ne _ _ hk]

theorem proto_resolvePlayers_keys (players : Record PlayerState) (a : AppliedTo) (rng : Rng) :
    (Proto.resolvePlayers players a rng).1.keys = players.keys := by
  induction players generalizing a rng with
  | nil => rfl
  | cons e rest ih =>
    obtain ⟨name, player⟩ := e
    simp only [Proto.resolvePlayers, Record.keys, List.map_cons]
    exact congrArg _ (ih _ _)

theorem proto_resolvePlayers_steal {k : String} :
    ∀ (players : Record PlayerState) (a : AppliedTo) (rng : Rng)
      (inbox : GameEffects (List String)),
      (∀ e ∈ players, e.1 = k → e.2.effects.protect = none) → a.get? k = some inbox →
      ∃ inbox1, (Proto.resolvePlayers players a rng).2.1.get? k = some inbox1 ∧
        inbox1.steal = inbox.steal := by
  intro players
  induction players with
  | nil =>
    intro a rng inbox _ ha
    exact ⟨inbox, ha, rfl⟩
  | cons e rest ih =>
    obtain ⟨name, player⟩ := e
    intro a rng inbox hprot ha
    simp only [Proto.resolvePlayers]
    have hrest : ∀ e ∈ rest, e.1 = k → e.2.effects.protect = none :=
      fun e he => hprot e (List.mem_cons_of_mem _ he)
    by_cases hn : name = k
    · subst hn
      have hp : player.effects.protect = none := hprot (name, player) (List.mem_cons_self _ _) rfl
      rcases proto_resolvePlayer_appliedTo name player a rng with
        ⟨hc, _⟩ | ⟨hc, _⟩ | ⟨applied, inbox1, hget, _, hst, h⟩
      · rw [hp] at hc
        cases hc
      · rw [ha] at hc
        cases hc
      · rw [ha] at hget
        cases hget
        obtain ⟨inbox2, h2, hs2⟩ := ih (Proto.resolvePlayer name player a rng).2.1
          (Proto.resolvePlayer name player a rng).2.2 inbox1 hrest
          (by rw [h, Record.get?_set_self])
        exact ⟨inbox2, h2, hs2.trans hst⟩
    · exact ih _ _ inbox hrest
        (by rw [proto_resolvePlayer_get?_ne name player a rng hn]; exact ha)

theorem proto_resolvePlayers_attacks_steal {k x : String} (players : Record PlayerState)
    (a : AppliedTo) (rng : Rng)
    (hprot : ∀ e ∈ players, e.1 = k → e.2.effects.protect = none)
    (h : Attacks a k .steal x) :
    Attacks (Proto.resolvePlayers players a rng).2.1 k .steal x := by
  obtain ⟨inbox, l, hget, hl, hx⟩ := h
  obtain ⟨inbox1, h1, hs⟩ := proto_resolvePlayers_steal players a rng inbox hprot hget
  exact ⟨inbox1, l, h1, by rw [show inbox1.get .steal = inbox1.steal from rfl, hs]; exact hl, hx⟩

/-- A name with an inbox that is not inherited is an own key of the inverse map. -/
theorem proto_mem_ownKeys {a : AppliedTo} {k : String} {inbox : GameEffects (List String)}
    (hget : a.get? k = some inbox) (hown : k ∉ objectInherited) : k ∈ Proto.ownKeys a := by
  unfold Proto.ownKeys
  rw [List.mem_filter]
  constructor
  · have hnn : ¬ k ∉ a.keys := by
      rw [← Record.get?_eq_none_iff, hget]
      simp
    exact not_not.mp hnn
  · simpa using hown

/-- State of the steal loop for a pair that declared steal against each other, did not
declare protect, and is not stolen from by anybody else, when the name `A` is not
inherited. -/
theorem proto_beforeSteal_mutualInv (rng : Rng) {players : Record PlayerState} {A B : String}
    {pA pB : PlayerState} (hAB : A ≠ B) (hnd : players.keys.Nodup)
    (hA : players.get? A = some pA) (hB : players.get? B = some pB)
    (hsA : pA.effects.steal = some B) (hsB : pB.effects.steal = some A)
    (hpA : pA.effects.protect = none) (hpB : pB.effects.protect = none)
    (hothers : ∀ e ∈ players, e.1 ≠ A → e.1 ≠ B →
      e.2.effects.steal ≠ some A ∧ e.2.effects.steal ≠ some B)
    (hown : A ∉ objectInherited) :
    MutualInv (deltaOf (Proto.beforeSteal rng players).players A)
      (deltaOf (Proto.beforeSteal rng players).players B) A B
      (Proto.beforeSteal rng players) := by
  have hsteal : EffectKind.steal ∈ targetedKinds := by decide
  have hval : ∀ e ∈ players, (e.1 = A → e.2 = pA) ∧ (e.1 = B → e.2 = pB) := by
    intro e he
    have hg : players.get? e.1 = some e.2 := Record.get?_of_mem hnd he
    constructor
    · intro h
      rw [h, hA] at hg
      cases hg
      rfl
    · intro h
      rw [h, hB] at hg
      cases hg
      rfl
  have hex : OnlyEachOther (Proto.collectApplied players) A B := by
    intro k x hx
    obtain ⟨_, e, he, hname, hdecl⟩ := (proto_collectApplied_attacks players k .steal x).mp hx
    have hdecl1 : e.2.effects.steal = some k := hdecl
    subst hname
    by_cases h1 : e.1 = A
    · have := (hval e he).1 h1
      rw [this, hsA] at hdecl1
      cases hdecl1
      exact ⟨⟨fun hc => absurd hc (Ne.symm hAB), fun hc => absurd (h1.symm.trans hc) hAB⟩,
        ⟨fun _ => h1, fun _ => rfl⟩⟩
    · by_cases h2 : e.1 = B
      · have := (hval e he).2 h2
        rw [this, hsB] at hdecl1
        cases hdecl1
        exact ⟨⟨fun _ => h2, fun _ => rfl⟩,
          ⟨fun hc => absurd hc hAB, fun hc => absurd (h2.symm.trans hc) (Ne.symm hAB)⟩⟩
      · obtain ⟨n1, n2⟩ := hothers e he h1 h2
        refine ⟨⟨fun hc => ?_, fun hc => absurd hc h2⟩, ⟨fun hc => ?_, fun hc => absurd hc h1⟩⟩
        · rw [hc] at hdecl1
          exact absurd hdecl1 n1
        · rw [hc] at hdecl1
          exact absurd hdecl1 n2
  have hAB0 : Attacks (Proto.collectApplied players) A .steal B :=
    (proto_collectApplied_attacks players A .steal B).mpr
      ⟨hsteal, (B, pB), Record.mem_of_get? hB, rfl, hsB⟩
  have hBA0 : Attacks (Proto.collectApplied players) B .steal A :=
    (proto_collectApplied_attacks players B .steal A).mpr
      ⟨hsteal, (A, pA), Record.mem_of_get? hA, rfl, hsA⟩
  have hprotA : ∀ e ∈ players, e.1 = A → e.2.effects.protect = none := by
    intro e he h
    rw [(hval e he).1 h]
    exact hpA
  have hprotB : ∀ e ∈ players, e.1 = B → e.2.effects.protect = none := by
    intro e he h
    rw [(hval e he).2 h]
    exact hpB
  have hAB1 := proto_resolvePlayers_attacks_steal players (Proto.collectApplied players) rng
    hprotA hAB0
  have hBA1 := proto_resolvePlayers_attacks_steal players (Proto.collectApplied players) rng
    hprotB hBA0
  refine ⟨onlyEachOther_shrinks hex (proto_resolvePlayers_shrinks _ _ _), rfl, rfl,
    Or.inl ⟨hAB1, hBA1, ?_⟩⟩
  obtain ⟨inbox, _, hget, _, _⟩ := hAB1
  exact proto_mem_ownKeys hget hown

/-- The steal loop of a pass on the plain-object inverse map, for a mutually stealing
pair of which `A` has a name that is not inherited. -/
theorem proto_mutual_steal (rng : Rng) {players : Record PlayerState} {A B : String}
    {pA pB : PlayerState} {st : LoopState} (hAB : A ≠ B) (hnd : players.keys.Nodup)
    (hA : players.get? A = some pA) (hB : players.get? B = some pB)
    (hsA : pA.effects.steal = some B) (hsB : pB.effects.steal = some A)
    (hpA : pA.effects.protect = none) (hpB : pB.effects.protect = none)
    (hothers : ∀ e ∈ players, e.1 ≠ A → e.1 ≠ B →
      e.2.effects.steal ≠ some A ∧ e.2.effects.steal ≠ some B)
    (hown : A ∉ objectInherited)
    (h : Proto.afterSteal rng players = .ok st) :
    MutualStealOutcome (Proto.beforeSteal rng players).players st.players A B := by
  have h0 := proto_beforeSteal_mutualInv rng hAB hnd hA hB hsA hsB hpA hpB hothers hown
  unfold Proto.afterSteal at h
  have hI := stealLoop_invariant _ (fun _ _ hI hs => stealStep_mutualInv hAB _ _ hI hs)
    _ _ _ h0 h
  have hnil := stealLoop_pending_nil _ _ _ (le_refl _) h
  obtain ⟨_, hdA, hdB, hphase⟩ := hI
  rcases hphase with ⟨_, _, hmem⟩ | ⟨_, _, hs1, hs2⟩
  · rw [hnil] at hmem
    cases hmem
  · exact ⟨hdA, hdB, hs1, hs2⟩

/-- C10, as amended: when `A` and `B` declared steal against each other, neither
declared protect, no other player declared steal against `A` or `B`, and the names `A`
and `B` are not both names that a plain object inherits from `Object.prototype`, then
whatever else is declared (by players of whatever name, against whatever name but
`__proto__`) and whatever the random choices, a completed steal loop has moved no points
between them (both deltas are the ones computed before the loop) and has marked
`A.applied.steal = B` and `B.applied.steal = A`. -/
theorem mutual_steal_marks_both (rng : Rng) (players : Record PlayerState) (A B : String)
    (pA pB : PlayerState) (st : LoopState) (hAB : A ≠ B) (hnd : players.keys.Nodup)
    (_hcov : Proto.covers players = true)
    (hA : players.get? A = some pA) (hB : players.get? B = some pB)
    (hsA : pA.effects.steal = some B) (hsB : pB.effects.steal = some A)
    (hpA : pA.effects.protect = none) (hpB : pB.effects.protect = none)
    (hothers : ∀ e ∈ players, e.1 ≠ A → e.1 ≠ B →
      e.2.effects.steal ≠ some A ∧ e.2.effects.steal ≠ some B)
    (hown : A ∉ objectInherited ∨ B ∉ objectInherited)
    (h : Proto.afterSteal rng players = .ok st) :
    MutualStealOutcome (Proto.beforeSteal rng players).players st.players A B := by
  rcases hown with hown | hown
  · exact proto_mutual_steal rng hAB hnd hA hB hsA hsB hpA hpB hothers hown h
  · have hsym := proto_mutual_steal rng (Ne.symm hAB) hnd hB hA hsB hsA hpB hpA
      (fun e he h1 h2 => ((hothers e he h2 h1).symm)) hown h
    exact ⟨hsym.2.1, hsym.1, hsym.2.2.2, hsym.2.2.1⟩

theorem mutual_steal_marks_both_witness :
    MutualStealOutcome (Proto.beforeSteal zeroRng halfInheritedStealRound).players
      halfInheritedStealRoundAfterSteal.players "A" "constructor" :=
  mutual_steal_marks_both zeroRng halfInheritedStealRound "A" "constructor"
    (samplePlayer true 2 true 5 { steal := some "constructor" })
    (samplePlayer true 3 true 4 { steal := some "A" })
    halfInheritedStealRoundAfterSteal (by decide) (by decide) (by decide) rfl rfl rfl rfl rfl rfl
    (by decide) (by decide) rfl

/-- C10 as stated fails in two ways.  On `thirdThiefRound`, where `A` and `B` steal from
each other and `C` steals from `B` as well, the samples 0, 1 make the steal loop pick
victim `B` with thief `C`, so `C` takes the delta 3 of `B`; when `A` is then picked, the
steal entry of `B` is gone, the pair is not recognised as mutual, and `B` takes the
delta 2 of `A`.  On `inheritedMutualStealRound`, where the two players are named
`constructor` and `toString`, both names are found in the empty inverse map through its
prototype, no own inbox is created, the open list of the steal loop is empty, and
neither player is marked. -/
theorem mutual_steal_not_recognised :
    (thirdThiefRound.get? "A").bind (fun p => p.effects.steal) = some "B" ∧
    (thirdThiefRound.get? "B").bind (fun p => p.effects.steal) = some "A" ∧
    (Proto.beforeSteal pickRng thirdThiefRound).players.map (fun e => (e.1, e.2.delta))
      = [("A", 2), ("B", 3), ("C", 1)] ∧
    (Proto.afterSteal pickRng thirdThiefRound).toOption.map
        (fun st => st.players.map (fun e => (e.1, e.2.delta, e.2.applied.steal)))
      = some [("A", 0, some "B"), ("B", 2, some "C"), ("C", 4, none)] ∧
    ¬ (∀ st, Proto.afterSteal pickRng thirdThiefRound = .ok st →
        MutualStealOutcome (Proto.beforeSteal pickRng thirdThiefRound).players st.players
          "A" "B") ∧
    inheritedMutualStealRound.map (fun e => (e.1, e.2.effects.steal, e.2.effects.protect))
      = [("constructor", some "toString", none), ("toString", some "constructor", none)] ∧
    Proto.ownKeys (Proto.collectApplied inheritedMutualStealRound) = [] ∧
    (Proto.collectApplied inheritedMutualStealRound).filterMap
        (fun e => e.2.steal.map (fun l => (e.1, l)))
      = [("constructor", ["toString"]), ("toString", ["constructor"])] ∧
    (Proto.afterSteal zeroRng inheritedMutualStealRound).toOption.map
        (fun st => st.players.map (fun e => (e.1, e.2.delta, e.2.applied.steal)))
      = some [("constructor", 2, none), ("toString", 3, none)] ∧
    ¬ (∀ st, Proto.afterSteal zeroRng inheritedMutualStealRound = .ok st →
        MutualStealOutcome (Proto.beforeSteal zeroRng inheritedMutualStealRound).players
          st.players "constructor" "toString") := by
  refine ⟨by decide, by decide, by decide, by decide, ?_, by decide, by decide, by decide,
    by decide, ?_⟩
  · intro hall
    exact absurd (hall _ rfl) (by decide)
  · intro hall
    exact absurd (hall _ rfl) (by decide)

/-! ## Mutual swap on the plain-object inverse map -/

theorem proto_resolvePlayers_get? {V : String} {pV : PlayerState} :
    ∀ (players : Record PlayerState) (a : AppliedTo) (rng : Rng),
      players.get? V = some pV →
      ∃ a1 rng1, a1.get? V = a.get? V ∧
        (Proto.resolvePlayers players a rng).1.get? V
          = some (Proto.resolvePlayer V pV a1 rng1).1 := by
  intro players
  induction players with
  | nil =>
    intro a rng hV
    simp [Record.get?] at hV
  | cons e rest ih =>
    obtain ⟨name, player⟩ := e
    intro a rng hV
    by_cases hn : name = V
    · subst hn
      simp only [Record.get?, if_true, Option.some.injEq] at hV
      subst hV
      exact ⟨a, rng, rfl, by simp [Proto.resolvePlayers, Record.get?]⟩
    · simp only [Record.get?, hn, if_false] at hV
      obtain ⟨a1, rng1, h1, h2⟩ := ih (Proto.resolvePlayer name player a rng).2.1
        (Proto.resolvePlayer name player a rng).2.2 hV
      refine ⟨a1, rng1, h1.trans (proto_resolvePlayer_get?_ne name player a rng hn), ?_⟩
      simpa [Proto.resolvePlayers, Record.get?, hn] using h2

theorem proto_resolvePlayers_appliedTo_notin {V : String} :
    ∀ (players : Record PlayerState) (a : AppliedTo) (rng : Rng),
      V ∉ players.keys → (Proto.resolvePlayers players a rng).2.1.get? V = a.get? V := by
  intro players
  induction players with
  | nil => intro a rng _; rfl
  | cons e rest ih =>
    obtain ⟨name, player⟩ := e
    intro a rng hV
    have hn : name ≠ V := fun hc => hV (by simp [Record.keys, hc])
    have hr : V ∉ Record.keys rest := fun hc => hV (by
      simp only [Record.keys, List.map_cons, List.mem_cons]
      exact Or.inr hc)
    simp only [Proto.resolvePlayers]
    rw [ih _ _ hr, proto_resolvePlayer_get?_ne name player a rng hn]

/-- The inbox of `V` after the second loop is the one that the loop body for `V` left. -/
theorem proto_resolvePlayers_appliedTo_get? {V : String} {pV : PlayerState} :
    ∀ (players : Record PlayerState) (a : AppliedTo) (rng : Rng),
      players.keys.Nodup → players.get? V = some pV →
      ∃ a1 rng1, a1.get? V = a.get? V ∧
        (Proto.resolvePlayers players a rng).1.get? V
          = some (Proto.resolvePlayer V pV a1 rng1).1 ∧
        (Proto.resolvePlayers players a rng).2.1.get? V
          = (Proto.resolvePlayer V pV a1 rng1).2.1.get? V := by
  intro players
  induction players with
  | nil =>
    intro a rng _ hV
    simp [Record.get?] at hV
  | cons e rest ih =>
    obtain ⟨name, player⟩ := e
    intro a rng hnd hV
    have hnd1 : (name :: Record.keys rest).Nodup := hnd
    rw [List.nodup_cons] at hnd1
    by_cases hn : name = V
    · subst hn
      simp only [Record.get?, if_true, Option.some.injEq] at hV
      subst hV
      refine ⟨a, rng, rfl, by simp [Proto.resolvePlayers, Record.get?], ?_⟩
      simp only [Proto.resolvePlayers]
      exact proto_resolvePlayers_appliedTo_notin rest _ _ hnd1.1
    · simp only [Record.get?, hn, if_false] at hV
      obtain ⟨a1, rng1, h1, h2, h3⟩ := ih (Proto.resolvePlayer name player a rng).2.1
        (Proto.resolvePlayer name player a rng).2.2 hnd1.2 hV
      refine ⟨a1, rng1, h1.trans (proto_resolvePlayer_get?_ne name player a rng hn), ?_, ?_⟩
      · simpa [Proto.resolvePlayers, Record.get?, hn] using h2
      · simpa [Proto.resolvePlayers] using h3

/-- The swap entries against an unprotected player who answered correctly and against
whom nobody declared fail are still in the inverse map after the second loop. -/
theorem proto_beforeSteal_swap_kept (rng : Rng) {players : Record PlayerState} {V : String}
    {pV : PlayerState} (hnd : players.keys.Nodup) (hV : players.get? V = some pV)
    (hprot : pV.effects.protect = none) (hcorrect : pV.correct = true)
    (hfail : declarers players .fail V = []) {x : String}
    (hx : Attacks (Proto.collectApplied players) V .swap x) :
    Attacks (Proto.beforeSteal rng players).appliedTo V .swap x := by
  obtain ⟨a1, rng1, h1, _, h3⟩ :=
    proto_resolvePlayers_appliedTo_get? players (Proto.collectApplied players) rng hnd hV
  obtain ⟨inbox, l, hget, hl, hmem⟩ := hx
  have hget1 : a1.get? V = some inbox := h1.trans hget
  have hfl : inbox.fail = none := by
    have := proto_collectApplied_entry players V .fail targeted_mem.1
    rw [if_pos hfail] at this
    unfold entryOf at this
    rw [hget] at this
    exact this
  have hcor : (resolveInbox (resetForResolution pV) inbox rng1).1.correct = true := by
    rw [resolveInbox_correct, hfl, (resetForResolution_fields pV).2.1, hcorrect]
    rfl
  have hsw := resolveInbox_swap (resetForResolution pV) inbox rng1
  rw [hcor, if_pos rfl] at hsw
  refine ⟨(resolveInbox (resetForResolution pV) inbox rng1).2.1, l, ?_, ?_, hmem⟩
  · show (Proto.resolvePlayers players (Proto.collectApplied players) rng).2.1.get? V = _
    rw [h3, proto_resolvePlayer_unprotected V a1 rng1 hprot,
      resolvePlayer_snd_unprotected rng1 hprot hget1, Record.get?_set_self]
  · rw [show ∀ e : GameEffects (List String), e.get .swap = e.swap from fun _ => rfl, hsw]
    exact hl

/-- The steal loop and the loops before it leave every `score` as it was. -/
theorem proto_afterSteal_score {rng : Rng} {players : Record PlayerState} {st : LoopState}
    (h : Proto.afterSteal rng players = .ok st) {k : String} {p : PlayerState}
    (hk : players.get? k = some p) :
    ∃ s, st.players.get? k = some s ∧ s.score = p.score := by
  obtain ⟨a1, rng1, _, h2⟩ :=
    proto_resolvePlayers_get? players (Proto.collectApplied players) rng hk
  have hb : (Proto.beforeSteal rng players).players.get? k =
      ((Proto.resolvePlayers players (Proto.collectApplied players) rng).1.get? k).map
        computeDelta :=
    get?_computeDeltas _ _
  rw [h2] at hb
  unfold Proto.afterSteal at h
  have hm := stealLoop_map h (fun q => q.score) (fun _ _ => rfl) (fun _ _ => rfl) k
  rw [hb] at hm
  cases hs : st.players.get? k with
  | none =>
    rw [hs] at hm
    cases hm
  | some s =>
    rw [hs] at hm
    refine ⟨s, rfl, ?_⟩
    simp only [Option.map_some', Option.some.injEq] at hm
    rw [hm, (computeDelta_fields _).2.2.1, proto_resolvePlayer_fst, resolvePlayer_score]

theorem proto_applyEffects_ok {rng : Rng} {players players1 : Record PlayerState}
    (h : Proto.applyEffects rng players = .ok players1) :
    ∃ st st1, Proto.afterSteal rng players = .ok st ∧
      swapLoop (Proto.ownKeys st.appliedTo).length
        { rng := st.rng, pending := Proto.ownKeys st.appliedTo, appliedTo := st.appliedTo,
          players := commitScores st.players } = .ok st1 ∧
      players1 = st1.players := by
  unfold Proto.applyEffects at h
  split at h
  · cases h
  · rename_i st hst
    simp only at h
    split at h
    · cases h
    · rename_i st1 hst1
      cases h
      exact ⟨st, st1, hst, hst1, rfl⟩

/-- A pass on the plain-object inverse map for a mutually swapping pair of which `A` has
a name that is not inherited. -/
theorem proto_mutual_swap (rng : Rng) {players players1 : Record PlayerState}
    {A B : String} {pA pB : PlayerState} {st : LoopState} (hAB : A ≠ B)
    (hnd : players.keys.Nodup)
    (hA : players.get? A = some pA) (hB : players.get? B = some pB)
    (hsA : pA.effects.swap = some B) (hsB : pB.effects.swap = some A)
    (hpA : pA.effects.protect = none) (hpB : pB.effects.protect = none)
    (hcA : pA.correct = true) (hcB : pB.correct = true)
    (hfA : declarers players .fail A = []) (hfB : declarers players .fail B = [])
    (hothers : ∀ e ∈ players, e.1 ≠ A → e.1 ≠ B →
      e.2.effects.swap ≠ some A ∧ e.2.effects.swap ≠ some B)
    (hown : A ∉ objectInherited)
    (hst : Proto.afterSteal rng players = .ok st)
    (h : Proto.applyEffects rng players = .ok players1) :
    ∃ sA sB p1A p1B, st.players.get? A = some sA ∧ st.players.get? B = some sB ∧
      sA.score = pA.score ∧ sB.score = pB.score ∧
      players1.get? A = some p1A ∧ players1.get? B = some p1B ∧
      p1A.score = committed sA ∧ p1B.score = committed sB ∧
      p1A.delta = sA.delta ∧ p1B.delta = sB.delta ∧
      p1A.applied.swap = some B ∧ p1B.applied.swap = some A := by
  obtain ⟨sA, hsA1, hscA⟩ := proto_afterSteal_score hst hA
  obtain ⟨sB, hsB1, hscB⟩ := proto_afterSteal_score hst hB
  obtain ⟨st0, st1, h0, hloop, rfl⟩ := proto_applyEffects_ok h
  rw [hst] at h0
  cases h0
  have hswap : EffectKind.swap ∈ targetedKinds := targeted_mem.2.1
  have hval : ∀ e ∈ players, (e.1 = A → e.2 = pA) ∧ (e.1 = B → e.2 = pB) := by
    intro e he
    have hg : players.get? e.1 = some e.2 := Record.get?_of_mem hnd he
    constructor
    · intro h
      rw [h, hA] at hg
      cases hg
      rfl
    · intro h
      rw [h, hB] at hg
      cases hg
      rfl
  have hex : OnlySwapEachOther (Proto.collectApplied players) A B := by
    intro k x hx
    obtain ⟨_, e, he, hname, hdecl⟩ := (proto_collectApplied_attacks players k .swap x).mp hx
    have hdecl1 : e.2.effects.swap = some k := hdecl
    subst hname
    by_cases h1 : e.1 = A
    · have := (hval e he).1 h1
      rw [this, hsA] at hdecl1
      cases hdecl1
      exact ⟨⟨fun hc => absurd hc (Ne.symm hAB), fun hc => absurd (h1.symm.trans hc) hAB⟩,
        ⟨fun _ => h1, fun _ => rfl⟩⟩
    · by_cases h2 : e.1 = B
      · have := (hval e he).2 h2
        rw [this, hsB] at hdecl1
        cases hdecl1
        exact ⟨⟨fun _ => h2, fun _ => rfl⟩,
          ⟨fun hc => absurd hc hAB, fun hc => absurd (h2.symm.trans hc) (Ne.symm hAB)⟩⟩
      · obtain ⟨n1, n2⟩ := hothers e he h1 h2
        refine ⟨⟨fun hc => ?_, fun hc => absurd hc h2⟩, ⟨fun hc => ?_, fun hc => absurd hc h1⟩⟩
        · rw [hc] at hdecl1
          exact absurd hdecl1 n1
        · rw [hc] at hdecl1
          exact absurd hdecl1 n2
  have hAB0 : Attacks (Proto.collectApplied players) A .swap B :=
    (proto_collectApplied_attacks players A .swap B).mpr
      ⟨hswap, (B, pB), Record.mem_of_get? hB, rfl, hsB⟩
  have hBA0 : Attacks (Proto.collectApplied players) B .swap A :=
    (proto_collectApplied_attacks players B .swap A).mpr
      ⟨hswap, (A, pA), Record.mem_of_get? hA, rfl, hsA⟩
  have hst2 := hst
  unfold Proto.afterSteal at hst2
  have hAB2 : Attacks st.appliedTo A .swap B :=
    stealLoop_attacks_swap hst2 (proto_beforeSteal_swap_kept rng hnd hA hpA hcA hfA hAB0)
  have hBA2 : Attacks st.appliedTo B .swap A :=
    stealLoop_attacks_swap hst2 (proto_beforeSteal_swap_kept rng hnd hB hpB hcB hfB hBA0)
  have hsh : Shrinks (Proto.collectApplied players) st.appliedTo :=
    shrinks_trans
      (show Shrinks (Proto.collectApplied players) (Proto.beforeSteal rng players).appliedTo
        from proto_resolvePlayers_shrinks _ _ _)
      (stealLoop_shrinks hst2)
  have hmem : A ∈ Proto.ownKeys st.appliedTo := by
    obtain ⟨inbox, _, hget, _, _⟩ := hAB2
    exact proto_mem_ownKeys hget hown
  have hI0 : MutualSwapInv { sA with score := committed sA } { sB with score := committed sB }
      A B
      { rng := st.rng, pending := Proto.ownKeys st.appliedTo, appliedTo := st.appliedTo,
        players := commitScores st.players } :=
    ⟨fun k x hx => hex k x (attacks_of_shrinks hsh hx),
      Or.inl ⟨hAB2, hBA2, hmem, by rw [get?_commitScores, hsA1]; rfl,
        by rw [get?_commitScores, hsB1]; rfl⟩⟩
  have hI := swapLoop_invariant _ (fun _ _ hI hs => swapStep_mutualSwapInv hAB _ _ hI hs)
    _ _ _ hI0 hloop
  have hnil : st1.pending = [] :=
    swapLoop_pending_nil (Proto.ownKeys st.appliedTo).length
      { rng := st.rng, pending := Proto.ownKeys st.appliedTo, appliedTo := st.appliedTo,
        players := commitScores st.players } st1 (le_refl _) hloop
  obtain ⟨_, hphase⟩ := hI
  rcases hphase with ⟨_, _, hm, _, _⟩ | ⟨_, _, r1, r2⟩
  · rw [hnil] at hm
    cases hm
  · exact ⟨sA, sB, _, _, hsA1, hsB1, hscA, hscB, r1, r2, rfl, rfl, rfl, rfl, rfl, rfl⟩

/-- C12, as amended: when `A` and `B` declared swap against each other, neither declared
protect, both answered correctly, nobody declared fail against either, no other player
declared swap against `A` or `B`, and the names `A` and `B` are not both names that a
plain object inherits from `Object.prototype`, then whatever else is declared (by
players of whatever name, against whatever name but `__proto__`) and whatever the random
choices, after a completed pass the scores of `A` and `B` are their committed scores
`max(0, old score + delta)`, their deltas are the ones the steal loop left, and each is
marked as swapped with the other. -/
theorem mutual_swap_keeps_scores (rng : Rng) (players players1 : Record PlayerState)
    (A B : String) (pA pB : PlayerState) (st : LoopState) (hAB : A ≠ B)
    (hnd : players.keys.Nodup) (_hcov : Proto.covers players = true)
    (hA : players.get? A = some pA) (hB : players.get? B = some pB)
    (hsA : pA.effects.swap = some B) (hsB : pB.effects.swap = some A)
    (hpA : pA.effects.protect = none) (hpB : pB.effects.protect = none)
    (hcA : pA.correct = true) (hcB : pB.correct = true)
    (hfA : declarers players .fail A = []) (hfB : declarers players .fail B = [])
    (hothers : ∀ e ∈ players, e.1 ≠ A → e.1 ≠ B →
      e.2.effects.swap ≠ some A ∧ e.2.effects.swap ≠ some B)
    (hown : A ∉ objectInherited ∨ B ∉ objectInherited)
    (hst : Proto.afterSteal rng players = .ok st)
    (h : Proto.applyEffects rng players = .ok players1) :
    ∃ sA sB p1A p1B, st.players.get? A = some sA ∧ st.players.get? B = some sB ∧
      sA.score = pA.score ∧ sB.score = pB.score ∧
      players1.get? A = some p1A ∧ players1.get? B = some p1B ∧
      p1A.score = committed sA ∧ p1B.score = committed sB ∧
      p1A.delta = sA.delta ∧ p1B.delta = sB.delta ∧
      p1A.applied.swap = some B ∧ p1B.applied.swap = some A := by
  rcases hown with hown | hown
  · exact proto_mutual_swap rng hAB hnd hA hB hsA hsB hpA hpB hcA hcB hfA hfB hothers hown
      hst h
  · obtain ⟨sB, sA, p1B, p1A, h1, h2, h3, h4, h5, h6, h7, h8, h9, h10, h11, h12⟩ :=
      proto_mutual_swap rng (Ne.symm hAB) hnd hB hA hsB hsA hpB hpA hcB hcA hfB hfA
        (fun e he n1 n2 => (hothers e he n2 n1).symm) hown hst h
    exact ⟨sA, sB, p1A, p1B, h2, h1, h4, h3, h6, h5, h8, h7, h10, h9, h12, h11⟩

theorem mutual_swap_keeps_scores_witness :
    ∃ sA sB p1A p1B, halfInheritedSwapRoundAfterSteal.players.get? "A" = some sA ∧
      halfInheritedSwapRoundAfterSteal.players.get? "constructor" = some sB ∧
      sA.score = (samplePlayer true 2 true 5 { swap := some "constructor" }).score ∧
      sB.score = (samplePlayer true 3 true 1 { swap := some "A" }).score ∧
      halfInheritedSwapRoundResult.get? "A" = some p1A ∧
      halfInheritedSwapRoundResult.get? "constructor" = some p1B ∧
      p1A.score = committed sA ∧ p1B.score = committed sB ∧
      p1A.delta = sA.delta ∧ p1B.delta = sB.delta ∧
      p1A.applied.swap = some "constructor" ∧ p1B.applied.swap = some "A" :=
  mutual_swap_keeps_scores zeroRng halfInheritedSwapRound halfInheritedSwapRoundResult
    "A" "constructor"
    (samplePlayer true 2 true 5 { swap := some "constructor" })
    (samplePlayer true 3 true 1 { swap := some "A" })
    halfInheritedSwapRoundAfterSteal (by decide) (by decide) (by decide) rfl rfl rfl rfl rfl rfl
    rfl rfl rfl rfl (by decide) (by decide) rfl rfl

/-- C12 as stated fails in two ways.  On `wrongAnswerSwapRound`, where `A` and `B`
declared swap against each other and `A` answered wrongly, the swap entry of `B` against
`A` is discarded in the second loop, so when `B` is picked in the swap loop its partner
`A` is not recognised as mutual and the committed scores 3 of `A` and 10 of `B` are
exchanged.  On `inheritedMutualSwapRound`, where the two players, both correct, are
named `constructor` and `toString`, both names are found in the empty inverse map
through its prototype, no own inbox is created, the open list of the swap loop is empty,
and neither player is marked as swapped. -/
theorem mutual_swap_not_recognised :
    wrongAnswerSwapRound.map (fun e => (e.1, e.2.effects.swap, e.2.correct, e.2.score))
      = [("A", some "B", false, 5), ("B", some "A", true, 7)] ∧
    (Proto.afterSteal zeroRng wrongAnswerSwapRound).toOption.map
        (fun st => st.players.map (fun e => (e.1, e.2.score, e.2.delta, committed e.2)))
      = some [("A", 5, -2, 3), ("B", 7, 3, 10)] ∧
    (Proto.applyEffects zeroRng wrongAnswerSwapRound).toOption.map
        (fun ps => ps.map (fun e => (e.1, e.2.score, e.2.delta, e.2.applied.swap)))
      = some [("A", 10, 5, none), ("B", 3, -4, some "A")] ∧
    inheritedMutualSwapRound.map
        (fun e => (e.1, e.2.effects.swap, e.2.effects.protect, e.2.correct))
      = [("constructor", some "toString", none, true),
         ("toString", some "constructor", none, true)] ∧
    (Proto.afterSteal zeroRng inheritedMutualSwapRound).toOption.map
        (fun st => (Proto.ownKeys st.appliedTo,
          st.appliedTo.filterMap (fun e => e.2.swap.map (fun l => (e.1, l)))))
      = some ([], [("constructor", ["toString"]), ("toString", ["constructor"])]) ∧
    (Proto.applyEffects zeroRng inheritedMutualSwapRound).toOption.map
        (fun ps => ps.map (fun e => (e.1, e.2.score, e.2.delta, e.2.applied.swap)))
      = some [("constructor", 7, 2, none), ("toString", 4, 3, none)] := by
  refine ⟨by decide, by decide, by decide, by decide, by decide, by decide⟩

/-! ## Declarations against a name inherited from `Object.prototype` -/

/-- C11 fails in the code on `inheritedStealRound`: the steal of `A` against the player
named `constructor` is the only steal declared and `constructor` did not declare
protect, but the test `victim in appliedTo` finds the name through the prototype of the
empty inverse map, so no inbox is created and `A` is pushed onto a list on the inherited
member; `Object.keys(appliedTo)` is empty, the steal loop makes no iteration, and for
every random stream `A` keeps its own delta 2, `constructor` keeps its delta 3 and is
not marked as stolen from. -/
theorem steal_from_inherited_name_lost (rng : Rng) :
    inheritedStealRound.map (fun e => (e.1, e.2.effects.steal, e.2.effects.protect))
      = [("A", some "constructor", none), ("constructor", none, none)] ∧
    Proto.ownKeys (Proto.collectApplied inheritedStealRound) = [] ∧
    (Proto.collectApplied inheritedStealRound).filterMap
        (fun e => e.2.steal.map (fun l => (e.1, l))) = [("constructor", ["A"])] ∧
    (Proto.beforeSteal rng inheritedStealRound).players.map (fun e => (e.1, e.2.delta))
      = [("A", 2), ("constructor", 3)] ∧
    (Proto.afterSteal rng inheritedStealRound).toOption.map
        (fun st => st.players.map (fun e => (e.1, e.2.delta, e.2.applied.steal)))
      = some [("A", 2, none), ("constructor", 3, none)] := by
  refine ⟨by decide, by decide, by decide, rfl, rfl⟩

/-- C13 fails in the code on `inheritedSwapRound`: the swap of `A` against the player
named `constructor` is the only swap declared, `constructor` answered correctly, nobody
declared fail and `constructor` did not declare protect, but the test
`victim in appliedTo` finds the name through the prototype of the empty inverse map, so
no inbox is created and `A` is pushed onto a list on the inherited member;
`Object.keys(appliedTo)` is empty, the swap loop makes no iteration, and for every
random stream both players keep their committed scores, 7 for `A` and 4 for
`constructor`, and `constructor` is not marked as swapped. -/
theorem swap_with_inherited_name_lost (rng : Rng) :
    inheritedSwapRound.map
        (fun e => (e.1, e.2.effects.swap, e.2.effects.protect, e.2.effects.fail, e.2.correct))
      = [("A", some "constructor", none, none, true),
         ("constructor", none, none, none, true)] ∧
    (Proto.afterSteal rng inheritedSwapRound).toOption.map
        (fun st => (Proto.ownKeys st.appliedTo,
          st.appliedTo.filterMap (fun e => e.2.swap.map (fun l => (e.1, l))),
          st.players.map (fun e => (e.1, committed e.2))))
      = some ([], [("constructor", ["A"])], [("A", 7), ("constructor", 4)]) ∧
    (Proto.applyEffects rng inheritedSwapRound).toOption.map
        (fun ps => ps.map (fun e => (e.1, e.2.score, e.2.delta, e.2.applied.swap)))
      = some [("A", 7, 2, none), ("constructor", 4, 3, none)] := by
  refine ⟨by decide, rfl, rfl⟩

/-- C14 fails in the code on `inheritedProtectRound`: the player named `constructor`
declared protect, but `delete appliedTo['constructor']` removes no own property and the
list that the steal of `X` left on the inherited member stays; when `X` is picked in the
steal loop with thief `constructor`, the test `thief in appliedTo` finds that list, the
pair is taken as mutual, and the protected player is marked `applied.steal = X`. -/
theorem protected_inherited_name_marked :
    inheritedProtectRound.map (fun e => (e.1, e.2.effects.protect, e.2.effects.steal))
      = [("constructor", some "constructor", some "X"), ("X", none, some "constructor")] ∧
    (Proto.beforeSteal zeroRng inheritedProtectRound).pending = ["X"] ∧
    (Proto.beforeSteal zeroRng inheritedProtectRound).appliedTo.filterMap
        (fun e => e.2.steal.map (fun l => (e.1, l)))
      = [("constructor", ["X"]), ("X", ["constructor"])] ∧
    (Proto.applyEffects zeroRng inheritedProtectRound).toOption.map
        (fun ps => ps.map (fun e => (e.1, e.2.applied, e.2.correct, e.2.payout)))
      = some [("constructor", { protect := some "True", steal := some "X" }, true, 2),
              ("X", { steal := some "constructor" }, true, 3)] := by
  refine ⟨by decide, by decide, by decide, by decide⟩

/-! ## An update under the name `__proto__` -/

/-- C24 fails in the code for the name `__proto__`.  In `Proto.lobbySession` (phase
start, the one ready player `A`, two connections) the update that submits a ready record
under the name `__proto__` stores no record: the assignment makes the record the
prototype of `this.players`, the map still has the one key `A`, and the snapshot sent to
both connections lists `A` only.  From then on the first loop of `advanceStage` visits
the inherited name `ready`, finds no flag on its value and returns: the next update,
which makes a second player `B` ready, leaves the phase at start for every random
stream, while the same update on the session as it was before moves it to category. -/
theorem update_named_proto_not_stored (rng : Rng) :
    Proto.Session.handle rng Proto.lobbySession (some Proto.protoUpdate)
      = .ok ({ timeout := true, dead := 0, ws := [4, 9],
               state := { game := { players := [("A", samplePlayer true 1 false 0 {})],
                                    phase := .start, question := none, round := 0,
                                    remaining := [sampleQuestion 1, sampleQuestion 2],
                                    total := 2 },
                          proto := some (samplePlayer true 1 false 0 {}) } },
             none,
             [(4, { phase := .start, question := none, totalQuestions := 2, round := 0,
                    players := [("A", samplePlayer true 1 false 0 {})] }),
              (9, { phase := .start, question := none, totalQuestions := 2, round := 0,
                    players := [("A", samplePlayer true 1 false 0 {})] })]) ∧
    Proto.Session.handle rng
        { timeout := true, dead := 0, ws := [4, 9],
          state := { game := { players := [("A", samplePlayer true 1 false 0 {})],
                               phase := .start, question := none, round := 0,
                               remaining := [sampleQuestion 1, sampleQuestion 2],
                               total := 2 },
                     proto := some (samplePlayer true 1 false 0 {}) } }
        (some { cmd := .string "update", name := .string "B",
                value := some (samplePlayer true 1 false 0 {}) })
      = .ok ({ timeout := true, dead := 0, ws := [4, 9],
               state := { game := { players := [("A", samplePlayer true 1 false 0 {}),
                                                ("B", samplePlayer true 1 false 0 {})],
                                    phase := .start, question := none, round := 0,
                                    remaining := [sampleQuestion 1, sampleQuestion 2],
                                    total := 2 },
                          proto := some (samplePlayer true 1 false 0 {}) } },
             none,
             [(4, { phase := .start, question := none, totalQuestions := 2, round := 0,
                    players := [("A", samplePlayer true 1 false 0 {}),
                                ("B", samplePlayer true 1 false 0 {})] }),
              (9, { phase := .start, question := none, totalQuestions := 2, round := 0,
                    players := [("A", samplePlayer true 1 false 0 {}),
                                ("B", samplePlayer true 1 false 0 {})] })]) ∧
    (Proto.Session.handle zeroRng Proto.lobbySession
        (some { cmd := .string "update", name := .string "B",
                value := some (samplePlayer true 1 false 0 {}) })).toOption.map
        (fun r => (r.1.state.game.phase, r.1.state.game.round, r.1.state.game.question,
          r.1.state.game.players.keys))
      = some (.category, 0, some (sampleQuestion 1), ["A", "B"]) := by
  refine ⟨rfl, rfl, by decide⟩

/-- For every name other than `__proto__` the update does what the claim on `handle`
says, also on the plain-object reading of the players map: the map that `advanceStage`
runs on holds `value` under `name` (no entry when `value` is `null` or absent) and every
other own record unchanged, the prototype link is untouched, and `handle` is one
`advanceStage` on it, followed, when that completes, by one snapshot of the resulting
state per attached connection, the idle counter set to 0 and the reply `null`. -/
theorem proto_handle_update (rng : Rng) (s : Proto.Session) (msg : Message) (name : String)
    (hcmd : msg.cmd = .string "update") (hname : msg.name = .string name)
    (hproto : name ≠ "__proto__") :
    (storePlayer s.state.game.players name msg.value).get? name = msg.value ∧
      (∀ k, k ≠ name →
        (storePlayer s.state.game.players name msg.value).get? k
          = s.state.game.players.get? k) ∧
      Proto.Session.handle rng s (some msg) =
        match Proto.advanceStage rng
            { s.state with game := { s.state.game with
                players := storePlayer s.state.game.players name msg.value } } with
        | .error state => .error { s with state := state }
        | .ok state => .ok ({ s with state := state, dead := 0 }, none,
            s.ws.map (fun ws => (ws,
              { phase := state.game.phase, question := state.game.question,
                totalQuestions := state.game.total, players := state.game.players,
                round := state.game.round }))) := by
  refine ⟨?_, ?_, ?_⟩
  · unfold storePlayer
    cases msg.value with
    | none => simp [Record.get?_erase]
    | some st => simp [Record.get?_set_self]
  · intro k hk
    unfold storePlayer
    cases msg.value with
    | none => simp [Record.get?_erase, Ne.symm hk]
    | some st => simp [Record.get?_set_ne _ _ (Ne.symm hk)]
  · unfold Proto.Session.handle Proto.updatePlayer storePlayer
    simp only [hcmd, hname]
    cases msg.value with
    | none => rfl
    | some st =>
      simp only [if_neg hproto]
      rfl

/-! ## Lone steal, lone swap and protect for names that are not inherited -/

theorem proto_beforeSteal_get?_isSome (rng : Rng) {players : Record PlayerState} {k : String}
    {p : PlayerState} (hk : players.get? k = some p) :
    ∃ pD, (Proto.beforeSteal rng players).players.get? k = some pD := by
  obtain ⟨a1, rng1, _, h2⟩ :=
    proto_resolvePlayers_get? players (Proto.collectApplied players) rng hk
  have hb : (Proto.beforeSteal rng players).players.get? k =
      ((Proto.resolvePlayers players (Proto.collectApplied players) rng).1.get? k).map
        computeDelta :=
    get?_computeDeltas _ _
  rw [h2] at hb
  exact ⟨_, hb⟩

/-- On the plain-object inverse map, when the steal of `A` against another player `B`
is the only steal declared, `B` did not declare protect and the name `B` is not
inherited from `Object.prototype`, a completed steal loop leaves `A` with its own
computed delta plus the computed delta of `B` (of whatever sign), `B` with delta 0, and
`B.applied.steal = A`. -/
theorem lone_steal_transfers_unless_inherited (rng : Rng) (players : Record PlayerState)
    (A B : String) (pA pB : PlayerState) (st : LoopState) (hAB : A ≠ B)
    (hnd : players.keys.Nodup)
    (hA : players.get? A = some pA) (hB : players.get? B = some pB)
    (hsA : pA.effects.steal = some B)
    (honly : ∀ e ∈ players, e.1 ≠ A → e.2.effects.steal = none)
    (hpB : pB.effects.protect = none) (hown : B ∉ objectInherited)
    (h : Proto.afterSteal rng players = .ok st) :
    ∃ da db, deltaOf (Proto.beforeSteal rng players).players A = some da ∧
      deltaOf (Proto.beforeSteal rng players).players B = some db ∧
      deltaOf st.players A = some (da + db) ∧ deltaOf st.players B = some 0 ∧
      stolenBy st.players B = some A := by
  obtain ⟨dA, hdA⟩ := proto_beforeSteal_get?_isSome rng hA
  obtain ⟨dB, hdB⟩ := proto_beforeSteal_get?_isSome rng hB
  have hda : deltaOf (Proto.beforeSteal rng players).players A = some dA.delta := by
    unfold deltaOf
    rw [hdA]
    rfl
  have hdb : deltaOf (Proto.beforeSteal rng players).players B = some dB.delta := by
    unfold deltaOf
    rw [hdB]
    rfl
  have hex0 : ∀ k x, Attacks (Proto.collectApplied players) k .steal x → k = B ∧ x = A := by
    intro k x hx
    obtain ⟨_, e, he, hname, hdecl⟩ := (proto_collectApplied_attacks players k .steal x).mp hx
    have hdecl1 : e.2.effects.steal = some k := hdecl
    have heA : e.1 = A := by
      by_contra hne
      rw [honly e he hne] at hdecl1
      cases hdecl1
    have hg : players.get? e.1 = some e.2 := Record.get?_of_mem hnd he
    rw [heA, hA] at hg
    cases hg
    rw [hsA] at hdecl1
    cases hdecl1
    exact ⟨rfl, hname.symm.trans heA⟩
  have hBA0 : Attacks (Proto.collectApplied players) B .steal A :=
    (proto_collectApplied_attacks players B .steal A).mpr
      ⟨targeted_mem.2.2.2.2.2, (A, pA), Record.mem_of_get? hA, rfl, hsA⟩
  have hprotB : ∀ e ∈ players, e.1 = B → e.2.effects.protect = none := by
    intro e he hk
    have hg : players.get? e.1 = some e.2 := Record.get?_of_mem hnd he
    rw [hk, hB] at hg
    cases hg
    exact hpB
  have hBA1 := proto_resolvePlayers_attacks_steal players (Proto.collectApplied players) rng
    hprotB hBA0
  have hmem : B ∈ (Proto.beforeSteal rng players).pending := by
    obtain ⟨inbox, _, hget, _, _⟩ := hBA1
    exact proto_mem_ownKeys hget hown
  have h0 : LoneStealInv dA.delta dB.delta A B (Proto.beforeSteal rng players) :=
    ⟨fun k x hx => hex0 k x (attacks_of_shrinks (proto_resolvePlayers_shrinks _ _ _) hx),
      Or.inl ⟨hBA1, hmem, hda, hdb⟩⟩
  unfold Proto.afterSteal at h
  have hI := stealLoop_invariant _ (fun _ _ hI hs => stealStep_loneStealInv hAB _ _ hI hs)
    _ _ _ h0 h
  have hnil := stealLoop_pending_nil _ _ _ (le_refl _) h
  obtain ⟨_, hphase⟩ := hI
  rcases hphase with ⟨_, hm, _, _⟩ | ⟨_, r1, r2, r3⟩
  · rw [hnil] at hm
    cases hm
  · exact ⟨dA.delta, dB.delta, hda, hdb, r1, r2, r3⟩

/-- On the plain-object inverse map, when the swap of `A` against another player `B` is
the only swap declared, `B` answered correctly, nobody declared fail against `B`, `B`
did not declare protect and the name `B` is not inherited from `Object.prototype`,
then after a completed pass `A.score` is the committed score of `B`, `B.score` is the
committed score of `A`, the delta of each is the one the steal loop left plus its new
score minus its committed score, and `B.applied.swap = A`. -/
theorem lone_swap_exchanges_unless_inherited (rng : Rng)
    (players players1 : Record PlayerState) (A B : String)
    (pA pB : PlayerState) (st : LoopState) (hAB : A ≠ B) (hnd : players.keys.Nodup)
    (hA : players.get? A = some pA) (hB : players.get? B = some pB)
    (hsA : pA.effects.swap = some B)
    (honly : ∀ e ∈ players, e.1 ≠ A → e.2.effects.swap = none)
    (hpB : pB.effects.protect = none) (hcB : pB.correct = true)
    (hfB : declarers players .fail B = []) (hown : B ∉ objectInherited)
    (hst : Proto.afterSteal rng players = .ok st)
    (h : Proto.applyEffects rng players = .ok players1) :
    ∃ sA sB p1A p1B, st.players.get? A = some sA ∧ st.players.get? B = some sB ∧
      sA.score = pA.score ∧ sB.score = pB.score ∧
      players1.get? A = some p1A ∧ players1.get? B = some p1B ∧
      p1A.score = committed sB ∧ p1B.score = committed sA ∧
      p1A.delta = sA.delta + (p1A.score - committed sA) ∧
      p1B.delta = sB.delta + (p1B.score - committed sB) ∧
      p1B.applied.swap = some A := by
  obtain ⟨sA, hsA1, hscA⟩ := proto_afterSteal_score hst hA
  obtain ⟨sB, hsB1, hscB⟩ := proto_afterSteal_score hst hB
  obtain ⟨st0, st1, h0, hloop, rfl⟩ := proto_applyEffects_ok h
  rw [hst] at h0
  cases h0
  have hex0 : ∀ k x, Attacks (Proto.collectApplied players) k .swap x → k = B ∧ x = A := by
    intro k x hx
    obtain ⟨_, e, he, hname, hdecl⟩ := (proto_collectApplied_attacks players k .swap x).mp hx
    have hdecl1 : e.2.effects.swap = some k := hdecl
    have heA : e.1 = A := by
      by_contra hne
      rw [honly e he hne] at hdecl1
      cases hdecl1
    have hg : players.get? e.1 = some e.2 := Record.get?_of_mem hnd he
    rw [heA, hA] at hg
    cases hg
    rw [hsA] at hdecl1
    cases hdecl1
    exact ⟨rfl, hname.symm.trans heA⟩
  have hBA0 : Attacks (Proto.collectApplied players) B .swap A :=
    (proto_collectApplied_attacks players B .swap A).mpr
      ⟨targeted_mem.2.1, (A, pA), Record.mem_of_get? hA, rfl, hsA⟩
  have hBA1 := proto_beforeSteal_swap_kept rng hnd hB hpB hcB hfB hBA0
  have hst2 := hst
  unfold Proto.afterSteal at hst2
  have hBA2 : Attacks st.appliedTo B .swap A := stealLoop_attacks_swap hst2 hBA1
  have hsh : Shrinks (Proto.collectApplied players) st.appliedTo :=
    shrinks_trans
      (show Shrinks (Proto.collectApplied players) (Proto.beforeSteal rng players).appliedTo
        from proto_resolvePlayers_shrinks _ _ _)
      (stealLoop_shrinks hst2)
  have hmem : B ∈ Proto.ownKeys st.appliedTo := by
    obtain ⟨inbox, _, hget, _, _⟩ := hBA2
    exact proto_mem_ownKeys hget hown
  have hI0 : LoneSwapInv { sA with score := committed sA } { sB with score := committed sB } A B
      { rng := st.rng, pending := Proto.ownKeys st.appliedTo, appliedTo := st.appliedTo,
        players := commitScores st.players } :=
    ⟨fun k x hx => hex0 k x (attacks_of_shrinks hsh hx),
      Or.inl ⟨hBA2, hmem, by rw [get?_commitScores, hsA1]; rfl,
        by rw [get?_commitScores, hsB1]; rfl⟩⟩
  have hI := swapLoop_invariant _ (fun _ _ hI hs => swapStep_loneSwapInv hAB _ _ hI hs)
    _ _ _ hI0 hloop
  have hnil : st1.pending = [] :=
    swapLoop_pending_nil (Proto.ownKeys st.appliedTo).length
      { rng := st.rng, pending := Proto.ownKeys st.appliedTo, appliedTo := st.appliedTo,
        players := commitScores st.players } st1 (le_refl _) hloop
  obtain ⟨_, hphase⟩ := hI
  rcases hphase with ⟨_, hm, _, _⟩ | ⟨_, r1, r2⟩
  · rw [hnil] at hm
    cases hm
  · exact ⟨sA, sB, _, _, hsA1, hsB1, hscA, hscB, r1, r2, rfl, rfl, rfl, rfl, rfl⟩

theorem proto_beforeSteal_get?_protected (rng : Rng) {players : Record PlayerState}
    {V : String} {pV : PlayerState} (hV : players.get? V = some pV)
    (hprot : pV.effects.protect.isSome = true) :
    (Proto.beforeSteal rng players).players.get? V =
      some (computeDelta { resetForResolution pV with
        applied := { (resetForResolution pV).applied with protect := some "True" } }) := by
  obtain ⟨a1, rng1, _, h2⟩ :=
    proto_resolvePlayers_get? players (Proto.collectApplied players) rng hV
  have hb : (Proto.beforeSteal rng players).players.get? V =
      ((Proto.resolvePlayers players (Proto.collectApplied players) rng).1.get? V).map
        computeDelta :=
    get?_computeDeltas _ _
  rw [hb, h2, proto_resolvePlayer_fst, resolvePlayer_fst_protected a1 rng1 hprot]
  rfl

/-- A protecting player whose name is not inherited has no inbox after the second
loop. -/
theorem proto_resolvePlayers_erased {P : String} {pP : PlayerState}
    (hprot : pP.effects.protect.isSome = true) (hown : P ∉ objectInherited) :
    ∀ (players : Record PlayerState) (a : AppliedTo) (rng : Rng),
      players.get? P = some pP → (Proto.resolvePlayers players a rng).2.1.get? P = none := by
  intro players
  induction players with
  | nil =>
    intro a rng hP
    simp [Record.get?] at hP
  | cons e rest ih =>
    obtain ⟨name, player⟩ := e
    intro a rng hP
    simp only [Proto.resolvePlayers]
    by_cases hn : name = P
    · subst hn
      simp only [Record.get?, if_true, Option.some.injEq] at hP
      subst hP
      refine shrinks_get?_none (proto_resolvePlayers_shrinks rest _ _) ?_
      rcases proto_resolvePlayer_appliedTo name player a rng with
        ⟨_, h⟩ | ⟨hc, h⟩ | ⟨applied, inbox1, _, _, _, h⟩
      · rw [h]
        unfold Proto.deleteOwn
        rw [if_neg (by simpa using hown), Record.get?_erase]
        simp
      · rw [h]
        exact hc
      · exfalso
        have hfalse : (Proto.resolvePlayer name player a rng).2.1 = Proto.deleteOwn a name := by
          unfold Proto.resolvePlayer
          dsimp only
          rw [resetForResolution_effects, if_pos hprot]
        rw [hfalse] at h
        have hget : (Proto.deleteOwn a name).get? name = none := by
          unfold Proto.deleteOwn
          rw [if_neg (by simpa using hown), Record.get?_erase]
          simp
        rw [h, Record.get?_set_self] at hget
        cases hget
    · simp only [Record.get?, hn, if_false] at hP
      exact ih _ _ hP

/-- On the plain-object inverse map, a player `P` who declared protect and whose name is
not inherited from `Object.prototype` has, after a completed pass and whatever the
other players declared against it, an `applied` that holds protect, expose if `P`
declared expose and double if `P` declared double, and nothing else; `P.correct` is
what it was before the pass and the payout of `P` is its own confidence. -/
theorem protected_unless_inherited (rng : Rng) (players players1 : Record PlayerState)
    (P : String) (pP : PlayerState) (hP : players.get? P = some pP)
    (hprot : pP.effects.protect.isSome = true) (hown : P ∉ objectInherited)
    (h : Proto.applyEffects rng players = .ok players1) :
    ∃ p1, players1.get? P = some p1 ∧
      p1.applied = { protect := some "True",
                     expose := if pP.effects.expose.isSome then some "True" else none,
                     double := if pP.effects.double.isSome then some "True" else none } ∧
      p1.correct = pP.correct ∧ p1.payout = pP.confidence := by
  obtain ⟨st, st1, h1, h2, rfl⟩ := proto_applyEffects_ok h
  have hb := proto_beforeSteal_get?_protected rng hP hprot
  have hnone : (Proto.beforeSteal rng players).appliedTo.get? P = none :=
    proto_resolvePlayers_erased hprot hown players (Proto.collectApplied players) rng hP
  unfold Proto.afterSteal at h1
  have hst : st.appliedTo.get? P = none := shrinks_get?_none (stealLoop_shrinks h1) hnone
  have e1 := stealLoop_map_no_entry h1 (no_attack_of_get?_none hnone .steal)
    (fun p => (p.applied, p.correct, p.payout)) (fun _ _ => rfl)
  have e2 := swapLoop_map_no_entry h2 (no_attack_of_get?_none hst .swap)
    (fun p => (p.applied, p.correct, p.payout)) (fun _ _ => rfl) (fun _ _ => rfl)
  rw [get?_commitScores] at e2
  rw [hb] at e1
  cases hs : st.players.get? P with
  | none =>
    rw [hs] at e1
    cases e1
  | some ps =>
    rw [hs] at e1 e2
    cases h1p : st1.players.get? P with
    | none =>
      rw [h1p] at e2
      cases e2
    | some p1 =>
      rw [h1p] at e2
      simp only [Option.map_some', Option.some.injEq, Prod.mk.injEq] at e1 e2
      obtain ⟨a1, c1, y1⟩ := e1
      obtain ⟨a2, c2, y2⟩ := e2
      refine ⟨p1, rfl, ?_, ?_, ?_⟩
      · rw [a2, a1]
        unfold computeDelta
        rw [resetForResolution_eq]
        dsimp only
        split <;> rename_i hd <;> simp [hd]
      · rw [c2, c1, (computeDelta_fields _).2.1]
        exact (resetForResolution_fields pP).2.1
      · rw [y2, y1, (computeDelta_fields _).1]
        exact (resetForResolution_fields pP).1

end QuizGame
